import Mathlib

/-! # Verification of the cryptographic core of the UEP voting system

Shallow embedding of the Go package `crypto` (groups, Pedersen commitments, credential
polynomial and the three non-interactive proof systems) together with theorems about it.

Conventions of the embedding.

* A `*big.Int` that is an argument or a generator is an `Int`; a `*big.Int` stored in a proof
  transcript is an `Option Int`, `none` being the nil pointer.
* A function that can panic returns an `Option`; `none` is the panic. A `math/big` call that
  can return nil (`Exp`) also returns an `Option`: every caller dereferences the result at once.
* Go `int` lengths and indices are `Nat`.
* Random draws and the SHA-256 function are explicit arguments.
-/

namespace crypto

/-! ## math/big primitives -/

/-- The call `z.Mod(x, m)` of math/big: Euclidean modulus, a division-by-zero panic for `m = 0`. -/
def bigMod (x m : Int) : Option Int :=
  if m = 0 then none else some (x % m)

/-- The call `z.ModInverse(g, n)` of math/big: the inverse of `g` in the ring of integers modulo
`n`, taken in `[0, |n|)`; nil when `g` and `n` are not relatively prime. -/
def ModInverse (g n : Int) : Option Int :=
  ((List.range n.natAbs).find? (fun t => decide ((g * (t : Int)) % n = 1 % n))).map
    (fun t => (t : Int))

/-- The call `z.Exp(x, y, m)` of math/big: `x^y mod |m|` for `y ≥ 0` (and `x^y` when `m = 0`);
for `y < 0` it is `1` when `m = 0` and otherwise the `|y|`-th power of the modular inverse of
`x`, nil when there is no inverse. -/
def bigExp (x y m : Int) : Option Int :=
  if y < 0 then
    if m = 0 then some 1
    else (ModInverse x m).map (fun inv => inv ^ y.natAbs % m)
  else some (x ^ y.toNat % m)

/-! ## groups.go -/

/-- The ring of integers modulo a prime, `ZModPrime`. `ref` is the identity of the `big.Int`
object the `Modulus` pointer refers to (the source compares these pointers). -/
structure ZModPrime where
  Modulus : Int
  ref : Nat
deriving DecidableEq, Repr

/-- The prime-order subgroup `GStarModPrime`; `ModulusRef` and `OrderRef` are the identities of
the two `big.Int` objects. -/
structure GStarModPrime where
  Modulus : Int
  Order : Int
  ModulusRef : Nat
  OrderRef : Nat
deriving DecidableEq, Repr

/-- NewGStarModPrime. -/
def NewGStarModPrime (modulus order : Int) (modulusRef orderRef : Nat) : GStarModPrime :=
  { Modulus := modulus, Order := order, ModulusRef := modulusRef, OrderRef := orderRef }

/-- NewZModPrime. -/
def NewZModPrime (p : Int) (ref : Nat) : ZModPrime :=
  { Modulus := p, ref := ref }

/-- GStarModPrime.ZModOrder: the ring modulo the group order, sharing the order's pointer. -/
def GStarModPrime.ZModOrder (g : GStarModPrime) : ZModPrime :=
  NewZModPrime g.Order g.OrderRef

/-- GStarModPrime.Mul: `x * y mod Modulus`. -/
def GStarModPrime.Mul (g : GStarModPrime) (x y : Int) : Option Int :=
  bigMod (x * y) g.Modulus

/-- GStarModPrime.Exp: `base^exp mod Modulus`. -/
def GStarModPrime.Exp (g : GStarModPrime) (base exp : Int) : Option Int :=
  bigExp base exp g.Modulus

/-- GStarModPrime.Contains: `v.Sign() > 0 && v < Modulus && Exp(v, Order) == 1`, with the
short-circuit evaluation of `&&`; comparing a nil result of `Exp` panics. -/
def GStarModPrime.Contains (g : GStarModPrime) (v : Int) : Option Bool :=
  if 0 < v then
    if v < g.Modulus then
      (g.Exp v g.Order).map (fun e => decide (e = 1))
    else some false
  else some false

/-- ZModPrime.Contains. -/
def ZModPrime.Contains (g : ZModPrime) (n : Int) : Bool :=
  decide (0 ≤ n) && decide (n < g.Modulus)

/-- ZModPrime.Add: `x + y mod Modulus`. -/
def ZModPrime.Add (g : ZModPrime) (x y : Int) : Option Int :=
  bigMod (x + y) g.Modulus

/-- ZModPrime.Mul: `x * y mod Modulus`. -/
def ZModPrime.Mul (g : ZModPrime) (x y : Int) : Option Int :=
  bigMod (x * y) g.Modulus

/-- ZModPrime.AdditiveInvert: `(Modulus - i) mod Modulus`. -/
def ZModPrime.AdditiveInvert (g : ZModPrime) (i : Int) : Option Int :=
  bigMod (g.Modulus - i) g.Modulus

/-- ZModPrime.Exp: `base^exp mod Modulus`. -/
def ZModPrime.Exp (g : ZModPrime) (base exp : Int) : Option Int :=
  bigExp base exp g.Modulus

/-! ## commitmentscheme.go -/

/-- PedersenCommitmentScheme: host group, randomization generator and message generators. -/
structure PedersenCommitmentScheme where
  G : GStarModPrime
  Hr : Int
  Hm : List Int
deriving DecidableEq, Repr

/-- NewPedersenCommitmentScheme. -/
def NewPedersenCommitmentScheme (g : GStarModPrime) (hr : Int) (hm : List Int) :
    PedersenCommitmentScheme :=
  { G := g, Hr := hr, Hm := hm }

/-- The second loop of `Commit`: for the i-th message the range check is repeated, then
`product = Mul(product, Exp(Hm[i], msg))`. The generators and the messages are walked in step,
a missing generator being the index panic of `s.Hm[i]`. -/
def commitLoop (g : GStarModPrime) : List Int → List Int → Int → Option Int
  | _, [], product => some product
  | [], _ :: _, _ => none
  | h :: hs, msg :: msgs, product =>
    if msg > g.Order ∨ msg < 0 then none
    else do
      let t ← g.Exp h msg
      let product ← g.Mul product t
      commitLoop g hs msgs product

/-- PedersenCommitmentScheme.Commit. The three panics of the source come first: a wrong number
of messages, a message with `Cmp(Order) == 1` or negative, a randomness with `Cmp(Order) == 1`
or negative. -/
def PedersenCommitmentScheme.Commit (s : PedersenCommitmentScheme) (r : Int)
    (msgs : List Int) : Option Int :=
  if msgs.length ≠ s.Hm.length then none
  else if msgs.any (fun msg => decide (msg > s.G.Order) || decide (msg < 0)) then none
  else if r > s.G.Order ∨ r < 0 then none
  else do
    let product ← s.G.Exp s.Hr r
    commitLoop s.G s.Hm msgs product

end crypto

namespace crypto

/-! ## Random draws and the Fiat-Shamir challenge -/

/-- RandInt(exclMax): the source rejection-samples a uniform value with
`0 < i < exclMax`; the embedding reads the outcome of the k-th call from `rnd`. -/
def RandInt (rnd : Nat → Int → Int) (k : Nat) (exclMax : Int) : Int :=
  rnd k exclMax

/-- ZModPrime.RandomElement: `RandInt(g.Modulus)`, as the k-th draw. -/
def ZModPrime.RandomElement (g : ZModPrime) (rnd : Nat → Int → Int) (k : Nat) : Int :=
  RandInt rnd k g.Modulus

/-- Big-endian digits in base 256 of a natural number, most significant first; `fuel` bounds
the number of digits. -/
def natBytes : Nat → Nat → List Nat → List Nat
  | 0, _, acc => acc
  | fuel + 1, n, acc => if n = 0 then acc else natBytes fuel (n / 256) (n % 256 :: acc)

/-- The call `x.Bytes()` of math/big: the big-endian bytes of the absolute value of `x`, none
for zero. -/
def Bytes (x : Int) : List Nat :=
  natBytes x.natAbs x.natAbs []

/-- The call `z.SetBytes(buf)` of math/big: the bytes read as a big-endian unsigned integer. -/
def SetBytes (buf : List Nat) : Int :=
  ((buf.foldl (fun acc b => acc * 256 + b) 0 : Nat) : Int)

/-- The bytes `[]byte(vote)` of a Go string: its UTF-8 encoding. -/
def voteBytes (vote : String) : List Nat :=
  (vote.data.map (fun c => (String.utf8EncodeChar c).map UInt8.toNat)).flatten

/-- The body shared by the three `generateChallenge` methods: every element of every input
group is written to the hash as `elem.Bytes()`, then the vote; the digest is read with
`SetBytes` and reduced with `Mod` by the ring modulus. `sha256` is the hash function. -/
def hashToChallenge (sha256 : List Nat → List Nat) (inputs : List (List Int)) (vote : String)
    (modulus : Int) : Option Int :=
  bigMod (SetBytes (sha256 ((inputs.map (fun c => (c.map Bytes).flatten)).flatten ++ voteBytes vote)))
    modulus

/-- Dereferences every pointer of a slice of `*big.Int`; a nil entry is a panic. -/
def derefAll : List (Option Int) → Option (List Int)
  | [] => some []
  | x :: xs => do
    let v ← x
    let vs ← derefAll xs
    some (v :: vs)

/-- The element `arr[i]` of a slice of `*big.Int`, dereferenced: an index out of range and a
nil pointer both panic. -/
def getBig (arr : List (Option Int)) (i : Nat) : Option Int :=
  (arr[i]?).join

/-- The call `x.Bit(i)` of math/big: bit i of x (two's complement for a negative x). -/
def bigBit (x : Int) (i : Nat) : Int :=
  (x / 2 ^ i) % 2

/-! ## voter.go -/

/-- Voter: private credentials A and B, public credential U. -/
structure Voter where
  A : Int
  B : Int
  U : Int
deriving DecidableEq, Repr

/-- NewVoter. -/
def NewVoter (a b u : Int) : Voter :=
  { A := a, B := b, U := u }

/-! ## preimageequalityproofsystem.go -/

/-- PreimageEqualityProofSystem. -/
structure PreimageEqualityProofSystem where
  HHat : Int
  CommScheme : PedersenCommitmentScheme
  gStarModPr : GStarModPrime
  zModPr : ZModPrime
deriving DecidableEq, Repr

/-- NewPreimageEqualityProofSystem. -/
def NewPreimageEqualityProofSystem (hHat : Int) (commScheme : PedersenCommitmentScheme) :
    PreimageEqualityProofSystem :=
  { HHat := hHat, CommScheme := commScheme, gStarModPr := commScheme.G,
    zModPr := commScheme.G.ZModOrder }

/-- PreimageEqualityProof: the transcript; every field is a `*big.Int`. -/
structure PreimageEqualityProof where
  Comm : Option Int
  CommHHat : Option Int
  RespA : Option Int
  RespB : Option Int
  RespS : Option Int
deriving DecidableEq, Repr

/-- PreimageEqualityProofSystem.generateChallenge: the inputs are `{commToAandB, uHat}` and the
commitments. -/
def PreimageEqualityProofSystem.generateChallenge (ps : PreimageEqualityProofSystem)
    (sha256 : List Nat → List Nat) (commToAandB uHat : Int) (commitments : List Int)
    (vote : String) : Option Int :=
  hashToChallenge sha256 [[commToAandB, uHat], commitments] vote ps.zModPr.Modulus

/-- PreimageEqualityProofSystem.Generate; the three random elements are the draws 0, 1, 2. -/
def PreimageEqualityProofSystem.Generate (ps : PreimageEqualityProofSystem)
    (sha256 : List Nat → List Nat) (rnd : Nat → Int → Int) (voter : Voter)
    (commToAandB commToAandBRand uHat : Int) (vote : String) : Option PreimageEqualityProof := do
  let ra := ps.zModPr.RandomElement rnd 0
  let rb := ps.zModPr.RandomElement rnd 1
  let rs := ps.zModPr.RandomElement rnd 2
  let comm1 ← ps.CommScheme.Commit rs [ra, rb]
  let comm2 ← ps.gStarModPr.Exp ps.HHat rb
  let ch ← ps.generateChallenge sha256 commToAandB uHat [comm1, comm2] vote
  let a := voter.A
  let b := voter.B
  let s := commToAandBRand
  let respA ← (ps.zModPr.Mul a ch).bind (ps.zModPr.Add ra)
  let respB ← (ps.zModPr.Mul b ch).bind (ps.zModPr.Add rb)
  let respS ← (ps.zModPr.Mul s ch).bind (ps.zModPr.Add rs)
  some { Comm := some comm1, CommHHat := some comm2, RespA := some respA, RespB := some respB,
         RespS := some respS }

/-- PreimageEqualityProofSystem.Verify. The final `&&` evaluates its second comparison only
when the first holds. -/
def PreimageEqualityProofSystem.Verify (ps : PreimageEqualityProofSystem)
    (sha256 : List Nat → List Nat) (proof : PreimageEqualityProof) (commToAandB uHat : Int)
    (vote : String) : Option Bool := do
  let comm ← proof.Comm
  let commHHat ← proof.CommHHat
  let ch ← ps.generateChallenge sha256 commToAandB uHat [comm, commHHat] vote
  let respA ← proof.RespA
  let respB ← proof.RespB
  let respS ← proof.RespS
  let res10 ← ps.CommScheme.Commit respS [respA, respB]
  let res11 := ps.gStarModPr.Exp ps.HHat respB
  let res20 ← (ps.gStarModPr.Exp commToAandB ch).bind (ps.gStarModPr.Mul comm)
  let res21 ← (ps.gStarModPr.Exp uHat ch).bind (ps.gStarModPr.Mul commHHat)
  if res10 = res20 then
    res11.map (fun r => decide (r = res21))
  else some false

end crypto

namespace crypto

/-! ## ddlogproofsystem.go -/

/-- DoubleDiscreteLogProofSystem; the security parameter is a non-negative Go `int`. -/
structure DoubleDiscreteLogProofSystem where
  CommSchemeInGp : PedersenCommitmentScheme
  CommSchemeInGq : PedersenCommitmentScheme
  SecurityParam : Nat
  zp : ZModPrime
  zq : ZModPrime
  gp : GStarModPrime
  gq : GStarModPrime
deriving DecidableEq, Repr

/-- NewDoubleDiscreteLogProofSystem: panics unless `GCD(p - 1, q) == q` and `p > 2^k`. The
greatest common divisor is the one math/big computes for positive arguments. -/
def NewDoubleDiscreteLogProofSystem (commSchemeInGp commSchemeInGq : PedersenCommitmentScheme)
    (securityParam : Nat) : Option DoubleDiscreteLogProofSystem :=
  let p := commSchemeInGp.G.Order
  let q := commSchemeInGq.G.Order
  if ((Int.gcd (p - 1) q : Nat) : Int) ≠ q then none
  else if p ≤ 2 ^ securityParam then none
  else some
    { CommSchemeInGp := commSchemeInGp, CommSchemeInGq := commSchemeInGq,
      SecurityParam := securityParam, zp := commSchemeInGp.G.ZModOrder,
      zq := commSchemeInGq.G.ZModOrder, gp := commSchemeInGp.G, gq := commSchemeInGq.G }

/-- DdLogProof: the transcript. `ZMArr` is a slice of slices of `*big.Int`. -/
structure DdLogProof where
  T : Option Int
  T1Arr : List (Option Int)
  T2Arr : List (Option Int)
  ZX : Option Int
  ZR : Option Int
  ZMArr : List (List (Option Int))
  ZSArr : List (Option Int)
  ZRArr : List (Option Int)
deriving DecidableEq, Repr

/-- The loop `hProduct := 1; for j < len(Hm) { hProduct = gq.Mul(hProduct, gq.Exp(Hm[j],
row[j])) }` that occurs three times in the source; the generators and the row are walked in
step, a row that is too short being the index panic of `row[j]`. -/
def hProductLoop (g : GStarModPrime) : List Int → List (Option Int) → Int → Option Int
  | [], _, hProduct => some hProduct
  | _ :: _, [], _ => none
  | h :: hs, e :: es, hProduct => do
    let e ← e
    let hExp ← g.Exp h e
    let hProduct ← g.Mul hProduct hExp
    hProductLoop g hs es hProduct

/-- DoubleDiscreteLogProofSystem.generateChallenge: the inputs are `{commToU, commToAandB, t}`,
`t1Arr` and `t2Arr`. -/
def DoubleDiscreteLogProofSystem.generateChallenge (ps : DoubleDiscreteLogProofSystem)
    (sha256 : List Nat → List Nat) (commToU commToAandB t : Int) (t1Arr t2Arr : List Int)
    (vote : String) : Option Int :=
  hashToChallenge sha256 [[commToU, commToAandB, t], t1Arr, t2Arr] vote ps.zp.Modulus

/-- The values one iteration of the commitment loop of `Generate` leaves in
`rhoSArr[i]`, `rhoRArr[i]`, `rhoMArr[i]`, `t1Arr[i]` and `t2Arr[i]`. -/
structure DdLogRound where
  rhoS : Int
  rhoR : Int
  rhoM : List Int
  t1 : Int
  t2 : Int
deriving DecidableEq, Repr

/-- The values one iteration of the response loop of `Generate` leaves in `zMArr[i]`,
`zSArr[i]` and `zRArr[i]`. -/
structure DdLogResp where
  zM : List Int
  zS : Int
  zR : Int
deriving DecidableEq, Repr

/-- Iteration i of the commitment loop of `Generate`. With n message generators in the G_q
scheme the iteration makes the draws `2 + i*(2+n)` (rhoS), the next one (rhoR) and then one
per message generator (rhoM), the first two draws of `Generate` being rhoX and rhoR. -/
def DoubleDiscreteLogProofSystem.commitRound (ps : DoubleDiscreteLogProofSystem)
    (rnd : Nat → Int → Int) (i : Nat) : Option DdLogRound := do
  let n := ps.CommSchemeInGq.Hm.length
  let base := 2 + i * (2 + n)
  let rhoS := ps.zq.RandomElement rnd base
  let rhoR := ps.zp.RandomElement rnd (base + 1)
  let rhoM := (List.range n).map (fun j => ps.zq.RandomElement rnd (base + 2 + j))
  let hProduct ← hProductLoop ps.gq ps.CommSchemeInGq.Hm (rhoM.map some) 1
  let t1 ← ps.CommSchemeInGp.Commit rhoR [hProduct]
  let t2 ← ps.CommSchemeInGq.Commit rhoS rhoM
  some { rhoS := rhoS, rhoR := rhoR, rhoM := rhoM, t1 := t1, t2 := t2 }

/-- Iteration i of the response loop of `Generate`; `m = {voter.A, voter.B}` has two entries,
so the inner loop over `j < len(m)` is written out for j = 0 and j = 1. -/
def DoubleDiscreteLogProofSystem.respRound (ps : DoubleDiscreteLogProofSystem) (voter : Voter)
    (r s ch : Int) (rounds : List DdLogRound) (i : Nat) : Option DdLogResp := do
  let bit := bigBit ch i
  let round ← rounds[i]?
  let rhoM0 ← round.rhoM[0]?
  let zM0 ← ((ps.zq.Mul voter.A bit).bind ps.zq.AdditiveInvert).bind (ps.zq.Add rhoM0)
  let rhoM1 ← round.rhoM[1]?
  let zM1 ← ((ps.zq.Mul voter.B bit).bind ps.zq.AdditiveInvert).bind (ps.zq.Add rhoM1)
  let zMi := [zM0, zM1]
  let zS ← ((ps.zq.Mul s bit).bind ps.zq.AdditiveInvert).bind (ps.zq.Add round.rhoS)
  let hProduct ← hProductLoop ps.gq ps.CommSchemeInGq.Hm (zMi.map some) 1
  let zR ← (((ps.zp.Mul bit hProduct).bind (fun x => ps.zp.Mul x r)).bind
    ps.zp.AdditiveInvert).bind (ps.zp.Add round.rhoR)
  some { zM := zMi, zS := zS, zR := zR }

/-- DoubleDiscreteLogProofSystem.Generate. -/
def DoubleDiscreteLogProofSystem.Generate (ps : DoubleDiscreteLogProofSystem)
    (sha256 : List Nat → List Nat) (rnd : Nat → Int → Int) (voter : Voter)
    (commToU commToURand commToAandB commToAandBRand : Int) (vote : String) :
    Option DdLogProof := do
  let rhoX := ps.zp.RandomElement rnd 0
  let rhoR := ps.zp.RandomElement rnd 1
  let t ← ps.CommSchemeInGp.Commit rhoR [rhoX]
  let rounds ← (List.range ps.SecurityParam).mapM (ps.commitRound rnd)
  let t1Arr := rounds.map (fun x => x.t1)
  let t2Arr := rounds.map (fun x => x.t2)
  let ch ← ps.generateChallenge sha256 commToU commToAandB t t1Arr t2Arr vote
  let x := voter.U
  let r := commToURand
  let s := commToAandBRand
  let zX ← ((ps.zp.Mul x ch).bind ps.zp.AdditiveInvert).bind (ps.zp.Add rhoX)
  let zR ← ((ps.zp.Mul r ch).bind ps.zp.AdditiveInvert).bind (ps.zp.Add rhoR)
  let resps ← (List.range ps.SecurityParam).mapM (ps.respRound voter r s ch rounds)
  some { T := some t, T1Arr := t1Arr.map some, T2Arr := t2Arr.map some, ZX := some zX,
         ZR := some zR, ZMArr := resps.map (fun x => x.zM.map some),
         ZSArr := resps.map (fun x => some x.zS), ZRArr := resps.map (fun x => some x.zR) }

/-- Iteration i of the loop of `Verify`, from the current value of `v` to the next. The
commitment `comm` and the product `hProduct` are computed whatever `v` is; the operands of
`v && ...` are evaluated only when `v` is true; in the branch for a set bit `temp` is computed
before the conjunction. -/
def DoubleDiscreteLogProofSystem.verifyRound (ps : DoubleDiscreteLogProofSystem)
    (proof : DdLogProof) (commToU commToAandB ch : Int) (v : Bool) (i : Nat) : Option Bool := do
  let bit := bigBit ch i
  let zS ← getBig proof.ZSArr i
  let row ← proof.ZMArr[i]?
  let msgs ← derefAll row
  let comm ← ps.CommSchemeInGq.Commit zS msgs
  let v ← if v then do
      let t2 ← getBig proof.T2Arr i
      let rhs ← (ps.gq.Exp commToAandB bit).bind (fun e => ps.gq.Mul e comm)
      some (decide (t2 = rhs))
    else some false
  let hProduct ← hProductLoop ps.gq ps.CommSchemeInGq.Hm row 1
  if bit = 0 then
    if v then do
      let t1 ← getBig proof.T1Arr i
      let zR ← getBig proof.ZRArr i
      let c ← ps.CommSchemeInGp.Commit zR [hProduct]
      some (decide (t1 = c))
    else some false
  else do
    let g := ps.CommSchemeInGp.Hr
    let zR ← getBig proof.ZRArr i
    let temp ← (ps.gp.Exp commToU hProduct).bind
      (fun x => (ps.gp.Exp g zR).bind (fun y => ps.gp.Mul x y))
    if v then do
      let t1 ← getBig proof.T1Arr i
      some (decide (t1 = temp))
    else some false

/-- DoubleDiscreteLogProofSystem.Verify. `generateChallenge` dereferences `T` and every entry
of `T1Arr` and `T2Arr`. -/
def DoubleDiscreteLogProofSystem.Verify (ps : DoubleDiscreteLogProofSystem)
    (sha256 : List Nat → List Nat) (proof : DdLogProof) (commToU commToAandB : Int)
    (vote : String) : Option Bool := do
  let t ← proof.T
  let t1 ← derefAll proof.T1Arr
  let t2 ← derefAll proof.T2Arr
  let ch ← ps.generateChallenge sha256 commToU commToAandB t t1 t2 vote
  let zR ← proof.ZR
  let zX ← proof.ZX
  let comm ← ps.CommSchemeInGp.Commit zR [zX]
  let rhs ← (ps.gp.Exp commToU ch).bind (fun e => ps.gp.Mul e comm)
  let v := decide (t = rhs)
  (List.range ps.SecurityParam).foldlM
    (fun v i => ps.verifyRound proof commToU commToAandB ch v i) v

end crypto

namespace crypto

/-! ## Closed forms used in the proofs about the double-discrete-log proof system -/

/-- The proof system `NewDoubleDiscreteLogProofSystem` returns for a G_p scheme with group
(o, p), generators gr and gm, and a G_q scheme with group (p, q), generators hr, h1 and h2
(auxiliary, used in proofs). -/
def ddSystem (o p q gr gm hr h1 h2 : Int) (r1 r2 r3 r4 k : Nat) :
    DoubleDiscreteLogProofSystem :=
  { CommSchemeInGp := ⟨⟨o, p, r1, r2⟩, gr, [gm]⟩,
    CommSchemeInGq := ⟨⟨p, q, r3, r4⟩, hr, [h1, h2]⟩,
    SecurityParam := k,
    zp := ⟨p, r2⟩, zq := ⟨q, r4⟩, gp := ⟨o, p, r1, r2⟩, gq := ⟨p, q, r3, r4⟩ }

/-- What iteration i of the commitment loop computes for `ddSystem` (auxiliary). -/
def ddRound (o p q gr gm hr h1 h2 : Int) (rnd : Nat → Int → Int) (i : Nat) : DdLogRound :=
  { rhoS := rnd (2 + i * 4) q,
    rhoR := rnd (2 + i * 4 + 1) p,
    rhoM := [rnd (2 + i * 4 + 2) q, rnd (2 + i * 4 + 3) q],
    t1 := (gr ^ (rnd (2 + i * 4 + 1) p).toNat *
        (gm ^ ((1 * (h1 ^ (rnd (2 + i * 4 + 2) q).toNat *
          (h2 ^ (rnd (2 + i * 4 + 3) q).toNat * 1))) % p).toNat * 1)) % o,
    t2 := (hr ^ (rnd (2 + i * 4) q).toNat * (h1 ^ (rnd (2 + i * 4 + 2) q).toNat *
        (h2 ^ (rnd (2 + i * 4 + 3) q).toNat * 1))) % p }

/-- The response `(rho + (m - (x * c mod m)) mod m) mod m` of the source (auxiliary). -/
def respSub (m rho x c : Int) : Int :=
  (rho + (m - x * c % m) % m) % m

/-- What iteration i of the response loop computes for `ddSystem` (auxiliary). -/
def ddResp (p q h1 h2 a b r s ch : Int) (rnd : Nat → Int → Int) (i : Nat) : DdLogResp :=
  { zM := [respSub q (rnd (2 + i * 4 + 2) q) a (bigBit ch i),
           respSub q (rnd (2 + i * 4 + 3) q) b (bigBit ch i)],
    zS := respSub q (rnd (2 + i * 4) q) s (bigBit ch i),
    zR := respSub p (rnd (2 + i * 4 + 1) p)
      (bigBit ch i * ((1 * (h1 ^ (respSub q (rnd (2 + i * 4 + 2) q) a (bigBit ch i)).toNat *
        (h2 ^ (respSub q (rnd (2 + i * 4 + 3) q) b (bigBit ch i)).toNat * 1))) % p) % p) r }

end crypto

namespace crypto

/-- The commitment t of `Generate` for `ddSystem` (auxiliary). -/
def ddT (o p gr gm : Int) (rnd : Nat → Int → Int) : Int :=
  (gr ^ (rnd 1 p).toNat * (gm ^ (rnd 0 p).toNat * 1)) % o

/-- The challenge `Generate` derives for `ddSystem` (auxiliary). -/
def ddCh (o p q gr gm hr h1 h2 : Int) (k : Nat) (c d : Int) (sha256 : List Nat → List Nat)
    (rnd : Nat → Int → Int) (vote : String) : Int :=
  SetBytes (sha256 (([[c, d, ddT o p gr gm rnd],
      ((List.range k).map (ddRound o p q gr gm hr h1 h2 rnd)).map (fun x => x.t1),
      ((List.range k).map (ddRound o p q gr gm hr h1 h2 rnd)).map (fun x => x.t2)].map
        (fun c => (c.map Bytes).flatten)).flatten ++ voteBytes vote)) % p

/-- The transcript `Generate` returns for `ddSystem` (auxiliary). -/
def ddProof (o p q gr gm hr h1 h2 : Int) (k : Nat) (a b u rc rd c d : Int)
    (sha256 : List Nat → List Nat) (rnd : Nat → Int → Int) (vote : String) : DdLogProof :=
  { T := some (ddT o p gr gm rnd),
    T1Arr := (((List.range k).map (ddRound o p q gr gm hr h1 h2 rnd)).map (fun x => x.t1)).map
      some,
    T2Arr := (((List.range k).map (ddRound o p q gr gm hr h1 h2 rnd)).map (fun x => x.t2)).map
      some,
    ZX := some (respSub p (rnd 0 p) u (ddCh o p q gr gm hr h1 h2 k c d sha256 rnd vote)),
    ZR := some (respSub p (rnd 1 p) rc (ddCh o p q gr gm hr h1 h2 k c d sha256 rnd vote)),
    ZMArr := ((List.range k).map (ddResp p q h1 h2 a b rc rd
      (ddCh o p q gr gm hr h1 h2 k c d sha256 rnd vote) rnd)).map (fun x => x.zM.map some),
    ZSArr := ((List.range k).map (ddResp p q h1 h2 a b rc rd
      (ddCh o p q gr gm hr h1 h2 k c d sha256 rnd vote) rnd)).map (fun x => some x.zS),
    ZRArr := ((List.range k).map (ddResp p q h1 h2 a b rc rd
      (ddCh o p q gr gm hr h1 h2 k c d sha256 rnd vote) rnd)).map (fun x => some x.zR) }

end crypto

namespace crypto

/-! ## polynomial.go -/

/-- Polynomial: coefficients in ascending order of degree and the ring. -/
structure Polynomial where
  Coeffs : List Int
  ZModPr : ZModPrime
deriving DecidableEq, Repr

/-- NewPolynomial. -/
def NewPolynomial (coeffs : List Int) (zModPr : ZModPrime) : Polynomial :=
  { Coeffs := coeffs, ZModPr := zModPr }

/-- The loop of `trim`, entered with `i + 1 = n`: the first index from the top with a non-zero
coefficient ends the slice; when there is none the slice `coeffs[0:1]` is returned. -/
def trimLoop (coeffs : List Int) : Nat → List Int
  | 0 => coeffs.take 1
  | i + 1 => if coeffs.getD i 0 ≠ 0 then coeffs.take (i + 1) else trimLoop coeffs i

/-- The function `trim`. On an empty slice the final `coeffs[0:1]` is out of range: a panic. -/
def trim (coeffs : List Int) : Option (List Int) :=
  if coeffs = [] then none else some (trimLoop coeffs coeffs.length)

/-- Polynomial.Trim. -/
def Polynomial.Trim (p : Polynomial) : Option Polynomial :=
  (trim p.Coeffs).map (fun c => NewPolynomial c p.ZModPr)

/-- Polynomial.Degree: `len(trim(p.Coeffs)) - 1`. -/
def Polynomial.Degree (p : Polynomial) : Option Nat :=
  (trim p.Coeffs).map (fun c => c.length - 1)

/-- Coefficient i of `Polynomial.Add`: `currCoeff = 0`, then `currCoeff = Add(currCoeff,
p.Coeffs[i])` when `i < len(p.Coeffs)` and `currCoeff = Add(currCoeff, other.Coeffs[i])` when
`i < len(other.Coeffs)`. -/
def addCoeff (zm : ZModPrime) (pc oc : Option Int) : Option Int :=
  (match pc with
    | some c => zm.Add 0 c
    | none => some 0).bind (fun currCoeff =>
      match oc with
      | some c => zm.Add currCoeff c
      | none => some currCoeff)

/-- Polynomial.Add. The guard compares the two modulus pointers. -/
def Polynomial.Add (p other : Polynomial) : Option Polynomial :=
  if p.ZModPr.ref ≠ other.ZModPr.ref then none
  else
    ((List.range (max p.Coeffs.length other.Coeffs.length)).mapM
      (fun i => addCoeff p.ZModPr p.Coeffs[i]? other.Coeffs[i]?)).bind
      (fun newCoeffs => some (NewPolynomial newCoeffs p.ZModPr))

/-- Polynomial.MulScalar: every coefficient times the scalar, then `trim`. -/
def Polynomial.MulScalar (p : Polynomial) (scalar : Int) : Option Polynomial := do
  let newCoeffs ← p.Coeffs.mapM (fun coefficient => p.ZModPr.Mul coefficient scalar)
  let t ← trim newCoeffs
  some (NewPolynomial t p.ZModPr)

/-- The body of the inner loop of `Mul` for the index `idx = i + j`: `tmp := Mul(thisCoeff,
otherCoeff)`, a nil entry `newCoeffs[idx]` is replaced by 0, then
`newCoeffs[idx] = Add(newCoeffs[idx], tmp)`. An index past the end of `newCoeffs` panics. -/
def mulStep (zm : ZModPrime) (idx : Nat) (thisCoeff otherCoeff : Int)
    (newCoeffs : List (Option Int)) : Option (List (Option Int)) := do
  let tmp ← zm.Mul thisCoeff otherCoeff
  let cur ← newCoeffs[idx]?
  let sum ← zm.Add (cur.getD 0) tmp
  some (newCoeffs.set idx (some sum))

/-- The inner loop of `Mul` over the coefficients of `other`, from index j on. -/
def mulInner (zm : ZModPrime) (i : Nat) (thisCoeff : Int) :
    List Int → Nat → List (Option Int) → Option (List (Option Int))
  | [], _, newCoeffs => some newCoeffs
  | otherCoeff :: rest, j, newCoeffs => do
    let newCoeffs ← mulStep zm (i + j) thisCoeff otherCoeff newCoeffs
    mulInner zm i thisCoeff rest (j + 1) newCoeffs

/-- The outer loop of `Mul` over the coefficients of `p`, from index i on. -/
def mulOuter (zm : ZModPrime) (otherCoeffs : List Int) :
    List Int → Nat → List (Option Int) → Option (List (Option Int))
  | [], _, newCoeffs => some newCoeffs
  | thisCoeff :: rest, i, newCoeffs => do
    let newCoeffs ← mulInner zm i thisCoeff otherCoeffs 0 newCoeffs
    mulOuter zm otherCoeffs rest (i + 1) newCoeffs

/-- Polynomial.Mul. `newCoeffs` has `Degree(p) + Degree(other) + 1` entries, all nil at first;
the loops run over the stored coefficient slices. The result is read with `derefAll`: whenever
the loops end without a panic every entry has been written. -/
def Polynomial.Mul (p other : Polynomial) : Option Polynomial :=
  if p.ZModPr.ref ≠ other.ZModPr.ref then none
  else do
    let dp ← p.Degree
    let dq ← other.Degree
    let newDegree := dp + dq
    let newCoeffs ← mulOuter p.ZModPr other.Coeffs p.Coeffs 0 (List.replicate (newDegree + 1) none)
    let coeffs ← derefAll newCoeffs
    some (NewPolynomial coeffs p.ZModPr)

/-- Polynomial.IncludeCredential: the product with `(X - u)`. -/
def Polynomial.IncludeCredential (p : Polynomial) (u : Int) : Option Polynomial := do
  let c0 ← p.ZModPr.AdditiveInvert u
  p.Mul (NewPolynomial [c0, 1] p.ZModPr)

/-- Modelled from the spec: the value of a coefficient list at x, the sum of `a_k * x^k` (the
source has no evaluation function); `evalFrom x k` starts at the exponent k. -/
def evalFrom (x : Int) : Nat → List Int → Int
  | _, [] => 0
  | k, a :: rest => a * x ^ k + evalFrom x (k + 1) rest

/-- Modelled from the spec: the evaluation `Phi(x)` of a coefficient list, the sum of
`a_k * x^k`. -/
def evalAt (coeffs : List Int) (x : Int) : Int :=
  evalFrom x 0 coeffs

end crypto

namespace crypto

/-! ## polyevalproofsystem.go -/

/-- PolynomialEvaluationProofSystem. The field d is a non-negative Go `int`. -/
structure PolynomialEvaluationProofSystem where
  CommScheme : PedersenCommitmentScheme
  Polynomial : Polynomial
  gStarModPr : GStarModPrime
  zModPr : ZModPrime
  d : Nat
deriving DecidableEq, Repr

/-- PolyEvalProof: the transcript. -/
structure PolyEvalProof where
  CArr : List (Option Int)
  CfArr : List (Option Int)
  CdArr : List (Option Int)
  CfuArr : List (Option Int)
  FBarArr : List (Option Int)
  RBarArr : List (Option Int)
  TBar : Option Int
  XiBarArr : List (Option Int)
deriving DecidableEq, Repr

/-- NewPolynomialEvaluationProofSystem. The source sets
`d = int(math.Floor(math.Log(float64(D)) / math.Log(2)))` for the degree D of the polynomial,
documented there as `floor(log(D))`; the embedding takes the exact `floor(log2 D)` for
`D ≥ 1`. For `D = 0` the source constructor also returns a system: the float64 expression
is the conversion of minus infinity to `int`, an implementation-specific value (the least
int64 on amd64 and arm64), with which `Generate` panics in `make` and `Verify` does not return
(`calcDeltaBarTreelike` starts below level 0). The field d being a natural number here, the
embedding has no such system and returns `none` at construction, as it does when `Degree`
panics: `none` stands for a system on which neither `Generate` nor `Verify` returns. -/
def NewPolynomialEvaluationProofSystem (commScheme : PedersenCommitmentScheme)
    (poly : Polynomial) : Option PolynomialEvaluationProofSystem :=
  (poly.Degree).bind (fun deg =>
    if deg = 0 then none
    else some
      { CommScheme := commScheme, Polynomial := poly, gStarModPr := commScheme.G,
        zModPr := commScheme.G.ZModOrder, d := Nat.log2 deg })

/-- The package variable `commToVRandomness`. -/
def commToVRandomness : Int := 0

/-- The package variable `commToV`. -/
def commToV : Int := 1

/-- PolynomialEvaluationProofSystem.generateChallenge. -/
def PolynomialEvaluationProofSystem.generateChallenge (ps : PolynomialEvaluationProofSystem)
    (sha256 : List Nat → List Nat) (vote : String) (inputs : List (List Int)) : Option Int :=
  hashToChallenge sha256 inputs vote ps.zModPr.Modulus

/-- The slice `uArr` of `Generate`, from the entry `u` on with n further entries: each entry
is `Mul` of the previous one with itself. -/
def uArrFrom (zm : ZModPrime) : Nat → Int → Option (List Int)
  | 0, u => some [u]
  | n + 1, u => do
    let u2 ← zm.Mul u u
    let rest ← uArrFrom zm n u2
    some (u :: rest)

/-- PolynomialEvaluationProofSystem.calcDeltaPolynomial. `xFactorPoly` is the package variable
that `calcDeltas` sets before the call. The argument `result` is `none` for the zero value
`Polynomial{}` that `calcDeltas` passes first: its modulus pointer is nil, so `Add` on it
panics on the pointer comparison. -/
def PolynomialEvaluationProofSystem.calcDeltaPolynomial (ps : PolynomialEvaluationProofSystem)
    (xFactorPoly : crypto.Polynomial) :
    Nat → Nat → crypto.Polynomial → List Int → List Int → Option crypto.Polynomial →
      Option crypto.Polynomial
  | 0, deg, currPoly, _, _, result => do
    let result := if deg = 0 then some currPoly else result
    let coeff ← ps.Polynomial.Coeffs[deg]?
    let term ← currPoly.MulScalar coeff
    let result ← result
    result.Add term
  | lvl + 1, deg, currPoly, uArr, fArr, result => do
    let right ← currPoly.Mul xFactorPoly
    let result ← ps.calcDeltaPolynomial xFactorPoly lvl deg right uArr fArr result
    let nextDeg := deg + 2 ^ lvl
    let degree ← ps.Polynomial.Degree
    if nextDeg ≤ degree then do
      let f ← fArr[lvl]?
      let u ← uArr[lvl]?
      let xuFactorPoly := NewPolynomial [f, u] ps.Polynomial.ZModPr
      let left ← currPoly.Mul xuFactorPoly
      ps.calcDeltaPolynomial xFactorPoly lvl nextDeg left uArr fArr (some result)
    else some result

/-- PolynomialEvaluationProofSystem.calcDeltas. -/
def PolynomialEvaluationProofSystem.calcDeltas (ps : PolynomialEvaluationProofSystem)
    (uArr fArr : List Int) : Option (List Int) := do
  let ring := ps.Polynomial.ZModPr
  let xFactorPoly := NewPolynomial [0, 1] ring
  let currPoly := NewPolynomial [1] ring
  let result ← ps.calcDeltaPolynomial xFactorPoly (ps.d + 1) 0 currPoly uArr fArr none
  some result.Coeffs

/-- PolynomialEvaluationProofSystem.calcDeltaBarTreelike. -/
def PolynomialEvaluationProofSystem.calcDeltaBarTreelike (ps : PolynomialEvaluationProofSystem) :
    Nat → Nat → Int → List (Option Int) → Int → Int → Option Int
  | 0, deg, value, _, _, result => do
    let coeff ← ps.Polynomial.Coeffs[deg]?
    let t ← ps.zModPr.Mul value coeff
    ps.zModPr.Add result t
  | lvl + 1, deg, value, fBarArr, ch, result => do
    let right ← ps.zModPr.Mul value ch
    let result ← ps.calcDeltaBarTreelike lvl deg right fBarArr ch result
    let nextDeg := deg + 2 ^ lvl
    let degree ← ps.Polynomial.Degree
    if nextDeg ≤ degree then do
      let fBar ← getBig fBarArr lvl
      let left ← ps.zModPr.Mul value fBar
      ps.calcDeltaBarTreelike lvl nextDeg left fBarArr ch result
    else some result

/-- PolynomialEvaluationProofSystem.calcDeltaBar. -/
def PolynomialEvaluationProofSystem.calcDeltaBar (ps : PolynomialEvaluationProofSystem)
    (fBarArr : List (Option Int)) (ch : Int) : Option Int :=
  ps.calcDeltaBarTreelike (ps.d + 1) 0 1 fBarArr ch 0

/-- The loop of `Generate` and `Verify` that walks `xi = ch^i`: from the pair
`(acc, xi)` the body gives the next pair. -/
def powerLoop (zm : ZModPrime) (ch : Int) (body : Int → Nat → Int → Option Int) :
    Nat → Nat → Int → Int → Option Int
  | 0, _, acc, _ => some acc
  | n + 1, i, acc, xi => do
    let acc ← body acc i xi
    let xi ← zm.Mul xi ch
    powerLoop zm ch body n (i + 1) acc xi

/-- The loop of `Generate` that fills `cArr` (then sliced to `cArr[1:]`): entry i is
`Commit(rArr[i+1], uArr[i+1])`. -/
def genCArr (ps : PolynomialEvaluationProofSystem) (rArr uArr : List Int) :
    Option (List Int) :=
  (List.range ps.d).mapM (fun i =>
    (rArr[i + 1]?).bind (fun ri => (uArr[i + 1]?).bind (fun ui =>
      ps.CommScheme.Commit ri [ui])))

/-- The loop of `Generate` that fills `cfArr`: entry i is `Commit(sArr[i], fArr[i])`. -/
def genCfArr (ps : PolynomialEvaluationProofSystem) (sArr fArr : List Int) :
    Option (List Int) :=
  (List.range (ps.d + 1)).mapM (fun i =>
    (sArr[i]?).bind (fun si => (fArr[i]?).bind (fun fi => ps.CommScheme.Commit si [fi])))

/-- The loop of `Generate` that fills `cdArr`: entry i is `Commit(tArr[i], dArr[i])`. -/
def genCdArr (ps : PolynomialEvaluationProofSystem) (tArr dArr : List Int) :
    Option (List Int) :=
  (List.range (ps.d + 1)).mapM (fun i =>
    (tArr[i]?).bind (fun ti => (dArr[i]?).bind (fun di => ps.CommScheme.Commit ti [di])))

/-- The loop of `Generate` that fills `cfuArr`: entry i is
`Commit(xiArr[i], Mul(fArr[i], uArr[i]))`. -/
def genCfuArr (ps : PolynomialEvaluationProofSystem) (xiArr fArr uArr : List Int) :
    Option (List Int) :=
  (List.range ps.d).mapM (fun i =>
    (xiArr[i]?).bind (fun xi => (fArr[i]?).bind (fun fi => (uArr[i]?).bind (fun ui =>
      (ps.zModPr.Mul fi ui).bind (fun fu => ps.CommScheme.Commit xi [fu])))))

/-- The loop of `Generate` for the responses 1 and 2, used for `fBarArr` (with `uArr`, `fArr`)
and for `rBarArr` (with `rArr`, `sArr`): entry i is `Add(Mul(xArr[i], ch), yArr[i])`. -/
def genBarArr (ps : PolynomialEvaluationProofSystem) (xArr yArr : List Int) (ch : Int) :
    Option (List Int) :=
  (List.range (ps.d + 1)).mapM (fun i =>
    (xArr[i]?).bind (fun xi => (yArr[i]?).bind (fun yi =>
      (ps.zModPr.Mul xi ch).bind (fun x => ps.zModPr.Add x yi))))

/-- Response 3 of `Generate`: `tBar = Mul(Exp(ch, d+1), commToVRandomness)`, `xi = Exp(ch, 0)`,
then for i from 0 to d `tBar = Add(tBar, Mul(tArr[i], xi))` and `xi = Mul(xi, ch)`. -/
def genTBar (ps : PolynomialEvaluationProofSystem) (tArr : List Int) (ch : Int) :
    Option Int :=
  ((ps.zModPr.Exp ch ((ps.d + 1 : Nat) : Int)).bind
      (fun x => ps.zModPr.Mul x commToVRandomness)).bind (fun tBar0 =>
    (ps.zModPr.Exp ch 0).bind (fun xi0 =>
      powerLoop ps.zModPr ch (fun tBar i xi =>
        (tArr[i]?).bind (fun ti => (ps.zModPr.Mul ti xi).bind (fun x => ps.zModPr.Add tBar x)))
        (ps.d + 1) 0 tBar0 xi0))

/-- Response 4 of `Generate`: entry i is
`Add(Add(Mul(rArr[i+1], ch), AdditiveInvert(Mul(fBarArr[i], rArr[i]))), xiArr[i])`. -/
def genXiBarArr (ps : PolynomialEvaluationProofSystem) (rArr fBarArr xiArr : List Int)
    (ch : Int) : Option (List Int) :=
  (List.range ps.d).mapM (fun i =>
    (rArr[i + 1]?).bind (fun r1 => (ps.zModPr.Mul r1 ch).bind (fun term1 =>
      (fBarArr[i]?).bind (fun fBar => (rArr[i]?).bind (fun ri =>
        ((ps.zModPr.Mul fBar ri).bind ps.zModPr.AdditiveInvert).bind (fun term2 =>
          (xiArr[i]?).bind (fun xi =>
            (ps.zModPr.Add term1 term2).bind (fun x => ps.zModPr.Add x xi))))))))

/-- PolynomialEvaluationProofSystem.Generate. The random elements are drawn in the order of
the source: `xiArr[i]` is draw i, and `rArr[i]`, `fArr[i]`, `sArr[i]`, `tArr[i]` are the draws
`d + 4i`, `d + 4i + 1`, `d + 4i + 2`, `d + 4i + 3`; then `rArr[0] = r`. The loops of the
source are the functions `genCArr` to `genXiBarArr` above. -/
def PolynomialEvaluationProofSystem.Generate (ps : PolynomialEvaluationProofSystem)
    (sha256 : List Nat → List Nat) (rnd : Nat → Int → Int) (u r commToU : Int)
    (vote : String) : Option PolyEvalProof :=
  let xiArr : List Int := (List.range ps.d).map (fun i => ps.zModPr.RandomElement rnd i)
  let rArr : List Int := (List.range (ps.d + 1)).map
    (fun i => if i = 0 then r else ps.zModPr.RandomElement rnd (ps.d + 4 * i))
  let fArr : List Int := (List.range (ps.d + 1)).map
    (fun i => ps.zModPr.RandomElement rnd (ps.d + 4 * i + 1))
  let sArr : List Int := (List.range (ps.d + 1)).map
    (fun i => ps.zModPr.RandomElement rnd (ps.d + 4 * i + 2))
  let tArr : List Int := (List.range (ps.d + 1)).map
    (fun i => ps.zModPr.RandomElement rnd (ps.d + 4 * i + 3))
  (uArrFrom ps.zModPr ps.d u).bind (fun uArr =>
  (genCArr ps rArr uArr).bind (fun cArr =>
  (genCfArr ps sArr fArr).bind (fun cfArr =>
  (ps.calcDeltas uArr fArr).bind (fun dArr =>
  (genCdArr ps tArr dArr).bind (fun cdArr =>
  (genCfuArr ps xiArr fArr uArr).bind (fun cfuArr =>
  (ps.generateChallenge sha256 vote [[commToU, commToV], cArr, cfArr, cdArr, cfuArr]).bind
    (fun ch =>
  (genBarArr ps uArr fArr ch).bind (fun fBarArr =>
  (genBarArr ps rArr sArr ch).bind (fun rBarArr =>
  (genTBar ps tArr ch).bind (fun tBar =>
  (genXiBarArr ps rArr fBarArr xiArr ch).bind (fun xiBarArr =>
    some { CArr := cArr.map some, CfArr := cfArr.map some, CdArr := cdArr.map some,
           CfuArr := cfuArr.map some, FBarArr := fBarArr.map some,
           RBarArr := rBarArr.map some, TBar := some tBar,
           XiBarArr := xiBarArr.map some })))))))))))

/-- The body of the first checking loop of `Verify` for the index i, run while `v` is true:
`Mul(cxArr[i], cfArr[i]) == Commit(rBarArr[i], fBarArr[i])`. -/
def verifyStep1 (ps : PolynomialEvaluationProofSystem) (proof : PolyEvalProof)
    (cxArr : List (Option Int)) (cfArr : List Int) (v : Bool) (i : Nat) : Option Bool :=
  if v then
    (getBig proof.RBarArr i).bind (fun rBar => (getBig proof.FBarArr i).bind (fun fBar =>
      (ps.CommScheme.Commit rBar [fBar]).bind (fun comm =>
        (getBig cxArr i).bind (fun cx => (cfArr[i]?).bind (fun cf =>
          (ps.gStarModPr.Mul cx cf).bind (fun lhs => some (decide (lhs = comm))))))))
  else some false

/-- The body of the second checking loop of `Verify` for the index i, run while `v` is true:
`Mul(Mul(cxArr[i+1], Exp(cArr[i], AdditiveInvert(fBarArr[i]))), cfuArr[i])
== Commit(xiBarArr[i], 0)`. -/
def verifyStep2 (ps : PolynomialEvaluationProofSystem) (proof : PolyEvalProof)
    (cArr : List Int) (cxArr : List (Option Int)) (cfuArr : List Int) (v : Bool) (i : Nat) :
    Option Bool :=
  if v then
    (getBig proof.XiBarArr i).bind (fun xiBar =>
      (ps.CommScheme.Commit xiBar [0]).bind (fun comm =>
        (cArr[i]?).bind (fun ci => (getBig proof.FBarArr i).bind (fun fBar =>
          ((ps.zModPr.AdditiveInvert fBar).bind (ps.gStarModPr.Exp ci)).bind (fun cExpF =>
            (getBig cxArr (i + 1)).bind (fun cx1 => (cfuArr[i]?).bind (fun cfu =>
              ((ps.gStarModPr.Mul cx1 cExpF).bind (fun x => ps.gStarModPr.Mul x cfu)).bind
                (fun lhs => some (decide (lhs = comm))))))))))
  else some false

/-- The product `left` of `Verify`: `left = Exp(commToV, Exp(ch, d+1))`, `xi = Exp(ch, 0)`,
then for i from 0 to d `left = Mul(left, Exp(cdArr[i], xi))` and `xi = Mul(xi, ch)`. -/
def verifyLeft (ps : PolynomialEvaluationProofSystem) (cdArr : List Int) (ch : Int) :
    Option Int :=
  ((ps.zModPr.Exp ch ((ps.d + 1 : Nat) : Int)).bind (ps.gStarModPr.Exp commToV)).bind
    (fun left0 => (ps.zModPr.Exp ch 0).bind (fun xi0 =>
      powerLoop ps.zModPr ch (fun left i xi =>
        (cdArr[i]?).bind (fun cd => (ps.gStarModPr.Exp cd xi).bind (ps.gStarModPr.Mul left)))
        (ps.d + 1) 0 left0 xi0))

/-- PolynomialEvaluationProofSystem.Verify. `generateChallenge` dereferences every entry of
the four commitment slices. The two checking loops (`verifyStep1`, `verifyStep2`) stop as soon
as `v` is false; the product `left` and `calcDeltaBar` are computed whatever `v` is; the last
conjunction evaluates its `Commit` only when `v` is still true. -/
def PolynomialEvaluationProofSystem.Verify (ps : PolynomialEvaluationProofSystem)
    (sha256 : List Nat → List Nat) (proof : PolyEvalProof) (commToU : Int) (vote : String) :
    Option Bool :=
  (derefAll proof.CArr).bind (fun cArr0 =>
  (derefAll proof.CfArr).bind (fun cfArr =>
  (derefAll proof.CdArr).bind (fun cdArr =>
  (derefAll proof.CfuArr).bind (fun cfuArr =>
  (ps.generateChallenge sha256 vote [[commToU, commToV], cArr0, cfArr, cdArr, cfuArr]).bind
    (fun ch =>
  let cArr : List Int := commToU :: cArr0
  let cxArr : List (Option Int) := cArr.map (fun c => ps.gStarModPr.Exp c ch)
  ((List.range (ps.d + 1)).foldlM (verifyStep1 ps proof cxArr cfArr) true).bind (fun v1 =>
  ((List.range ps.d).foldlM (verifyStep2 ps proof cArr cxArr cfuArr) v1).bind (fun v =>
  (verifyLeft ps cdArr ch).bind (fun left =>
  (ps.calcDeltaBar proof.FBarArr ch).bind (fun dBar =>
    if v then
      (proof.TBar).bind (fun tBar =>
        (ps.CommScheme.Commit tBar [dBar]).bind (fun c => some (decide (left = c))))
    else some false)))))))))

end crypto

namespace crypto

/-! ## Auxiliary functions on coefficient lists, used in proofs -/

/-- The coefficient at index k of a coefficient list, 0 past its end (auxiliary). -/
def coeffAt : List Int → Nat → Int
  | [], _ => 0
  | a :: _, 0 => a
  | _ :: rest, k + 1 => coeffAt rest k

/-- The coefficients of the product of a coefficient list with `b0 + b1 * X`, as the loops of
`Mul` leave them: `carry` is the value already stored at the current index (auxiliary). -/
def mulLin (m b0 b1 : Int) : Int → List Int → List Int
  | carry, [] => [carry]
  | carry, a :: rest => ((carry + a * b0 % m) % m) :: mulLin m b0 b1 ((0 + a * b1 % m) % m) rest

end crypto

namespace crypto

/-- The weighted sum of the entries of a coefficient list, entry k weighted by `w (off + k)`
(auxiliary; with `w k = x^k` it is the value at x, with the indicator of an index it is the
coefficient at that index). -/
def wsum (w : Nat → Int) : Nat → List Int → Int
  | _, [] => 0
  | off, c :: rest => c * w off + wsum w (off + 1) rest

/-- The weighted sum of the entries of the slice `newCoeffs` of `Mul`, a nil entry counting as
0 (auxiliary). -/
def wsumOpt (w : Nat → Int) : Nat → List (Option Int) → Int
  | _, [] => 0
  | off, c :: rest => c.getD 0 * w off + wsumOpt w (off + 1) rest

/-- The weighted sum of the products of a with the entries of a coefficient list (auxiliary):
what one pass of the inner loop of `Mul` adds. -/
def rowSum (w : Nat → Int) (a : Int) : Nat → List Int → Int
  | _, [] => 0
  | off, b :: rest => a * b * w off + rowSum w a (off + 1) rest

/-- The weighted sum of all products `a_i * b_j`, weighted by `w (off + i + j)` (auxiliary):
what the two loops of `Mul` add. -/
def allSum (w : Nat → Int) (bs : List Int) : Nat → List Int → Int
  | _, [] => 0
  | off, a :: rest => rowSum w a off bs + allSum w bs (off + 1) rest

/-- The indicator of the index K (auxiliary). -/
def indicator (K : Nat) : Nat → Int :=
  fun n => if n = K then 1 else 0

end crypto

namespace crypto

/-- The written part of the slice `newCoeffs` of `Mul` (auxiliary predicate): the first P
entries hold values reduced modulo m, the others are nil. -/
def Shape (m : Int) (s : List (Option Int)) (P : Nat) : Prop :=
  ∀ k, k < s.length →
    (k < P → ∃ v, s[k]? = some (some v) ∧ v % m = v) ∧ (P ≤ k → s[k]? = some none)

end crypto

namespace keeper

/-! ## pbb/internal/keeper/keeper.go: the credential polynomial of the bulletin board -/

/-- BulletinBoardKeeper.GetCredentialPolynomial: the polynomial under `polynomialKey` when the
store has the key, otherwise the initial polynomial, the constant 1 over the ring modulo the
order of G_p. `store` is the content of the polynomial store, `none` while nothing was written;
the stored bytes are the decimal texts of the coefficients and of the modulus, so decoding
gives back the values that were encoded. -/
def GetCredentialPolynomial (gP : crypto.GStarModPrime) (store : Option crypto.Polynomial) :
    crypto.Polynomial :=
  match store with
  | some poly => poly
  | none => crypto.NewPolynomial [1] gP.ZModOrder

/-- BulletinBoardKeeper.includeCredentialInPolynomial: reads the current polynomial, includes
the credential and writes the result; the value is the new content of the store. -/
def includeCredentialInPolynomial (gP : crypto.GStarModPrime) (store : Option crypto.Polynomial)
    (credential : Int) : Option (Option crypto.Polynomial) :=
  ((GetCredentialPolynomial gP store).IncludeCredential credential).map some

end keeper

namespace crypto

/-! ## groups.go: the supergroup, random elements and generators, election constants -/

/-- The call `z.Div(x, y)` of math/big: Euclidean division, a division-by-zero panic for
`y = 0`. -/
def bigDiv (x y : Int) : Option Int :=
  if y = 0 then none else some (x / y)

/-- The multiplicative group of integers modulo a prime, `ZStarModPrime`. -/
structure ZStarModPrime where
  Modulus : Int
deriving DecidableEq, Repr

/-- NewZStarModPrime. -/
def NewZStarModPrime (p : Int) : ZStarModPrime :=
  { Modulus := p }

/-- ZStarModPrime.Order: `Modulus - 1`. -/
def ZStarModPrime.Order (g : ZStarModPrime) : Int :=
  g.Modulus - 1

/-- RandIntInRange(min, exclMax): the source rejection-samples a uniform value with
`min ≤ i < exclMax`; the embedding reads the outcome of the k-th call from `rnd`. -/
def RandIntInRange (rnd : Nat → Int → Int) (k : Nat) (_min exclMax : Int) : Int :=
  rnd k exclMax

/-- ZStarModPrime.RandomElement: `RandIntInRange(1, g.Modulus)`, as the k-th draw. -/
def ZStarModPrime.RandomElement (g : ZStarModPrime) (rnd : Nat → Int → Int) (k : Nat) : Int :=
  RandIntInRange rnd k 1 g.Modulus

/-- GStarModPrime.ZStarModModulus: the group of integers modulo this group's modulus. -/
def GStarModPrime.ZStarModModulus (g : GStarModPrime) : ZStarModPrime :=
  NewZStarModPrime g.Modulus

/-- GStarModPrime.Cofactor: `(Modulus - 1) / Order`. -/
def GStarModPrime.Cofactor (g : GStarModPrime) : Option Int :=
  bigDiv g.ZStarModModulus.Order g.Order

/-- GStarModPrime.RandomElement: a random element of the supergroup (the k-th draw) raised to
the cofactor. -/
def GStarModPrime.RandomElement (g : GStarModPrime) (rnd : Nat → Int → Int) (k : Nat) :
    Option Int :=
  let rndElem := g.ZStarModModulus.RandomElement rnd k
  (g.Cofactor).bind (fun cofactor => bigExp rndElem cofactor g.Modulus)

/-- The loop `for generator.Cmp(one) == 0` of `RandomGenerator`, entered with the next draw
being the k-th. `generator.Exp(...)` leaves the receiver unchanged when it returns nil. `fuel`
bounds the number of iterations; `none` when it is used up with the generator still 1. -/
def randomGeneratorLoop (g : GStarModPrime) (cofactor : Int) (rnd : Nat → Int → Int) :
    Nat → Nat → Int → Option Int
  | 0, _, generator => if generator = 1 then none else some generator
  | fuel + 1, k, generator =>
    if generator = 1 then
      let rndElem := g.ZStarModModulus.RandomElement rnd k
      randomGeneratorLoop g cofactor rnd fuel (k + 1)
        ((bigExp rndElem cofactor g.Modulus).getD generator)
    else some generator

/-- GStarModPrime.RandomGenerator: the cofactor, then the loop from `generator = 1`; `none` is
the panic of `Cofactor` or the loop not ending within `fuel` iterations. -/
def GStarModPrime.RandomGenerator (g : GStarModPrime) (rnd : Nat → Int → Int) (fuel : Nat) :
    Option Int :=
  (g.Cofactor).bind (fun cofactor => randomGeneratorLoop g cofactor rnd fuel 0 1)

/-- The constant `SecurityParam`. -/
def SecurityParam : Nat := 80

/-- The constant `Q`, the order q of G_q (160 bit), as a number. -/
def Q : Int := 1081119563825030427708677600856959359670713108783

/-- The constant `P`, the order p of G_p and modulus of G_q (1024 bit), as a number. -/
def P : Int := 132981118064499312972124229719551507064282251442693318094413647002876359530119444044769383265695686373097209253015503887096288112369989708235068428214124661556800389180762828009952422599372290980806417384771730325122099441368051976156139223257233269955912341167062173607119895128870594055324929155200165347329

/-- The constant `O`, the modulus of G_p (1034 bit), as a number. -/
def O : Int := 130321495703209326712681745125160476922996606413839451732525374062818832339517055163873995600381772645635265067955193809354362350122589914070367059649842168325664381397147571449753374147384845161190289037076295718619657452540690936633016438792088604556794094343720930134977497226293182174218430572096162040382421

end crypto

namespace crypto

/-! ## int.go and the data transfer objects of the three proofs -/

/-- The type `Int` of int.go, a wrapper of a `*big.Int` (the name `Int` is taken by Lean's
integers). -/
structure AminoInt where
  i : Option Int
deriving DecidableEq, Repr

/-- NewInt. -/
def NewInt (i : Option Int) : AminoInt :=
  { i := i }

/-- Int.BigInt. -/
def AminoInt.BigInt (i : AminoInt) : Option Int :=
  i.i

/-- The loop `for i, v := range src { dst[i] = f(v) }`, from the index i on; an index past the
end of `dst` is the index panic. -/
def copyInto {α β : Type} (f : α → β) : List α → Nat → List β → Option (List β)
  | [], _, dst => some dst
  | v :: vs, i, dst =>
    if i < dst.length then copyInto f vs (i + 1) (dst.set i (f v)) else none

/-- The type polyEvalProofDTO. -/
structure polyEvalProofDTO where
  CArr : List AminoInt
  CfArr : List AminoInt
  CdArr : List AminoInt
  CfuArr : List AminoInt
  FBarArr : List AminoInt
  RBarArr : List AminoInt
  TBar : AminoInt
  XiBarArr : List AminoInt
deriving DecidableEq, Repr

/-- PolyEvalProof.wrapInDTO. Every slice of the DTO is made with the length of its source and
filled entry by entry, except `XiBarArr`, which is made with `len(p.RBarArr)` zero values
`Int{}` and then filled from `p.XiBarArr`. -/
def PolyEvalProof.wrapInDTO (p : PolyEvalProof) : Option polyEvalProofDTO :=
  (copyInto NewInt p.XiBarArr 0 (List.replicate p.RBarArr.length (NewInt none))).map
    (fun xiBarArr =>
      { CArr := p.CArr.map NewInt, CfArr := p.CfArr.map NewInt, CdArr := p.CdArr.map NewInt,
        CfuArr := p.CfuArr.map NewInt, FBarArr := p.FBarArr.map NewInt,
        RBarArr := p.RBarArr.map NewInt, TBar := NewInt p.TBar, XiBarArr := xiBarArr })

/-- PolyEvalProof.unwrapDTO: the proof the receiver holds after the call. `XiBarArr` is made
with `len(dto.RBarArr)` nil pointers and then filled from `dto.XiBarArr`. -/
def PolyEvalProof.unwrapDTO (dto : polyEvalProofDTO) : Option PolyEvalProof :=
  (copyInto AminoInt.BigInt dto.XiBarArr 0 (List.replicate dto.RBarArr.length none)).map
    (fun xiBarArr =>
      { CArr := dto.CArr.map AminoInt.BigInt, CfArr := dto.CfArr.map AminoInt.BigInt,
        CdArr := dto.CdArr.map AminoInt.BigInt, CfuArr := dto.CfuArr.map AminoInt.BigInt,
        FBarArr := dto.FBarArr.map AminoInt.BigInt, RBarArr := dto.RBarArr.map AminoInt.BigInt,
        TBar := dto.TBar.BigInt, XiBarArr := xiBarArr })

/-- The type ddLogProofDTO. -/
structure ddLogProofDTO where
  T : AminoInt
  T1Arr : List AminoInt
  T2Arr : List AminoInt
  ZX : AminoInt
  ZR : AminoInt
  ZMArr : List (List AminoInt)
  ZSArr : List AminoInt
  ZRArr : List AminoInt
deriving DecidableEq, Repr

/-- DdLogProof.wrapInDTO: every slice is made with the length of its source and filled entry
by entry. -/
def DdLogProof.wrapInDTO (p : DdLogProof) : ddLogProofDTO :=
  { T := NewInt p.T, T1Arr := p.T1Arr.map NewInt, T2Arr := p.T2Arr.map NewInt,
    ZX := NewInt p.ZX, ZR := NewInt p.ZR, ZMArr := p.ZMArr.map (fun arr => arr.map NewInt),
    ZSArr := p.ZSArr.map NewInt, ZRArr := p.ZRArr.map NewInt }

/-- DdLogProof.unwrapDTO: the proof the receiver holds after the call. -/
def DdLogProof.unwrapDTO (dto : ddLogProofDTO) : DdLogProof :=
  { T := dto.T.BigInt, T1Arr := dto.T1Arr.map AminoInt.BigInt,
    T2Arr := dto.T2Arr.map AminoInt.BigInt, ZX := dto.ZX.BigInt, ZR := dto.ZR.BigInt,
    ZMArr := dto.ZMArr.map (fun arr => arr.map AminoInt.BigInt),
    ZSArr := dto.ZSArr.map AminoInt.BigInt, ZRArr := dto.ZRArr.map AminoInt.BigInt }

/-- The type preimageEqualityProofDTO. -/
structure preimageEqualityProofDTO where
  Comm : AminoInt
  CommHHat : AminoInt
  RespA : AminoInt
  RespB : AminoInt
  RespS : AminoInt
deriving DecidableEq, Repr

/-- PreimageEqualityProof.wrapInDTO. -/
def PreimageEqualityProof.wrapInDTO (p : PreimageEqualityProof) : preimageEqualityProofDTO :=
  { Comm := NewInt p.Comm, CommHHat := NewInt p.CommHHat, RespA := NewInt p.RespA,
    RespB := NewInt p.RespB, RespS := NewInt p.RespS }

/-- PreimageEqualityProof.unwrapDTO: the proof the receiver holds after the call. -/
def PreimageEqualityProof.unwrapDTO (dto : preimageEqualityProofDTO) : PreimageEqualityProof :=
  { Comm := dto.Comm.BigInt, CommHHat := dto.CommHHat.BigInt, RespA := dto.RespA.BigInt,
    RespB := dto.RespB.BigInt, RespS := dto.RespS.BigInt }

end crypto

namespace crypto

/-! ## The sum behind calcDeltas and calcDeltaBar, used in proofs -/

/-- The sum that the recursion of `calcDeltaBarTreelike` adds to `result`, over the integers:
a leaf contributes `value` times the coefficient at `deg`; a node passes `value * cX` to the
branch that keeps `deg` and, when `deg + 2^lvl` is at most D, `value * cF[lvl]` to the branch
for `deg + 2^lvl`. -/
def deltaSum (coeffs : List Int) (D : Nat) (cX : Int) (cF : List Int) : Nat → Nat → Int → Int
  | 0, deg, value => value * coeffAt coeffs deg
  | lvl + 1, deg, value =>
    deltaSum coeffs D cX cF lvl deg (value * cX)
      + (if deg + 2 ^ lvl ≤ D then
          deltaSum coeffs D cX cF lvl (deg + 2 ^ lvl) (value * coeffAt cF lvl)
        else 0)

end crypto

namespace crypto

/-! ## Closed forms used in the proof of completeness of the polynomial-evaluation proof -/

/-- The value `hr^a * hm^b mod o` of a commitment to one message b with the randomness a. -/
def cmt (o gr gm a b : Int) : Int :=
  gr ^ a.toNat * gm ^ b.toNat % o

/-- The entries of the slice `uArr` of `Generate`: entry 0 is u and every further entry is the
square modulo p of the one before. -/
def uPow (p u : Int) : Nat → Int
  | 0 => u
  | i + 1 => uPow p u i * uPow p u i % p

end crypto


namespace crypto

/-! ## groups.go: the two further parameter sets -/

/-- The constant `Q1`, the order q of G_q of the second parameter set, as a number. -/
def Q1 : Int := 62419754450729612647565739452383276575857601899739936725159851334944150841968063259516646199602063446032019699733384807429406029957259175802747488347623169473252390835604139741777023566843030652585465424928737851640689453666654947197163915037792214904944077385094485372296355878304667660119111336076574627993

/-- The constant `P1`, the order p of G_p and modulus of G_q of the second parameter set, as a
number. -/
def P1 : Int := 124839508901459225295131478904766553151715203799479873450319702669888301683936126519033292399204126892064039399466769614858812059914518351605494976695246338946504781671208279483554047133686061305170930849857475703281378907333309894394327830075584429809888154770188970744592711756609335320238222672153149255987

/-- The constant `O1`, the modulus of G_p of the second parameter set, as a number. -/
def O1 : Int := 40448000884072788995622599165144363221155726031031478997903583665043809745595304992166786737342137113028748765427233355214255107412303945920180372449259813818667549261471482552671511271314283862875381595353822127863166765975992405783762216944489355258403762145541226521248038609141424643757184145777620358939789

/-- The constant `Q2`, the order q of G_q of the third parameter set, as a number. -/
def Q2 : Int := 16158503035655503650357438344334975980222051334857742016065172713762327569433945446598600705761456731844358980460949009747059779575245460547544076193224141560315438683650498045875098875194826053398028819192033784138396109321309878080919047169238085235290822926018152521443787945770532904303776199561965192760957166694834171210342487393282284747428088017663161029038902829665513096354230157075129296432088558362971801859230928678799175576150822952201848806616643615613562842355410104862578550863465661734839271290328348967522998634176499319107762583194718667771801067716614802322659239302476074096777926805529797144183

/-- The constant `P2`, the order p of G_p and modulus of G_q of the third parameter set, as a
number. -/
def P2 : Int := 32317006071311007300714876688669951960444102669715484032130345427524655138867890893197201411522913463688717960921898019494119559150490921095088152386448283120630877367300996091750197750389652106796057638384067568276792218642619756161838094338476170470581645852036305042887575891541065808607552399123930385521914333389668342420684974786564569494856176035326322058077805659331026192708460314150258592864177116725943603718461857357598351152301645904403697613233287231227125684710820209725157101726931323469678542580656697935045997268352998638215525166389437335543602135433229604645318478604952148193555853611059594288367

/-- The constant `O2`, the modulus of G_p of the third parameter set, as a number. -/
def O2 : Int := 101992471161057539041056150829442368387161588025622067605403370169267811618267063658930367654766314891401593884669510149523441328678949346976098208931630781528711048971201943665563624100229742049048357906740117245481556242036107950446761025732230794005155674309026578715353189513703603691965435371635124296707161636177793288679681780426397781325766091567489872415293554660848718664187900751458216119079342980387078013335465621820580396236663994474298069667364254501752808660947348581892595813050195256870305480384552538683005167378922063702208197425125064230975608339427272632260625118477228979698862273996504079574086253

/-! ## voter.go: GenerateNewVoter -/

/-- GenerateNewVoter; the two random elements are the draws 0 and 1. `commQ.Hm[0]` and
`commQ.Hm[1]` are index expressions: a scheme with fewer than two message generators is the
index panic. -/
def GenerateNewVoter (commQ : PedersenCommitmentScheme) (rnd : Nat → Int → Int) :
    Option Voter :=
  let a := commQ.G.ZModOrder.RandomElement rnd 0
  let b := commQ.G.ZModOrder.RandomElement rnd 1
  (commQ.Hm[0]?).bind (fun hm0 => (commQ.G.Exp hm0 a).bind (fun h1 =>
    (commQ.Hm[1]?).bind (fun hm1 => (commQ.G.Exp hm1 b).bind (fun h2 =>
      (commQ.G.Mul h1 h2).bind (fun u => some (NewVoter a b u))))))

end crypto

namespace crypto

/-! ## int.go and ddlogproofsystem.go: the JSON encoding -/

/-- A JSON value as `encoding/json` writes it for the proof types: a string, an array, or an
object with its members in the order of writing. -/
inductive JSON where
  | str (s : String)
  | arr (items : List JSON)
  | obj (members : List (String × JSON))

/-- The keys of a JSON object in the order of writing; no keys for a string or an array. -/
def JSON.keys : JSON → List String
  | JSON.obj members => members.map Prod.fst
  | _ => []

/-- The call `x.MarshalText()` of math/big: the base-10 text of x, with a minus sign for a
negative number. -/
def MarshalText (x : Int) : String :=
  toString x

/-- Int.MarshalJSON: a nil pointer is replaced by a new `big.Int`, the number 0; the text of
`MarshalText` is written as a JSON string. -/
def AminoInt.MarshalJSON (i : AminoInt) : JSON :=
  JSON.str (MarshalText (i.i.getD 0))

/-- Int.String: `i.i.String()`, which is the text `<nil>` for a nil pointer. -/
def AminoInt.String (i : AminoInt) : String :=
  match i.i with
  | some x => toString x
  | none => "<nil>"

/-- The call `json.Marshal(dto)` for a `ddLogProofDTO`: one member per field, in the order of
declaration, under the key of the field's `json` tag; a slice is an array, an `Int` is what its
`MarshalJSON` returns. The tags are `t`, `t1_ar`, `t2_arr`, `zx`, `zr`, `zm_arr`, `zs_arr`,
`zr_arr`. -/
def ddLogProofDTO.MarshalJSON (dto : ddLogProofDTO) : JSON :=
  JSON.obj
    [("t", dto.T.MarshalJSON),
     ("t1_ar", JSON.arr (dto.T1Arr.map AminoInt.MarshalJSON)),
     ("t2_arr", JSON.arr (dto.T2Arr.map AminoInt.MarshalJSON)),
     ("zx", dto.ZX.MarshalJSON),
     ("zr", dto.ZR.MarshalJSON),
     ("zm_arr", JSON.arr (dto.ZMArr.map (fun row => JSON.arr (row.map AminoInt.MarshalJSON)))),
     ("zs_arr", JSON.arr (dto.ZSArr.map AminoInt.MarshalJSON)),
     ("zr_arr", JSON.arr (dto.ZRArr.map AminoInt.MarshalJSON))]

/-- DdLogProof.MarshalJSON: `wrapInDTO`, then `json.Marshal` of the DTO. -/
def DdLogProof.MarshalJSON (p : DdLogProof) : JSON :=
  (p.wrapInDTO).MarshalJSON

end crypto

namespace sdk

/-! ## The store and the result type of the Cosmos SDK, as far as the bulletin board uses them -/

/-- A `KVStore`: a finite map from byte strings to byte strings, kept as the list of its
entries in the order in which the keys were first written (the order has no meaning). -/
structure KVStore where
  entries : List (List Nat × List Nat)
deriving DecidableEq, Repr

/-- KVStore.Get: the value under the key, none when the key is absent. -/
def KVStore.Get (s : KVStore) (key : List Nat) : Option (List Nat) :=
  s.entries.lookup key

/-- KVStore.Has. -/
def KVStore.Has (s : KVStore) (key : List Nat) : Bool :=
  (s.entries.lookup key).isSome

/-- KVStore.Set: replaces the value of a key that is present, adds the entry otherwise. -/
def KVStore.Set (s : KVStore) (key value : List Nat) : KVStore :=
  if s.Has key then
    { entries := s.entries.map (fun e => if e.1 = key then (key, value) else e) }
  else { entries := s.entries ++ [(key, value)] }

/-- A `Result`, reduced to its code and the message of its log. -/
structure Result where
  Code : Nat
  Log : String
deriving DecidableEq, Repr

/-- The constant `CodeOK`. -/
def CodeOK : Nat := 0

end sdk

namespace types

/-! ## pbb/internal/types -/

/-- Ballot. -/
structure Ballot where
  C : crypto.AminoInt
  D : crypto.AminoInt
  V : String
  UHat : crypto.AminoInt
  Proof1 : crypto.PolyEvalProof
  Proof2 : crypto.DdLogProof
  Proof3 : crypto.PreimageEqualityProof
deriving DecidableEq, Repr

/-- Params; the security parameter is a non-negative Go `int`. -/
structure Params where
  CommP : crypto.PedersenCommitmentScheme
  CommQ : crypto.PedersenCommitmentScheme
  HHat : crypto.AminoInt
  SecurityParam : Nat
deriving DecidableEq, Repr

/-- MsgPutBallot; the signer is an address, a byte string. -/
structure MsgPutBallot where
  Ballot : Ballot
  Signer : List Nat
deriving DecidableEq, Repr

/-- The constant `InvalidBallot`. -/
def InvalidBallot : Nat := 101

/-- The result `ErrInvalidBallot(msg).Result()`: the code `InvalidBallot` and the message. -/
def ErrInvalidBallot (msg : String) : sdk.Result :=
  { Code := InvalidBallot, Log := msg }

end types

namespace keeper

/-! ## pbb/internal/keeper/keeper.go: the ballot store -/

/-- BulletinBoardKeeper.HasElectionCredential on the content of the ballot store; `uHat.Bytes()`
on a nil pointer panics. -/
def HasElectionCredential (store : sdk.KVStore) (uHat : Option Int) : Option Bool :=
  uHat.map (fun u => store.Has (crypto.Bytes u))

/-- BulletinBoardKeeper.StoreBallot on the content of the ballot store: the error (none for a
nil error) and the content afterwards. `cdc` is `k.cdc.MustMarshalBinaryBare` on ballots, none
where it panics. -/
def StoreBallot (cdc : types.Ballot → Option (List Nat)) (store : sdk.KVStore)
    (b : types.Ballot) : Option (Option String × sdk.KVStore) :=
  (b.UHat.BigInt).bind (fun uHat =>
    if store.Has (crypto.Bytes uHat) then
      some (some ("a ballot has already been stored for voter with election credential "
        ++ b.UHat.String), store)
    else (cdc b).map (fun bz => (none, store.Set (crypto.Bytes uHat) bz)))

end keeper

namespace pbb

/-! ## pbb/handler.go -/

/-- The function isMembershipProofValid. -/
def isMembershipProofValid (sha256 : List Nat → List Nat) (b : types.Ballot)
    (commP : crypto.PedersenCommitmentScheme) (poly : crypto.Polynomial) : Option Bool :=
  (crypto.NewPolynomialEvaluationProofSystem commP poly).bind (fun ps =>
    (b.C.BigInt).bind (fun c => ps.Verify sha256 b.Proof1 c b.V))

/-- The function isRepresentationProofValid. -/
def isRepresentationProofValid (sha256 : List Nat → List Nat) (b : types.Ballot)
    (params : types.Params) : Option Bool :=
  (crypto.NewDoubleDiscreteLogProofSystem params.CommP params.CommQ params.SecurityParam).bind
    (fun ps => (b.C.BigInt).bind (fun c => (b.D.BigInt).bind (fun d =>
      ps.Verify sha256 b.Proof2 c d b.V)))

/-- The function isPreimageProofValid; a nil election generator, commitment or pseudonym makes
`Verify` panic. -/
def isPreimageProofValid (sha256 : List Nat → List Nat) (b : types.Ballot)
    (params : types.Params) : Option Bool :=
  (params.HHat.BigInt).bind (fun hHat => (b.D.BigInt).bind (fun d =>
    (b.UHat.BigInt).bind (fun uHat =>
      (crypto.NewPreimageEqualityProofSystem hHat params.CommQ).Verify sha256 b.Proof3 d uHat
        b.V)))

/-- The function handleMsgPutBallot on the content of the ballot store: the result and the
content afterwards. `params` is what `GetParams` returns, `polyStore` the content of the
polynomial store; the emitted event is left out. -/
def handleMsgPutBallot (sha256 : List Nat → List Nat) (cdc : types.Ballot → Option (List Nat))
    (params : types.Params) (polyStore : Option crypto.Polynomial) (store : sdk.KVStore)
    (msg : types.MsgPutBallot) : Option (sdk.Result × sdk.KVStore) :=
  (keeper.HasElectionCredential store msg.Ballot.UHat.BigInt).bind (fun has =>
    if has then
      some (types.ErrInvalidBallot
        "A ballot has already been stored for this election credential.", store)
    else
      (isMembershipProofValid sha256 msg.Ballot params.CommP
        (keeper.GetCredentialPolynomial params.CommP.G polyStore)).bind (fun v1 =>
      if v1 = false then some (types.ErrInvalidBallot "Invalid membership proof", store)
      else (isRepresentationProofValid sha256 msg.Ballot params).bind (fun v2 =>
      if v2 = false then
        some (types.ErrInvalidBallot "Invalid proof of known representation", store)
      else (isPreimageProofValid sha256 msg.Ballot params).bind (fun v3 =>
      if v3 = false then some (types.ErrInvalidBallot "Invalid pre-image proof", store)
      else (keeper.StoreBallot cdc store msg.Ballot).bind (fun r =>
        match r.1 with
        | some err => some (types.ErrInvalidBallot err, r.2)
        | none => some ({ Code := sdk.CodeOK, Log := "" }, r.2))))))

/-- An operation on the ballot store (auxiliary): a call of `StoreBallot`, or a call of
`handleMsgPutBallot` with the parameters and the polynomial store of its moment. -/
inductive Op where
  | storeBallot (b : types.Ballot)
  | putBallot (params : types.Params) (polyStore : Option crypto.Polynomial)
      (msg : types.MsgPutBallot)

/-- The content of the ballot store after an operation (auxiliary). An operation that panics
has not written: in both functions every panic precedes the call of `Set`. -/
def applyOp (sha256 : List Nat → List Nat) (cdc : types.Ballot → Option (List Nat))
    (store : sdk.KVStore) : Op → sdk.KVStore
  | Op.storeBallot b =>
    match keeper.StoreBallot cdc store b with
    | some r => r.2
    | none => store
  | Op.putBallot params polyStore msg =>
    match handleMsgPutBallot sha256 cdc params polyStore store msg with
    | some r => r.2
    | none => store

/-- The content of the ballot store after a sequence of operations (auxiliary). -/
def run (sha256 : List Nat → List Nat) (cdc : types.Ballot → Option (List Nat))
    (ops : List Op) (store : sdk.KVStore) : sdk.KVStore :=
  ops.foldl (applyOp sha256 cdc) store

end pbb

namespace crypto

/-- The sum over the leaves of the delta recursion with values in a commutative ring
(auxiliary): `coeffs j` is the image of the coefficient of degree j, cX the factor of the
right descent and `cF i` the factor of the left descent at the level i + 1. -/
def deltaSumR {R : Type} [CommRing R] (coeffs : Nat → R) (D : Nat) (cX : R) (cF : Nat → R) :
    Nat → Nat → R → R
  | 0, deg, value => value * coeffs deg
  | lvl + 1, deg, value =>
    deltaSumR coeffs D cX cF lvl deg (value * cX)
      + (if deg + 2 ^ lvl ≤ D then
          deltaSumR coeffs D cX cF lvl (deg + 2 ^ lvl) (value * cF lvl)
        else 0)

end crypto

namespace crypto

/-! ## crypto/sha256 of the Go standard library -/

/-- Rotation to the right of a 32-bit word by n bits, `0 < n < 32`. -/
def rotr32 (x n : Nat) : Nat :=
  (x >>> n) ||| ((x <<< (32 - n)) % 4294967296)

/-- The 64 round constants of SHA-256. -/
def sha256K : List Nat :=
  [1116352408, 1899447441, 3049323471, 3921009573, 961987163, 1508970993,
   2453635748, 2870763221, 3624381080, 310598401, 607225278, 1426881987,
   1925078388, 2162078206, 2614888103, 3248222580, 3835390401, 4022224774,
   264347078, 604807628, 770255983, 1249150122, 1555081692, 1996064986,
   2554220882, 2821834349, 2952996808, 3210313671, 3336571891, 3584528711,
   113926993, 338241895, 666307205, 773529912, 1294757372, 1396182291,
   1695183700, 1986661051, 2177026350, 2456956037, 2730485921, 2820302411,
   3259730800, 3345764771, 3516065817, 3600352804, 4094571909, 275423344,
   430227734, 506948616, 659060556, 883997877, 958139571, 1322822218,
   1537002063, 1747873779, 1955562222, 2024104815, 2227730452, 2361852424,
   2428436474, 2756734187, 3204031479, 3329325298]

/-- The initial hash value of SHA-256. -/
def sha256H0 : List Nat :=
  [1779033703, 3144134277, 1013904242, 2773480762,
   1359893119, 2600822924, 528734635, 1541459225]

/-- The padding of SHA-256: the byte 0x80, zero bytes up to a length of 56 modulo 64, and the
length of the message in bits as 8 big-endian bytes. -/
def sha256Pad (msg : List Nat) : List Nat :=
  msg ++ [128] ++ List.replicate ((119 - msg.length % 64) % 64) 0
    ++ (List.range 8).map (fun i => ((msg.length * 8) >>> (8 * (7 - i))) % 256)

/-- The blocks of 64 bytes of a padded message; `fuel` bounds their number. -/
def sha256Blocks : Nat → List Nat → List (List Nat)
  | 0, _ => []
  | fuel + 1, bs => if bs.length = 0 then [] else bs.take 64 :: sha256Blocks fuel (bs.drop 64)

/-- The 16 big-endian words of a block. -/
def sha256Words (block : List Nat) : List Nat :=
  (List.range 16).map (fun i =>
    block.getD (4 * i) 0 * 16777216 + block.getD (4 * i + 1) 0 * 65536
      + block.getD (4 * i + 2) 0 * 256 + block.getD (4 * i + 3) 0)

/-- The message schedule: n further words after the words w. -/
def sha256Schedule : Nat → List Nat → List Nat
  | 0, w => w
  | n + 1, w =>
    let w15 := w.getD (w.length - 15) 0
    let w2 := w.getD (w.length - 2) 0
    let s0 := (rotr32 w15 7 ^^^ rotr32 w15 18) ^^^ (w15 >>> 3)
    let s1 := (rotr32 w2 17 ^^^ rotr32 w2 19) ^^^ (w2 >>> 10)
    sha256Schedule n
      (w ++ [(w.getD (w.length - 16) 0 + s0 + w.getD (w.length - 7) 0 + s1) % 4294967296])

/-- One round of the compression function on the working variables `[a, b, c, d, e, f, g, h]`
with the round constant and the schedule word as the pair kw. -/
def sha256Round (s : List Nat) (kw : Nat × Nat) : List Nat :=
  let a := s.getD 0 0
  let b := s.getD 1 0
  let c := s.getD 2 0
  let d := s.getD 3 0
  let e := s.getD 4 0
  let f := s.getD 5 0
  let g := s.getD 6 0
  let h := s.getD 7 0
  let s1 := (rotr32 e 6 ^^^ rotr32 e 11) ^^^ rotr32 e 25
  let ch := (e &&& f) ^^^ ((e ^^^ 4294967295) &&& g)
  let temp1 := (h + s1 + ch + kw.1 + kw.2) % 4294967296
  let s0 := (rotr32 a 2 ^^^ rotr32 a 13) ^^^ rotr32 a 22
  let maj := ((a &&& b) ^^^ (a &&& c)) ^^^ (b &&& c)
  let temp2 := (s0 + maj) % 4294967296
  [(temp1 + temp2) % 4294967296, a, b, c, (d + temp1) % 4294967296, e, f, g]

/-- The compression of one block into the hash value. -/
def sha256Compress (hash block : List Nat) : List Nat :=
  List.zipWith (fun x y => (x + y) % 4294967296) hash
    ((List.zip sha256K (sha256Schedule 48 (sha256Words block))).foldl sha256Round hash)

/-- The call `sha256.Sum` on the bytes written to the hash: the SHA-256 digest, 32 bytes. -/
def sha256Sum (msg : List Nat) : List Nat :=
  (((sha256Blocks (msg.length / 64 + 2) (sha256Pad msg)).foldl sha256Compress sha256H0).map
    (fun w => [w >>> 24, (w >>> 16) % 256, (w >>> 8) % 256, w % 256])).flatten

end crypto

namespace crypto

/-! ## groups.go: the default generator -/

/-- The loop `for generator.Cmp(one) == 0` of `DefaultGenerator`, entered with the current
values of `h` and `generator`: `generator.Exp(h, cofactor, Modulus)`, which leaves the
receiver unchanged when it returns nil, then `h.Add(h, one)`. `fuel` bounds the number of
iterations; `none` when it is used up with the generator still 1. -/
def defaultGeneratorLoop (g : GStarModPrime) (cofactor : Int) : Nat → Int → Int → Option Int
  | 0, _, generator => if generator = 1 then none else some generator
  | fuel + 1, h, generator =>
    if generator = 1 then
      defaultGeneratorLoop g cofactor fuel (h + 1)
        ((bigExp h cofactor g.Modulus).getD generator)
    else some generator

/-- GStarModPrime.DefaultGenerator: the cofactor, then the loop from `generator = 1` and
`h = 1`; `none` is the panic of `Cofactor` or the loop not ending within `fuel` iterations. -/
def GStarModPrime.DefaultGenerator (g : GStarModPrime) (fuel : Nat) : Option Int :=
  (g.Cofactor).bind (fun cofactor => defaultGeneratorLoop g cofactor fuel 1 1)

/-- The loop behind `x.BitLen()` of math/big: the number of halvings that take n to 0. -/
def bitLenLoop : Nat → Nat → Nat
  | 0, _ => 0
  | fuel + 1, n => if n = 0 then 0 else bitLenLoop fuel (n / 2) + 1

/-- The call `x.BitLen()` of math/big: the length of the absolute value of x in bits, 0 for
0. -/
def BitLen (x : Int) : Nat :=
  bitLenLoop x.natAbs x.natAbs

end crypto

namespace crypto.stream

/-! ## groups.go: the samplers, on a stream of random bytes

The functions `RandomBits`, `RandInt` and `RandIntInRange` read `crypto/rand`. Here the
source of randomness is a stream `stream : Nat → Nat` of bytes (entry i taken modulo 256) and
`pos` is the number of bytes read so far. The random draws `rnd k exclMax` of the proof systems
are the values these functions return. -/

/-- The call `rand.Read(b)` for a slice of n bytes: the next n bytes of the stream. -/
def Read (stream : Nat → Nat) (pos n : Nat) : List Nat :=
  (List.range n).map (fun i => stream (pos + i) % 256)

/-- The statement `b[0] = f(b[0])`; the index panics on an empty slice. -/
def updateFirst (f : Nat → Nat) : List Nat → Option (List Nat)
  | [] => none
  | x :: rest => some (f x :: rest)

/-- RandomBits(bitlen, exact): `(bitlen+7)/8` bytes are read; with `highbits = bitlen & 7` not
0 the first byte is masked with `^(0xff << highbits)`, computed in the type `byte`; for
`exact` the top bit is set. -/
def RandomBits (stream : Nat → Nat) (pos bitlen : Nat) (exact : Bool) : Option (List Nat) :=
  let b := Read stream pos ((bitlen + 7) / 8)
  let highbits := bitlen &&& 7
  (if highbits ≠ 0 then
      updateFirst (fun x => x &&& (255 - (255 <<< highbits) % 256)) b
    else some b).bind (fun b =>
    if exact then
      if highbits ≠ 0 then updateFirst (fun x => x ||| (1 <<< (highbits - 1))) b
      else updateFirst (fun x => x ||| 128) b
    else some b)

/-- RandInt(exclMax): candidates of `BitLen(exclMax)` bits are read until one satisfies
`i.Sign() > 0 && i.Cmp(exclMax) < 0`. The value is the candidate with the position of the
stream after it; `fuel` bounds the number of iterations, `none` when it is used up. -/
def RandInt (stream : Nat → Nat) (exclMax : Int) : Nat → Nat → Option (Int × Nat)
  | 0, _ => none
  | fuel + 1, pos =>
    (RandomBits stream pos (BitLen exclMax) false).bind (fun b =>
      if 0 < SetBytes b ∧ SetBytes b < exclMax then
        some (SetBytes b, pos + (BitLen exclMax + 7) / 8)
      else RandInt stream exclMax fuel (pos + (BitLen exclMax + 7) / 8))

/-- RandIntInRange(min, exclMax): as `RandInt`, with the test
`i.Cmp(min) >= 0 && i.Cmp(exclMax) < 0`. -/
def RandIntInRange (stream : Nat → Nat) (min exclMax : Int) : Nat → Nat → Option (Int × Nat)
  | 0, _ => none
  | fuel + 1, pos =>
    (RandomBits stream pos (BitLen exclMax) false).bind (fun b =>
      if min ≤ SetBytes b ∧ SetBytes b < exclMax then
        some (SetBytes b, pos + (BitLen exclMax + 7) / 8)
      else RandIntInRange stream min exclMax fuel (pos + (BitLen exclMax + 7) / 8))

/-- ZModPrime.RandomElement: `RandInt(g.Modulus)`. -/
def ZModPrime.RandomElement (g : ZModPrime) (stream : Nat → Nat) (fuel pos : Nat) :
    Option (Int × Nat) :=
  RandInt stream g.Modulus fuel pos

/-- ZStarModPrime.RandomElement: `RandIntInRange(1, g.Modulus)`. -/
def ZStarModPrime.RandomElement (g : ZStarModPrime) (stream : Nat → Nat) (fuel pos : Nat) :
    Option (Int × Nat) :=
  RandIntInRange stream 1 g.Modulus fuel pos

end crypto.stream
/-! # Theorems -/

namespace crypto

/-! ## math/big primitives -/

theorem bigMod_of_ne {m : Int} (x : Int) (hm : m ≠ 0) : bigMod x m = some (x % m) := by
  simp [bigMod, hm]

theorem bigExp_of_nonneg {y : Int} (x m : Int) (hy : 0 ≤ y) :
    bigExp x y m = some (x ^ y.toNat % m) := by
  simp [bigExp, not_lt.mpr hy]

/-! ## Pedersen commitments -/

/-- The product `h_1^{m_1} * ... * h_n^{m_n}` over the integers. -/
theorem commitLoop_eq (g : GStarModPrime) (hmod : g.Modulus ≠ 0) :
    ∀ (hs msgs : List Int) (product : Int), msgs.length = hs.length →
      (∀ m ∈ msgs, 0 ≤ m ∧ m ≤ g.Order) → product % g.Modulus = product →
      commitLoop g hs msgs product
        = some ((product * (List.zipWith (fun h m => h ^ m.toNat) hs msgs).prod)
            % g.Modulus) := by
  intro hs msgs
  induction msgs generalizing hs with
  | nil =>
    intro product _ _ hp
    cases hs <;> simp [commitLoop, hp]
  | cons msg msgs ih =>
    intro product hlen hrange hp
    cases hs with
    | nil => simp at hlen
    | cons h hs =>
      have hmsg := hrange msg (List.mem_cons_self _ _)
      have hcond : ¬ (msg > g.Order ∨ msg < 0) := by
        rintro (h1 | h1) <;> omega
      have hlen2 : msgs.length = hs.length := by simpa using hlen
      have hrange2 : ∀ m ∈ msgs, 0 ≤ m ∧ m ≤ g.Order :=
        fun m hm => hrange m (List.mem_cons_of_mem _ hm)
      simp only [commitLoop, if_neg hcond, GStarModPrime.Exp, GStarModPrime.Mul,
        bigExp_of_nonneg _ _ hmsg.1, bigMod_of_ne _ hmod, Option.bind_eq_bind,
        Option.some_bind]
      rw [ih hs _ hlen2 hrange2 (Int.emod_emod_of_dvd _ (dvd_refl _))]
      congr 1
      simp only [List.zipWith_cons_cons, List.prod_cons]
      have h1 : product * (h ^ msg.toNat % g.Modulus) % g.Modulus
          ≡ product * h ^ msg.toNat [ZMOD g.Modulus] :=
        (Int.mod_modEq _ _).trans ((Int.ModEq.refl _).mul (Int.mod_modEq _ _))
      have h2 := h1.mul_right (List.zipWith (fun h m => h ^ m.toNat) hs msgs).prod
      rw [mul_assoc product] at h2
      exact h2

theorem Commit_eq_of_le (s : PedersenCommitmentScheme) (r : Int) (msgs : List Int)
    (hmod : s.G.Modulus ≠ 0) (hlen : msgs.length = s.Hm.length)
    (hr : 0 ≤ r ∧ r ≤ s.G.Order) (hmsgs : ∀ m ∈ msgs, 0 ≤ m ∧ m ≤ s.G.Order) :
    s.Commit r msgs
      = some ((s.Hr ^ r.toNat * (List.zipWith (fun h m => h ^ m.toNat) s.Hm msgs).prod)
          % s.G.Modulus) := by
  have hany : msgs.any (fun msg => decide (msg > s.G.Order) || decide (msg < 0)) = false := by
    rw [List.any_eq_false]
    intro m hm
    have := hmsgs m hm
    simp only [Bool.or_eq_true, decide_eq_true_eq, not_or, not_lt]
    omega
  have hcond : ¬ (r > s.G.Order ∨ r < 0) := by
    rintro (h1 | h1) <;> omega
  simp only [PedersenCommitmentScheme.Commit, hlen, ne_eq, not_true_eq_false, if_false, hany,
    Bool.false_eq_true, if_neg hcond, GStarModPrime.Exp, bigExp_of_nonneg _ _ hr.1,
    Option.bind_eq_bind, Option.some_bind]
  rw [commitLoop_eq s.G hmod _ _ _ hlen hmsgs (Int.emod_emod_of_dvd _ (dvd_refl _))]
  congr 1
  exact (Int.mod_modEq _ _).mul_right _

/-- An accepted input of `Commit` has the right number of messages and all values in
`[0, Order]`. -/
theorem Commit_accept (s : PedersenCommitmentScheme) (r : Int) (msgs : List Int) (c : Int)
    (h : s.Commit r msgs = some c) :
    msgs.length = s.Hm.length ∧ (0 ≤ r ∧ r ≤ s.G.Order) ∧
      ∀ m ∈ msgs, 0 ≤ m ∧ m ≤ s.G.Order := by
  unfold PedersenCommitmentScheme.Commit at h
  split_ifs at h with h1 h2 h3
  refine ⟨by simpa using h1, by omega, ?_⟩
  intro m hm
  simp only [List.any_eq_true, not_exists, not_and, Bool.or_eq_true, decide_eq_true_eq] at h2
  have := h2 m hm
  omega

/-! ## Group membership -/

theorem Contains_of_nonneg (g : GStarModPrime) (v : Int) (ho : 0 ≤ g.Order) :
    g.Contains v
      = some (decide (1 ≤ v ∧ v < g.Modulus ∧ v ^ g.Order.toNat ≡ 1 [ZMOD g.Modulus])) := by
  unfold GStarModPrime.Contains
  by_cases h1 : 0 < v
  · by_cases h2 : v < g.Modulus
    · have hm : (1 : Int) % g.Modulus = 1 := Int.emod_eq_of_lt (by omega) (by omega)
      have h3 : (1 : Int) ≤ v := h1
      simp only [if_pos h1, if_pos h2, GStarModPrime.Exp, bigExp_of_nonneg _ _ ho,
        Option.map_some', Int.ModEq, hm, h3, h2, true_and, if_true]
    · simp [if_pos h1, if_neg h2, h2]
  · have h3 : ¬ (1 : Int) ≤ v := by omega
    simp [if_neg h1, h3]

theorem zipWith_pow_prod_pow (n : Nat) (m : Int) :
    ∀ (hs msgs : List Int), (∀ h ∈ hs, h ^ n ≡ 1 [ZMOD m]) →
      (List.zipWith (fun h e => h ^ e.toNat) hs msgs).prod ^ n ≡ 1 [ZMOD m] := by
  intro hs
  induction hs with
  | nil => intro msgs _; simp [Int.ModEq]
  | cons h hs ih =>
    intro msgs hall
    cases msgs with
    | nil => simp [Int.ModEq]
    | cons e msgs =>
      simp only [List.zipWith_cons_cons, List.prod_cons, mul_pow]
      have h1 : (h ^ e.toNat) ^ n ≡ 1 [ZMOD m] := by
        rw [← pow_mul, mul_comm, pow_mul]
        simpa using (hall h (List.mem_cons_self _ _)).pow e.toNat
      have h2 := ih msgs (fun x hx => hall x (List.mem_cons_of_mem _ hx))
      simpa using h1.mul h2

/-- C7: for every commitment scheme with (non-zero) modulus m, randomization generator h_r and
message generators h_1..h_n, and every r and messages m_1..m_n in `[0, ord)`, as many
messages as message generators, `Commit(r; m_1..m_n)` returns
`(h_r^r * h_1^{m_1} * ... * h_n^{m_n}) mod m`. -/
theorem Commit_formula (s : PedersenCommitmentScheme) (r : Int) (msgs : List Int)
    (hmod : s.G.Modulus ≠ 0) (hlen : msgs.length = s.Hm.length)
    (hr : 0 ≤ r ∧ r < s.G.Order) (hmsgs : ∀ m ∈ msgs, 0 ≤ m ∧ m < s.G.Order) :
    s.Commit r msgs
      = some ((s.Hr ^ r.toNat * (List.zipWith (fun h m => h ^ m.toNat) s.Hm msgs).prod)
          % s.G.Modulus) :=
  Commit_eq_of_le s r msgs hmod hlen ⟨hr.1, le_of_lt hr.2⟩
    (fun m hm => ⟨(hmsgs m hm).1, le_of_lt (hmsgs m hm).2⟩)

theorem Commit_formula_witness :
    (NewPedersenCommitmentScheme (NewGStarModPrime 23 11 0 1) 2 [3, 4]).Commit 7 [5, 10]
      = some (((2 : Int) ^ 7 * (3 ^ 5 * (4 ^ 10 * 1))) % 23) :=
  Commit_formula (NewPedersenCommitmentScheme (NewGStarModPrime 23 11 0 1) 2 [3, 4]) 7 [5, 10]
    (by decide) (by decide) (by decide) (by decide)

/-- C8 (code evaluated at the failing input): in the group of order 11 modulo 23 with
generators 2 and 3, `Commit` accepts the randomness 11 and the message 11, both equal to the
order and hence outside `[0, ord)`, and returns a value. -/
theorem Commit_accepts_order :
    (NewPedersenCommitmentScheme (NewGStarModPrime 23 11 0 1) 2 [3]).Commit 11 [5] = some 13 ∧
    (NewPedersenCommitmentScheme (NewGStarModPrime 23 11 0 1) 2 [3]).Commit 5 [11] = some 9 ∧
    (NewPedersenCommitmentScheme (NewGStarModPrime 23 11 0 1) 2 [3]).Commit 12 [5] = none ∧
    (NewPedersenCommitmentScheme (NewGStarModPrime 23 11 0 1) 2 [3]).Commit 5 [12] = none := by
  decide

/-- C9: for every scheme whose generators h_r, h_1..h_n all satisfy `G.Contains` and every
input `(r; m_1..m_n)` accepted by `Commit`, the commitment c that is returned satisfies
`G.Contains(c)`, that is `1 ≤ c < mod` and `c^ord = 1 (mod mod)`. -/
theorem Commit_mem_group (s : PedersenCommitmentScheme) (r : Int) (msgs : List Int) (c : Int)
    (hHr : s.G.Contains s.Hr = some true) (hHm : ∀ h ∈ s.Hm, s.G.Contains h = some true)
    (hc : s.Commit r msgs = some c) :
    s.G.Contains c = some true ∧
      (1 ≤ c ∧ c < s.G.Modulus ∧ c ^ s.G.Order.toNat ≡ 1 [ZMOD s.G.Modulus]) := by
  obtain ⟨hlen, hr, hmsgs⟩ := Commit_accept s r msgs c hc
  have ho : 0 ≤ s.G.Order := le_trans hr.1 hr.2
  have hgen : ∀ h, s.G.Contains h = some true →
      1 ≤ h ∧ h < s.G.Modulus ∧ h ^ s.G.Order.toNat ≡ 1 [ZMOD s.G.Modulus] := by
    intro h hh
    rw [Contains_of_nonneg s.G h ho] at hh
    simpa using hh
  obtain ⟨hr1, hr2, hr3⟩ := hgen _ hHr
  have hmod : s.G.Modulus ≠ 0 := by omega
  have hmpos : 1 < s.G.Modulus := by omega
  rw [Commit_eq_of_le s r msgs hmod hlen hr hmsgs] at hc
  have hceq := (Option.some.inj hc).symm
  have hpow : c ^ s.G.Order.toNat ≡ 1 [ZMOD s.G.Modulus] := by
    have h1 : c ≡ s.Hr ^ r.toNat * (List.zipWith (fun h m => h ^ m.toNat) s.Hm msgs).prod
        [ZMOD s.G.Modulus] := by
      rw [hceq]; exact Int.mod_modEq _ _
    refine (h1.pow _).trans ?_
    rw [mul_pow]
    have h2 : (s.Hr ^ r.toNat) ^ s.G.Order.toNat ≡ 1 [ZMOD s.G.Modulus] := by
      rw [← pow_mul, mul_comm, pow_mul]
      simpa using hr3.pow r.toNat
    have h3 := zipWith_pow_prod_pow s.G.Order.toNat s.G.Modulus s.Hm msgs
      (fun h hh => (hgen h (hHm h hh)).2.2)
    simpa using h2.mul h3
  have hc0 : 0 ≤ c := by rw [hceq]; exact Int.emod_nonneg _ hmod
  have hclt : c < s.G.Modulus := by rw [hceq]; exact Int.emod_lt_of_pos _ (by omega)
  have hcne : c ≠ 0 := by
    intro h0
    rw [h0] at hpow
    have h1 : (1 : Int) % s.G.Modulus = 1 := Int.emod_eq_of_lt (by omega) hmpos
    by_cases hz : s.G.Order.toNat = 0
    · have hord : s.G.Order = 0 := by omega
      have hr0 : r = 0 := by omega
      have hall : ∀ (hs ms : List Int), (∀ m ∈ ms, m = 0) →
          (List.zipWith (fun h m => h ^ m.toNat) hs ms).prod = 1 := by
        intro hs
        induction hs with
        | nil => intro ms _; simp
        | cons h hs ih =>
          intro ms hms
          cases ms with
          | nil => simp
          | cons e ms =>
            have he : e = 0 := hms e (List.mem_cons_self _ _)
            simp [he, ih ms (fun m hm => hms m (List.mem_cons_of_mem _ hm))]
      have hprod := hall s.Hm msgs (fun m hm => by have := hmsgs m hm; omega)
      rw [hprod, hr0] at hceq
      simp [h1] at hceq
      omega
    · rw [zero_pow hz] at hpow
      have h2 : (0 : Int) % s.G.Modulus = 1 % s.G.Modulus := hpow
      rw [h1] at h2
      simp at h2
  have hc1 : 1 ≤ c := by omega
  refine ⟨?_, hc1, hclt, hpow⟩
  rw [Contains_of_nonneg s.G c ho]
  simp [hc1, hclt, hpow]

theorem Commit_mem_group_witness :
    (NewGStarModPrime 23 11 0 1).Contains 13 = some true ∧
      ((1 : Int) ≤ 13 ∧ (13 : Int) < (NewGStarModPrime 23 11 0 1).Modulus ∧
        (13 : Int) ^ (NewGStarModPrime 23 11 0 1).Order.toNat
          ≡ 1 [ZMOD (NewGStarModPrime 23 11 0 1).Modulus]) :=
  Commit_mem_group (NewPedersenCommitmentScheme (NewGStarModPrime 23 11 0 1) 2 [3]) 11 [5] 13
    (by decide) (by decide) (by decide)

/-- C10: for every group G(mod, ord) (the order being non-negative) and every integer v,
`GStarModPrime.Contains(v)` returns true if and only if `1 ≤ v < mod` and
`v^ord = 1 (mod mod)`, and returns false otherwise. -/
theorem Contains_iff (g : GStarModPrime) (v : Int) (ho : 0 ≤ g.Order) :
    g.Contains v
      = some (decide (1 ≤ v ∧ v < g.Modulus ∧ v ^ g.Order.toNat ≡ 1 [ZMOD g.Modulus])) :=
  Contains_of_nonneg g v ho

theorem Contains_iff_witness :
    (NewGStarModPrime 23 11 0 1).Contains 2
      = some (decide ((1 : Int) ≤ 2 ∧ (2 : Int) < (NewGStarModPrime 23 11 0 1).Modulus ∧
          (2 : Int) ^ (NewGStarModPrime 23 11 0 1).Order.toNat
            ≡ 1 [ZMOD (NewGStarModPrime 23 11 0 1).Modulus])) :=
  Contains_iff (NewGStarModPrime 23 11 0 1) 2 (by decide)

end crypto
namespace crypto
/-! ## Exponent arithmetic and the preimage-equality proof system -/


theorem pow_modEq_of_nat_modEq (h p : Int) (q : Nat) (hgen : h ^ q ≡ 1 [ZMOD p]) {a b : Nat}
    (hab : a ≡ b [MOD q]) : h ^ a ≡ h ^ b [ZMOD p] := by
  have key : ∀ n : Nat, h ^ n ≡ h ^ (n % q) [ZMOD p] := by
    intro n
    conv_lhs => rw [← Nat.div_add_mod n q, pow_add, pow_mul]
    simpa using (hgen.pow (n / q)).mul_right (h ^ (n % q))
  have hab2 : a % q = b % q := hab
  exact (key a).trans (hab2 ▸ (key b).symm)

/-- Exponents that agree modulo the order give the same power of an element of that order. -/
theorem pow_toNat_modEq (h p q : Int) (hgen : h ^ q.toNat ≡ 1 [ZMOD p]) {e1 e2 : Int}
    (hq : 0 ≤ q) (h1 : 0 ≤ e1) (h2 : 0 ≤ e2) (he : e1 ≡ e2 [ZMOD q]) :
    h ^ e1.toNat ≡ h ^ e2.toNat [ZMOD p] := by
  apply pow_modEq_of_nat_modEq h p q.toNat hgen
  lift q to ℕ using hq
  lift e1 to ℕ using h1
  lift e2 to ℕ using h2
  simpa [Int.natCast_modEq_iff] using he

/-- The response `(r + x * ch mod q) mod q` as an exponent. -/
theorem pow_resp (h p q r x ch : Int) (hgen : h ^ q.toNat ≡ 1 [ZMOD p]) (hq : 0 ≤ q)
    (hr : 0 ≤ r) (hx : 0 ≤ x) (hch : 0 ≤ ch) (hq0 : q ≠ 0) :
    h ^ ((r + x * ch % q) % q).toNat ≡ h ^ r.toNat * (h ^ x.toNat) ^ ch.toNat [ZMOD p] := by
  have h1 : 0 ≤ (r + x * ch % q) % q := Int.emod_nonneg _ hq0
  have h2 : 0 ≤ r + x * ch := by positivity
  have he : (r + x * ch % q) % q ≡ r + x * ch [ZMOD q] :=
    (Int.mod_modEq _ _).trans ((Int.ModEq.refl r).add (Int.mod_modEq _ _))
  refine (pow_toNat_modEq h p q hgen hq h1 h2 he).trans ?_
  lift r to ℕ using hr
  lift x to ℕ using hx
  lift ch to ℕ using hch
  have : ((r : Int) + x * ch).toNat = r + x * ch := by
    have : ((r : Int) + x * ch) = ((r + x * ch : ℕ) : Int) := by push_cast; ring
    rw [this, Int.toNat_natCast]
  rw [this, pow_add, pow_mul]
  simp


theorem SetBytes_nonneg (buf : List Nat) : 0 ≤ SetBytes buf := by
  unfold SetBytes
  exact Int.natCast_nonneg _

theorem hashToChallenge_eq (sha256 : List Nat → List Nat) (inputs : List (List Int))
    (vote : String) (m : Int) (hm : 0 < m) :
    ∃ ch, hashToChallenge sha256 inputs vote m = some ch ∧ 0 ≤ ch ∧ ch < m := by
  refine ⟨_, bigMod_of_ne _ (ne_of_gt hm), Int.emod_nonneg _ (ne_of_gt hm),
    Int.emod_lt_of_pos _ hm⟩

/-- C3: completeness of the preimage-equality proof. For every G_q commitment scheme with two
message generators and a randomization generator of order q modulo the prime p, every election
generator hHat with `hHat^q = 1 (mod p)`, every voter (a, b) with a, b in `[0, q)`, every r_d
in `[0, q)`, `d = Commit(r_d; a, b)`, `uHat = hHat^b mod p`, every outcome of the random draws
(each in `(0, q)` as `RandInt` returns them), every vote and every hash function, `Generate`
returns a proof and `Verify` returns true on it. -/
theorem PreimageEquality_complete (commScheme : PedersenCommitmentScheme) (hHat : Int)
    (voter : Voter) (rd d uHat : Int) (sha256 : List Nat → List Nat) (rnd : Nat → Int → Int)
    (vote : String)
    (hp : Nat.Prime commScheme.G.Modulus.toNat)
    (hlen : commScheme.Hm.length = 2)
    (hHr : commScheme.Hr ^ commScheme.G.Order.toNat ≡ 1 [ZMOD commScheme.G.Modulus])
    (hHm : ∀ h ∈ commScheme.Hm, h ^ commScheme.G.Order.toNat ≡ 1 [ZMOD commScheme.G.Modulus])
    (hhat : hHat ^ commScheme.G.Order.toNat ≡ 1 [ZMOD commScheme.G.Modulus])
    (ha : 0 ≤ voter.A ∧ voter.A < commScheme.G.Order)
    (hb : 0 ≤ voter.B ∧ voter.B < commScheme.G.Order)
    (hrd : 0 ≤ rd ∧ rd < commScheme.G.Order)
    (hrnd : ∀ k, 0 < rnd k commScheme.G.Order ∧ rnd k commScheme.G.Order < commScheme.G.Order)
    (hd : commScheme.Commit rd [voter.A, voter.B] = some d)
    (hu : commScheme.G.Exp hHat voter.B = some uHat) :
    ∃ proof,
      (NewPreimageEqualityProofSystem hHat commScheme).Generate sha256 rnd voter d rd uHat vote
        = some proof ∧
      (NewPreimageEqualityProofSystem hHat commScheme).Verify sha256 proof d uHat vote
        = some true := by
  obtain ⟨G, Hr, Hm⟩ := commScheme
  obtain ⟨p, q, pref, qref⟩ := G
  obtain ⟨a, b, u⟩ := voter
  simp only at hp hlen hHr hHm hhat ha hb hrd hrnd hd hu
  match Hm, hlen with
  | [h1, h2], _ =>
  have hp1 : 1 < p := by
    have := hp.one_lt
    omega
  have hp0 : p ≠ 0 := by omega
  have hq0 : 0 < q := by omega
  have hqne : q ≠ 0 := by omega
  have hq : 0 ≤ q := by omega
  have hH1 := hHm h1 (by simp)
  have hH2 := hHm h2 (by simp)
  -- the commitment d and the pseudonym uHat
  rw [Commit_eq_of_le _ _ _ hp0 (by simp) ⟨hrd.1, le_of_lt hrd.2⟩
    (by simp; omega)] at hd
  simp only [List.zipWith_cons_cons, List.zipWith_nil_right, List.prod_cons, List.prod_nil,
    Option.some.injEq] at hd
  simp only [GStarModPrime.Exp, bigExp_of_nonneg _ _ hb.1, Option.some.injEq] at hu
  -- the random draws
  obtain ⟨hra0, hra1⟩ := hrnd 0
  obtain ⟨hrb0, hrb1⟩ := hrnd 1
  obtain ⟨hrs0, hrs1⟩ := hrnd 2
  have hcm1 : ∀ x y z : Int, 0 ≤ x → x < q → 0 ≤ y → y < q → 0 ≤ z → z < q →
      PedersenCommitmentScheme.Commit
        { G := { Modulus := p, Order := q, ModulusRef := pref, OrderRef := qref },
          Hr := Hr, Hm := [h1, h2] } x [y, z]
        = some ((Hr ^ x.toNat * (h1 ^ y.toNat * (h2 ^ z.toNat * 1))) % p) := by
    intro x y z hx0 hx1 hy0 hy1 hz0 hz1
    rw [Commit_eq_of_le _ _ _ hp0 (by simp) ⟨hx0, le_of_lt hx1⟩ (by simp; omega)]
    simp
  simp only [NewPreimageEqualityProofSystem, PreimageEqualityProofSystem.Generate,
    PreimageEqualityProofSystem.Verify, PreimageEqualityProofSystem.generateChallenge,
    ZModPrime.RandomElement, RandInt, GStarModPrime.ZModOrder, NewZModPrime,
    hashToChallenge, ZModPrime.Mul, ZModPrime.Add, GStarModPrime.Exp, GStarModPrime.Mul,
    bigMod_of_ne _ hqne, bigMod_of_ne _ hp0,
    hcm1 _ _ _ (le_of_lt hrs0) hrs1 (le_of_lt hra0) hra1 (le_of_lt hrb0) hrb1,
    bigExp_of_nonneg _ _ (le_of_lt hrb0),
    Option.bind_eq_bind, Option.some_bind, Option.some.injEq, exists_eq_left']
  generalize rnd 0 q = ra at hra0 hra1
  generalize rnd 1 q = rb at hrb0 hrb1
  generalize rnd 2 q = rs at hrs0 hrs1
  generalize hX : SetBytes (sha256 _) = X
  have hch0 : 0 ≤ X % q := Int.emod_nonneg _ hqne
  have hch1 : X % q < q := Int.emod_lt_of_pos _ hq0
  generalize X % q = ch at hch0 hch1
  have hA0 : 0 ≤ (ra + a * ch % q) % q := Int.emod_nonneg _ hqne
  have hA1 : (ra + a * ch % q) % q < q := Int.emod_lt_of_pos _ hq0
  have hB0 : 0 ≤ (rb + b * ch % q) % q := Int.emod_nonneg _ hqne
  have hB1 : (rb + b * ch % q) % q < q := Int.emod_lt_of_pos _ hq0
  have hS0 : 0 ≤ (rs + rd * ch % q) % q := Int.emod_nonneg _ hqne
  have hS1 : (rs + rd * ch % q) % q < q := Int.emod_lt_of_pos _ hq0
  simp only [hcm1 _ _ _ hS0 hS1 hA0 hA1 hB0 hB1, bigExp_of_nonneg _ _ hB0,
    bigExp_of_nonneg _ _ hch0, Option.some_bind, bigMod_of_ne _ hp0, Option.map_some']
  have hra' : 0 ≤ ra := le_of_lt hra0
  have hrb' : 0 ≤ rb := le_of_lt hrb0
  have hrs' : 0 ≤ rs := le_of_lt hrs0
  have e1 : Hr ^ ((rs + rd * ch % q) % q).toNat *
        (h1 ^ ((ra + a * ch % q) % q).toNat * (h2 ^ ((rb + b * ch % q) % q).toNat * 1)) % p
      = Hr ^ rs.toNat * (h1 ^ ra.toNat * (h2 ^ rb.toNat * 1)) % p * (d ^ ch.toNat % p) % p := by
    have l1 := pow_resp Hr p q rs rd ch hHr hq hrs' hrd.1 hch0 hqne
    have l2 := pow_resp h1 p q ra a ch hH1 hq hra' ha.1 hch0 hqne
    have l3 := pow_resp h2 p q rb b ch hH2 hq hrb' hb.1 hch0 hqne
    have lhs := l1.mul (l2.mul (l3.mul (Int.ModEq.refl 1)))
    have hdm : d ≡ Hr ^ rd.toNat * (h1 ^ a.toNat * (h2 ^ b.toNat * 1)) [ZMOD p] := by
      rw [← hd]; exact Int.mod_modEq _ _
    have rhs : Hr ^ rs.toNat * (h1 ^ ra.toNat * (h2 ^ rb.toNat * 1)) % p * (d ^ ch.toNat % p)
        ≡ Hr ^ rs.toNat * (h1 ^ ra.toNat * (h2 ^ rb.toNat * 1))
          * (Hr ^ rd.toNat * (h1 ^ a.toNat * (h2 ^ b.toNat * 1))) ^ ch.toNat [ZMOD p] :=
      (Int.mod_modEq _ _).mul ((Int.mod_modEq _ _).trans (hdm.pow _))
    refine lhs.trans (Int.ModEq.trans ?_ rhs.symm)
    have : Hr ^ rs.toNat * (Hr ^ rd.toNat) ^ ch.toNat *
        (h1 ^ ra.toNat * (h1 ^ a.toNat) ^ ch.toNat *
          (h2 ^ rb.toNat * (h2 ^ b.toNat) ^ ch.toNat * 1))
        = Hr ^ rs.toNat * (h1 ^ ra.toNat * (h2 ^ rb.toNat * 1))
          * (Hr ^ rd.toNat * (h1 ^ a.toNat * (h2 ^ b.toNat * 1))) ^ ch.toNat := by ring
    rw [this]
  have e2 : hHat ^ ((rb + b * ch % q) % q).toNat % p
      = hHat ^ rb.toNat % p * (uHat ^ ch.toNat % p) % p := by
    have l3 := pow_resp hHat p q rb b ch hhat hq hrb' hb.1 hch0 hqne
    have hum : uHat ≡ hHat ^ b.toNat [ZMOD p] := by
      rw [← hu]; exact Int.mod_modEq _ _
    have rhs : hHat ^ rb.toNat % p * (uHat ^ ch.toNat % p)
        ≡ hHat ^ rb.toNat * (hHat ^ b.toNat) ^ ch.toNat [ZMOD p] :=
      (Int.mod_modEq _ _).mul ((Int.mod_modEq _ _).trans (hum.pow _))
    exact l3.trans rhs.symm
  rw [if_pos e1, e2]
  simp


theorem PreimageEquality_complete_witness :
    ∃ proof,
      (NewPreimageEqualityProofSystem 9
          (NewPedersenCommitmentScheme (NewGStarModPrime 23 11 0 1) 2 [3, 4])).Generate
        (fun bs => [bs.length % 256]) (fun _ _ => 2) (NewVoter 3 5 18) 3 7 8 "yes" = some proof ∧
      (NewPreimageEqualityProofSystem 9
          (NewPedersenCommitmentScheme (NewGStarModPrime 23 11 0 1) 2 [3, 4])).Verify
        (fun bs => [bs.length % 256]) proof 3 8 "yes" = some true :=
  PreimageEquality_complete (NewPedersenCommitmentScheme (NewGStarModPrime 23 11 0 1) 2 [3, 4])
    9 (NewVoter 3 5 18) 7 3 8 (fun bs => [bs.length % 256]) (fun _ _ => 2) "yes"
    (by show Nat.Prime 23; norm_num) (by decide) (by decide)
    (by decide) (by decide) (by decide) (by decide) (by decide)
    (fun _ => by norm_num [NewPedersenCommitmentScheme, NewGStarModPrime])
    (by decide) (by decide)

end crypto

namespace crypto
/-! ## The double-discrete-log proof system -/


/-! ## Loops over index ranges -/

theorem mapM_eq_some_map {α β : Type} (f : α → Option β) (g : α → β) :
    ∀ (l : List α), (∀ a ∈ l, f a = some (g a)) → l.mapM f = some (l.map g) := by
  intro l
  induction l with
  | nil => intro _; rfl
  | cons a l ih =>
    intro h
    rw [List.mapM_cons, h a (List.mem_cons_self _ _),
      ih (fun b hb => h b (List.mem_cons_of_mem _ hb))]
    rfl

theorem foldlM_range_true (f : Bool → Nat → Option Bool) :
    ∀ (k : Nat), (∀ i, i < k → f true i = some true) →
      (List.range k).foldlM f true = some true := by
  intro k
  induction k with
  | zero => intro _; rfl
  | succ k ih =>
    intro h
    rw [List.range_succ, List.foldlM_append, ih (fun i hi => h i (Nat.lt_succ_of_lt hi))]
    simp [h k (Nat.lt_succ_self k)]

theorem derefAll_map_some : ∀ (l : List Int), derefAll (l.map some) = some l := by
  intro l
  induction l with
  | nil => rfl
  | cons a l ih => simp [derefAll, ih]

theorem getBig_map_some (l : List Int) (i : Nat) : getBig (l.map some) i = l[i]? := by
  simp [getBig, List.getElem?_map]
  cases l[i]? <;> rfl

theorem hProductLoop_eq (g : GStarModPrime) (hmod : g.Modulus ≠ 0) :
    ∀ (hs es : List Int) (acc : Int), es.length = hs.length → (∀ e ∈ es, 0 ≤ e) →
      acc % g.Modulus = acc →
      hProductLoop g hs (es.map some) acc
        = some ((acc * (List.zipWith (fun h e => h ^ e.toNat) hs es).prod) % g.Modulus) := by
  intro hs
  induction hs with
  | nil =>
    intro es acc hlen _ hacc
    cases es with
    | nil => simp [hProductLoop, hacc]
    | cons e es => simp at hlen
  | cons h hs ih =>
    intro es acc hlen hnn hacc
    cases es with
    | nil => simp at hlen
    | cons e es =>
      have he : 0 ≤ e := hnn e (List.mem_cons_self _ _)
      simp only [List.map_cons, hProductLoop, GStarModPrime.Exp, GStarModPrime.Mul,
        bigExp_of_nonneg _ _ he, bigMod_of_ne _ hmod, Option.bind_eq_bind, Option.some_bind]
      rw [ih es _ (by simpa using hlen) (fun x hx => hnn x (List.mem_cons_of_mem _ hx))
        (Int.emod_emod_of_dvd _ (dvd_refl _))]
      congr 1
      simp only [List.zipWith_cons_cons, List.prod_cons]
      have h1 : acc * (h ^ e.toNat % g.Modulus) % g.Modulus ≡ acc * h ^ e.toNat
          [ZMOD g.Modulus] :=
        (Int.mod_modEq _ _).trans ((Int.ModEq.refl _).mul (Int.mod_modEq _ _))
      have h2 := h1.mul_right (List.zipWith (fun h e => h ^ e.toNat) hs es).prod
      rw [mul_assoc acc] at h2
      exact h2

theorem bigBit_cases (x : Int) (i : Nat) : bigBit x i = 0 ∨ bigBit x i = 1 := by
  unfold bigBit
  omega

/-- The response `(rho + (p - (x * c mod p)) mod p) mod p` as an exponent: multiplied by the
power with exponent `x * c` it gives back the power with exponent `rho`. -/
theorem pow_resp_sub (h o p rho x c : Int) (hgen : h ^ p.toNat ≡ 1 [ZMOD o]) (hp : 0 < p)
    (hrho : 0 ≤ rho) (hx : 0 ≤ x) (hc : 0 ≤ c) :
    (h ^ x.toNat) ^ c.toNat * h ^ ((rho + (p - x * c % p) % p) % p).toNat
      ≡ h ^ rho.toNat [ZMOD o] := by
  have hp0 : p ≠ 0 := ne_of_gt hp
  have h1 : 0 ≤ (rho + (p - x * c % p) % p) % p := Int.emod_nonneg _ hp0
  have he : x * c + (rho + (p - x * c % p) % p) % p ≡ rho [ZMOD p] := by
    have e1 : (rho + (p - x * c % p) % p) % p ≡ rho + (p - x * c) [ZMOD p] :=
      (Int.mod_modEq _ _).trans ((Int.ModEq.refl rho).add
        ((Int.mod_modEq _ _).trans ((Int.ModEq.refl p).sub (Int.mod_modEq _ _))))
    have e2 := (Int.ModEq.refl (x * c)).add e1
    refine e2.trans ?_
    have : x * c + (rho + (p - x * c)) = rho + p * 1 := by ring
    rw [this]
    show (rho + p * 1) % p = rho % p
    rw [Int.add_mul_emod_self_left]
  have h2 : 0 ≤ x * c + (rho + (p - x * c % p) % p) % p := by positivity
  have key := pow_toNat_modEq h o p hgen (le_of_lt hp) h2 hrho he
  refine Int.ModEq.trans ?_ key
  generalize (rho + (p - x * c % p) % p) % p = z at h1
  lift x to ℕ using hx
  lift c to ℕ using hc
  lift z to ℕ using h1
  have : ((x : Int) * c + z).toNat = x * c + z := by
    have : ((x : Int) * c + z) = ((x * c + z : ℕ) : Int) := by push_cast; ring
    rw [this, Int.toNat_natCast]
  rw [this, pow_add, pow_mul]
  simp


theorem forall_mem_one {P : Int → Prop} (x : Int) (hx : P x) : ∀ m ∈ [x], P m := by
  intro m hm
  simp only [List.mem_singleton] at hm
  exact hm ▸ hx

theorem forall_mem_two {P : Int → Prop} (x y : Int) (hx : P x) (hy : P y) :
    ∀ m ∈ [x, y], P m := by
  intro m hm
  simp only [List.mem_cons, List.mem_singleton, List.not_mem_nil, or_false] at hm
  rcases hm with h | h
  · exact h ▸ hx
  · exact h ▸ hy

theorem respSub_range (m rho x c : Int) (hm : 0 < m) :
    0 ≤ respSub m rho x c ∧ respSub m rho x c < m :=
  ⟨Int.emod_nonneg _ (ne_of_gt hm), Int.emod_lt_of_pos _ hm⟩

theorem respSub_zero (m rho x : Int) (h0 : 0 ≤ rho) (h1 : rho < m) :
    respSub m rho x 0 = rho := by
  unfold respSub
  simp [Int.emod_eq_of_lt h0 h1]

theorem commitRound_ddSystem (o p q gr gm hr h1 h2 : Int) (r1 r2 r3 r4 k : Nat)
    (rnd : Nat → Int → Int) (i : Nat) (ho : o ≠ 0) (hp : 1 < p) (_hq : 0 < q)
    (hrp : ∀ n, 0 < rnd n p ∧ rnd n p < p) (hrq : ∀ n, 0 < rnd n q ∧ rnd n q < q) :
    (ddSystem o p q gr gm hr h1 h2 r1 r2 r3 r4 k).commitRound rnd i
      = some (ddRound o p q gr gm hr h1 h2 rnd i) := by
  have hp0 : p ≠ 0 := by omega
  have e1 : (1 : Int) % p = 1 := Int.emod_eq_of_lt (by omega) hp
  have hS := hrq (2 + i * 4)
  have hR := hrp (2 + i * 4 + 1)
  have hM0 := hrq (2 + i * 4 + 2)
  have hM1 := hrq (2 + i * 4 + 3)
  have hrange : List.range 2 = [0, 1] := by decide
  simp only [DoubleDiscreteLogProofSystem.commitRound, ddSystem, ZModPrime.RandomElement,
    RandInt, List.length_cons, List.length_nil, hrange, List.map_cons, List.map_nil]
  have hl := hProductLoop_eq ⟨p, q, r3, r4⟩ hp0 [h1, h2]
    [rnd (2 + i * 4 + 2) q, rnd (2 + i * 4 + 3) q] 1 (by simp)
    (forall_mem_two _ _ (le_of_lt hM0.1) (le_of_lt hM1.1)) e1
  simp only [List.map_cons, List.map_nil, List.zipWith_cons_cons, List.zipWith_nil_right,
    List.prod_cons, List.prod_nil] at hl
  have hi : 2 + i * (2 + (0 + 1 + 1)) = 2 + i * 4 := by ring
  have hi3 : 2 + i * 4 + 2 + 1 = 2 + i * 4 + 3 := by ring
  simp only [hi, hi3, Nat.add_zero, hl, Option.bind_eq_bind, Option.some_bind]
  have hHP0 : 0 ≤ (1 * (h1 ^ (rnd (2 + i * 4 + 2) q).toNat *
      (h2 ^ (rnd (2 + i * 4 + 3) q).toNat * 1))) % p := Int.emod_nonneg _ hp0
  have hHP1 : (1 * (h1 ^ (rnd (2 + i * 4 + 2) q).toNat *
      (h2 ^ (rnd (2 + i * 4 + 3) q).toNat * 1))) % p < p := Int.emod_lt_of_pos _ (by omega)
  rw [Commit_eq_of_le _ _ _ ho (by simp) ⟨le_of_lt hR.1, le_of_lt hR.2⟩
      (forall_mem_one _ ⟨hHP0, le_of_lt hHP1⟩),
    Commit_eq_of_le _ _ _ hp0 (by simp) ⟨le_of_lt hS.1, le_of_lt hS.2⟩
      (forall_mem_two _ _ ⟨le_of_lt hM0.1, le_of_lt hM0.2⟩ ⟨le_of_lt hM1.1, le_of_lt hM1.2⟩)]
  simp only [ddRound, List.zipWith_cons_cons, List.zipWith_nil_right, List.prod_cons,
    List.prod_nil, Option.some_bind]

theorem respRound_ddSystem (o p q gr gm hr h1 h2 : Int) (r1 r2 r3 r4 k : Nat)
    (rnd : Nat → Int → Int) (voter : Voter) (r s ch : Int) (i : Nat) (hi : i < k)
    (hp : 1 < p) (hq : 0 < q) :
    (ddSystem o p q gr gm hr h1 h2 r1 r2 r3 r4 k).respRound voter r s ch
        ((List.range k).map (ddRound o p q gr gm hr h1 h2 rnd)) i
      = some (ddResp p q h1 h2 voter.A voter.B r s ch rnd i) := by
  have hp0 : p ≠ 0 := by omega
  have hq0 : q ≠ 0 := by omega
  have e1 : (1 : Int) % p = 1 := Int.emod_eq_of_lt (by omega) hp
  have hget : ((List.range k).map (ddRound o p q gr gm hr h1 h2 rnd))[i]?
      = some (ddRound o p q gr gm hr h1 h2 rnd i) := by
    rw [List.getElem?_map, List.getElem?_range hi]
    rfl
  have hz0 := respSub_range q (rnd (2 + i * 4 + 2) q) voter.A (bigBit ch i) hq
  have hz1 := respSub_range q (rnd (2 + i * 4 + 3) q) voter.B (bigBit ch i) hq
  have hl := hProductLoop_eq ⟨p, q, r3, r4⟩ hp0 [h1, h2]
    [respSub q (rnd (2 + i * 4 + 2) q) voter.A (bigBit ch i),
     respSub q (rnd (2 + i * 4 + 3) q) voter.B (bigBit ch i)] 1 (by simp)
    (forall_mem_two _ _ hz0.1 hz1.1) e1
  simp only [List.map_cons, List.map_nil, List.zipWith_cons_cons, List.zipWith_nil_right,
    List.prod_cons, List.prod_nil] at hl
  simp only [DoubleDiscreteLogProofSystem.respRound, hget, ddSystem, ddRound, ZModPrime.Mul,
    ZModPrime.Add, ZModPrime.AdditiveInvert, bigMod_of_ne _ hp0, bigMod_of_ne _ hq0,
    Option.bind_eq_bind, Option.some_bind, List.getElem?_cons_zero, List.getElem?_cons_succ,
    List.map_cons, List.map_nil]
  change (hProductLoop ⟨p, q, r3, r4⟩ [h1, h2]
    [some (respSub q (rnd (2 + i * 4 + 2) q) voter.A (bigBit ch i)),
     some (respSub q (rnd (2 + i * 4 + 3) q) voter.B (bigBit ch i))] 1).bind _ = _
  rw [hl]
  rfl

theorem respSub_zero_left (m rho c : Int) (h0 : 0 ≤ rho) (h1 : rho < m) :
    respSub m rho 0 c = rho := by
  unfold respSub
  simp [Int.emod_eq_of_lt h0 h1]

theorem pow_toNat_mul (h x y : Int) (hx : 0 ≤ x) (hy : 0 ≤ y) :
    h ^ (x * y).toNat = (h ^ x.toNat) ^ y.toNat := by
  lift x to ℕ using hx
  lift y to ℕ using hy
  have : ((x : Int) * y).toNat = x * y := by
    have : ((x : Int) * y) = ((x * y : ℕ) : Int) := by push_cast; ring
    rw [this, Int.toNat_natCast]
  rw [this, pow_mul]
  simp

theorem pow_respSub (h o p rho x c : Int) (hgen : h ^ p.toNat ≡ 1 [ZMOD o]) (hp : 0 < p)
    (hrho : 0 ≤ rho) (hx : 0 ≤ x) (hc : 0 ≤ c) :
    (h ^ x.toNat) ^ c.toNat * h ^ (respSub p rho x c).toNat ≡ h ^ rho.toNat [ZMOD o] :=
  pow_resp_sub h o p rho x c hgen hp hrho hx hc

theorem verifyRound_ddSystem (o p q gr gm hr h1 h2 : Int) (r1 r2 r3 r4 k : Nat)
    (rnd : Nat → Int → Int) (proof : DdLogProof) (a b u rc rd c d ch : Int) (i : Nat)
    (ho : o ≠ 0) (hp : 1 < p) (hq : 0 < q)
    (hgr : gr ^ p.toNat ≡ 1 [ZMOD o]) (hgm : gm ^ p.toNat ≡ 1 [ZMOD o])
    (hhr : hr ^ q.toNat ≡ 1 [ZMOD p]) (hh1 : h1 ^ q.toNat ≡ 1 [ZMOD p])
    (hh2 : h2 ^ q.toNat ≡ 1 [ZMOD p])
    (hrp : ∀ n, 0 < rnd n p ∧ rnd n p < p) (hrq : ∀ n, 0 < rnd n q ∧ rnd n q < q)
    (ha : 0 ≤ a) (hb : 0 ≤ b) (hrc : 0 ≤ rc) (hrd : 0 ≤ rd)
    (hu : u = (h1 ^ a.toNat * h2 ^ b.toNat) % p)
    (hc : c = (gr ^ rc.toNat * (gm ^ u.toNat * 1)) % o)
    (hd : d = (hr ^ rd.toNat * (h1 ^ a.toNat * (h2 ^ b.toNat * 1))) % p)
    (hT1 : getBig proof.T1Arr i = some (ddRound o p q gr gm hr h1 h2 rnd i).t1)
    (hT2 : getBig proof.T2Arr i = some (ddRound o p q gr gm hr h1 h2 rnd i).t2)
    (hZM : proof.ZMArr[i]? = some ((ddResp p q h1 h2 a b rc rd ch rnd i).zM.map some))
    (hZS : getBig proof.ZSArr i = some (ddResp p q h1 h2 a b rc rd ch rnd i).zS)
    (hZR : getBig proof.ZRArr i = some (ddResp p q h1 h2 a b rc rd ch rnd i).zR) :
    (ddSystem o p q gr gm hr h1 h2 r1 r2 r3 r4 k).verifyRound proof c d ch true i
      = some true := by
  have hp0 : p ≠ 0 := by omega
  have hq0 : q ≠ 0 := by omega
  have hpp : 0 < p := by omega
  have e1 : (1 : Int) % p = 1 := Int.emod_eq_of_lt (by omega) hp
  obtain ⟨hS0, hS1⟩ := hrq (2 + i * 4)
  obtain ⟨hR0, hR1⟩ := hrp (2 + i * 4 + 1)
  obtain ⟨hM00, hM01⟩ := hrq (2 + i * 4 + 2)
  obtain ⟨hM10, hM11⟩ := hrq (2 + i * 4 + 3)
  simp only [ddRound] at hT1 hT2
  simp only [ddResp, List.map_cons, List.map_nil] at hZM hZS hZR
  generalize rnd (2 + i * 4) q = rhoS at *
  generalize rnd (2 + i * 4 + 1) p = rhoR at *
  generalize rnd (2 + i * 4 + 2) q = rho0 at *
  generalize rnd (2 + i * 4 + 3) q = rho1 at *
  have hbit0 : 0 ≤ bigBit ch i := by rcases bigBit_cases ch i with h | h <;> omega
  have hbitc := bigBit_cases ch i
  have hz0 := respSub_range q rho0 a (bigBit ch i) hq
  have hz1 := respSub_range q rho1 b (bigBit ch i) hq
  have hzS := respSub_range q rhoS rd (bigBit ch i) hq
  have hl := hProductLoop_eq ⟨p, q, r3, r4⟩ hp0 [h1, h2]
    [respSub q rho0 a (bigBit ch i), respSub q rho1 b (bigBit ch i)] 1 (by simp)
    (forall_mem_two _ _ hz0.1 hz1.1) e1
  simp only [List.map_cons, List.map_nil, List.zipWith_cons_cons, List.zipWith_nil_right,
    List.prod_cons, List.prod_nil] at hl
  have hcm : PedersenCommitmentScheme.Commit ⟨⟨p, q, r3, r4⟩, hr, [h1, h2]⟩
      (respSub q rhoS rd (bigBit ch i)) [respSub q rho0 a (bigBit ch i), respSub q rho1 b (bigBit ch i)]
      = some ((hr ^ (respSub q rhoS rd (bigBit ch i)).toNat * (h1 ^ (respSub q rho0 a (bigBit ch i)).toNat *
          (h2 ^ (respSub q rho1 b (bigBit ch i)).toNat * 1))) % p) := by
    rw [Commit_eq_of_le _ _ _ hp0 (by simp) ⟨hzS.1, le_of_lt hzS.2⟩
      (forall_mem_two _ _ ⟨hz0.1, le_of_lt hz0.2⟩ ⟨hz1.1, le_of_lt hz1.2⟩)]
    simp only [List.zipWith_cons_cons, List.zipWith_nil_right, List.prod_cons, List.prod_nil]
  have hda : derefAll [some (respSub q rho0 a (bigBit ch i)), some (respSub q rho1 b (bigBit ch i))]
      = some [respSub q rho0 a (bigBit ch i), respSub q rho1 b (bigBit ch i)] :=
    derefAll_map_some [respSub q rho0 a (bigBit ch i), respSub q rho1 b (bigBit ch i)]
  simp only [DoubleDiscreteLogProofSystem.verifyRound, ddSystem, hZS, hZM, hT1, hT2, hZR, hda,
    hcm, hl, GStarModPrime.Exp, GStarModPrime.Mul, bigExp_of_nonneg _ _ hbit0,
    bigMod_of_ne _ hp0, bigMod_of_ne _ ho, Option.bind_eq_bind, Option.some_bind, if_true]
  -- the check of t2[i]
  have hT2eq : hr ^ rhoS.toNat * (h1 ^ rho0.toNat * (h2 ^ rho1.toNat * 1)) % p
      = d ^ (bigBit ch i).toNat % p * (hr ^ (respSub q rhoS rd (bigBit ch i)).toNat *
          (h1 ^ (respSub q rho0 a (bigBit ch i)).toNat * (h2 ^ (respSub q rho1 b (bigBit ch i)).toNat * 1)) % p)
        % p := by
    have l1 := pow_respSub hr p q rhoS rd (bigBit ch i) hhr hq (le_of_lt hS0) hrd hbit0
    have l2 := pow_respSub h1 p q rho0 a (bigBit ch i) hh1 hq (le_of_lt hM00) ha hbit0
    have l3 := pow_respSub h2 p q rho1 b (bigBit ch i) hh2 hq (le_of_lt hM10) hb hbit0
    have hdm : d ≡ hr ^ rd.toNat * (h1 ^ a.toNat * (h2 ^ b.toNat * 1)) [ZMOD p] := by
      rw [hd]; exact Int.mod_modEq _ _
    have rhs : d ^ (bigBit ch i).toNat % p * (hr ^ (respSub q rhoS rd (bigBit ch i)).toNat *
          (h1 ^ (respSub q rho0 a (bigBit ch i)).toNat * (h2 ^ (respSub q rho1 b (bigBit ch i)).toNat * 1)) % p)
        ≡ (hr ^ rd.toNat * (h1 ^ a.toNat * (h2 ^ b.toNat * 1))) ^ (bigBit ch i).toNat *
          (hr ^ (respSub q rhoS rd (bigBit ch i)).toNat *
          (h1 ^ (respSub q rho0 a (bigBit ch i)).toNat * (h2 ^ (respSub q rho1 b (bigBit ch i)).toNat * 1)))
        [ZMOD p] :=
      ((Int.mod_modEq _ _).trans (hdm.pow _)).mul (Int.mod_modEq _ _)
    have lhs := l1.mul (l2.mul (l3.mul (Int.ModEq.refl 1)))
    refine Int.ModEq.trans ?_ rhs.symm
    refine Int.ModEq.trans lhs.symm ?_
    have : (hr ^ rd.toNat) ^ (bigBit ch i).toNat * hr ^ (respSub q rhoS rd (bigBit ch i)).toNat *
        ((h1 ^ a.toNat) ^ (bigBit ch i).toNat * h1 ^ (respSub q rho0 a (bigBit ch i)).toNat *
          ((h2 ^ b.toNat) ^ (bigBit ch i).toNat * h2 ^ (respSub q rho1 b (bigBit ch i)).toNat * 1))
        = (hr ^ rd.toNat * (h1 ^ a.toNat * (h2 ^ b.toNat * 1))) ^ (bigBit ch i).toNat *
          (hr ^ (respSub q rhoS rd (bigBit ch i)).toNat *
          (h1 ^ (respSub q rho0 a (bigBit ch i)).toNat * (h2 ^ (respSub q rho1 b (bigBit ch i)).toNat * 1))) := by
      ring
    rw [this]
  simp only [hT2eq, decide_True, if_true]
  rcases hbitc with hbit | hbit
  · -- bit 0: the responses are the random values themselves
    simp only [hbit, if_true, respSub_zero q _ _ (le_of_lt hM00) hM01,
      respSub_zero q _ _ (le_of_lt hM10) hM11, zero_mul, Int.zero_emod,
      respSub_zero_left p _ _ (le_of_lt hR0) hR1]
    rw [Commit_eq_of_le _ _ _ ho (by simp) ⟨le_of_lt hR0, le_of_lt hR1⟩
      (forall_mem_one _ ⟨Int.emod_nonneg _ hp0, le_of_lt (Int.emod_lt_of_pos _ hpp)⟩)]
    simp only [List.zipWith_cons_cons, List.zipWith_nil_right, List.prod_cons, List.prod_nil,
      Option.some_bind, decide_True]
  · -- bit 1
    have hne : ¬ (bigBit ch i) = 0 := by omega
    have hHP0 : 0 ≤ 1 * (h1 ^ (respSub q rho0 a (bigBit ch i)).toNat *
        (h2 ^ (respSub q rho1 b (bigBit ch i)).toNat * 1)) % p := Int.emod_nonneg _ hp0
    have hHP1 : 1 * (h1 ^ (respSub q rho0 a (bigBit ch i)).toNat *
        (h2 ^ (respSub q rho1 b (bigBit ch i)).toNat * 1)) % p < p := Int.emod_lt_of_pos _ hpp
    have hzR := respSub_range p rhoR ((bigBit ch i) * (1 * (h1 ^ (respSub q rho0 a (bigBit ch i)).toNat *
        (h2 ^ (respSub q rho1 b (bigBit ch i)).toNat * 1)) % p) % p) rc hpp
    simp only [if_neg hne, bigExp_of_nonneg _ _ hHP0, bigExp_of_nonneg _ _ hzR.1,
      Option.some_bind]
    congr 1
    rw [decide_eq_true_eq]
    generalize hHPdef : 1 * (h1 ^ (respSub q rho0 a (bigBit ch i)).toNat *
        (h2 ^ (respSub q rho1 b (bigBit ch i)).toNat * 1)) % p = HP at *
    have hx : (bigBit ch i) * HP % p = HP := by
      rw [hbit, one_mul]; exact Int.emod_eq_of_lt hHP0 hHP1
    rw [hx]
    have hu0 : 0 ≤ u := by rw [hu]; exact Int.emod_nonneg _ hp0
    -- the exponent of gm
    have hexp : u * HP ≡ 1 * (h1 ^ rho0.toNat * (h2 ^ rho1.toNat * 1)) % p [ZMOD p] := by
      have l2 := pow_respSub h1 p q rho0 a (bigBit ch i) hh1 hq (le_of_lt hM00) ha hbit0
      have l3 := pow_respSub h2 p q rho1 b (bigBit ch i) hh2 hq (le_of_lt hM10) hb hbit0
      have hb1 : (bigBit ch i).toNat = 1 := by rw [hbit]; rfl
      rw [hb1, pow_one] at l2 l3
      have hum : u ≡ h1 ^ a.toNat * h2 ^ b.toNat [ZMOD p] := by
        rw [hu]; exact Int.mod_modEq _ _
      have hHPm : HP ≡ 1 * (h1 ^ (respSub q rho0 a (bigBit ch i)).toNat *
          (h2 ^ (respSub q rho1 b (bigBit ch i)).toNat * 1)) [ZMOD p] := by
        rw [← hHPdef]; exact Int.mod_modEq _ _
      refine (hum.mul hHPm).trans (Int.ModEq.trans ?_ (Int.mod_modEq _ _).symm)
      have : h1 ^ a.toNat * h2 ^ b.toNat * (1 * (h1 ^ (respSub q rho0 a (bigBit ch i)).toNat *
          (h2 ^ (respSub q rho1 b (bigBit ch i)).toNat * 1)))
          = (h1 ^ a.toNat * h1 ^ (respSub q rho0 a (bigBit ch i)).toNat) *
            (h2 ^ a.toNat * 0 + h2 ^ b.toNat * h2 ^ (respSub q rho1 b (bigBit ch i)).toNat) := by ring
      rw [this]
      have := l2.mul l3
      simpa using this
    have hgmpow : (gm ^ u.toNat) ^ HP.toNat
        ≡ gm ^ (1 * (h1 ^ rho0.toNat * (h2 ^ rho1.toNat * 1)) % p).toNat [ZMOD o] := by
      rw [← pow_toNat_mul gm u HP hu0 hHP0]
      exact pow_toNat_modEq gm o p hgm (le_of_lt hpp) (mul_nonneg hu0 hHP0)
        (Int.emod_nonneg _ hp0) hexp
    have hgrpow := pow_respSub gr o p rhoR HP rc hgr hpp (le_of_lt hR0) hHP0 hrc
    have hcm2 : c ≡ gr ^ rc.toNat * (gm ^ u.toNat * 1) [ZMOD o] := by
      rw [hc]; exact Int.mod_modEq _ _
    have rhs : c ^ HP.toNat % o * (gr ^ (respSub p rhoR HP rc).toNat % o)
        ≡ (gr ^ rc.toNat * (gm ^ u.toNat * 1)) ^ HP.toNat * gr ^ (respSub p rhoR HP rc).toNat
        [ZMOD o] :=
      ((Int.mod_modEq _ _).trans (hcm2.pow _)).mul (Int.mod_modEq _ _)
    refine Int.ModEq.trans ?_ rhs.symm
    have lhs := hgrpow.mul (hgmpow.mul (Int.ModEq.refl 1))
    refine lhs.symm.trans ?_
    have : (gr ^ HP.toNat) ^ rc.toNat * gr ^ (respSub p rhoR HP rc).toNat *
        ((gm ^ u.toNat) ^ HP.toNat * 1)
        = (gr ^ rc.toNat * (gm ^ u.toNat * 1)) ^ HP.toNat * gr ^ (respSub p rhoR HP rc).toNat := by
      rw [← pow_mul, ← pow_mul, mul_pow, mul_pow, ← pow_mul, ← pow_mul, mul_comm HP.toNat]
      ring
    rw [this]

theorem Generate_ddSystem (o p q gr gm hr h1 h2 : Int) (r1 r2 r3 r4 k : Nat)
    (rnd : Nat → Int → Int) (a b u rc rd c d : Int) (sha256 : List Nat → List Nat)
    (vote : String) (ho : o ≠ 0) (hp : 1 < p) (hq : 0 < q)
    (hrp : ∀ n, 0 < rnd n p ∧ rnd n p < p) (hrq : ∀ n, 0 < rnd n q ∧ rnd n q < q) :
    (ddSystem o p q gr gm hr h1 h2 r1 r2 r3 r4 k).Generate sha256 rnd ⟨a, b, u⟩ c rc d rd vote
      = some (ddProof o p q gr gm hr h1 h2 k a b u rc rd c d sha256 rnd vote) := by
  have hp0 : p ≠ 0 := by omega
  have hrounds := mapM_eq_some_map
    ((ddSystem o p q gr gm hr h1 h2 r1 r2 r3 r4 k).commitRound rnd)
    (ddRound o p q gr gm hr h1 h2 rnd) (List.range k)
    (fun i _ => commitRound_ddSystem o p q gr gm hr h1 h2 r1 r2 r3 r4 k rnd i ho hp hq hrp hrq)
  have hresps := fun ch => mapM_eq_some_map
    ((ddSystem o p q gr gm hr h1 h2 r1 r2 r3 r4 k).respRound ⟨a, b, u⟩ rc rd ch
      ((List.range k).map (ddRound o p q gr gm hr h1 h2 rnd)))
    (ddResp p q h1 h2 a b rc rd ch rnd) (List.range k)
    (fun i hi => respRound_ddSystem o p q gr gm hr h1 h2 r1 r2 r3 r4 k rnd ⟨a, b, u⟩ rc rd ch i
      (List.mem_range.mp hi) hp hq)
  have hsys : (ddSystem o p q gr gm hr h1 h2 r1 r2 r3 r4 k).SecurityParam = k := rfl
  have ht : (ddSystem o p q gr gm hr h1 h2 r1 r2 r3 r4 k).CommSchemeInGp.Commit
      ((ddSystem o p q gr gm hr h1 h2 r1 r2 r3 r4 k).zp.RandomElement rnd 1)
      [(ddSystem o p q gr gm hr h1 h2 r1 r2 r3 r4 k).zp.RandomElement rnd 0]
      = some (ddT o p gr gm rnd) := by
    have h0 := hrp 0
    have h1 := hrp 1
    simp only [ddSystem, ZModPrime.RandomElement, RandInt]
    rw [Commit_eq_of_le _ _ _ ho (by simp) ⟨le_of_lt h1.1, le_of_lt h1.2⟩
      (forall_mem_one _ ⟨le_of_lt h0.1, le_of_lt h0.2⟩)]
    simp only [ddT, List.zipWith_cons_cons, List.zipWith_nil_right, List.prod_cons,
      List.prod_nil]
  have hch : (ddSystem o p q gr gm hr h1 h2 r1 r2 r3 r4 k).generateChallenge sha256 c d
      (ddT o p gr gm rnd)
      (((List.range k).map (ddRound o p q gr gm hr h1 h2 rnd)).map (fun x => x.t1))
      (((List.range k).map (ddRound o p q gr gm hr h1 h2 rnd)).map (fun x => x.t2)) vote
      = some (ddCh o p q gr gm hr h1 h2 k c d sha256 rnd vote) := by
    simp only [DoubleDiscreteLogProofSystem.generateChallenge, hashToChallenge, ddSystem,
      bigMod_of_ne _ hp0, ddCh]
  simp only [DoubleDiscreteLogProofSystem.Generate, hsys, ht, hrounds, hch, hresps,
    Option.bind_eq_bind, Option.some_bind]
  simp only [ddSystem, ZModPrime.RandomElement, RandInt, ZModPrime.Mul, ZModPrime.Add,
    ZModPrime.AdditiveInvert, bigMod_of_ne _ hp0, Option.some_bind]
  rfl

theorem getBig_map_fun {α : Type} (f : α → Int) (l : List α) (i : Nat) :
    getBig (l.map (fun x => some (f x))) i = (l[i]?).map f := by
  simp only [getBig, List.getElem?_map]
  cases l[i]? <;> rfl

theorem Verify_ddProof (o p q gr gm hr h1 h2 : Int) (r1 r2 r3 r4 k : Nat)
    (rnd : Nat → Int → Int) (a b u rc rd c d : Int) (sha256 : List Nat → List Nat)
    (vote : String) (ho : o ≠ 0) (hp : 1 < p) (hq : 0 < q)
    (hgr : gr ^ p.toNat ≡ 1 [ZMOD o]) (hgm : gm ^ p.toNat ≡ 1 [ZMOD o])
    (hhr : hr ^ q.toNat ≡ 1 [ZMOD p]) (hh1 : h1 ^ q.toNat ≡ 1 [ZMOD p])
    (hh2 : h2 ^ q.toNat ≡ 1 [ZMOD p])
    (hrp : ∀ n, 0 < rnd n p ∧ rnd n p < p) (hrq : ∀ n, 0 < rnd n q ∧ rnd n q < q)
    (ha : 0 ≤ a) (hb : 0 ≤ b) (hrc : 0 ≤ rc) (hrd : 0 ≤ rd)
    (hu : u = (h1 ^ a.toNat * h2 ^ b.toNat) % p)
    (hc : c = (gr ^ rc.toNat * (gm ^ u.toNat * 1)) % o)
    (hd : d = (hr ^ rd.toNat * (h1 ^ a.toNat * (h2 ^ b.toNat * 1))) % p) :
    (ddSystem o p q gr gm hr h1 h2 r1 r2 r3 r4 k).Verify sha256
        (ddProof o p q gr gm hr h1 h2 k a b u rc rd c d sha256 rnd vote) c d vote
      = some true := by
  have hp0 : p ≠ 0 := by omega
  have hpp : 0 < p := by omega
  have hu0 : 0 ≤ u := by rw [hu]; exact Int.emod_nonneg _ hp0
  have hch0 : 0 ≤ ddCh o p q gr gm hr h1 h2 k c d sha256 rnd vote := Int.emod_nonneg _ hp0
  have hsys : (ddSystem o p q gr gm hr h1 h2 r1 r2 r3 r4 k).SecurityParam = k := rfl
  have hch : (ddSystem o p q gr gm hr h1 h2 r1 r2 r3 r4 k).generateChallenge sha256 c d
      (ddT o p gr gm rnd)
      (((List.range k).map (ddRound o p q gr gm hr h1 h2 rnd)).map (fun x => x.t1))
      (((List.range k).map (ddRound o p q gr gm hr h1 h2 rnd)).map (fun x => x.t2)) vote
      = some (ddCh o p q gr gm hr h1 h2 k c d sha256 rnd vote) := by
    simp only [DoubleDiscreteLogProofSystem.generateChallenge, hashToChallenge, ddSystem,
      bigMod_of_ne _ hp0, ddCh]
  have hzX := respSub_range p (rnd 0 p) u (ddCh o p q gr gm hr h1 h2 k c d sha256 rnd vote) hpp
  have hzR := respSub_range p (rnd 1 p) rc (ddCh o p q gr gm hr h1 h2 k c d sha256 rnd vote) hpp
  have hcm : (ddSystem o p q gr gm hr h1 h2 r1 r2 r3 r4 k).CommSchemeInGp.Commit
      (respSub p (rnd 1 p) rc (ddCh o p q gr gm hr h1 h2 k c d sha256 rnd vote))
      [respSub p (rnd 0 p) u (ddCh o p q gr gm hr h1 h2 k c d sha256 rnd vote)]
      = some ((gr ^ (respSub p (rnd 1 p) rc
            (ddCh o p q gr gm hr h1 h2 k c d sha256 rnd vote)).toNat *
          (gm ^ (respSub p (rnd 0 p) u
            (ddCh o p q gr gm hr h1 h2 k c d sha256 rnd vote)).toNat * 1)) % o) := by
    simp only [ddSystem]
    rw [Commit_eq_of_le _ _ _ ho (by simp) ⟨hzR.1, le_of_lt hzR.2⟩
      (forall_mem_one _ ⟨hzX.1, le_of_lt hzX.2⟩)]
    simp only [List.zipWith_cons_cons, List.zipWith_nil_right, List.prod_cons, List.prod_nil]
  have hrounds : ∀ i, i < k →
      (ddSystem o p q gr gm hr h1 h2 r1 r2 r3 r4 k).verifyRound
        (ddProof o p q gr gm hr h1 h2 k a b u rc rd c d sha256 rnd vote) c d
        (ddCh o p q gr gm hr h1 h2 k c d sha256 rnd vote) true i = some true := by
    intro i hi
    apply verifyRound_ddSystem o p q gr gm hr h1 h2 r1 r2 r3 r4 k rnd _ a b u rc rd c d _ i
      ho hp hq hgr hgm hhr hh1 hh2 hrp hrq ha hb hrc hrd hu hc hd
    · simp only [ddProof, getBig_map_some, List.getElem?_map, List.getElem?_range hi,
        Option.map_some']
    · simp only [ddProof, getBig_map_some, List.getElem?_map, List.getElem?_range hi,
        Option.map_some']
    · simp only [ddProof, List.getElem?_map, List.getElem?_range hi, Option.map_some']
    · simp only [ddProof, getBig_map_fun, List.getElem?_map, List.getElem?_range hi,
        Option.map_some']
    · simp only [ddProof, getBig_map_fun, List.getElem?_map, List.getElem?_range hi,
        Option.map_some']
  -- the check of t
  have hT : ddT o p gr gm rnd
      = c ^ (ddCh o p q gr gm hr h1 h2 k c d sha256 rnd vote).toNat % o *
        ((gr ^ (respSub p (rnd 1 p) rc
            (ddCh o p q gr gm hr h1 h2 k c d sha256 rnd vote)).toNat *
          (gm ^ (respSub p (rnd 0 p) u
            (ddCh o p q gr gm hr h1 h2 k c d sha256 rnd vote)).toNat * 1)) % o) % o := by
    generalize ddCh o p q gr gm hr h1 h2 k c d sha256 rnd vote = ch at hch0
    have l1 := pow_respSub gr o p (rnd 1 p) rc ch hgr hpp (le_of_lt (hrp 1).1) hrc hch0
    have l2 := pow_respSub gm o p (rnd 0 p) u ch hgm hpp (le_of_lt (hrp 0).1) hu0 hch0
    have hcm2 : c ≡ gr ^ rc.toNat * (gm ^ u.toNat * 1) [ZMOD o] := by
      rw [hc]; exact Int.mod_modEq _ _
    have rhs : c ^ ch.toNat % o * ((gr ^ (respSub p (rnd 1 p) rc ch).toNat *
          (gm ^ (respSub p (rnd 0 p) u ch).toNat * 1)) % o)
        ≡ (gr ^ rc.toNat * (gm ^ u.toNat * 1)) ^ ch.toNat *
          (gr ^ (respSub p (rnd 1 p) rc ch).toNat *
          (gm ^ (respSub p (rnd 0 p) u ch).toNat * 1)) [ZMOD o] :=
      ((Int.mod_modEq _ _).trans (hcm2.pow _)).mul (Int.mod_modEq _ _)
    unfold ddT
    refine Int.ModEq.trans ?_ rhs.symm
    refine Int.ModEq.trans (l1.mul (l2.mul (Int.ModEq.refl 1))).symm ?_
    have : (gr ^ rc.toNat) ^ ch.toNat * gr ^ (respSub p (rnd 1 p) rc ch).toNat *
        ((gm ^ u.toNat) ^ ch.toNat * gm ^ (respSub p (rnd 0 p) u ch).toNat * 1)
        = (gr ^ rc.toNat * (gm ^ u.toNat * 1)) ^ ch.toNat *
          (gr ^ (respSub p (rnd 1 p) rc ch).toNat *
          (gm ^ (respSub p (rnd 0 p) u ch).toNat * 1)) := by ring
    rw [this]
  have hv := foldlM_range_true (fun v i =>
    (ddSystem o p q gr gm hr h1 h2 r1 r2 r3 r4 k).verifyRound
      (ddProof o p q gr gm hr h1 h2 k a b u rc rd c d sha256 rnd vote) c d
      (ddCh o p q gr gm hr h1 h2 k c d sha256 rnd vote) v i) k hrounds
  have hP : ∀ x, (ddProof o p q gr gm hr h1 h2 k a b u rc rd c d sha256 rnd vote) = x →
      (ddSystem o p q gr gm hr h1 h2 r1 r2 r3 r4 k).Verify sha256 x c d vote = some true := by
    intro x hx
    have e1 : x.T = some (ddT o p gr gm rnd) := by rw [← hx]; rfl
    have e2 : x.T1Arr = (((List.range k).map (ddRound o p q gr gm hr h1 h2 rnd)).map
        (fun x => x.t1)).map some := by rw [← hx]; rfl
    have e3 : x.T2Arr = (((List.range k).map (ddRound o p q gr gm hr h1 h2 rnd)).map
        (fun x => x.t2)).map some := by rw [← hx]; rfl
    have e4 : x.ZR = some (respSub p (rnd 1 p) rc
        (ddCh o p q gr gm hr h1 h2 k c d sha256 rnd vote)) := by rw [← hx]; rfl
    have e5 : x.ZX = some (respSub p (rnd 0 p) u
        (ddCh o p q gr gm hr h1 h2 k c d sha256 rnd vote)) := by rw [← hx]; rfl
    have hgpE : (ddSystem o p q gr gm hr h1 h2 r1 r2 r3 r4 k).gp.Exp c
        (ddCh o p q gr gm hr h1 h2 k c d sha256 rnd vote)
        = some (c ^ (ddCh o p q gr gm hr h1 h2 k c d sha256 rnd vote).toNat % o) :=
      bigExp_of_nonneg _ _ hch0
    have hgpM : ∀ x y, (ddSystem o p q gr gm hr h1 h2 r1 r2 r3 r4 k).gp.Mul x y
        = some (x * y % o) := fun x y => bigMod_of_ne _ ho
    simp only [DoubleDiscreteLogProofSystem.Verify, e1, e2, e3, e4, e5, derefAll_map_some, hch,
      hcm, hgpE, hgpM, hsys, Option.bind_eq_bind, Option.some_bind, ← hT, decide_True]
    rw [← hx]
    exact hv
  exact hP _ rfl

/-- C2: completeness of the double-discrete-log proof. For o, p, q prime with q | p-1 and
p | o-1, a G_p scheme (modulus o, order p) with generators of order p modulo o and one message
generator gm, a G_q scheme (modulus p, order q) with generators of order q modulo p and the two
message generators h1 and h2, a security parameter k with 2^k < p, every voter (a, b, u) with
a, b in `[0, q)` and `u = h1^a * h2^b mod p`, every r_c in `[0, p)` and r_d in `[0, q)`,
`c = Commit_Gp(r_c; u)`, `d = Commit_Gq(r_d; a, b)`, every outcome of the random draws (each in
`(0, m)` for the ring modulus m it is drawn from), every vote and every hash function: the
constructor returns a proof system, `Generate` returns a proof and `Verify` returns true on
it. -/
theorem DoubleDiscreteLog_complete (commP commQ : PedersenCommitmentScheme) (k : Nat)
    (gm h1 h2 : Int) (voter : Voter) (rc rd c d : Int) (sha256 : List Nat → List Nat)
    (rnd : Nat → Int → Int) (vote : String)
    (_ho : Nat.Prime commP.G.Modulus.toNat) (hp : Nat.Prime commP.G.Order.toNat)
    (hq : Nat.Prime commQ.G.Order.toNat)
    (hqp : commQ.G.Order ∣ commP.G.Order - 1) (_hpo : commP.G.Order ∣ commP.G.Modulus - 1)
    (hmod : commQ.G.Modulus = commP.G.Order) (hk : 2 ^ k < commP.G.Order)
    (hPm : commP.Hm = [gm]) (hQm : commQ.Hm = [h1, h2])
    (hPgen : ∀ h ∈ commP.Hr :: commP.Hm,
      h ^ commP.G.Order.toNat ≡ 1 [ZMOD commP.G.Modulus])
    (hQgen : ∀ h ∈ commQ.Hr :: commQ.Hm,
      h ^ commQ.G.Order.toNat ≡ 1 [ZMOD commQ.G.Modulus])
    (ha : 0 ≤ voter.A ∧ voter.A < commQ.G.Order) (hb : 0 ≤ voter.B ∧ voter.B < commQ.G.Order)
    (hu : voter.U = (h1 ^ voter.A.toNat * h2 ^ voter.B.toNat) % commQ.G.Modulus)
    (hrc : 0 ≤ rc ∧ rc < commP.G.Order) (hrd : 0 ≤ rd ∧ rd < commQ.G.Order)
    (hc : commP.Commit rc [voter.U] = some c)
    (hd : commQ.Commit rd [voter.A, voter.B] = some d)
    (hrp : ∀ n, 0 < rnd n commP.G.Order ∧ rnd n commP.G.Order < commP.G.Order)
    (hrq : ∀ n, 0 < rnd n commQ.G.Order ∧ rnd n commQ.G.Order < commQ.G.Order) :
    ∃ ps proof, NewDoubleDiscreteLogProofSystem commP commQ k = some ps ∧
      ps.Generate sha256 rnd voter c rc d rd vote = some proof ∧
      ps.Verify sha256 proof c d vote = some true := by
  obtain ⟨⟨o, p, r1, r2⟩, gr, HmP⟩ := commP
  obtain ⟨⟨p', q, r3, r4⟩, hr, HmQ⟩ := commQ
  obtain ⟨a, b, u⟩ := voter
  simp only at _ho hp hq hqp _hpo hmod hk hPm hQm hPgen hQgen ha hb hu hrc hrd hc hd hrp hrq
  subst hmod hPm hQm
  have hp1 : 1 < p' := by have := hp.one_lt; omega
  have hpp : 0 < p' := by omega
  have hp0 : p' ≠ 0 := by omega
  have hq1 : 0 < q := by have := hq.one_lt; omega
  have ho0 : o ≠ 0 := by
    have := _ho.one_lt
    omega
  have hgr := hPgen gr (by simp)
  have hgm := hPgen gm (by simp)
  have hhr := hQgen hr (by simp)
  have hh1 := hQgen h1 (by simp)
  have hh2 := hQgen h2 (by simp)
  have hu0 : 0 ≤ u := by rw [hu]; exact Int.emod_nonneg _ hp0
  have hu1 : u < p' := by rw [hu]; exact Int.emod_lt_of_pos _ hpp
  rw [Commit_eq_of_le _ _ _ ho0 (by simp) ⟨hrc.1, le_of_lt hrc.2⟩
    (forall_mem_one _ ⟨hu0, le_of_lt hu1⟩)] at hc
  rw [Commit_eq_of_le _ _ _ hp0 (by simp) ⟨hrd.1, le_of_lt hrd.2⟩
    (forall_mem_two _ _ ⟨ha.1, le_of_lt ha.2⟩ ⟨hb.1, le_of_lt hb.2⟩)] at hd
  simp only [List.zipWith_cons_cons, List.zipWith_nil_right, List.prod_cons, List.prod_nil,
    Option.some.injEq] at hc hd
  -- the constructor
  have hnew : NewDoubleDiscreteLogProofSystem ⟨⟨o, p', r1, r2⟩, gr, [gm]⟩
      ⟨⟨p', q, r3, r4⟩, hr, [h1, h2]⟩ k
      = some (ddSystem o p' q gr gm hr h1 h2 r1 r2 r3 r4 k) := by
    have hg : ((Int.gcd (p' - 1) q : Nat) : Int) = q := by
      rw [Int.gcd_eq_right hqp]
      exact Int.natAbs_of_nonneg (le_of_lt hq1)
    simp only [NewDoubleDiscreteLogProofSystem, hg, ne_eq, not_true_eq_false, if_false,
      not_le.mpr hk, GStarModPrime.ZModOrder, NewZModPrime, ddSystem]
  exact ⟨_, _, hnew,
    Generate_ddSystem o p' q gr gm hr h1 h2 r1 r2 r3 r4 k rnd a b u rc rd c d sha256 vote ho0 hp1
      hq1 hrp hrq,
    Verify_ddProof o p' q gr gm hr h1 h2 r1 r2 r3 r4 k rnd a b u rc rd c d sha256 vote ho0 hp1
      hq1 hgr hgm hhr hh1 hh2 hrp hrq ha.1 hb.1 hrc.1 hrd.1 hu
      (by rw [← hc]) (by rw [← hd])⟩


theorem DoubleDiscreteLog_complete_witness :
    ∃ ps proof,
      NewDoubleDiscreteLogProofSystem
        (NewPedersenCommitmentScheme (NewGStarModPrime 47 23 0 1) 4 [9])
        (NewPedersenCommitmentScheme (NewGStarModPrime 23 11 1 2) 2 [3, 4]) 4 = some ps ∧
      ps.Generate (fun bs => [bs.length % 256, 7]) (fun n _ => ((n % 5 : Nat) : Int) + 1)
        (NewVoter 3 5 2) 36 5 3 7 "yes" = some proof ∧
      ps.Verify (fun bs => [bs.length % 256, 7]) proof 36 3 "yes" = some true :=
  DoubleDiscreteLog_complete (NewPedersenCommitmentScheme (NewGStarModPrime 47 23 0 1) 4 [9])
    (NewPedersenCommitmentScheme (NewGStarModPrime 23 11 1 2) 2 [3, 4]) 4 9 3 4
    (NewVoter 3 5 2) 5 7 36 3 (fun bs => [bs.length % 256, 7])
    (fun n _ => ((n % 5 : Nat) : Int) + 1) "yes"
    (by show Nat.Prime 47; norm_num) (by show Nat.Prime 23; norm_num)
    (by show Nat.Prime 11; norm_num) (by decide) (by decide) (by decide) (by decide)
    (by decide) (by decide) (by decide) (by decide) (by decide) (by decide) (by decide)
    (by decide) (by decide) (by decide) (by decide)
    (fun n => by simp only [NewPedersenCommitmentScheme, NewGStarModPrime]; omega)
    (fun n => by simp only [NewPedersenCommitmentScheme, NewGStarModPrime]; omega)

end crypto

namespace crypto


/-! ## Coefficient lists -/

theorem coeffAt_eq_getD : ∀ (l : List Int) (k : Nat), coeffAt l k = l.getD k 0 := by
  intro l
  induction l with
  | nil => intro k; simp [coeffAt]
  | cons a l ih =>
    intro k
    cases k with
    | zero => simp [coeffAt]
    | succ k => simpa [coeffAt] using ih k

theorem coeffAt_of_le : ∀ (l : List Int) (k : Nat), l.length ≤ k → coeffAt l k = 0 := by
  intro l
  induction l with
  | nil => intro k _; rfl
  | cons a l ih =>
    intro k hk
    cases k with
    | zero => simp at hk
    | succ k => exact ih k (by simpa using hk)

theorem coeffAt_tail (l : List Int) (k : Nat) : coeffAt l.tail k = coeffAt l (k + 1) := by
  cases l <;> rfl

theorem evalFrom_head_tail (x : Int) (j : Nat) (l : List Int) :
    evalFrom x j l = coeffAt l 0 * x ^ j + evalFrom x (j + 1) l.tail := by
  cases l <;> simp [evalFrom, coeffAt]

/-- Coefficient lists whose coefficients add up index by index modulo m have values that add
up modulo m. -/
theorem evalFrom_congr_add (m x : Int) :
    ∀ (n j : Nat) (l1 l2 l3 : List Int), l1.length ≤ n → l2.length ≤ n → l3.length ≤ n →
      (∀ k, coeffAt l1 k ≡ coeffAt l2 k + coeffAt l3 k [ZMOD m]) →
      evalFrom x j l1 ≡ evalFrom x j l2 + evalFrom x j l3 [ZMOD m] := by
  intro n
  induction n with
  | zero =>
    intro j l1 l2 l3 h1 h2 h3 _
    have e1 : l1 = [] := List.length_eq_zero.mp (Nat.le_zero.mp h1)
    have e2 : l2 = [] := List.length_eq_zero.mp (Nat.le_zero.mp h2)
    have e3 : l3 = [] := List.length_eq_zero.mp (Nat.le_zero.mp h3)
    subst e1 e2 e3
    simp [evalFrom, Int.ModEq]
  | succ n ih =>
    intro j l1 l2 l3 h1 h2 h3 hk
    rw [evalFrom_head_tail x j l1, evalFrom_head_tail x j l2, evalFrom_head_tail x j l3]
    have htl := ih (j + 1) l1.tail l2.tail l3.tail (by simp; omega) (by simp; omega)
      (by simp; omega) (fun k => by simpa [coeffAt_tail] using hk (k + 1))
    have hhd := (hk 0).mul_right (x ^ j)
    have := hhd.add htl
    refine this.trans ?_
    have e : (coeffAt l2 0 + coeffAt l3 0) * x ^ j +
        (evalFrom x (j + 1) l2.tail + evalFrom x (j + 1) l3.tail)
        = coeffAt l2 0 * x ^ j + evalFrom x (j + 1) l2.tail +
          (coeffAt l3 0 * x ^ j + evalFrom x (j + 1) l3.tail) := by ring
    rw [e]

theorem evalAt_congr_add (m x : Int) (l1 l2 l3 : List Int)
    (h : ∀ k, coeffAt l1 k ≡ coeffAt l2 k + coeffAt l3 k [ZMOD m]) :
    evalAt l1 x ≡ evalAt l2 x + evalAt l3 x [ZMOD m] :=
  evalFrom_congr_add m x (max l1.length (max l2.length l3.length)) 0 l1 l2 l3
    (by omega) (by omega) (by omega) h

theorem evalFrom_shift (x : Int) : ∀ (l : List Int) (j : Nat),
    evalFrom x (j + 1) l = x * evalFrom x j l := by
  intro l
  induction l with
  | nil => intro j; simp [evalFrom]
  | cons a l ih =>
    intro j
    simp only [evalFrom, ih (j + 1)]
    ring

theorem evalAt_cons (x a : Int) (l : List Int) : evalAt (a :: l) x = a + x * evalAt l x := by
  simp [evalAt, evalFrom, evalFrom_shift]

theorem evalAt_nil (x : Int) : evalAt [] x = 0 := rfl

/-- Coefficient lists with the same coefficients modulo m have the same value modulo m. -/
theorem evalAt_congr (m x : Int) (l1 l2 : List Int)
    (h : ∀ k, coeffAt l1 k ≡ coeffAt l2 k [ZMOD m]) : evalAt l1 x ≡ evalAt l2 x [ZMOD m] := by
  have := evalAt_congr_add m x l1 l2 [] (fun k => by simpa [coeffAt] using h k)
  simpa [evalAt_nil] using this

theorem evalAt_mulLin (m b0 b1 x : Int) : ∀ (l : List Int) (carry : Int),
    evalAt (mulLin m b0 b1 carry l) x ≡ carry + evalAt l x * (b0 + b1 * x) [ZMOD m] := by
  intro l
  induction l with
  | nil => intro carry; simp [mulLin, evalAt_cons, evalAt_nil, Int.ModEq]
  | cons a l ih =>
    intro carry
    simp only [mulLin, evalAt_cons]
    have h1 : (carry + a * b0 % m) % m ≡ carry + a * b0 [ZMOD m] :=
      (Int.mod_modEq _ _).trans ((Int.ModEq.refl _).add (Int.mod_modEq _ _))
    have h2 : (0 + a * b1 % m) % m ≡ a * b1 [ZMOD m] :=
      (Int.mod_modEq _ _).trans (by simpa using Int.mod_modEq (a * b1) m)
    have h3 := (ih ((0 + a * b1 % m) % m)).trans (h2.add (Int.ModEq.refl _))
    have := h1.add ((Int.ModEq.refl x).mul h3)
    refine this.trans ?_
    have e : carry + a * b0 + x * (a * b1 + evalAt l x * (b0 + b1 * x))
        = carry + (a + x * evalAt l x) * (b0 + b1 * x) := by ring
    rw [e]

theorem length_mulLin (m b0 b1 : Int) : ∀ (l : List Int) (carry : Int),
    (mulLin m b0 b1 carry l).length = l.length + 1 := by
  intro l
  induction l with
  | nil => intro carry; rfl
  | cons a l ih => intro carry; simp [mulLin, ih]

/-- The last coefficient of the product with `b0 + b1 * X`. -/
theorem coeffAt_mulLin_last (m b0 b1 : Int) : ∀ (l : List Int) (carry : Int), l ≠ [] →
    coeffAt (mulLin m b0 b1 carry l) l.length ≡ coeffAt l (l.length - 1) * b1 [ZMOD m] := by
  intro l
  induction l with
  | nil => intro carry h; exact absurd rfl h
  | cons a l ih =>
    intro carry _
    cases l with
    | nil =>
      simp only [mulLin, coeffAt, List.length_cons, List.length_nil]
      exact (Int.mod_modEq _ _).trans (by simpa using Int.mod_modEq (a * b1) m)
    | cons a2 l =>
      have := ih ((0 + a * b1 % m) % m) (by simp)
      simpa [mulLin, coeffAt] using this

theorem mulLin_reduced (m b0 b1 : Int) (hm : 0 < m) : ∀ (l : List Int) (carry : Int),
    0 ≤ carry → carry < m → ∀ c ∈ mulLin m b0 b1 carry l, 0 ≤ c ∧ c < m := by
  intro l
  induction l with
  | nil =>
    intro carry h0 h1 c hc
    simp only [mulLin, List.mem_singleton] at hc
    subst hc
    exact ⟨h0, h1⟩
  | cons a l ih =>
    intro carry _ _ c hc
    simp only [mulLin, List.mem_cons] at hc
    rcases hc with hc | hc
    · subst hc
      exact ⟨Int.emod_nonneg _ (ne_of_gt hm), Int.emod_lt_of_pos _ hm⟩
    · exact ih _ (Int.emod_nonneg _ (ne_of_gt hm)) (Int.emod_lt_of_pos _ hm) c hc


/-! ## trim, Add, MulScalar and Mul -/

theorem coeffAt_take : ∀ (l : List Int) (n k : Nat),
    coeffAt (l.take n) k = if k < n then coeffAt l k else 0 := by
  intro l
  induction l with
  | nil => intro n k; simp [coeffAt]
  | cons a l ih =>
    intro n k
    cases n with
    | zero => simp [coeffAt]
    | succ n =>
      cases k with
      | zero => simp [coeffAt]
      | succ k => simp [coeffAt, ih n k]

theorem trimLoop_coeffAt (l : List Int) : ∀ (n : Nat), (∀ i, n ≤ i → coeffAt l i = 0) →
    ∀ k, coeffAt (trimLoop l n) k = coeffAt l k := by
  intro n
  induction n with
  | zero =>
    intro h k
    simp only [trimLoop, coeffAt_take]
    split_ifs with hk
    · rfl
    · exact (h k (Nat.zero_le k)).symm
  | succ n ih =>
    intro h k
    simp only [trimLoop]
    split_ifs with hn
    · simp only [coeffAt_take]
      split_ifs with hk
      · rfl
      · exact (h k (by omega)).symm
    · apply ih
      intro i hi
      rcases Nat.eq_or_lt_of_le hi with e | e
      · subst e
        rw [coeffAt_eq_getD]
        simpa using hn
      · exact h i e

theorem trimLoop_length (l : List Int) (hl : l ≠ []) : ∀ (n : Nat), n ≤ l.length →
    1 ≤ (trimLoop l n).length ∧ (trimLoop l n).length ≤ l.length := by
  have hpos : 0 < l.length := List.length_pos.mpr hl
  intro n
  induction n with
  | zero =>
    intro _
    simp only [trimLoop, List.length_take]
    omega
  | succ n ih =>
    intro hn
    simp only [trimLoop]
    split_ifs
    · simp only [List.length_take]
      omega
    · exact ih (by omega)

theorem trim_spec (l : List Int) (hl : l ≠ []) :
    ∃ t, trim l = some t ∧ 1 ≤ t.length ∧ t.length ≤ l.length ∧
      ∀ k, coeffAt t k = coeffAt l k := by
  refine ⟨trimLoop l l.length, by simp [trim, hl], (trimLoop_length l hl _ le_rfl).1,
    (trimLoop_length l hl _ le_rfl).2, ?_⟩
  exact trimLoop_coeffAt l _ (fun i hi => coeffAt_of_le l i hi)

theorem trim_of_last (l : List Int) (hl : l ≠ []) (hlast : coeffAt l (l.length - 1) ≠ 0) :
    trim l = some l := by
  have hpos : 0 < l.length := List.length_pos.mpr hl
  obtain ⟨n, hn⟩ : ∃ n, l.length = n + 1 := ⟨l.length - 1, by omega⟩
  have h1 : l.getD n 0 ≠ 0 := by
    rw [← coeffAt_eq_getD]
    simpa [hn] using hlast
  simp only [trim, hl, if_false, hn, trimLoop, h1, ne_eq, not_false_eq_true, if_true]
  rw [← hn, List.take_length]

theorem Degree_of_last (p : Polynomial) (hl : p.Coeffs ≠ [])
    (hlast : coeffAt p.Coeffs (p.Coeffs.length - 1) ≠ 0) :
    p.Degree = some (p.Coeffs.length - 1) := by
  simp [Polynomial.Degree, trim_of_last _ hl hlast]

theorem coeffAt_map_range (f : Nat → Int) : ∀ (n k : Nat),
    coeffAt ((List.range n).map f) k = if k < n then f k else 0 := by
  intro n k
  rw [coeffAt_eq_getD]
  by_cases hk : k < n
  · simp [hk, List.getElem?_range hk]
  · have : (List.range n)[k]? = none := by
      rw [List.getElem?_eq_none_iff]
      simpa using hk
    simp [hk, this]

theorem coeffAt_eq_of_getElem? (l : List Int) (k : Nat) (c : Int) (h : l[k]? = some c) :
    coeffAt l k = c := by
  rw [coeffAt_eq_getD]
  simp [h]

theorem coeffAt_eq_of_getElem?_none (l : List Int) (k : Nat) (h : l[k]? = none) :
    coeffAt l k = 0 := by
  rw [coeffAt_eq_getD]
  simp [h]

/-- Polynomial.Add on two polynomials whose rings share the modulus pointer: the result has the
longer length, reduced coefficients, and its coefficients are the sums modulo m. -/
theorem Add_spec (p other : Polynomial) (href : p.ZModPr.ref = other.ZModPr.ref)
    (hm : 0 < p.ZModPr.Modulus) :
    ∃ cs, p.Add other = some ⟨cs, p.ZModPr⟩ ∧
      cs.length = max p.Coeffs.length other.Coeffs.length ∧
      (∀ k, coeffAt cs k ≡ coeffAt p.Coeffs k + coeffAt other.Coeffs k
        [ZMOD p.ZModPr.Modulus]) ∧
      (∀ k, k < cs.length → 0 ≤ coeffAt cs k ∧ coeffAt cs k < p.ZModPr.Modulus) := by
  have hm0 : p.ZModPr.Modulus ≠ 0 := ne_of_gt hm
  let g : Nat → Int := fun i =>
    match other.Coeffs[i]? with
    | some c => ((match p.Coeffs[i]? with
        | some c1 => (0 + c1) % p.ZModPr.Modulus
        | none => 0) + c) % p.ZModPr.Modulus
    | none => (match p.Coeffs[i]? with
        | some c1 => (0 + c1) % p.ZModPr.Modulus
        | none => 0)
  have hmap := mapM_eq_some_map
    (fun i => addCoeff p.ZModPr p.Coeffs[i]? other.Coeffs[i]?) g
    (List.range (max p.Coeffs.length other.Coeffs.length))
    (fun i _ => by
      simp only [g, addCoeff, ZModPrime.Add, bigMod_of_ne _ hm0]
      cases p.Coeffs[i]? <;> cases other.Coeffs[i]? <;> simp [bigMod_of_ne _ hm0])
  refine ⟨(List.range (max p.Coeffs.length other.Coeffs.length)).map g, ?_, by simp, ?_, ?_⟩
  · simp only [Polynomial.Add, href, ne_eq, not_true_eq_false, if_false, hmap,
      Option.bind_eq_bind, Option.some_bind, NewPolynomial]
  · intro k
    rw [coeffAt_map_range]
    split_ifs with hk
    · simp only [g]
      cases hp : p.Coeffs[k]? with
      | none =>
        cases ho : other.Coeffs[k]? with
        | none =>
          simp [coeffAt_eq_of_getElem?_none _ _ hp, coeffAt_eq_of_getElem?_none _ _ ho,
            Int.ModEq]
        | some c =>
          rw [coeffAt_eq_of_getElem?_none _ _ hp, coeffAt_eq_of_getElem? _ _ _ ho]
          exact Int.mod_modEq _ _
      | some c1 =>
        cases ho : other.Coeffs[k]? with
        | none =>
          rw [coeffAt_eq_of_getElem? _ _ _ hp, coeffAt_eq_of_getElem?_none _ _ ho]
          simpa using Int.mod_modEq c1 _
        | some c =>
          rw [coeffAt_eq_of_getElem? _ _ _ hp, coeffAt_eq_of_getElem? _ _ _ ho]
          exact (Int.mod_modEq _ _).trans
            ((by simpa using Int.mod_modEq c1 p.ZModPr.Modulus :
              (0 + c1) % p.ZModPr.Modulus ≡ c1 [ZMOD p.ZModPr.Modulus]).add (Int.ModEq.refl c))
    · have h1 := coeffAt_of_le p.Coeffs k (by omega)
      have h2 := coeffAt_of_le other.Coeffs k (by omega)
      simp [h1, h2, Int.ModEq]
  · intro k hk
    simp only [List.length_map, List.length_range] at hk
    rw [coeffAt_map_range, if_pos hk]
    simp only [g]
    cases hp : p.Coeffs[k]? with
    | none =>
      cases ho : other.Coeffs[k]? with
      | none =>
        have h1 := List.getElem?_eq_none_iff.mp hp
        have h2 := List.getElem?_eq_none_iff.mp ho
        omega
      | some c => exact ⟨Int.emod_nonneg _ hm0, Int.emod_lt_of_pos _ hm⟩
    | some c1 =>
      cases ho : other.Coeffs[k]? with
      | none => exact ⟨Int.emod_nonneg _ hm0, Int.emod_lt_of_pos _ hm⟩
      | some c => exact ⟨Int.emod_nonneg _ hm0, Int.emod_lt_of_pos _ hm⟩


end crypto

namespace crypto


/-! ## The loops of Mul -/

theorem wsumOpt_set (w : Nat → Int) (v : Int) : ∀ (s : List (Option Int)) (idx off : Nat)
    (cur : Option Int), s[idx]? = some cur →
    wsumOpt w off (s.set idx (some v)) = wsumOpt w off s + (v - cur.getD 0) * w (off + idx) := by
  intro s
  induction s with
  | nil => intro idx off cur h; simp at h
  | cons c s ih =>
    intro idx off cur h
    cases idx with
    | zero =>
      simp only [List.getElem?_cons_zero, Option.some.injEq] at h
      subst h
      simp only [List.set_cons_zero, wsumOpt, Option.getD_some, Nat.add_zero]
      ring
    | succ idx =>
      simp only [List.getElem?_cons_succ] at h
      simp only [List.set_cons_succ, wsumOpt, ih idx (off + 1) cur h]
      have : off + 1 + idx = off + (idx + 1) := by omega
      rw [this]
      ring

theorem mulStep_spec (zm : ZModPrime) (hm : zm.Modulus ≠ 0) (idx : Nat) (a b : Int)
    (s : List (Option Int)) (P : Nat) (hidx : idx < s.length) (hP : idx ≤ P)
    (hs : Shape zm.Modulus s P) :
    ∃ s', mulStep zm idx a b s = some s' ∧ s'.length = s.length ∧
      Shape zm.Modulus s' (max P (idx + 1)) ∧
      ∀ (w : Nat → Int) (off : Nat),
        wsumOpt w off s' ≡ wsumOpt w off s + a * b * w (off + idx) [ZMOD zm.Modulus] := by
  obtain ⟨cur, hcur⟩ : ∃ cur, s[idx]? = some cur := by
    rw [List.getElem?_eq_getElem hidx]; exact ⟨_, rfl⟩
  refine ⟨s.set idx (some ((cur.getD 0 + a * b % zm.Modulus) % zm.Modulus)), ?_, by simp, ?_, ?_⟩
  · simp only [mulStep, ZModPrime.Mul, ZModPrime.Add, bigMod_of_ne _ hm, hcur,
      Option.bind_eq_bind, Option.some_bind]
  · intro k hk
    simp only [List.length_set] at hk
    by_cases hki : k = idx
    · subst hki
      refine ⟨fun _ => ⟨(cur.getD 0 + a * b % zm.Modulus) % zm.Modulus, ?_,
        Int.emod_emod_of_dvd _ (dvd_refl _)⟩, fun h => ?_⟩
      · rw [List.getElem?_set_self hk]
      · omega
    · rw [List.getElem?_set_ne (Ne.symm hki)]
      refine ⟨fun h => (hs k hk).1 (by omega), fun h => (hs k hk).2 (by omega)⟩
  · intro w off
    rw [wsumOpt_set w _ s idx off cur hcur]
    have h1 : (cur.getD 0 + a * b % zm.Modulus) % zm.Modulus - cur.getD 0
        ≡ a * b [ZMOD zm.Modulus] := by
      have e1 : (cur.getD 0 + a * b % zm.Modulus) % zm.Modulus ≡ cur.getD 0 + a * b
          [ZMOD zm.Modulus] :=
        (Int.mod_modEq _ _).trans ((Int.ModEq.refl _).add (Int.mod_modEq _ _))
      have := e1.sub (Int.ModEq.refl (cur.getD 0))
      simpa using this
    exact (Int.ModEq.refl _).add (h1.mul_right _)

theorem mulInner_spec (zm : ZModPrime) (hm : zm.Modulus ≠ 0) (i : Nat) (a : Int) :
    ∀ (rest : List Int) (j : Nat) (s : List (Option Int)) (P : Nat),
      i + j + rest.length ≤ s.length → i + j ≤ P → Shape zm.Modulus s P →
      ∃ s', mulInner zm i a rest j s = some s' ∧ s'.length = s.length ∧
        Shape zm.Modulus s' (max P (i + j + rest.length)) ∧
        ∀ (w : Nat → Int) (off : Nat),
          wsumOpt w off s' ≡ wsumOpt w off s + rowSum w a (off + i + j) rest
            [ZMOD zm.Modulus] := by
  intro rest
  induction rest with
  | nil =>
    intro j s P _ hP hs
    refine ⟨s, rfl, rfl, ?_, fun w off => by simp [rowSum, Int.ModEq]⟩
    have : max P (i + j + ([] : List Int).length) = P := by simp; omega
    rw [this]; exact hs
  | cons b rest ih =>
    intro j s P hlen hP hs
    simp only [List.length_cons] at hlen
    obtain ⟨s1, h1, hl1, hs1, hw1⟩ := mulStep_spec zm hm (i + j) a b s P (by omega) hP hs
    obtain ⟨s2, h2, hl2, hs2, hw2⟩ := ih (j + 1) s1 (max P (i + j + 1)) (by omega) (by omega) hs1
    refine ⟨s2, ?_, by omega, ?_, ?_⟩
    · simp only [mulInner, h1, Option.bind_eq_bind, Option.some_bind, h2]
    · have : max (max P (i + j + 1)) (i + (j + 1) + rest.length)
          = max P (i + j + (b :: rest).length) := by
        simp only [List.length_cons]; omega
      rw [← this]; exact hs2
    · intro w off
      refine (hw2 w off).trans ?_
      have := (hw1 w off).add (Int.ModEq.refl (rowSum w a (off + i + (j + 1)) rest))
      refine this.trans ?_
      simp only [rowSum]
      have e1 : off + (i + j) = off + i + j := by omega
      have e2 : off + i + (j + 1) = off + i + j + 1 := by omega
      rw [e1, e2, add_assoc]

theorem mulOuter_spec (zm : ZModPrime) (hm : zm.Modulus ≠ 0) (bs : List Int) (hbs : bs ≠ []) :
    ∀ (rest : List Int) (i : Nat) (s : List (Option Int)) (P : Nat),
      (rest ≠ [] → i + rest.length - 1 + bs.length ≤ s.length) → i ≤ P →
      Shape zm.Modulus s P →
      ∃ s', mulOuter zm bs rest i s = some s' ∧ s'.length = s.length ∧
        Shape zm.Modulus s' (if rest = [] then P else max P (i + rest.length - 1 + bs.length)) ∧
        ∀ (w : Nat → Int) (off : Nat),
          wsumOpt w off s' ≡ wsumOpt w off s + allSum w bs (off + i) rest
            [ZMOD zm.Modulus] := by
  have hbl : 0 < bs.length := List.length_pos.mpr hbs
  intro rest
  induction rest with
  | nil =>
    intro i s P _ _ hs
    exact ⟨s, rfl, rfl, by simpa using hs, fun w off => by simp [allSum, Int.ModEq]⟩
  | cons a rest ih =>
    intro i s P hlen hP hs
    have hlen' := hlen (by simp)
    simp only [List.length_cons] at hlen'
    obtain ⟨s1, h1, hl1, hs1, hw1⟩ := mulInner_spec zm hm i a bs 0 s P (by omega) (by omega) hs
    obtain ⟨s2, h2, hl2, hs2, hw2⟩ := ih (i + 1) s1 (max P (i + 0 + bs.length))
      (fun hne => by
        have := List.length_pos.mpr hne
        omega) (by omega) hs1
    refine ⟨s2, ?_, by omega, ?_, ?_⟩
    · simp only [mulOuter, h1, Option.bind_eq_bind, Option.some_bind, h2]
    · simp only [reduceCtorEq, if_false, List.length_cons]
      by_cases hr : rest = []
      · subst hr
        simp only [if_true] at hs2
        have : max P (i + 0 + bs.length) = max P (i + (0 + 1) - 1 + bs.length) := by
          simp
        simpa [this] using hs2
      · simp only [hr, if_false] at hs2
        have hrl := List.length_pos.mpr hr
        have : max (max P (i + 0 + bs.length)) (i + 1 + rest.length - 1 + bs.length)
            = max P (i + (rest.length + 1) - 1 + bs.length) := by omega
        rw [← this]; exact hs2
    · intro w off
      refine (hw2 w off).trans ?_
      have := (hw1 w off).add (Int.ModEq.refl (allSum w bs (off + (i + 1)) rest))
      refine this.trans ?_
      simp only [allSum]
      have e1 : off + i + 0 = off + i := by omega
      have e2 : off + (i + 1) = off + i + 1 := by omega
      rw [e1, e2, add_assoc]

theorem wsumOpt_replicate_none (w : Nat → Int) : ∀ (n off : Nat),
    wsumOpt w off (List.replicate n none) = 0 := by
  intro n
  induction n with
  | zero => intro off; rfl
  | succ n ih => intro off; simp [List.replicate_succ, wsumOpt, ih]

theorem Shape_replicate_none (m : Int) (n : Nat) : Shape m (List.replicate n none) 0 := by
  intro k hk
  simp only [List.length_replicate] at hk
  exact ⟨fun h => absurd h (Nat.not_lt_zero k), fun _ => by simp [hk]⟩

theorem Shape_tail (m : Int) (c : Option Int) (s : List (Option Int))
    (h : Shape m (c :: s) (s.length + 1)) :
    (∃ v, c = some v ∧ v % m = v) ∧ Shape m s s.length := by
  constructor
  · obtain ⟨v, hv, hr⟩ := (h 0 (by simp)).1 (by omega)
    exact ⟨v, by simpa using hv, hr⟩
  · intro k hk
    refine ⟨fun _ => ?_, fun h2 => absurd h2 (by omega)⟩
    obtain ⟨v, hv, hr⟩ := (h (k + 1) (by simpa using hk)).1 (by omega)
    exact ⟨v, by simpa using hv, hr⟩

/-- When every entry of `newCoeffs` has been written, reading the slice gives the list of
the values. -/
theorem derefAll_of_Shape (m : Int) : ∀ (s : List (Option Int)), Shape m s s.length →
    ∃ R, derefAll s = some R ∧ R.length = s.length ∧
      (∀ (w : Nat → Int) (off : Nat), wsum w off R = wsumOpt w off s) ∧
      ∀ c ∈ R, c % m = c := by
  intro s
  induction s with
  | nil => intro _; exact ⟨[], rfl, rfl, fun _ _ => rfl, by simp⟩
  | cons c s ih =>
    intro h
    obtain ⟨⟨v, hv, hr⟩, htl⟩ := Shape_tail m c s h
    obtain ⟨R, hR, hl, hw, hred⟩ := ih htl
    subst hv
    refine ⟨v :: R, by simp [derefAll, hR], by simp [hl], ?_, ?_⟩
    · intro w off
      simp [wsum, wsumOpt, hw]
    · intro c hc
      simp only [List.mem_cons] at hc
      rcases hc with hc | hc
      · exact hc ▸ hr
      · exact hred c hc

theorem trim_some_ne_nil (l t : List Int) (h : trim l = some t) : l ≠ [] := by
  intro hl
  simp [trim, hl] at h

theorem Degree_of_trim (p : Polynomial) (h : trim p.Coeffs = some p.Coeffs) :
    p.Degree = some (p.Coeffs.length - 1) := by
  simp [Polynomial.Degree, h]

/-- Polynomial.Mul on operands with trimmed coefficient lists whose rings share the modulus
pointer: it returns `len(p) + len(other) - 1` reduced coefficients, and every weighted sum of
them is, modulo m, the weighted sum of all products `p_i * other_j`. -/
theorem Mul_spec (p other : Polynomial) (href : p.ZModPr.ref = other.ZModPr.ref)
    (hm : p.ZModPr.Modulus ≠ 0) (hp : trim p.Coeffs = some p.Coeffs)
    (ho : trim other.Coeffs = some other.Coeffs) :
    ∃ R, p.Mul other = some ⟨R, p.ZModPr⟩ ∧
      R.length = p.Coeffs.length + other.Coeffs.length - 1 ∧
      (∀ (w : Nat → Int) (off : Nat),
        wsum w off R ≡ allSum w other.Coeffs off p.Coeffs [ZMOD p.ZModPr.Modulus]) ∧
      ∀ c ∈ R, c % p.ZModPr.Modulus = c := by
  have hpn := trim_some_ne_nil _ _ hp
  have hon := trim_some_ne_nil _ _ ho
  have hpl := List.length_pos.mpr hpn
  have hol := List.length_pos.mpr hon
  obtain ⟨s, hs, hl, hsh, hw⟩ := mulOuter_spec p.ZModPr hm other.Coeffs hon p.Coeffs 0
    (List.replicate (p.Coeffs.length - 1 + (other.Coeffs.length - 1) + 1) none) 0
    (fun _ => by simp; omega) (le_refl 0) (Shape_replicate_none _ _)
  simp only [hpn, if_false, List.length_replicate] at hsh hl
  have hlen : s.length = p.Coeffs.length + other.Coeffs.length - 1 := by omega
  have hsh' : Shape p.ZModPr.Modulus s s.length := by
    have : max 0 (0 + p.Coeffs.length - 1 + other.Coeffs.length) = s.length := by omega
    rw [← this]; exact hsh
  obtain ⟨R, hR, hRl, hRw, hred⟩ := derefAll_of_Shape _ s hsh'
  refine ⟨R, ?_, by omega, ?_, hred⟩
  · simp only [Polynomial.Mul, href, ne_eq, not_true_eq_false, if_false, Degree_of_trim p hp,
      Degree_of_trim other ho, Option.bind_eq_bind, Option.some_bind, hs, hR, NewPolynomial]
  · intro w off
    rw [hRw w off]
    have := hw w off
    rw [wsumOpt_replicate_none, zero_add, Nat.add_zero] at this
    exact this

/-! ## Weighted sums: values and coefficients -/

theorem wsum_pow (x : Int) : ∀ (l : List Int) (off : Nat),
    wsum (fun k => x ^ k) off l = evalFrom x off l := by
  intro l
  induction l with
  | nil => intro off; rfl
  | cons a l ih => intro off; simp [wsum, evalFrom, ih]

theorem evalFrom_eq (x : Int) (l : List Int) : ∀ (off : Nat),
    evalFrom x off l = x ^ off * evalAt l x := by
  intro off
  induction off with
  | zero => simp [evalAt]
  | succ n ih => rw [evalFrom_shift, ih, pow_succ]; ring

theorem rowSum_pow (x a : Int) : ∀ (bs : List Int) (off : Nat),
    rowSum (fun k => x ^ k) a off bs = a * (x ^ off * evalAt bs x) := by
  intro bs
  induction bs with
  | nil => intro off; simp [rowSum, evalAt_nil]
  | cons b bs ih =>
    intro off
    simp only [rowSum, ih, evalAt_cons, pow_succ]
    ring

theorem allSum_pow (x : Int) (bs : List Int) : ∀ (l : List Int) (off : Nat),
    allSum (fun k => x ^ k) bs off l = x ^ off * evalAt l x * evalAt bs x := by
  intro l
  induction l with
  | nil => intro off; simp [allSum, evalAt_nil]
  | cons a l ih =>
    intro off
    simp only [allSum, ih, rowSum_pow, evalAt_cons, pow_succ]
    ring

theorem wsum_indicator (K : Nat) : ∀ (l : List Int) (off : Nat),
    wsum (indicator K) off l = if off ≤ K then coeffAt l (K - off) else 0 := by
  intro l
  induction l with
  | nil => intro off; simp [wsum, coeffAt]
  | cons a l ih =>
    intro off
    simp only [wsum, ih, indicator]
    by_cases h1 : off = K
    · subst h1
      simp [coeffAt]
    · by_cases h2 : off ≤ K
      · have h3 : off + 1 ≤ K := by omega
        obtain ⟨t, ht⟩ : ∃ t, K - off = t + 1 := ⟨K - off - 1, by omega⟩
        have h4 : K - (off + 1) = t := by omega
        simp [h1, h2, h3, ht, h4, coeffAt]
      · have h3 : ¬ off + 1 ≤ K := by omega
        simp [h1, h2, h3]

/-- The value of a product is the product of the values, modulo m. -/
theorem Mul_eval (p other : Polynomial) (R : List Int) (x : Int)
    (hw : ∀ (w : Nat → Int) (off : Nat),
      wsum w off R ≡ allSum w other.Coeffs off p.Coeffs [ZMOD p.ZModPr.Modulus]) :
    evalAt R x ≡ evalAt p.Coeffs x * evalAt other.Coeffs x [ZMOD p.ZModPr.Modulus] := by
  have := hw (fun k => x ^ k) 0
  rw [wsum_pow, allSum_pow] at this
  simpa [evalAt] using this

/-- The coefficient of a product at index k, modulo m. -/
theorem Mul_coeff (p other : Polynomial) (R : List Int) (k : Nat)
    (hw : ∀ (w : Nat → Int) (off : Nat),
      wsum w off R ≡ allSum w other.Coeffs off p.Coeffs [ZMOD p.ZModPr.Modulus]) :
    coeffAt R k ≡ allSum (indicator k) other.Coeffs 0 p.Coeffs [ZMOD p.ZModPr.Modulus] := by
  have := hw (indicator k) 0
  rw [wsum_indicator] at this
  simpa using this


theorem rowSum_eq (w : Nat → Int) (a : Int) : ∀ (bs : List Int) (off : Nat),
    rowSum w a off bs = a * wsum w off bs := by
  intro bs
  induction bs with
  | nil => intro off; simp [rowSum, wsum]
  | cons b bs ih => intro off; simp only [rowSum, wsum, ih]; ring

/-- The weighted sum of all products for the indicator of K is the convolution sum. -/
theorem allSum_indicator (K : Nat) (bs : List Int) : ∀ (l : List Int) (off : Nat),
    allSum (indicator K) bs off l
      = ∑ i in Finset.range (K + 1),
          (if off ≤ i then coeffAt l (i - off) else 0) * coeffAt bs (K - i) := by
  intro l
  induction l with
  | nil => intro off; simp [allSum, coeffAt]
  | cons a l ih =>
    intro off
    simp only [allSum, ih, rowSum_eq, wsum_indicator]
    have hterm : ∀ i ∈ Finset.range (K + 1),
        (if off ≤ i then coeffAt (a :: l) (i - off) else 0) * coeffAt bs (K - i)
          = (if i = off then a * coeffAt bs (K - off) else 0)
            + (if off + 1 ≤ i then coeffAt l (i - (off + 1)) else 0) * coeffAt bs (K - i) := by
      intro i _
      by_cases h1 : i = off
      · subst h1
        simp [coeffAt]
      · by_cases h2 : off ≤ i
        · have h3 : off + 1 ≤ i := by omega
          obtain ⟨t, ht⟩ : ∃ t, i - off = t + 1 := ⟨i - off - 1, by omega⟩
          have h4 : i - (off + 1) = t := by omega
          simp [h1, h2, h3, ht, h4, coeffAt]
        · have h3 : ¬ off + 1 ≤ i := by omega
          simp [h1, h2, h3]
    rw [Finset.sum_congr rfl hterm, Finset.sum_add_distrib, Finset.sum_ite_eq']
    simp only [Finset.mem_range]
    by_cases h : off ≤ K
    · have : off < K + 1 := by omega
      simp [h, this]
    · have : ¬ off < K + 1 := by omega
      simp [h, this]

theorem conv_top (as bs : List Int) (has : as ≠ []) (hbs : bs ≠ []) :
    ∑ i in Finset.range (as.length - 1 + (bs.length - 1) + 1),
        coeffAt as i * coeffAt bs (as.length - 1 + (bs.length - 1) - i)
      = coeffAt as (as.length - 1) * coeffAt bs (bs.length - 1) := by
  have h1 := List.length_pos.mpr has
  have h2 := List.length_pos.mpr hbs
  rw [Finset.sum_eq_single (as.length - 1)]
  · congr 2
    omega
  · intro i hi hne
    simp only [Finset.mem_range] at hi
    by_cases h : i < as.length - 1
    · rw [coeffAt_of_le bs _ (by omega)]
      simp
    · rw [coeffAt_of_le as _ (by omega)]
      simp
  · intro h
    simp only [Finset.mem_range] at h
    omega

end crypto

namespace crypto


theorem trimLoop_eq (l : List Int) (hl : l ≠ []) : ∀ n, n ≤ l.length →
    (∀ i, n ≤ i → coeffAt l i = 0) →
    ∃ j, trimLoop l n = l.take j ∧ 1 ≤ j ∧ j ≤ l.length ∧ (∀ k, j ≤ k → coeffAt l k = 0) ∧
      (coeffAt l (j - 1) ≠ 0 ∨ (j = 1 ∧ ∀ k, coeffAt l k = 0)) := by
  have hpos := List.length_pos.mpr hl
  intro n
  induction n with
  | zero =>
    intro _ h
    exact ⟨1, rfl, le_rfl, hpos, fun k _ => h k (Nat.zero_le k),
      Or.inr ⟨rfl, fun k => h k (Nat.zero_le k)⟩⟩
  | succ n ih =>
    intro hn h
    simp only [trimLoop]
    by_cases h0 : l.getD n 0 ≠ 0
    · rw [if_pos h0]
      refine ⟨n + 1, rfl, by omega, hn, h, Or.inl ?_⟩
      simpa [coeffAt_eq_getD] using h0
    · rw [if_neg h0]
      refine ih (by omega) (fun i hi => ?_)
      rcases Nat.eq_or_lt_of_le hi with h1 | h1
      · subst h1
        rw [coeffAt_eq_getD]
        simpa using h0
      · exact h i h1

theorem trim_eq_take (l : List Int) (hl : l ≠ []) :
    ∃ j, trim l = some (l.take j) ∧ 1 ≤ j ∧ j ≤ l.length ∧ (∀ k, j ≤ k → coeffAt l k = 0) ∧
      (coeffAt l (j - 1) ≠ 0 ∨ (j = 1 ∧ ∀ k, coeffAt l k = 0)) := by
  obtain ⟨j, h1, h2⟩ := trimLoop_eq l hl l.length le_rfl (fun i hi => coeffAt_of_le l i hi)
  exact ⟨j, by simp [trim, hl, h1], h2⟩

theorem take_one_of_zero (l : List Int) (hl : l ≠ []) (h : coeffAt l 0 = 0) : l.take 1 = [0] := by
  cases l with
  | nil => exact absurd rfl hl
  | cons a r =>
    simp only [coeffAt] at h
    simp [h]

theorem trim_idem (l t : List Int) (h : trim l = some t) : trim t = some t := by
  have hl := trim_some_ne_nil l t h
  obtain ⟨j, h1, hj1, hj2, _, h3⟩ := trim_eq_take l hl
  rw [h] at h1
  have ht : t = l.take j := Option.some.inj h1
  have hlen : t.length = j := by rw [ht, List.length_take]; omega
  have htne : t ≠ [] := by
    intro h0
    rw [h0] at hlen
    simp at hlen
    omega
  rcases h3 with h3 | ⟨h3, h4⟩
  · apply trim_of_last t htne
    rw [hlen, ht, coeffAt_take, if_pos (by omega)]
    exact h3
  · subst h3
    rw [ht, take_one_of_zero l hl (h4 0)]
    rfl


/-- C17: for a non-empty coefficient list l, trim returns a non-empty prefix t of l; every
coefficient of l from index len(t) on is zero; the last entry of t is non-zero, or t is the
one-element list [0] and l is all zero; trim is idempotent; Trim wraps the same list; and Degree
is len(t) - 1, the largest index with a non-zero coefficient (0 for the zero polynomial). -/
theorem trim_correct (l : List Int) (zm : ZModPrime) (hl : l ≠ []) :
    ∃ t d, trim l = some t ∧ (NewPolynomial l zm).Trim = some (NewPolynomial t zm) ∧
      t ≠ [] ∧ t = l.take t.length ∧ t.length ≤ l.length ∧
      (∀ k, t.length ≤ k → coeffAt l k = 0) ∧
      (coeffAt t (t.length - 1) ≠ 0 ∨ (t = [0] ∧ ∀ k, coeffAt l k = 0)) ∧
      trim t = some t ∧
      (NewPolynomial t zm).Trim = some (NewPolynomial t zm) ∧
      (NewPolynomial l zm).Degree = some d ∧ d + 1 = t.length ∧
      (∀ k, d < k → coeffAt l k = 0) ∧
      (coeffAt l d ≠ 0 ∨ (d = 0 ∧ ∀ k, coeffAt l k = 0)) := by
  obtain ⟨j, h1, hj1, hj2, h2, h3⟩ := trim_eq_take l hl
  have hlen : (l.take j).length = j := by rw [List.length_take]; omega
  have hidem := trim_idem l _ h1
  have hne : l.take j ≠ [] := by
    intro h0
    rw [h0] at hlen
    simp at hlen
    omega
  refine ⟨l.take j, j - 1, h1, by simp [Polynomial.Trim, NewPolynomial, h1], hne,
    by rw [hlen], by rw [hlen]; exact hj2, by rw [hlen]; exact h2, ?_, hidem,
    by simp [Polynomial.Trim, NewPolynomial, hidem],
    by simp [Polynomial.Degree, NewPolynomial, h1, hlen], by rw [hlen]; omega,
    fun k hk => h2 k (by omega), ?_⟩
  · rcases h3 with h3 | ⟨h3, h4⟩
    · left
      rw [hlen, coeffAt_take, if_pos (by omega)]
      exact h3
    · right
      subst h3
      exact ⟨take_one_of_zero l hl (h4 0), h4⟩
  · rcases h3 with h3 | ⟨h3, h4⟩
    · exact Or.inl h3
    · exact Or.inr ⟨by omega, h4⟩

/-- Witness of C17: the list 3, 0, 5, 0, 0 is trimmed to 3, 0, 5 and has degree 2. -/
theorem trim_correct_witness :
    ∃ t d, trim [3, 0, 5, 0, 0] = some t ∧
      (NewPolynomial [3, 0, 5, 0, 0] (NewZModPrime 7 0)).Trim
        = some (NewPolynomial t (NewZModPrime 7 0)) ∧
      t ≠ [] ∧ t = [3, 0, 5, 0, 0].take t.length ∧ t.length ≤ [3, 0, 5, 0, (0 : Int)].length ∧
      (∀ k, t.length ≤ k → coeffAt [3, 0, 5, 0, 0] k = 0) ∧
      (coeffAt t (t.length - 1) ≠ 0 ∨ (t = [0] ∧ ∀ k, coeffAt [3, 0, 5, 0, 0] k = 0)) ∧
      trim t = some t ∧
      (NewPolynomial t (NewZModPrime 7 0)).Trim = some (NewPolynomial t (NewZModPrime 7 0)) ∧
      (NewPolynomial [3, 0, 5, 0, 0] (NewZModPrime 7 0)).Degree = some d ∧ d + 1 = t.length ∧
      (∀ k, d < k → coeffAt [3, 0, 5, 0, 0] k = 0) ∧
      (coeffAt [3, 0, 5, 0, 0] d ≠ 0 ∨ (d = 0 ∧ ∀ k, coeffAt [3, 0, 5, 0, 0] k = 0)) :=
  trim_correct [3, 0, 5, 0, 0] (NewZModPrime 7 0) (by decide)

theorem IncludeCredential_spec (p : Polynomial) (u : Int) (hm : p.ZModPr.Modulus ≠ 0)
    (hp : trim p.Coeffs = some p.Coeffs) :
    ∃ R, p.IncludeCredential u = some ⟨R, p.ZModPr⟩ ∧ R.length = p.Coeffs.length + 1 ∧
      (∀ x, evalAt R x ≡ evalAt p.Coeffs x * (x - u) [ZMOD p.ZModPr.Modulus]) ∧
      (∀ c ∈ R, c % p.ZModPr.Modulus = c) ∧
      (∀ k, coeffAt R k ≡ ∑ i in Finset.range (k + 1),
        coeffAt p.Coeffs i * coeffAt [(p.ZModPr.Modulus - u) % p.ZModPr.Modulus, 1] (k - i)
        [ZMOD p.ZModPr.Modulus]) := by
  have hl := trim_some_ne_nil _ _ hp
  have hpos := List.length_pos.mpr hl
  have ho : trim (Polynomial.Coeffs
      ⟨[(p.ZModPr.Modulus - u) % p.ZModPr.Modulus, 1], p.ZModPr⟩) =
      some (Polynomial.Coeffs ⟨[(p.ZModPr.Modulus - u) % p.ZModPr.Modulus, 1], p.ZModPr⟩) :=
    trim_of_last _ (by simp) (by simp [coeffAt])
  obtain ⟨R, h1, h2, h3, h4⟩ :=
    Mul_spec p ⟨[(p.ZModPr.Modulus - u) % p.ZModPr.Modulus, 1], p.ZModPr⟩ rfl hm hp ho
  refine ⟨R, ?_, ?_, ?_, h4, ?_⟩
  · simp only [Polynomial.IncludeCredential, ZModPrime.AdditiveInvert, bigMod, hm, if_false,
      NewPolynomial]
    exact h1
  · rw [h2]
    simp
  · intro x
    refine (Mul_eval p _ R x h3).trans ?_
    refine (Int.ModEq.refl _).mul ?_
    have : evalAt [(p.ZModPr.Modulus - u) % p.ZModPr.Modulus, 1] x
        = (p.ZModPr.Modulus - u) % p.ZModPr.Modulus + x := by
      simp [evalAt, evalFrom]
    show evalAt [(p.ZModPr.Modulus - u) % p.ZModPr.Modulus, 1] x ≡ x - u [ZMOD p.ZModPr.Modulus]
    rw [this]
    have h5 : (p.ZModPr.Modulus - u) % p.ZModPr.Modulus ≡ p.ZModPr.Modulus - u
        [ZMOD p.ZModPr.Modulus] := Int.mod_modEq _ _
    have h0 : p.ZModPr.Modulus ≡ 0 [ZMOD p.ZModPr.Modulus] := by simp [Int.ModEq]
    have h6 : p.ZModPr.Modulus - u ≡ 0 - u [ZMOD p.ZModPr.Modulus] := h0.sub_right u
    have h7 := (h5.trans h6).add_right x
    calc (p.ZModPr.Modulus - u) % p.ZModPr.Modulus + x ≡ 0 - u + x [ZMOD p.ZModPr.Modulus] := h7
      _ = x - u := by ring
  · intro k
    have := Mul_coeff p ⟨[(p.ZModPr.Modulus - u) % p.ZModPr.Modulus, 1], p.ZModPr⟩ R k h3
    rw [allSum_indicator] at this
    simpa using this

/-- C13: for a polynomial Phi with a trimmed (hence non-empty) coefficient list over the
integers modulo m, m not zero, and every u, IncludeCredential returns a polynomial over the
same ring whose value at every x is Phi(x) * (x - u) modulo m; in particular it is 0 modulo m
at u. -/
theorem IncludeCredential_root (p : Polynomial) (u : Int) (hm : p.ZModPr.Modulus ≠ 0)
    (hp : p.Trim = some p) :
    ∃ r, p.IncludeCredential u = some r ∧ r.ZModPr = p.ZModPr ∧
      (∀ x, evalAt r.Coeffs x % p.ZModPr.Modulus
        = (evalAt p.Coeffs x * (x - u)) % p.ZModPr.Modulus) ∧
      evalAt r.Coeffs u % p.ZModPr.Modulus = 0 := by
  have hp2 : trim p.Coeffs = some p.Coeffs := by
    cases h : trim p.Coeffs with
    | none => simp [Polynomial.Trim, h] at hp
    | some t =>
      simp only [Polynomial.Trim, h, Option.map_some', Option.some.injEq, NewPolynomial] at hp
      have := congrArg Polynomial.Coeffs hp
      simp only at this
      rw [this]
  obtain ⟨R, h1, _, h3, _, _⟩ := IncludeCredential_spec p u hm hp2
  refine ⟨⟨R, p.ZModPr⟩, h1, rfl, fun x => h3 x, ?_⟩
  have := h3 u
  simpa [Int.ModEq] using this

/-- Witness of C13: 2 + 3 X + X^2 over the integers modulo 7 and the credential 4. -/
theorem IncludeCredential_root_witness :
    ∃ r, (NewPolynomial [2, 3, 1] (NewZModPrime 7 0)).IncludeCredential 4 = some r ∧
      r.ZModPr = (NewPolynomial [2, 3, 1] (NewZModPrime 7 0)).ZModPr ∧
      (∀ x, evalAt r.Coeffs x % (NewPolynomial [2, 3, 1] (NewZModPrime 7 0)).ZModPr.Modulus
        = (evalAt (NewPolynomial [2, 3, 1] (NewZModPrime 7 0)).Coeffs x * (x - 4))
          % (NewPolynomial [2, 3, 1] (NewZModPrime 7 0)).ZModPr.Modulus) ∧
      evalAt r.Coeffs 4 % (NewPolynomial [2, 3, 1] (NewZModPrime 7 0)).ZModPr.Modulus = 0 :=
  IncludeCredential_root (NewPolynomial [2, 3, 1] (NewZModPrime 7 0)) 4 (by decide) (by decide)


theorem trim_of_Trim (p : Polynomial) (hp : p.Trim = some p) : trim p.Coeffs = some p.Coeffs := by
  cases h : trim p.Coeffs with
  | none => simp [Polynomial.Trim, h] at hp
  | some t =>
    simp only [Polynomial.Trim, h, Option.map_some', Option.some.injEq, NewPolynomial] at hp
    have := congrArg Polynomial.Coeffs hp
    simp only at this
    rw [this]

theorem coeffAt_mem (l : List Int) (k : Nat) (hk : k < l.length) : coeffAt l k ∈ l := by
  rw [coeffAt_eq_getD, List.getD_eq_getElem _ _ hk]
  exact List.getElem_mem hk

/-- Polynomial.Mul on trimmed operands sharing the modulus pointer: length, coefficients as
reduced convolution sums, values, leading coefficient and degree of the product. -/
theorem Mul_full (p other : Polynomial) (href : p.ZModPr.ref = other.ZModPr.ref)
    (hm : p.ZModPr.Modulus ≠ 0) (hp : trim p.Coeffs = some p.Coeffs)
    (ho : trim other.Coeffs = some other.Coeffs) :
    ∃ R, p.Mul other = some ⟨R, p.ZModPr⟩ ∧
      R.length = (p.Coeffs.length - 1) + (other.Coeffs.length - 1) + 1 ∧
      (∀ k, k < R.length → coeffAt R k = (∑ i in Finset.range (k + 1),
        coeffAt p.Coeffs i * coeffAt other.Coeffs (k - i)) % p.ZModPr.Modulus) ∧
      (∀ x, evalAt R x ≡ evalAt p.Coeffs x * evalAt other.Coeffs x [ZMOD p.ZModPr.Modulus]) ∧
      coeffAt R ((p.Coeffs.length - 1) + (other.Coeffs.length - 1))
        = (coeffAt p.Coeffs (p.Coeffs.length - 1)
            * coeffAt other.Coeffs (other.Coeffs.length - 1)) % p.ZModPr.Modulus ∧
      ∃ dr, Polynomial.Degree ⟨R, p.ZModPr⟩ = some dr ∧
        dr ≤ (p.Coeffs.length - 1) + (other.Coeffs.length - 1) ∧
        ((coeffAt p.Coeffs (p.Coeffs.length - 1)
            * coeffAt other.Coeffs (other.Coeffs.length - 1)) % p.ZModPr.Modulus ≠ 0 →
          dr = (p.Coeffs.length - 1) + (other.Coeffs.length - 1)) := by
  have hl := trim_some_ne_nil _ _ hp
  have hlo := trim_some_ne_nil _ _ ho
  have hpos := List.length_pos.mpr hl
  have hposo := List.length_pos.mpr hlo
  obtain ⟨R, h1, h2, h3, h4⟩ := Mul_spec p other href hm hp ho
  have hlen : R.length = (p.Coeffs.length - 1) + (other.Coeffs.length - 1) + 1 := by
    rw [h2]
    omega
  have hco : ∀ k, k < R.length → coeffAt R k = (∑ i in Finset.range (k + 1),
      coeffAt p.Coeffs i * coeffAt other.Coeffs (k - i)) % p.ZModPr.Modulus := by
    intro k hk
    have h5 := Mul_coeff p other R k h3
    rw [allSum_indicator] at h5
    have h6 : ∑ i in Finset.range (k + 1),
        (if 0 ≤ i then coeffAt p.Coeffs (i - 0) else 0) * coeffAt other.Coeffs (k - i)
        = ∑ i in Finset.range (k + 1), coeffAt p.Coeffs i * coeffAt other.Coeffs (k - i) := by
      apply Finset.sum_congr rfl
      intro i _
      simp
    rw [h6] at h5
    rw [← h4 _ (coeffAt_mem R k hk)]
    exact h5
  have hlead : coeffAt R ((p.Coeffs.length - 1) + (other.Coeffs.length - 1))
      = (coeffAt p.Coeffs (p.Coeffs.length - 1)
          * coeffAt other.Coeffs (other.Coeffs.length - 1)) % p.ZModPr.Modulus := by
    rw [hco _ (by omega), conv_top _ _ hl hlo]
  have hRne : R ≠ [] := by
    intro h0
    rw [h0] at hlen
    simp at hlen
  refine ⟨R, h1, hlen, hco, fun x => Mul_eval p other R x h3, hlead, ?_⟩
  obtain ⟨t, ht1, ht2, ht3, _⟩ := trim_spec R hRne
  refine ⟨t.length - 1, by simp [Polynomial.Degree, ht1], by omega, fun hne => ?_⟩
  have hlast : coeffAt R (R.length - 1) ≠ 0 := by
    have : R.length - 1 = (p.Coeffs.length - 1) + (other.Coeffs.length - 1) := by omega
    rw [this, hlead]
    exact hne
  have := trim_of_last R hRne hlast
  rw [ht1] at this
  have : t = R := Option.some.inj this
  rw [this]
  omega

/-- C16, amended: for polynomials p and other with trimmed coefficient lists whose rings share
the modulus pointer, modulus m not zero, Mul returns a polynomial with
Degree(p) + Degree(other) + 1 coefficients, the coefficient at index k being the convolution
sum of p_i * other_(k-i) reduced modulo m; its degree is at most Degree(p) + Degree(other), and
equal to it when the product of the two leading coefficients is not 0 modulo m. -/
theorem Mul_correct (p other : Polynomial) (href : p.ZModPr.ref = other.ZModPr.ref)
    (hm : p.ZModPr.Modulus ≠ 0) (hp : p.Trim = some p) (ho : other.Trim = some other) :
    ∃ r dp dq dr, p.Mul other = some r ∧ r.ZModPr = p.ZModPr ∧
      p.Degree = some dp ∧ other.Degree = some dq ∧ r.Degree = some dr ∧
      r.Coeffs.length = dp + dq + 1 ∧
      (∀ k, k ≤ dp + dq → coeffAt r.Coeffs k = (∑ i in Finset.range (k + 1),
        coeffAt p.Coeffs i * coeffAt other.Coeffs (k - i)) % p.ZModPr.Modulus) ∧
      dr ≤ dp + dq ∧
      ((coeffAt p.Coeffs dp * coeffAt other.Coeffs dq) % p.ZModPr.Modulus ≠ 0 →
        dr = dp + dq) := by
  have hp2 := trim_of_Trim p hp
  have ho2 := trim_of_Trim other ho
  obtain ⟨R, h1, h2, h3, _, _, dr, h6, h7, h8⟩ := Mul_full p other href hm hp2 ho2
  exact ⟨⟨R, p.ZModPr⟩, p.Coeffs.length - 1, other.Coeffs.length - 1, dr, h1, rfl,
    Degree_of_trim p hp2, Degree_of_trim other ho2, h6, h2,
    fun k hk => h3 k (by rw [h2]; omega), h7, h8⟩

/-- Witness of C16 (amended): (1 + 2 X) * (3 + X) over the integers modulo 7. -/
theorem Mul_correct_witness :
    ∃ r dp dq dr, (NewPolynomial [1, 2] (NewZModPrime 7 0)).Mul
        (NewPolynomial [3, 1] (NewZModPrime 7 0)) = some r ∧
      r.ZModPr = (NewPolynomial [1, 2] (NewZModPrime 7 0)).ZModPr ∧
      (NewPolynomial [1, 2] (NewZModPrime 7 0)).Degree = some dp ∧
      (NewPolynomial [3, 1] (NewZModPrime 7 0)).Degree = some dq ∧ r.Degree = some dr ∧
      r.Coeffs.length = dp + dq + 1 ∧
      (∀ k, k ≤ dp + dq → coeffAt r.Coeffs k = (∑ i in Finset.range (k + 1),
        coeffAt (NewPolynomial [1, 2] (NewZModPrime 7 0)).Coeffs i
          * coeffAt (NewPolynomial [3, 1] (NewZModPrime 7 0)).Coeffs (k - i))
        % (NewPolynomial [1, 2] (NewZModPrime 7 0)).ZModPr.Modulus) ∧
      dr ≤ dp + dq ∧
      ((coeffAt (NewPolynomial [1, 2] (NewZModPrime 7 0)).Coeffs dp
          * coeffAt (NewPolynomial [3, 1] (NewZModPrime 7 0)).Coeffs dq)
          % (NewPolynomial [1, 2] (NewZModPrime 7 0)).ZModPr.Modulus ≠ 0 →
        dr = dp + dq) :=
  Mul_correct (NewPolynomial [1, 2] (NewZModPrime 7 0)) (NewPolynomial [3, 1] (NewZModPrime 7 0))
    rfl (by decide) (by decide) (by decide)

/-- Counterexample to C16 as stated: over the integers modulo 5 the zero polynomial times
1 + X is the list 0, 0 of degree 0, while the degrees of the factors add up to 1. -/
theorem Mul_degree_counterexample :
    (NewPolynomial [0] (NewZModPrime 5 0)).Mul (NewPolynomial [1, 1] (NewZModPrime 5 0))
      = some (NewPolynomial [0, 0] (NewZModPrime 5 0)) ∧
    (NewPolynomial [0, 0] (NewZModPrime 5 0)).Degree = some 0 ∧
    (NewPolynomial [0] (NewZModPrime 5 0)).Degree = some 0 ∧
    (NewPolynomial [1, 1] (NewZModPrime 5 0)).Degree = some 1 := by
  decide


/-- IncludeCredential on a trimmed polynomial: the facts of Mul_full for the factor X - u. -/
theorem IncludeCredential_full (p : Polynomial) (u : Int) (hm : p.ZModPr.Modulus ≠ 0)
    (hp : trim p.Coeffs = some p.Coeffs) :
    ∃ R, p.IncludeCredential u = some ⟨R, p.ZModPr⟩ ∧ R.length = p.Coeffs.length + 1 ∧
      (∀ x, evalAt R x ≡ evalAt p.Coeffs x * (x - u) [ZMOD p.ZModPr.Modulus]) ∧
      coeffAt R p.Coeffs.length
        = coeffAt p.Coeffs (p.Coeffs.length - 1) % p.ZModPr.Modulus ∧
      ∃ dr, Polynomial.Degree ⟨R, p.ZModPr⟩ = some dr ∧ dr ≤ p.Coeffs.length ∧
        (coeffAt p.Coeffs (p.Coeffs.length - 1) % p.ZModPr.Modulus ≠ 0 →
          dr = p.Coeffs.length) := by
  have hl := trim_some_ne_nil _ _ hp
  have hpos := List.length_pos.mpr hl
  have ho : trim (Polynomial.Coeffs
      ⟨[(p.ZModPr.Modulus - u) % p.ZModPr.Modulus, 1], p.ZModPr⟩) =
      some (Polynomial.Coeffs ⟨[(p.ZModPr.Modulus - u) % p.ZModPr.Modulus, 1], p.ZModPr⟩) :=
    trim_of_last _ (by simp) (by simp [coeffAt])
  obtain ⟨R, h1, h2, _, _, h5, dr, h6, h7, h8⟩ :=
    Mul_full p ⟨[(p.ZModPr.Modulus - u) % p.ZModPr.Modulus, 1], p.ZModPr⟩ rfl hm hp ho
  obtain ⟨R2, g1, _, g3, _, _⟩ := IncludeCredential_spec p u hm hp
  have hinc : p.IncludeCredential u = some ⟨R, p.ZModPr⟩ := by
    simp only [Polynomial.IncludeCredential, ZModPrime.AdditiveInvert, bigMod, hm, if_false,
      NewPolynomial]
    exact h1
  have hRR : R2 = R := by
    rw [g1] at hinc
    exact congrArg Polynomial.Coeffs (Option.some.inj hinc)
  subst hRR
  have e1 : p.Coeffs.length - 1 + ([(p.ZModPr.Modulus - u) % p.ZModPr.Modulus, 1].length - 1)
      = p.Coeffs.length := by
    simp
    omega
  simp only [e1] at h2 h5 h7 h8
  have e2 : coeffAt [(p.ZModPr.Modulus - u) % p.ZModPr.Modulus, 1]
      ([(p.ZModPr.Modulus - u) % p.ZModPr.Modulus, 1].length - 1) = 1 := by
    simp [coeffAt]
  simp only [e2, mul_one] at h5 h8
  exact ⟨R2, g1, h2, g3, h5, dr, h6, h7, h8⟩

/-- C15, amended: for a polynomial Phi with a trimmed coefficient list over the integers modulo
m, m not zero, and every u, IncludeCredential returns a polynomial different from Phi with one
more coefficient; its degree is at most Degree(Phi) + 1, and equal to it when the leading
coefficient of Phi is not 0 modulo m. -/
theorem IncludeCredential_grows (p : Polynomial) (u : Int) (hm : p.ZModPr.Modulus ≠ 0)
    (hp : p.Trim = some p) :
    ∃ r dp dr, p.IncludeCredential u = some r ∧ r ≠ p ∧
      r.Coeffs.length = p.Coeffs.length + 1 ∧
      p.Degree = some dp ∧ r.Degree = some dr ∧ dr ≤ dp + 1 ∧
      (coeffAt p.Coeffs dp % p.ZModPr.Modulus ≠ 0 → dr = dp + 1) := by
  have hp2 := trim_of_Trim p hp
  have hl := trim_some_ne_nil _ _ hp2
  have hpos := List.length_pos.mpr hl
  obtain ⟨R, h1, h2, _, _, dr, h6, h7, h8⟩ := IncludeCredential_full p u hm hp2
  refine ⟨⟨R, p.ZModPr⟩, p.Coeffs.length - 1, dr, h1, ?_, h2, Degree_of_trim p hp2, h6,
    by omega, fun h => ?_⟩
  · intro h
    have := congrArg (fun q => q.Coeffs.length) h
    simp only [h2] at this
    omega
  · have := h8 h
    omega

/-- Witness of C15 (amended): 2 + 3 X + X^2 over the integers modulo 7 and the credential 4. -/
theorem IncludeCredential_grows_witness :
    ∃ r dp dr, (NewPolynomial [2, 3, 1] (NewZModPrime 7 0)).IncludeCredential 4 = some r ∧
      r ≠ NewPolynomial [2, 3, 1] (NewZModPrime 7 0) ∧
      r.Coeffs.length = (NewPolynomial [2, 3, 1] (NewZModPrime 7 0)).Coeffs.length + 1 ∧
      (NewPolynomial [2, 3, 1] (NewZModPrime 7 0)).Degree = some dp ∧ r.Degree = some dr ∧
      dr ≤ dp + 1 ∧
      (coeffAt (NewPolynomial [2, 3, 1] (NewZModPrime 7 0)).Coeffs dp
          % (NewPolynomial [2, 3, 1] (NewZModPrime 7 0)).ZModPr.Modulus ≠ 0 → dr = dp + 1) :=
  IncludeCredential_grows (NewPolynomial [2, 3, 1] (NewZModPrime 7 0)) 4 (by decide) (by decide)

/-- Counterexample to C15 as stated: including the credential 2 in the zero polynomial over
the integers modulo 5 gives the list 0, 0, whose degree is 0, the degree of the zero
polynomial, and not 1. -/
theorem IncludeCredential_degree_counterexample :
    (NewPolynomial [0] (NewZModPrime 5 0)).IncludeCredential 2
      = some (NewPolynomial [0, 0] (NewZModPrime 5 0)) ∧
    (NewPolynomial [0, 0] (NewZModPrime 5 0)).Degree = some 0 ∧
    (NewPolynomial [0] (NewZModPrime 5 0)).Degree = some 0 ∧
    (NewPolynomial [0] (NewZModPrime 5 0)).Trim = some (NewPolynomial [0] (NewZModPrime 5 0)) := by
  decide

/-- C18: Add and Mul panic whenever the two modulus pointers differ, whatever the moduli: two
polynomials over numerically equal moduli held in two big-integer objects are rejected. -/
theorem Add_Mul_pointer_guard (cs ds : List Int) (m : Int) (r1 r2 : Nat) (h : r1 ≠ r2) :
    (NewPolynomial cs (NewZModPrime m r1)).ZModPr.Modulus
      = (NewPolynomial ds (NewZModPrime m r2)).ZModPr.Modulus ∧
    (NewPolynomial cs (NewZModPrime m r1)).Add (NewPolynomial ds (NewZModPrime m r2)) = none ∧
    (NewPolynomial cs (NewZModPrime m r1)).Mul (NewPolynomial ds (NewZModPrime m r2)) = none := by
  simp [Polynomial.Add, Polynomial.Mul, NewPolynomial, NewZModPrime, h]

/-- Witness of C18: 1 + X and 2 over the modulus 5 held in two objects; with one shared object
the same operands are accepted. -/
theorem Add_Mul_pointer_guard_witness :
    ((NewPolynomial [1, 1] (NewZModPrime 5 1)).ZModPr.Modulus
      = (NewPolynomial [2] (NewZModPrime 5 2)).ZModPr.Modulus ∧
    (NewPolynomial [1, 1] (NewZModPrime 5 1)).Add (NewPolynomial [2] (NewZModPrime 5 2)) = none ∧
    (NewPolynomial [1, 1] (NewZModPrime 5 1)).Mul (NewPolynomial [2] (NewZModPrime 5 2)) = none) ∧
    (NewPolynomial [1, 1] (NewZModPrime 5 1)).Add (NewPolynomial [2] (NewZModPrime 5 1))
      = some (NewPolynomial [3, 1] (NewZModPrime 5 1)) ∧
    (NewPolynomial [1, 1] (NewZModPrime 5 1)).Mul (NewPolynomial [2] (NewZModPrime 5 1))
      = some (NewPolynomial [2, 2] (NewZModPrime 5 1)) :=
  ⟨Add_Mul_pointer_guard [1, 1] [2] 5 1 2 (by decide), by decide, by decide⟩

end crypto

namespace crypto

/-- The invariant of the credential polynomial of the bulletin board: a trimmed coefficient
list over the ring modulo m with leading coefficient 1 that vanishes at every credential
of S. -/
theorem credential_step (m : Int) (hm : 1 < m) (cur : Polynomial) (S : List Int) (u : Int)
    (h1 : trim cur.Coeffs = some cur.Coeffs) (h2 : cur.ZModPr.Modulus = m)
    (h3 : coeffAt cur.Coeffs (cur.Coeffs.length - 1) = 1)
    (h4 : ∀ x ∈ S, evalAt cur.Coeffs x % m = 0) :
    ∃ nxt, cur.IncludeCredential u = some nxt ∧ trim nxt.Coeffs = some nxt.Coeffs ∧
      nxt.ZModPr.Modulus = m ∧ coeffAt nxt.Coeffs (nxt.Coeffs.length - 1) = 1 ∧
      ∀ x ∈ S ++ [u], evalAt nxt.Coeffs x % m = 0 := by
  have hm0 : cur.ZModPr.Modulus ≠ 0 := by rw [h2]; omega
  obtain ⟨R, g1, g2, g3, g4, _⟩ := IncludeCredential_full cur u hm0 h1
  have h1m : (1 : Int) % m = 1 := Int.emod_eq_of_lt (by omega) hm
  have hlast : coeffAt R (R.length - 1) = 1 := by
    have : R.length - 1 = cur.Coeffs.length := by omega
    rw [this, g4, h3, h2, h1m]
  have hRne : R ≠ [] := by
    intro h0
    rw [h0] at g2
    simp at g2
  refine ⟨⟨R, cur.ZModPr⟩, g1, trim_of_last R hRne (by rw [hlast]; decide), h2, hlast, ?_⟩
  intro x hx
  have hx2 := g3 x
  rw [h2] at hx2
  rcases List.mem_append.mp hx with hx | hx
  · have h5 : evalAt cur.Coeffs x ≡ 0 [ZMOD m] := h4 x hx
    have h6 := hx2.trans (h5.mul_right (x - u))
    simpa [Int.ModEq] using h6
  · have hxu : x = u := by simpa using hx
    subst hxu
    simpa [Int.ModEq] using hx2

end crypto

namespace keeper
open crypto

theorem include_all (gP : GStarModPrime) (hq : 1 < gP.Order) : ∀ (us : List Int)
    (store : Option Polynomial) (S : List Int),
    trim (GetCredentialPolynomial gP store).Coeffs = some (GetCredentialPolynomial gP store).Coeffs →
    (GetCredentialPolynomial gP store).ZModPr.Modulus = gP.Order →
    coeffAt (GetCredentialPolynomial gP store).Coeffs
      ((GetCredentialPolynomial gP store).Coeffs.length - 1) = 1 →
    (∀ x ∈ S, evalAt (GetCredentialPolynomial gP store).Coeffs x % gP.Order = 0) →
    ∃ store2, us.foldlM (includeCredentialInPolynomial gP) store = some store2 ∧
      ∀ x ∈ S ++ us, evalAt (GetCredentialPolynomial gP store2).Coeffs x % gP.Order = 0 := by
  intro us
  induction us with
  | nil =>
    intro store S _ _ _ h4
    exact ⟨store, rfl, by simpa using h4⟩
  | cons u us ih =>
    intro store S h1 h2 h3 h4
    obtain ⟨nxt, g1, g2, g3, g4, g5⟩ := credential_step gP.Order hq _ S u h1 h2 h3 h4
    obtain ⟨store2, k1, k2⟩ := ih (some nxt) (S ++ [u]) g2 g3 g4 g5
    refine ⟨store2, ?_, ?_⟩
    · simp only [List.foldlM, includeCredentialInPolynomial, g1, Option.map_some']
      exact k1
    · intro x hx
      exact k2 x (by simpa using hx)

/-- Roots of the credential polynomial: over the ring modulo the order m > 1 of G_p, including
a further credential in a polynomial with a trimmed coefficient list keeps every root; and the
bulletin board, starting from the empty store (the constant 1) and including u_1, ..., u_n in
turn, never panics and ends with a polynomial that vanishes modulo m at every u_i. -/
theorem credential_roots (gP : GStarModPrime) (hq : 1 < gP.Order) :
    (∀ (p : Polynomial) (u u2 : Int), p.ZModPr.Modulus = gP.Order → p.Trim = some p →
      evalAt p.Coeffs u % gP.Order = 0 →
      ∃ r, p.IncludeCredential u2 = some r ∧ evalAt r.Coeffs u % gP.Order = 0) ∧
    ∀ us : List Int, ∃ store, us.foldlM (includeCredentialInPolynomial gP) none = some store ∧
      ∀ x ∈ us, evalAt (GetCredentialPolynomial gP store).Coeffs x % gP.Order = 0 := by
  constructor
  · intro p u u2 h2 hp hu
    have hm0 : p.ZModPr.Modulus ≠ 0 := by rw [h2]; omega
    obtain ⟨R, g1, _, g3, _⟩ := IncludeCredential_full p u2 hm0 (trim_of_Trim p hp)
    refine ⟨⟨R, p.ZModPr⟩, g1, ?_⟩
    have hx2 := g3 u
    rw [h2] at hx2
    have h5 : evalAt p.Coeffs u ≡ 0 [ZMOD gP.Order] := hu
    have h6 := hx2.trans (h5.mul_right (u - u2))
    simpa [Int.ModEq] using h6
  · intro us
    have := include_all gP hq us none [] rfl rfl rfl (by simp)
    simpa using this

/-- The roots of the credential polynomial for the group of order 11 modulo 23. -/
theorem credential_roots_witness :
    (∀ (p : Polynomial) (u u2 : Int),
      p.ZModPr.Modulus = (NewGStarModPrime 23 11 0 1).Order → p.Trim = some p →
      evalAt p.Coeffs u % (NewGStarModPrime 23 11 0 1).Order = 0 →
      ∃ r, p.IncludeCredential u2 = some r ∧
        evalAt r.Coeffs u % (NewGStarModPrime 23 11 0 1).Order = 0) ∧
    ∀ us : List Int, ∃ store,
      us.foldlM (includeCredentialInPolynomial (NewGStarModPrime 23 11 0 1)) none = some store ∧
      ∀ x ∈ us, evalAt (GetCredentialPolynomial (NewGStarModPrime 23 11 0 1) store).Coeffs x
        % (NewGStarModPrime 23 11 0 1).Order = 0 :=
  credential_roots (NewGStarModPrime 23 11 0 1) (by decide)

end keeper

namespace crypto

/-- Fermat: over a prime modulus m every x in [1, m) has `x^(m-1) = 1 (mod m)`. -/
theorem fermat_int (m x : Int) (hm : Nat.Prime m.toNat) (h1 : 1 ≤ x) (h2 : x < m) :
    x ^ (m - 1).toNat ≡ 1 [ZMOD m] := by
  have hm2 := hm.two_le
  have hmpos : 0 ≤ m := by omega
  lift m to ℕ using hmpos
  lift x to ℕ using (by omega : 0 ≤ x)
  simp only [Int.toNat_ofNat] at hm hm2
  have hcop : IsCoprime (x : Int) (m : Int) := by
    rw [Nat.isCoprime_iff_coprime]
    exact ((Nat.Prime.coprime_iff_not_dvd hm).2
      (Nat.not_dvd_of_pos_of_lt (by omega) (by omega))).symm
  have := Int.ModEq.pow_card_sub_one_eq_one hm hcop
  have e : ((m : Int) - 1).toNat = m - 1 := by omega
  rw [e]
  exact this

/-- The cofactor power of a base in [1, m) lies in the subgroup of order q. -/
theorem cofactor_power (m q x : Int) (hm : Nat.Prime m.toNat) (hq : 0 < q) (hdvd : q ∣ m - 1)
    (h1 : 1 ≤ x) (h2 : x < m) :
    1 ≤ x ^ ((m - 1) / q).toNat % m ∧ x ^ ((m - 1) / q).toNat % m < m ∧
      (x ^ ((m - 1) / q).toNat % m) ^ q.toNat ≡ 1 [ZMOD m] := by
  have hm2 := hm.two_le
  have hm1 : 1 < m := by omega
  have hc : 0 ≤ (m - 1) / q := Int.ediv_nonneg (by omega) (le_of_lt hq)
  have hcq : (m - 1) / q * q = m - 1 := Int.ediv_mul_cancel hdvd
  have hexp : ((m - 1) / q).toNat * q.toNat = (m - 1).toNat := by
    have : (((m - 1) / q).toNat : Int) * (q.toNat : Int) = ((m - 1).toNat : Int) := by
      rw [Int.toNat_of_nonneg hc, Int.toNat_of_nonneg (le_of_lt hq),
        Int.toNat_of_nonneg (by omega), hcq]
    exact_mod_cast this
  have hpow : (x ^ ((m - 1) / q).toNat % m) ^ q.toNat ≡ 1 [ZMOD m] := by
    refine ((Int.mod_modEq _ _).pow _).trans ?_
    rw [← pow_mul, hexp]
    exact fermat_int m x hm h1 h2
  have hnn : 0 ≤ x ^ ((m - 1) / q).toNat % m := Int.emod_nonneg _ (by omega)
  have hlt : x ^ ((m - 1) / q).toNat % m < m := Int.emod_lt_of_pos _ (by omega)
  refine ⟨?_, hlt, hpow⟩
  by_contra hv
  have hv0 : x ^ ((m - 1) / q).toNat % m = 0 := by omega
  rw [hv0] at hpow
  have hq0 : q.toNat ≠ 0 := by omega
  rw [zero_pow hq0] at hpow
  have := hpow.dvd
  have h3 : m ∣ 1 := by simpa using this
  have := Int.le_of_dvd (by norm_num) h3
  omega

theorem Cofactor_eq (g : GStarModPrime) (hq : g.Order ≠ 0) :
    g.Cofactor = some ((g.Modulus - 1) / g.Order) := by
  simp [GStarModPrime.Cofactor, bigDiv, hq, GStarModPrime.ZStarModModulus, NewZStarModPrime,
    ZStarModPrime.Order]

/-- C11: for a prime modulus m, an order q > 0 dividing m - 1 and a sampled base x in [1, m)
(the k-th draw), RandomElement returns `x^((m-1)/q) mod m`, and Contains is true of it. -/
theorem RandomElement_mem (g : GStarModPrime) (rnd : Nat → Int → Int) (k : Nat)
    (hm : Nat.Prime g.Modulus.toNat) (hq : 0 < g.Order) (hdvd : g.Order ∣ g.Modulus - 1)
    (hx : 1 ≤ rnd k g.Modulus ∧ rnd k g.Modulus < g.Modulus) :
    g.RandomElement rnd k
        = some (rnd k g.Modulus ^ ((g.Modulus - 1) / g.Order).toNat % g.Modulus) ∧
      g.Contains (rnd k g.Modulus ^ ((g.Modulus - 1) / g.Order).toNat % g.Modulus)
        = some true := by
  have hc : 0 ≤ (g.Modulus - 1) / g.Order :=
    Int.ediv_nonneg (by have := hm.two_le; omega) (le_of_lt hq)
  obtain ⟨h1, h2, h3⟩ := cofactor_power g.Modulus g.Order _ hm hq hdvd hx.1 hx.2
  constructor
  · simp [GStarModPrime.RandomElement, Cofactor_eq g (ne_of_gt hq), bigExp_of_nonneg _ _ hc,
      ZStarModPrime.RandomElement, RandIntInRange, GStarModPrime.ZStarModModulus,
      NewZStarModPrime]
  · rw [Contains_of_nonneg g _ (le_of_lt hq)]
    simp [h1, h2, h3]

/-- Witness of C11: the group of order 11 modulo 23 and the sampled base 5. -/
theorem RandomElement_mem_witness :
    (NewGStarModPrime 23 11 0 1).RandomElement (fun _ _ => 5) 0
        = some ((fun (_ : Nat) (_ : Int) => (5 : Int)) 0 (NewGStarModPrime 23 11 0 1).Modulus
            ^ (((NewGStarModPrime 23 11 0 1).Modulus - 1)
                / (NewGStarModPrime 23 11 0 1).Order).toNat
            % (NewGStarModPrime 23 11 0 1).Modulus) ∧
      (NewGStarModPrime 23 11 0 1).Contains
          ((fun (_ : Nat) (_ : Int) => (5 : Int)) 0 (NewGStarModPrime 23 11 0 1).Modulus
            ^ (((NewGStarModPrime 23 11 0 1).Modulus - 1)
                / (NewGStarModPrime 23 11 0 1).Order).toNat
            % (NewGStarModPrime 23 11 0 1).Modulus)
        = some true :=
  RandomElement_mem (NewGStarModPrime 23 11 0 1) (fun _ _ => 5) 0
    (by show Nat.Prime 23; norm_num) (by decide) (by decide) (by decide)


theorem randomGeneratorLoop_of_ne (g : GStarModPrime) (c : Int) (rnd : Nat → Int → Int)
    (fuel k : Nat) (gen : Int) (h : gen ≠ 1) :
    randomGeneratorLoop g c rnd fuel k gen = some gen := by
  cases fuel <;> simp [randomGeneratorLoop, h]

/-- The loop of RandomGenerator returns the cofactor power of the first draw for which this
power is not 1. -/
theorem randomGeneratorLoop_eq (g : GStarModPrime) (c : Int) (hc : 0 ≤ c)
    (rnd : Nat → Int → Int) : ∀ (fuel k : Nat),
    randomGeneratorLoop g c rnd fuel k 1
      = ((List.range' k fuel).find?
          (fun i => decide (rnd i g.Modulus ^ c.toNat % g.Modulus ≠ 1))).map
        (fun i => rnd i g.Modulus ^ c.toNat % g.Modulus) := by
  intro fuel
  induction fuel with
  | zero => intro k; simp [randomGeneratorLoop]
  | succ fuel ih =>
    intro k
    simp only [randomGeneratorLoop, if_true, bigExp_of_nonneg _ _ hc, Option.getD_some,
      ZStarModPrime.RandomElement, RandIntInRange, GStarModPrime.ZStarModModulus,
      NewZStarModPrime, List.range'_succ, List.find?_cons]
    by_cases h : rnd k g.Modulus ^ c.toNat % g.Modulus = 1
    · rw [h]
      simp only [ne_eq, not_true_eq_false, decide_False]
      exact ih (k + 1)
    · rw [randomGeneratorLoop_of_ne _ _ _ _ _ _ h]
      simp [h]

/-- An element of [0, m) other than 1 whose q-th power is 1 modulo the prime m, q prime, has
no smaller positive exponent with power 1. -/
theorem generator_of_prime_order (m q v : Int) (hm : Nat.Prime m.toNat)
    (hq : Nat.Prime q.toNat) (h0 : 0 ≤ v) (hlt : v < m) (hne : v ≠ 1)
    (hpow : v ^ q.toNat ≡ 1 [ZMOD m]) (e : Nat) (he : 0 < e) (heq : (e : Int) < q) :
    ¬ v ^ e ≡ 1 [ZMOD m] := by
  have hm2 := hm.two_le
  have hmpos : 0 ≤ m := by omega
  lift m to ℕ using hmpos
  simp only [Int.toNat_ofNat] at hm hm2
  haveI : Fact (Nat.Prime q.toNat) := ⟨hq⟩
  intro hcon
  have h1 : ((v : ZMod m)) ^ q.toNat = 1 := by
    have := (ZMod.intCast_eq_intCast_iff (v ^ q.toNat) 1 m).2 hpow
    simpa using this
  have h2 : ((v : ZMod m)) ≠ 1 := by
    intro h
    have h3 : ((v : ZMod m)) = ((1 : Int) : ZMod m) := by simpa using h
    have h4 := (ZMod.intCast_eq_intCast_iff v 1 m).1 h3
    have h5 : v % (m : Int) = 1 % (m : Int) := h4
    rw [Int.emod_eq_of_lt h0 hlt, Int.emod_eq_of_lt (by norm_num) (by omega)] at h5
    exact hne h5
  have hord := orderOf_eq_prime h1 h2
  have h6 : ((v : ZMod m)) ^ e = 1 := by
    have := (ZMod.intCast_eq_intCast_iff (v ^ e) 1 m).2 hcon
    simpa using this
  exact pow_ne_one_of_lt_orderOf (by omega) (by rw [hord]; omega) h6

/-- C12: for a prime modulus m, a prime order q dividing m - 1 and sampled bases in [1, m),
every value g returned by RandomGenerator is the cofactor power of a sampled base, lies in
[1, m), is not 1, has `g^q = 1 (mod m)` and `g^e ≠ 1 (mod m)` for every 0 < e < q, and
Contains is true of it; and a value is returned as soon as the fuel reaches a draw whose
cofactor power is not 1. -/
theorem RandomGenerator_correct (g : GStarModPrime) (rnd : Nat → Int → Int) (fuel : Nat)
    (hm : Nat.Prime g.Modulus.toNat) (hq : Nat.Prime g.Order.toNat)
    (hdvd : g.Order ∣ g.Modulus - 1)
    (hx : ∀ k, 1 ≤ rnd k g.Modulus ∧ rnd k g.Modulus < g.Modulus) :
    (∀ gen, g.RandomGenerator rnd fuel = some gen →
      gen ≠ 1 ∧ 1 ≤ gen ∧ gen < g.Modulus ∧
      (∃ k, k < fuel ∧
        gen = rnd k g.Modulus ^ ((g.Modulus - 1) / g.Order).toNat % g.Modulus) ∧
      gen ^ g.Order.toNat ≡ 1 [ZMOD g.Modulus] ∧
      (∀ e : Nat, 0 < e → (e : Int) < g.Order → ¬ gen ^ e ≡ 1 [ZMOD g.Modulus]) ∧
      g.Contains gen = some true) ∧
    ((∃ k, k < fuel ∧
        rnd k g.Modulus ^ ((g.Modulus - 1) / g.Order).toNat % g.Modulus ≠ 1) →
      ∃ gen, g.RandomGenerator rnd fuel = some gen) := by
  have hq2 := hq.two_le
  have hqpos : 0 < g.Order := by omega
  have hc : 0 ≤ (g.Modulus - 1) / g.Order :=
    Int.ediv_nonneg (by have := hm.two_le; omega) (le_of_lt hqpos)
  have hrun : g.RandomGenerator rnd fuel
      = ((List.range' 0 fuel).find? (fun i => decide
          (rnd i g.Modulus ^ ((g.Modulus - 1) / g.Order).toNat % g.Modulus ≠ 1))).map
        (fun i => rnd i g.Modulus ^ ((g.Modulus - 1) / g.Order).toNat % g.Modulus) := by
    simp only [GStarModPrime.RandomGenerator, Cofactor_eq g (ne_of_gt hqpos), Option.some_bind]
    exact randomGeneratorLoop_eq g _ hc rnd fuel 0
  constructor
  · intro gen hgen
    rw [hrun] at hgen
    obtain ⟨k, hk1, hk2⟩ := Option.map_eq_some'.mp hgen
    have hk3 := List.find?_some hk1
    have hk4 := List.mem_of_find?_eq_some hk1
    simp only [ne_eq, decide_not, Bool.not_eq_eq_eq_not, Bool.not_true,
      decide_eq_false_iff_not] at hk3
    have hk5 : k < fuel := by
      have := List.mem_range'_1.mp hk4
      omega
    obtain ⟨h1, h2, h3⟩ := cofactor_power g.Modulus g.Order _ hm hqpos hdvd (hx k).1 (hx k).2
    rw [hk2] at h1 h2 h3 hk3
    refine ⟨hk3, h1, h2, ⟨k, hk5, hk2.symm⟩, h3, ?_, ?_⟩
    · intro e he heq
      exact generator_of_prime_order g.Modulus g.Order gen hm hq (by omega) h2 hk3 h3 e he heq
    · rw [Contains_of_nonneg g _ (le_of_lt hqpos)]
      simp [h1, h2, h3]
  · rintro ⟨k, hk1, hk2⟩
    rw [hrun]
    have hsome : ((List.range' 0 fuel).find? (fun i => decide
        (rnd i g.Modulus ^ ((g.Modulus - 1) / g.Order).toNat % g.Modulus ≠ 1))).isSome := by
      rw [List.find?_isSome]
      exact ⟨k, List.mem_range'_1.mpr ⟨by omega, by omega⟩, by simpa using hk2⟩
    obtain ⟨i, hi⟩ := Option.isSome_iff_exists.mp hsome
    exact ⟨_, by rw [hi]; rfl⟩

/-- Witness of C12: the group of order 11 modulo 23; the first sampled base 1 is rejected, the
second one, 5, gives the generator 2. -/
theorem RandomGenerator_correct_witness :
    (NewGStarModPrime 23 11 0 1).RandomGenerator (fun k _ => if k = 0 then 1 else 5) 3 = some 2 ∧
    (∀ gen, (NewGStarModPrime 23 11 0 1).RandomGenerator
        (fun k _ => if k = 0 then 1 else 5) 3 = some gen →
      gen ≠ 1 ∧ 1 ≤ gen ∧ gen < (NewGStarModPrime 23 11 0 1).Modulus ∧
      (∃ k, k < 3 ∧
        gen = (fun (k : Nat) (_ : Int) => if k = 0 then (1 : Int) else 5) k
            (NewGStarModPrime 23 11 0 1).Modulus
          ^ (((NewGStarModPrime 23 11 0 1).Modulus - 1)
              / (NewGStarModPrime 23 11 0 1).Order).toNat
          % (NewGStarModPrime 23 11 0 1).Modulus) ∧
      gen ^ (NewGStarModPrime 23 11 0 1).Order.toNat
        ≡ 1 [ZMOD (NewGStarModPrime 23 11 0 1).Modulus] ∧
      (∀ e : Nat, 0 < e → (e : Int) < (NewGStarModPrime 23 11 0 1).Order →
        ¬ gen ^ e ≡ 1 [ZMOD (NewGStarModPrime 23 11 0 1).Modulus]) ∧
      (NewGStarModPrime 23 11 0 1).Contains gen = some true) :=
  ⟨by decide,
    (RandomGenerator_correct (NewGStarModPrime 23 11 0 1) (fun k _ => if k = 0 then 1 else 5) 3
      (by show Nat.Prime 23; norm_num) (by show Nat.Prime 11; norm_num) (by decide)
      (fun k => by by_cases h : k = 0 <;> simp [h, NewGStarModPrime])).1⟩

end crypto

namespace crypto

theorem gcd_eq_iff_dvd (a q : Int) (hq : 0 ≤ q) : ((Int.gcd a q : Nat) : Int) = q ↔ q ∣ a := by
  constructor
  · intro h
    rw [← h]
    exact Int.gcd_dvd_left
  · intro h
    rw [Int.gcd_eq_right h, Int.natAbs_of_nonneg hq]

theorem NewDoubleDiscreteLogProofSystem_eq_none (commP commQ : PedersenCommitmentScheme)
    (k : Nat) (hq : 0 ≤ commQ.G.Order) :
    NewDoubleDiscreteLogProofSystem commP commQ k = none ↔
      (¬ commQ.G.Order ∣ commP.G.Order - 1 ∨ commP.G.Order ≤ 2 ^ k) := by
  simp only [NewDoubleDiscreteLogProofSystem, ne_eq, gcd_eq_iff_dvd _ _ hq]
  by_cases h1 : commQ.G.Order ∣ commP.G.Order - 1
  · by_cases h2 : commP.G.Order ≤ 2 ^ k
    · simp [h1, h2]
    · simp [h1, h2]
  · simp [h1]

theorem Q_dvd_P_sub_one : Q ∣ P - 1 :=
  ⟨123003155723136208567847447683223664415731869180715065944930703618254955521953492303010368693540149343822709050322214299552689203876695953600699775494388206142090885899729347827083318884583758435450548517566916626912548274908112766882031433928533568160966639616,
    by norm_num [P, Q]⟩

theorem P_bits : (2 : Int) ^ 1023 ≤ P ∧ P < 2 ^ 1024 := by
  constructor <;> norm_num [P]

/-- C20: with p and q the orders of the groups of the two commitment schemes, q not negative,
and k the security parameter, NewDoubleDiscreteLogProofSystem fails exactly when q does not
divide p - 1 or p is at most 2^k; it fails for k = 2048 whenever p is below 2^1024, and for the
constants P and Q with k = SecurityParam = 80 it returns a proof system. -/
theorem NewDoubleDiscreteLogProofSystem_fails_iff (commP commQ : PedersenCommitmentScheme)
    (k : Nat) (hq : 0 ≤ commQ.G.Order) :
    (NewDoubleDiscreteLogProofSystem commP commQ k = none ↔
      (¬ commQ.G.Order ∣ commP.G.Order - 1 ∨ 2 ^ k ≥ commP.G.Order)) ∧
    (commP.G.Order < 2 ^ 1024 → NewDoubleDiscreteLogProofSystem commP commQ 2048 = none) ∧
    (commP.G.Order = P → commQ.G.Order = Q →
      SecurityParam = 80 ∧
      ∃ ps, NewDoubleDiscreteLogProofSystem commP commQ SecurityParam = some ps) := by
  refine ⟨NewDoubleDiscreteLogProofSystem_eq_none commP commQ k hq, fun h => ?_, fun hP hQ => ?_⟩
  · rw [NewDoubleDiscreteLogProofSystem_eq_none commP commQ 2048 hq]
    right
    have : (2 : Int) ^ 1024 ≤ 2 ^ 2048 := by norm_num
    omega
  · refine ⟨rfl, ?_⟩
    cases h : NewDoubleDiscreteLogProofSystem commP commQ SecurityParam with
    | some ps => exact ⟨ps, rfl⟩
    | none =>
      exfalso
      rw [NewDoubleDiscreteLogProofSystem_eq_none commP commQ SecurityParam hq, hP, hQ] at h
      rcases h with h | h
      · exact h Q_dvd_P_sub_one
      · have h2 := P_bits.1
        have h3 : (2 : Int) ^ SecurityParam < 2 ^ 1023 := by norm_num [SecurityParam]
        omega

/-- Witness of C20: the schemes over the default groups, G_p of order P modulo O and G_q of
order Q modulo P, with small generators; k = 80 is accepted and k = 2048 is rejected. -/
theorem NewDoubleDiscreteLogProofSystem_fails_iff_witness :
    (∃ ps, NewDoubleDiscreteLogProofSystem
        (NewPedersenCommitmentScheme (NewGStarModPrime O P 0 1) 2 [3])
        (NewPedersenCommitmentScheme (NewGStarModPrime P Q 1 2) 2 [3, 4]) SecurityParam
      = some ps) ∧
    NewDoubleDiscreteLogProofSystem
        (NewPedersenCommitmentScheme (NewGStarModPrime O P 0 1) 2 [3])
        (NewPedersenCommitmentScheme (NewGStarModPrime P Q 1 2) 2 [3, 4]) 2048
      = none :=
  have h := NewDoubleDiscreteLogProofSystem_fails_iff
    (NewPedersenCommitmentScheme (NewGStarModPrime O P 0 1) 2 [3])
    (NewPedersenCommitmentScheme (NewGStarModPrime P Q 1 2) 2 [3, 4]) 80
    (by norm_num [NewPedersenCommitmentScheme, NewGStarModPrime, Q])
  ⟨(h.2.2 rfl rfl).2, h.2.1 P_bits.2⟩

end crypto

namespace crypto

theorem natBytes_zero (fuel : Nat) (acc : List Nat) : natBytes fuel 0 acc = acc := by
  cases fuel <;> simp [natBytes]

/-- With enough fuel the digits are put in front of the accumulator. -/
theorem natBytes_append : ∀ (n fuel : Nat) (acc : List Nat), n ≤ fuel →
    natBytes fuel n acc = natBytes n n [] ++ acc := by
  intro n
  induction n using Nat.strong_induction_on with
  | _ n ih =>
    intro fuel acc hle
    by_cases hn : n = 0
    · subst hn
      simp [natBytes_zero]
    · obtain ⟨f, rfl⟩ : ∃ f, fuel = f + 1 := ⟨fuel - 1, by omega⟩
      obtain ⟨n1, rfl⟩ : ∃ n1, n = n1 + 1 := ⟨n - 1, by omega⟩
      have hdiv : (n1 + 1) / 256 < n1 + 1 := Nat.div_lt_self (by omega) (by norm_num)
      have e1 : natBytes (f + 1) (n1 + 1) acc
          = natBytes f ((n1 + 1) / 256) ((n1 + 1) % 256 :: acc) := by
        simp [natBytes]
      have e2 : natBytes (n1 + 1) (n1 + 1) []
          = natBytes n1 ((n1 + 1) / 256) [(n1 + 1) % 256] := by
        simp [natBytes]
      rw [e1, e2, ih _ hdiv f _ (by omega), ih _ hdiv n1 _ (by omega)]
      simp

theorem natBytes_step (n : Nat) (hn : n ≠ 0) :
    natBytes n n [] = natBytes (n / 256) (n / 256) [] ++ [n % 256] := by
  obtain ⟨n1, rfl⟩ : ∃ n1, n = n1 + 1 := ⟨n - 1, by omega⟩
  have hdiv : (n1 + 1) / 256 < n1 + 1 := Nat.div_lt_self (by omega) (by norm_num)
  have e2 : natBytes (n1 + 1) (n1 + 1) []
      = natBytes n1 ((n1 + 1) / 256) [(n1 + 1) % 256] := by
    simp [natBytes]
  rw [e2, natBytes_append _ n1 _ (by omega)]

/-- The byte string of n: its value read big-endian is n, every byte is below 256 and the
first byte is not 0. -/
theorem natBytes_spec : ∀ n : Nat,
    (natBytes n n []).foldl (fun acc b => acc * 256 + b) 0 = n ∧
      (∀ b ∈ natBytes n n [], b < 256) ∧ (natBytes n n []).head? ≠ some 0 := by
  intro n
  induction n using Nat.strong_induction_on with
  | _ n ih =>
    by_cases hn : n = 0
    · subst hn
      simp [natBytes]
    · have hdiv : n / 256 < n := Nat.div_lt_self (by omega) (by norm_num)
      obtain ⟨h1, h2, h3⟩ := ih _ hdiv
      rw [natBytes_step n hn]
      refine ⟨?_, ?_, ?_⟩
      · rw [List.foldl_append, h1]
        simp only [List.foldl_cons, List.foldl_nil]
        omega
      · intro b hb
        rcases List.mem_append.mp hb with hb | hb
        · exact h2 b hb
        · have : b = n % 256 := by simpa using hb
          omega
      · by_cases hd : n / 256 = 0
        · rw [hd]
          have : n % 256 ≠ 0 := by omega
          simpa [natBytes] using this
        · cases hbs : natBytes (n / 256) (n / 256) [] with
          | nil =>
            rw [hbs] at h1
            simp at h1
            omega
          | cons b bs =>
            rw [hbs] at h3
            simpa using h3

theorem Bytes_spec (x : Int) :
    SetBytes (Bytes x) = |x| ∧ (∀ b ∈ Bytes x, b < 256) ∧ (Bytes x).head? ≠ some 0 := by
  obtain ⟨h1, h2, h3⟩ := natBytes_spec x.natAbs
  refine ⟨?_, h2, h3⟩
  unfold SetBytes Bytes
  rw [h1]
  exact Int.natCast_natAbs x


/-- C19, amended: each generateChallenge returns the digest of the byte strings of all
elements, group by group, followed by the bytes of the vote, read as a big-endian unsigned
integer and reduced modulo the order of the group of the proof system's own commitment scheme:
p = ord(G_p) for the polynomial-evaluation and the double-discrete-log system, q = ord(G_q) for
the preimage-equality system built on the G_q scheme; the challenge lies in [0, p),
respectively [0, q). The byte string of an element is the minimal big-endian one of its
absolute value, empty for zero. -/
theorem generateChallenge_eq (commP commQ : PedersenCommitmentScheme) (poly : Polynomial)
    (k : Nat) (hHat : Int) (ps1 : PolynomialEvaluationProofSystem)
    (ps2 : DoubleDiscreteLogProofSystem)
    (h1 : NewPolynomialEvaluationProofSystem commP poly = some ps1)
    (h2 : NewDoubleDiscreteLogProofSystem commP commQ k = some ps2)
    (hp : 0 < commP.G.Order) (hq : 0 < commQ.G.Order)
    (sha256 : List Nat → List Nat) (vote : String) :
    (∀ inputs, ps1.generateChallenge sha256 vote inputs
      = some (SetBytes (sha256 ((inputs.map (fun c => (c.map Bytes).flatten)).flatten
          ++ voteBytes vote)) % commP.G.Order)) ∧
    (∀ commToU commToAandB t t1Arr t2Arr,
      ps2.generateChallenge sha256 commToU commToAandB t t1Arr t2Arr vote
      = some (SetBytes (sha256 (([[commToU, commToAandB, t], t1Arr, t2Arr].map
          (fun c => (c.map Bytes).flatten)).flatten ++ voteBytes vote)) % commP.G.Order)) ∧
    (∀ commToAandB uHat commitments,
      (NewPreimageEqualityProofSystem hHat commQ).generateChallenge sha256 commToAandB uHat
        commitments vote
      = some (SetBytes (sha256 (([[commToAandB, uHat], commitments].map
          (fun c => (c.map Bytes).flatten)).flatten ++ voteBytes vote)) % commQ.G.Order)) ∧
    (∀ D : Int, (0 ≤ D % commP.G.Order ∧ D % commP.G.Order < commP.G.Order) ∧
      (0 ≤ D % commQ.G.Order ∧ D % commQ.G.Order < commQ.G.Order)) ∧
    Bytes 0 = [] ∧
    (∀ x : Int, SetBytes (Bytes x) = |x| ∧ (∀ b ∈ Bytes x, b < 256) ∧
      (Bytes x).head? ≠ some 0) := by
  have e1 : ps1.zModPr.Modulus = commP.G.Order := by
    simp only [NewPolynomialEvaluationProofSystem] at h1
    obtain ⟨deg, _, hdeg⟩ := Option.bind_eq_some.mp h1
    split_ifs at hdeg
    have := Option.some.inj hdeg
    rw [← this]
    rfl
  have e2 : ps2.zp.Modulus = commP.G.Order := by
    simp only [NewDoubleDiscreteLogProofSystem] at h2
    split_ifs at h2
    have := Option.some.inj h2
    rw [← this]
    rfl
  refine ⟨fun inputs => ?_, fun a b c d e => ?_, fun a b c => ?_, fun D => ?_, rfl, Bytes_spec⟩
  · simp only [PolynomialEvaluationProofSystem.generateChallenge, hashToChallenge, e1]
    exact bigMod_of_ne _ (ne_of_gt hp)
  · simp only [DoubleDiscreteLogProofSystem.generateChallenge, hashToChallenge, e2]
    exact bigMod_of_ne _ (ne_of_gt hp)
  · simp only [PreimageEqualityProofSystem.generateChallenge, hashToChallenge,
      NewPreimageEqualityProofSystem, GStarModPrime.ZModOrder, NewZModPrime]
    exact bigMod_of_ne _ (ne_of_gt hq)
  · exact ⟨⟨Int.emod_nonneg _ (ne_of_gt hp), Int.emod_lt_of_pos _ hp⟩,
      ⟨Int.emod_nonneg _ (ne_of_gt hq), Int.emod_lt_of_pos _ hq⟩⟩

/-- Witness of C19 (amended): G_p of order 11 modulo 23 and G_q of order 5 modulo 11, the
polynomial 10 + X and k = 3. -/
theorem generateChallenge_eq_witness :
    ∃ ps1 ps2,
      NewPolynomialEvaluationProofSystem
        (NewPedersenCommitmentScheme (NewGStarModPrime 23 11 0 1) 2 [3])
        (NewPolynomial [10, 1] (NewGStarModPrime 23 11 0 1).ZModOrder) = some ps1 ∧
      NewDoubleDiscreteLogProofSystem
        (NewPedersenCommitmentScheme (NewGStarModPrime 23 11 0 1) 2 [3])
        (NewPedersenCommitmentScheme (NewGStarModPrime 11 5 1 2) 3 [4, 5]) 3 = some ps2 ∧
      ∀ inputs, ps1.generateChallenge (fun bs => [bs.length % 256]) "yes" inputs
        = some (SetBytes ((fun (bs : List Nat) => [bs.length % 256])
            ((inputs.map (fun c => (c.map Bytes).flatten)).flatten ++ voteBytes "yes"))
          % (NewPedersenCommitmentScheme (NewGStarModPrime 23 11 0 1) 2 [3]).G.Order) :=
  ⟨_, _, rfl, rfl,
    (generateChallenge_eq (NewPedersenCommitmentScheme (NewGStarModPrime 23 11 0 1) 2 [3])
      (NewPedersenCommitmentScheme (NewGStarModPrime 11 5 1 2) 3 [4, 5])
      (NewPolynomial [10, 1] (NewGStarModPrime 23 11 0 1).ZModOrder) 3 9 _ _ rfl rfl
      (by decide) (by decide) (fun bs => [bs.length % 256]) "yes").1⟩

/-- Counterexample to C19 as stated: with G_p of order 11 and G_q of order 5, a hash function
whose digest is the single byte 7, and the same hash input, the polynomial-evaluation and the
double-discrete-log system return the challenge 7 = 7 mod 11, the preimage-equality system
returns 2 = 7 mod 5. -/
theorem generateChallenge_counterexample :
    (NewPolynomialEvaluationProofSystem
        (NewPedersenCommitmentScheme (NewGStarModPrime 23 11 0 1) 2 [3])
        (NewPolynomial [10, 1] (NewGStarModPrime 23 11 0 1).ZModOrder)).bind
      (fun ps => ps.generateChallenge (fun _ => [7]) "yes" [[3, 4, 6], [], []]) = some 7 ∧
    (NewDoubleDiscreteLogProofSystem
        (NewPedersenCommitmentScheme (NewGStarModPrime 23 11 0 1) 2 [3])
        (NewPedersenCommitmentScheme (NewGStarModPrime 11 5 1 2) 3 [4, 5]) 3).bind
      (fun ps => ps.generateChallenge (fun _ => [7]) 3 4 6 [] [] "yes") = some 7 ∧
    (NewPreimageEqualityProofSystem 9
        (NewPedersenCommitmentScheme (NewGStarModPrime 11 5 1 2) 3 [4, 5])).generateChallenge
      (fun _ => [7]) 3 4 [6] "yes" = some 2 := by
  decide

end crypto

namespace crypto

theorem set_append_length {β : Type} (pre : List β) (a x : β) (t : List β) :
    (pre ++ a :: t).set pre.length x = pre ++ x :: t := by
  induction pre with
  | nil => rfl
  | cons b pre ih => simp [ih]

/-- The copy loop into a slice whose entries from index `len(pre)` on are n zero values. -/
theorem copyInto_replicate {α β : Type} (f : α → β) (z : β) : ∀ (src : List α) (pre : List β)
    (n : Nat),
    copyInto f src pre.length (pre ++ List.replicate n z)
      = if src.length ≤ n then
          some (pre ++ src.map f ++ List.replicate (n - src.length) z)
        else none := by
  intro src
  induction src with
  | nil => intro pre n; simp [copyInto]
  | cons v vs ih =>
    intro pre n
    cases n with
    | zero => simp [copyInto]
    | succ n =>
      have hlt : pre.length < (pre ++ List.replicate (n + 1) z).length := by simp
      have hset : (pre ++ List.replicate (n + 1) z).set pre.length (f v)
          = (pre ++ [f v]) ++ List.replicate n z := by
        rw [List.replicate_succ, set_append_length]
        simp
      have hi : pre.length + 1 = (pre ++ [f v]).length := by simp
      rw [copyInto, if_pos hlt, hset, hi, ih (pre ++ [f v]) n]
      by_cases h : vs.length ≤ n
      · simp [h]
      · simp [h]

theorem copyInto_zero {α β : Type} (f : α → β) (z : β) (src : List α) (n : Nat) :
    copyInto f src 0 (List.replicate n z)
      = if src.length ≤ n then some (src.map f ++ List.replicate (n - src.length) z)
        else none := by
  have := copyInto_replicate f z src [] n
  simpa using this

theorem map_BigInt_NewInt (l : List (Option Int)) : (l.map NewInt).map AminoInt.BigInt = l := by
  rw [List.map_map]
  have : (AminoInt.BigInt ∘ NewInt) = id := by
    funext x
    rfl
  rw [this, List.map_id]

/-- The round trip of a transcript through its DTO: every field comes back, except that
`XiBarArr` comes back padded with nil entries to the length of `RBarArr`; with more entries in
`XiBarArr` than in `RBarArr` the encoding panics. -/
theorem PolyEvalProof_roundtrip (x : PolyEvalProof) :
    (x.wrapInDTO).bind PolyEvalProof.unwrapDTO
      = if x.XiBarArr.length ≤ x.RBarArr.length then
          some { x with XiBarArr :=
            x.XiBarArr ++ List.replicate (x.RBarArr.length - x.XiBarArr.length) none }
        else none := by
  by_cases h : x.XiBarArr.length ≤ x.RBarArr.length
  · have hlen : (List.map NewInt x.XiBarArr
        ++ List.replicate (x.RBarArr.length - x.XiBarArr.length) (NewInt none)).length
        ≤ (List.map NewInt x.RBarArr).length := by
      simp
      omega
    simp only [PolyEvalProof.wrapInDTO, copyInto_zero, if_pos h, Option.map_some',
      Option.some_bind, PolyEvalProof.unwrapDTO, if_pos hlen, map_BigInt_NewInt]
    congr 2
    simp only [List.map_append, map_BigInt_NewInt, List.map_replicate, List.length_append,
      List.length_map, List.length_replicate]
    have e : x.RBarArr.length - (x.XiBarArr.length + (x.RBarArr.length - x.XiBarArr.length))
        = 0 := by omega
    rw [e]
    simp [AminoInt.BigInt, NewInt]
  · simp [PolyEvalProof.wrapInDTO, copyInto_zero, h]

theorem mapM_length {α β : Type} (f : α → Option β) : ∀ (l : List α) (r : List β),
    l.mapM f = some r → r.length = l.length := by
  intro l
  induction l with
  | nil =>
    intro r h
    have h2 : ([] : List α).mapM f = some [] := rfl
    rw [h2] at h
    have h3 := Option.some.inj h
    subst h3
    rfl
  | cons a l ih =>
    intro r h
    rw [List.mapM_cons] at h
    cases ha : f a with
    | none =>
      rw [ha] at h
      exact absurd h (by simp)
    | some b =>
      cases hl : l.mapM f with
      | none =>
        rw [ha, hl] at h
        exact absurd h (by simp)
      | some bs =>
        rw [ha, hl] at h
        have h3 : some (b :: bs) = some r := h
        rw [← Option.some.inj h3]
        simp [ih bs hl]

theorem Generate_lengths (ps : PolynomialEvaluationProofSystem) (sha256 : List Nat → List Nat)
    (rnd : Nat → Int → Int) (u r commToU : Int) (vote : String) (x : PolyEvalProof)
    (h : ps.Generate sha256 rnd u r commToU vote = some x) :
    x.XiBarArr.length = ps.d ∧ x.RBarArr.length = ps.d + 1 ∧ x.FBarArr.length = ps.d + 1 ∧
      x.CArr.length = ps.d ∧ x.CfArr.length = ps.d + 1 ∧ x.CdArr.length = ps.d + 1 ∧
      x.CfuArr.length = ps.d := by
  simp only [PolynomialEvaluationProofSystem.Generate] at h
  obtain ⟨uArr, _, h⟩ := Option.bind_eq_some.mp h
  obtain ⟨cArr, hc, h⟩ := Option.bind_eq_some.mp h
  obtain ⟨cfArr, hcf, h⟩ := Option.bind_eq_some.mp h
  obtain ⟨dArr, _, h⟩ := Option.bind_eq_some.mp h
  obtain ⟨cdArr, hcd, h⟩ := Option.bind_eq_some.mp h
  obtain ⟨cfuArr, hcfu, h⟩ := Option.bind_eq_some.mp h
  obtain ⟨ch, _, h⟩ := Option.bind_eq_some.mp h
  obtain ⟨fBarArr, hf, h⟩ := Option.bind_eq_some.mp h
  obtain ⟨rBarArr, hr, h⟩ := Option.bind_eq_some.mp h
  obtain ⟨tBar, _, h⟩ := Option.bind_eq_some.mp h
  obtain ⟨xiBarArr, hxi, h⟩ := Option.bind_eq_some.mp h
  have hx := Option.some.inj h
  subst hx
  have l1 := mapM_length _ _ _ hc
  have l2 := mapM_length _ _ _ hcf
  have l3 := mapM_length _ _ _ hcd
  have l4 := mapM_length _ _ _ hcfu
  have l5 := mapM_length _ _ _ hf
  have l6 := mapM_length _ _ _ hr
  have l7 := mapM_length _ _ _ hxi
  simp only [List.length_range] at l1 l2 l3 l4 l5 l6 l7
  simp [l1, l2, l3, l4, l5, l6, l7]

theorem foldlM_congr {α β : Type} (f g : β → α → Option β) : ∀ (l : List α) (b : β),
    (∀ v, ∀ i ∈ l, f v i = g v i) → l.foldlM f b = l.foldlM g b := by
  intro l
  induction l with
  | nil => intro b _; rfl
  | cons a l ih =>
    intro b h
    simp only [List.foldlM_cons]
    rw [h b a (List.mem_cons_self a l)]
    cases g b a with
    | none => rfl
    | some b2 => exact ih b2 (fun v i hi => h v i (List.mem_cons_of_mem a hi))

/-- Verify reads `XiBarArr` only at the indices below d. -/
theorem Verify_congr_XiBarArr (ps : PolynomialEvaluationProofSystem)
    (sha256 : List Nat → List Nat) (x : PolyEvalProof) (xi2 : List (Option Int))
    (commToU : Int) (vote : String)
    (h : ∀ i, i < ps.d → getBig xi2 i = getBig x.XiBarArr i) :
    ps.Verify sha256 { x with XiBarArr := xi2 } commToU vote
      = ps.Verify sha256 x commToU vote := by
  simp only [PolynomialEvaluationProofSystem.Verify]
  have h1 : ∀ cxArr cfArr, verifyStep1 ps { x with XiBarArr := xi2 } cxArr cfArr
      = verifyStep1 ps x cxArr cfArr := by
    intro cxArr cfArr
    funext v i
    rfl
  have h2 : ∀ cArr cxArr cfuArr v1,
      (List.range ps.d).foldlM (verifyStep2 ps { x with XiBarArr := xi2 } cArr cxArr cfuArr) v1
      = (List.range ps.d).foldlM (verifyStep2 ps x cArr cxArr cfuArr) v1 := by
    intro cArr cxArr cfuArr v1
    apply foldlM_congr
    intro v i hi
    have hi2 : i < ps.d := List.mem_range.mp hi
    simp only [verifyStep2, h i hi2]
  simp only [h1, h2]


/-- C5: a proof x returned by Generate has d entries in `XiBarArr` and d + 1 in `RBarArr`;
unwrapDTO applied to wrapInDTO of x returns a proof y whose `XiBarArr` is that of x followed by
one nil entry, d + 1 entries in all, so y differs from x; the other seven fields come back
unchanged. -/
theorem wrapInDTO_unwrapDTO_pads_XiBarArr (ps : PolynomialEvaluationProofSystem)
    (sha256 : List Nat → List Nat) (rnd : Nat → Int → Int) (u r commToU : Int) (vote : String)
    (x : PolyEvalProof) (h : ps.Generate sha256 rnd u r commToU vote = some x) :
    ∃ y, (x.wrapInDTO).bind PolyEvalProof.unwrapDTO = some y ∧
      x.XiBarArr.length = ps.d ∧ y.XiBarArr.length = ps.d + 1 ∧
      y.XiBarArr = x.XiBarArr ++ [none] ∧ y ≠ x ∧
      y.CArr = x.CArr ∧ y.CfArr = x.CfArr ∧ y.CdArr = x.CdArr ∧ y.CfuArr = x.CfuArr ∧
      y.FBarArr = x.FBarArr ∧ y.RBarArr = x.RBarArr ∧ y.TBar = x.TBar := by
  obtain ⟨l1, l2, _⟩ := Generate_lengths ps sha256 rnd u r commToU vote x h
  have hle : x.XiBarArr.length ≤ x.RBarArr.length := by omega
  have hsub : x.RBarArr.length - x.XiBarArr.length = 1 := by omega
  refine ⟨{ x with XiBarArr := x.XiBarArr ++ [none] }, ?_, l1, by simp [l1], rfl, ?_,
    rfl, rfl, rfl, rfl, rfl, rfl, rfl⟩
  · rw [PolyEvalProof_roundtrip, if_pos hle, hsub]
    rfl
  · intro hxy
    have := congrArg (fun p => p.XiBarArr.length) hxy
    simp at this

/-- Witness of C5: the proof generated for the group of order 11 modulo 23, the polynomial
6 + 6 X + X^2 (d = 1), u = 2, r = 4 and the commitment 6. -/
theorem wrapInDTO_unwrapDTO_pads_XiBarArr_witness :
    ∃ x, (⟨NewPedersenCommitmentScheme (NewGStarModPrime 23 11 0 1) 2 [3],
        NewPolynomial [6, 6, 1] (NewGStarModPrime 23 11 0 1).ZModOrder,
        NewGStarModPrime 23 11 0 1, (NewGStarModPrime 23 11 0 1).ZModOrder, 1⟩ :
          PolynomialEvaluationProofSystem).Generate
        (fun bs => [bs.length % 256]) (fun k _ => ((k % 5 : Nat) : Int) + 1) 2 4 6 "yes" = some x ∧
      ∃ y, (x.wrapInDTO).bind PolyEvalProof.unwrapDTO = some y ∧
        x.XiBarArr.length = 1 ∧ y.XiBarArr.length = 1 + 1 ∧
        y.XiBarArr = x.XiBarArr ++ [none] ∧ y ≠ x ∧
        y.CArr = x.CArr ∧ y.CfArr = x.CfArr ∧ y.CdArr = x.CdArr ∧ y.CfuArr = x.CfuArr ∧
        y.FBarArr = x.FBarArr ∧ y.RBarArr = x.RBarArr ∧ y.TBar = x.TBar :=
  (Option.isSome_iff_exists.mp (by decide : ((⟨NewPedersenCommitmentScheme (NewGStarModPrime 23 11 0 1) 2 [3],
        NewPolynomial [6, 6, 1] (NewGStarModPrime 23 11 0 1).ZModOrder,
        NewGStarModPrime 23 11 0 1, (NewGStarModPrime 23 11 0 1).ZModOrder, 1⟩ :
          PolynomialEvaluationProofSystem).Generate
        (fun bs => [bs.length % 256]) (fun k _ => ((k % 5 : Nat) : Int) + 1) 2 4 6 "yes").isSome = true)).elim
    (fun x hx => ⟨x, hx, wrapInDTO_unwrapDTO_pads_XiBarArr _ _ _ _ _ _ _ x hx⟩)

theorem getBig_append_left (l t : List (Option Int)) (i : Nat) (h : i < l.length) :
    getBig (l ++ t) i = getBig l i := by
  simp [getBig, List.getElem?_append_left h]

/-- C6: for a proof x returned by Generate, unwrapDTO applied to wrapInDTO of x returns a
proof y, and Verify gives on y, for every commitment, vote and hash function, what it gives
on x; for the other two proofs the round trip returns the proof itself, so Verify is
unchanged as well. -/
theorem Verify_roundtrip (ps : PolynomialEvaluationProofSystem)
    (sha256 : List Nat → List Nat) (rnd : Nat → Int → Int) (u r commToU : Int) (vote : String)
    (x : PolyEvalProof) (h : ps.Generate sha256 rnd u r commToU vote = some x) :
    (∃ y, (x.wrapInDTO).bind PolyEvalProof.unwrapDTO = some y ∧
      ∀ (sha : List Nat → List Nat) (c : Int) (v : String),
        ps.Verify sha y c v = ps.Verify sha x c v) ∧
    (∀ (ps2 : DoubleDiscreteLogProofSystem) (x2 : DdLogProof),
      DdLogProof.unwrapDTO x2.wrapInDTO = x2 ∧
      ∀ (sha : List Nat → List Nat) (c1 c2 : Int) (v : String),
        ps2.Verify sha (DdLogProof.unwrapDTO x2.wrapInDTO) c1 c2 v = ps2.Verify sha x2 c1 c2 v) ∧
    (∀ (ps3 : PreimageEqualityProofSystem) (x3 : PreimageEqualityProof),
      PreimageEqualityProof.unwrapDTO x3.wrapInDTO = x3 ∧
      ∀ (sha : List Nat → List Nat) (c1 c2 : Int) (v : String),
        ps3.Verify sha (PreimageEqualityProof.unwrapDTO x3.wrapInDTO) c1 c2 v
          = ps3.Verify sha x3 c1 c2 v) := by
  refine ⟨?_, ?_, ?_⟩
  · obtain ⟨l1, l2, _⟩ := Generate_lengths ps sha256 rnd u r commToU vote x h
    have hle : x.XiBarArr.length ≤ x.RBarArr.length := by omega
    refine ⟨_, by rw [PolyEvalProof_roundtrip, if_pos hle], ?_⟩
    intro sha c v
    apply Verify_congr_XiBarArr
    intro i hi
    exact getBig_append_left _ _ i (by omega)
  · intro ps2 x2
    have e : DdLogProof.unwrapDTO x2.wrapInDTO = x2 := by
      have hrows : List.map ((fun arr => List.map AminoInt.BigInt arr) ∘
          fun arr => List.map NewInt arr) x2.ZMArr = x2.ZMArr := by
        have : ((fun arr => List.map AminoInt.BigInt arr) ∘
            fun arr => List.map NewInt arr) = id := by
          funext arr
          exact map_BigInt_NewInt arr
        rw [this, List.map_id]
      have hcomp : (AminoInt.BigInt ∘ NewInt) = id := by
        funext a
        rfl
      cases x2
      simp only [DdLogProof.unwrapDTO, DdLogProof.wrapInDTO, List.map_map]
      simp only at hrows
      rw [hrows, hcomp]
      simp only [List.map_id]
      rfl
    exact ⟨e, fun sha c1 c2 v => by rw [e]⟩
  · intro ps3 x3
    have e : PreimageEqualityProof.unwrapDTO x3.wrapInDTO = x3 := by
      cases x3
      rfl
    exact ⟨e, fun sha c1 c2 v => by rw [e]⟩

/-- Witness of C6: the proof generated for the group of order 11 modulo 23, the polynomial
6 + 6 X + X^2 (d = 1), u = 2, r = 4 and the commitment 6. -/
theorem Verify_roundtrip_witness :
    ∃ x, (⟨NewPedersenCommitmentScheme (NewGStarModPrime 23 11 0 1) 2 [3],
        NewPolynomial [6, 6, 1] (NewGStarModPrime 23 11 0 1).ZModOrder,
        NewGStarModPrime 23 11 0 1, (NewGStarModPrime 23 11 0 1).ZModOrder, 1⟩ :
          PolynomialEvaluationProofSystem).Generate
        (fun bs => [bs.length % 256]) (fun k _ => ((k % 5 : Nat) : Int) + 1) 2 4 6 "yes" = some x ∧
      ∃ y, (x.wrapInDTO).bind PolyEvalProof.unwrapDTO = some y ∧
        ∀ (sha : List Nat → List Nat) (c : Int) (v : String),
          (⟨NewPedersenCommitmentScheme (NewGStarModPrime 23 11 0 1) 2 [3],
        NewPolynomial [6, 6, 1] (NewGStarModPrime 23 11 0 1).ZModOrder,
        NewGStarModPrime 23 11 0 1, (NewGStarModPrime 23 11 0 1).ZModOrder, 1⟩ :
          PolynomialEvaluationProofSystem).Verify sha y c v
          = (⟨NewPedersenCommitmentScheme (NewGStarModPrime 23 11 0 1) 2 [3],
        NewPolynomial [6, 6, 1] (NewGStarModPrime 23 11 0 1).ZModOrder,
        NewGStarModPrime 23 11 0 1, (NewGStarModPrime 23 11 0 1).ZModOrder, 1⟩ :
          PolynomialEvaluationProofSystem).Verify sha x c v :=
  (Option.isSome_iff_exists.mp (by decide : ((⟨NewPedersenCommitmentScheme (NewGStarModPrime 23 11 0 1) 2 [3],
        NewPolynomial [6, 6, 1] (NewGStarModPrime 23 11 0 1).ZModOrder,
        NewGStarModPrime 23 11 0 1, (NewGStarModPrime 23 11 0 1).ZModOrder, 1⟩ :
          PolynomialEvaluationProofSystem).Generate
        (fun bs => [bs.length % 256]) (fun k _ => ((k % 5 : Nat) : Int) + 1) 2 4 6 "yes").isSome = true)).elim
    (fun x hx => ⟨x, hx, (Verify_roundtrip _ _ _ _ _ _ _ x hx).1⟩)

end crypto

namespace crypto

/-- Verify of the preimage-equality system returns a boolean on a transcript without nil
fields whose responses lie in [0, ord]. -/
theorem PreimageEquality_Verify_total (hHat : Int) (commQ : PedersenCommitmentScheme)
    (sha256 : List Nat → List Nat) (comm commHHat respA respB respS commToAandB uHat : Int)
    (vote : String) (hmod : commQ.G.Modulus ≠ 0) (hord : commQ.G.Order ≠ 0)
    (hlen : commQ.Hm.length = 2)
    (hA : 0 ≤ respA ∧ respA ≤ commQ.G.Order) (hB : 0 ≤ respB ∧ respB ≤ commQ.G.Order)
    (hS : 0 ≤ respS ∧ respS ≤ commQ.G.Order) :
    ∃ b, (NewPreimageEqualityProofSystem hHat commQ).Verify sha256
      { Comm := some comm, CommHHat := some commHHat, RespA := some respA,
        RespB := some respB, RespS := some respS } commToAandB uHat vote = some b := by
  have hch : 0 ≤ SetBytes (sha256 (([[commToAandB, uHat], [comm, commHHat]].map
      (fun c => (c.map Bytes).flatten)).flatten ++ voteBytes vote)) % commQ.G.Order :=
    Int.emod_nonneg _ hord
  have hcommit := Commit_eq_of_le commQ respS [respA, respB] hmod (by simp [hlen]) hS
    (by
      intro m hm
      simp only [List.mem_cons, List.mem_singleton, List.not_mem_nil, or_false] at hm
      rcases hm with rfl | rfl
      · exact hA
      · exact hB)
  simp only [PreimageEqualityProofSystem.Verify, NewPreimageEqualityProofSystem,
    PreimageEqualityProofSystem.generateChallenge, hashToChallenge, GStarModPrime.ZModOrder,
    NewZModPrime, bigMod_of_ne _ hord, hcommit, GStarModPrime.Exp, GStarModPrime.Mul,
    bigExp_of_nonneg _ _ hch, bigExp_of_nonneg _ _ hB.1, bigMod_of_ne _ hmod,
    Option.bind_eq_bind, Option.some_bind, Option.map_some', Option.pure_def]
  split_ifs
  · exact ⟨_, rfl⟩
  · exact ⟨_, rfl⟩

end crypto

namespace crypto

theorem foldlM_total {α β : Type} (f : β → α → Option β) : ∀ (l : List α) (b : β),
    (∀ v, ∀ i ∈ l, ∃ w, f v i = some w) → ∃ r, l.foldlM f b = some r := by
  intro l
  induction l with
  | nil => intro b _; exact ⟨b, rfl⟩
  | cons a l ih =>
    intro b h
    obtain ⟨w, hw⟩ := h b a (List.mem_cons_self a l)
    obtain ⟨r, hr⟩ := ih w (fun v i hi => h v i (List.mem_cons_of_mem a hi))
    exact ⟨r, by simp only [List.foldlM_cons, hw, Option.bind_eq_bind, Option.some_bind, hr]⟩

theorem hProductLoop_some (g : GStarModPrime) (hmod : 0 < g.Modulus) :
    ∀ (hs es : List Int) (acc : Int), es.length = hs.length → (∀ e ∈ es, 0 ≤ e) →
      0 ≤ acc → acc ≤ max 1 (g.Modulus - 1) →
      ∃ r, hProductLoop g hs (es.map some) acc = some r ∧ 0 ≤ r ∧ r ≤ max 1 (g.Modulus - 1) := by
  intro hs
  induction hs with
  | nil =>
    intro es acc _ _ h0 h1
    exact ⟨acc, by simp [hProductLoop], h0, h1⟩
  | cons h hs ih =>
    intro es acc hlen hes h0 h1
    cases es with
    | nil => simp at hlen
    | cons e es =>
      have he : 0 ≤ e := hes e (List.mem_cons_self _ _)
      have hne : g.Modulus ≠ 0 := ne_of_gt hmod
      have hr0 : 0 ≤ acc * (h ^ e.toNat % g.Modulus) % g.Modulus := Int.emod_nonneg _ hne
      have hr1 : acc * (h ^ e.toNat % g.Modulus) % g.Modulus < g.Modulus :=
        Int.emod_lt_of_pos _ hmod
      obtain ⟨r, hr, hr2⟩ := ih es (acc * (h ^ e.toNat % g.Modulus) % g.Modulus)
        (by simpa using hlen) (fun x hx => hes x (List.mem_cons_of_mem _ hx)) hr0
        (le_trans (by omega) (le_max_right _ _))
      refine ⟨r, ?_, hr2⟩
      simp only [List.map_cons, hProductLoop, GStarModPrime.Exp, GStarModPrime.Mul,
        bigExp_of_nonneg _ _ he, bigMod_of_ne _ hne, Option.bind_eq_bind, Option.some_bind]
      exact hr

theorem getBig_map_some_lt (l : List Int) (i : Nat) (h : i < l.length) :
    getBig (l.map some) i = some (l[i]) := by
  rw [getBig_map_some, List.getElem?_eq_getElem h]


theorem verifyRound_total (ps : DoubleDiscreteLogProofSystem) (t : Int) (t1 t2 : List Int)
    (zX zR : Int) (zM : List (List Int)) (zS zRArr : List Int) (commToU commToAandB ch : Int)
    (v : Bool) (i : Nat)
    (hmodP : ps.gp.Modulus ≠ 0) (hmodQ : 0 < ps.gq.Modulus)
    (hgq : ps.CommSchemeInGq.G = ps.gq)
    (hle : ps.gq.Modulus ≤ ps.CommSchemeInGp.G.Order + 1)
    (hp1 : 1 ≤ ps.CommSchemeInGp.G.Order)
    (hmodP2 : ps.CommSchemeInGp.G.Modulus ≠ 0)
    (hlenP : ps.CommSchemeInGp.Hm.length = 1)
    (h1 : i < t1.length) (h2 : i < t2.length) (h3 : i < zM.length) (h4 : i < zS.length)
    (h5 : i < zRArr.length)
    (hzS : ∀ e ∈ zS, 0 ≤ e ∧ e ≤ ps.CommSchemeInGq.G.Order)
    (hzM : ∀ row ∈ zM, row.length = ps.CommSchemeInGq.Hm.length ∧
      ∀ e ∈ row, 0 ≤ e ∧ e ≤ ps.CommSchemeInGq.G.Order)
    (hzR : ∀ e ∈ zRArr, 0 ≤ e ∧ e ≤ ps.CommSchemeInGp.G.Order) :
    ∃ w, ps.verifyRound
      { T := some t, T1Arr := t1.map some, T2Arr := t2.map some, ZX := some zX, ZR := some zR,
        ZMArr := zM.map (fun row => row.map some), ZSArr := zS.map some,
        ZRArr := zRArr.map some } commToU commToAandB ch v i = some w := by
  have hrow := hzM _ (List.getElem_mem h3)
  have hS := hzS _ (List.getElem_mem h4)
  have hR := hzR _ (List.getElem_mem h5)
  have hmodQ2 : ps.CommSchemeInGq.G.Modulus ≠ 0 := by rw [hgq]; exact ne_of_gt hmodQ
  have hneQ : ps.gq.Modulus ≠ 0 := ne_of_gt hmodQ
  have hcommit := Commit_eq_of_le ps.CommSchemeInGq (zS[i]) (zM[i]) hmodQ2 hrow.1 hS hrow.2
  obtain ⟨hp, hhp, hhp0, hhp1⟩ := hProductLoop_some ps.gq hmodQ ps.CommSchemeInGq.Hm (zM[i]) 1
    hrow.1 (fun e he => (hrow.2 e he).1) (by norm_num) (le_max_left _ _)
  have hhp2 : hp ≤ ps.CommSchemeInGp.G.Order := by
    rcases le_max_iff.mp hhp1 with h | h
    · omega
    · omega
  have hbit0 : 0 ≤ bigBit ch i := by
    rcases bigBit_cases ch i with h | h <;> omega
  have hcommitP := Commit_eq_of_le ps.CommSchemeInGp (zRArr[i]) [hp] hmodP2
    (by simp [hlenP]) hR (by
      intro m hm
      have : m = hp := by simpa using hm
      rw [this]
      exact ⟨hhp0, hhp2⟩)
  have hrowget : (zM.map (fun row => row.map some))[i]? = some ((zM[i]).map some) := by
    rw [List.getElem?_map, List.getElem?_eq_getElem h3]
    rfl
  simp only [DoubleDiscreteLogProofSystem.verifyRound, getBig_map_some_lt _ _ h4,
    getBig_map_some_lt _ _ h2, getBig_map_some_lt _ _ h1, getBig_map_some_lt _ _ h5, hrowget,
    derefAll_map_some, hcommit, hhp, hcommitP, GStarModPrime.Exp, GStarModPrime.Mul,
    bigExp_of_nonneg _ _ hbit0, bigExp_of_nonneg _ _ hhp0, bigExp_of_nonneg _ _ hR.1,
    bigMod_of_ne _ hneQ, bigMod_of_ne _ hmodP,
    Option.bind_eq_bind, Option.some_bind, Option.pure_def]
  cases v <;> split_ifs <;> exact ⟨_, rfl⟩

/-- Verify of the double-discrete-log system returns a boolean on a transcript without nil
entries whose arrays have at least k entries, whose rows of `ZMArr` have one entry per message
generator of the G_q scheme, and whose responses lie in [0, ord]. -/
theorem DoubleDiscreteLog_Verify_total (commP commQ : PedersenCommitmentScheme) (k : Nat)
    (ps : DoubleDiscreteLogProofSystem)
    (hps : NewDoubleDiscreteLogProofSystem commP commQ k = some ps)
    (sha256 : List Nat → List Nat) (t : Int) (t1 t2 : List Int)
    (zX zR : Int) (zM : List (List Int)) (zS zRArr : List Int) (commToU commToAandB : Int)
    (vote : String)
    (hmodP : commP.G.Modulus ≠ 0) (hmodQ : 0 < commQ.G.Modulus)
    (hle : commQ.G.Modulus ≤ commP.G.Order + 1) (hlenP : commP.Hm.length = 1)
    (h1 : k ≤ t1.length) (h2 : k ≤ t2.length) (h3 : k ≤ zM.length) (h4 : k ≤ zS.length)
    (h5 : k ≤ zRArr.length)
    (hzX : 0 ≤ zX ∧ zX ≤ commP.G.Order) (hzR0 : 0 ≤ zR ∧ zR ≤ commP.G.Order)
    (hzS : ∀ e ∈ zS, 0 ≤ e ∧ e ≤ commQ.G.Order)
    (hzM : ∀ row ∈ zM, row.length = commQ.Hm.length ∧ ∀ e ∈ row, 0 ≤ e ∧ e ≤ commQ.G.Order)
    (hzR : ∀ e ∈ zRArr, 0 ≤ e ∧ e ≤ commP.G.Order) :
    ∃ b, ps.Verify sha256
      { T := some t, T1Arr := t1.map some, T2Arr := t2.map some, ZX := some zX, ZR := some zR,
        ZMArr := zM.map (fun row => row.map some), ZSArr := zS.map some,
        ZRArr := zRArr.map some } commToU commToAandB vote = some b := by
  simp only [NewDoubleDiscreteLogProofSystem] at hps
  split_ifs at hps with hg hk
  have hps2 := Option.some.inj hps
  have hpk : (2 : Int) ^ k < commP.G.Order := not_le.mp hk
  have hp1 : 1 ≤ commP.G.Order := by
    have : (1 : Int) ≤ 2 ^ k := one_le_pow₀ (by norm_num)
    omega
  have hp0 : commP.G.Order ≠ 0 := by omega
  subst hps2
  have hch : 0 ≤ SetBytes (sha256 (([[commToU, commToAandB, t], t1, t2].map
      (fun c => (c.map Bytes).flatten)).flatten ++ voteBytes vote)) % commP.G.Order :=
    Int.emod_nonneg _ hp0
  have hcommit := Commit_eq_of_le commP zR [zX] hmodP (by simp [hlenP]) hzR0 (by
    intro m hm
    have : m = zX := by simpa using hm
    rw [this]
    exact hzX)
  simp only [DoubleDiscreteLogProofSystem.Verify, derefAll_map_some,
    DoubleDiscreteLogProofSystem.generateChallenge, hashToChallenge, GStarModPrime.ZModOrder,
    NewZModPrime, bigMod_of_ne _ hp0, hcommit, GStarModPrime.Exp, GStarModPrime.Mul,
    bigExp_of_nonneg _ _ hch, bigMod_of_ne _ hmodP,
    Option.bind_eq_bind, Option.some_bind, Option.pure_def]
  apply foldlM_total
  intro v i hi
  have hik : i < k := List.mem_range.mp hi
  exact verifyRound_total _ t t1 t2 zX zR zM zS zRArr commToU commToAandB _ v i hmodP hmodQ rfl
    hle hp1 hmodP hlenP (by omega) (by omega) (by omega) (by omega) (by omega) hzS hzM hzR

end crypto

namespace crypto

theorem Degree_lt_length (p : Polynomial) (D : Nat) (h : p.Degree = some D) :
    D < p.Coeffs.length := by
  simp only [Polynomial.Degree] at h
  obtain ⟨t, ht, hD⟩ := Option.map_eq_some'.mp h
  have hne := trim_some_ne_nil _ _ ht
  obtain ⟨t2, ht2, h1, h2, _⟩ := trim_spec p.Coeffs hne
  rw [ht] at ht2
  have := Option.some.inj ht2
  subst this
  omega

/-- The recursion of calcDeltaBar never panics when `fBarArr` has an entry for every level and
the degree argument is at most the degree of the polynomial; its result stays in [0, ord]. -/
theorem calcDeltaBarTreelike_total (ps : PolynomialEvaluationProofSystem) (D : Nat)
    (hD : ps.Polynomial.Degree = some D) (hm : 0 < ps.zModPr.Modulus)
    (fBar : List Int) (ch : Int) :
    ∀ (lvl deg : Nat) (value result : Int), lvl ≤ fBar.length → deg ≤ D →
      0 ≤ result → result ≤ ps.zModPr.Modulus →
      ∃ r, ps.calcDeltaBarTreelike lvl deg value (fBar.map some) ch result = some r ∧
        0 ≤ r ∧ r ≤ ps.zModPr.Modulus := by
  have hne : ps.zModPr.Modulus ≠ 0 := ne_of_gt hm
  have hlen := Degree_lt_length _ _ hD
  intro lvl
  induction lvl with
  | zero =>
    intro deg value result _ hdeg h0 h1
    have hget : ps.Polynomial.Coeffs[deg]? = some (ps.Polynomial.Coeffs[deg]) :=
      List.getElem?_eq_getElem (by omega)
    refine ⟨(result + value * ps.Polynomial.Coeffs[deg] % ps.zModPr.Modulus)
      % ps.zModPr.Modulus, ?_, Int.emod_nonneg _ hne, le_of_lt (Int.emod_lt_of_pos _ hm)⟩
    simp only [PolynomialEvaluationProofSystem.calcDeltaBarTreelike, hget, ZModPrime.Mul,
      ZModPrime.Add, bigMod_of_ne _ hne, Option.bind_eq_bind, Option.some_bind]
  | succ lvl ih =>
    intro deg value result hlvl hdeg h0 h1
    obtain ⟨r1, hr1, hr10, hr11⟩ := ih deg (value * ch % ps.zModPr.Modulus) result (by omega)
      hdeg h0 h1
    simp only [PolynomialEvaluationProofSystem.calcDeltaBarTreelike, ZModPrime.Mul,
      bigMod_of_ne _ hne, Option.bind_eq_bind, Option.some_bind, hr1, hD]
    by_cases hnext : deg + 2 ^ lvl ≤ D
    · rw [if_pos hnext]
      have hg : getBig (fBar.map some) lvl = some (fBar[lvl]) :=
        getBig_map_some_lt _ _ (by omega)
      obtain ⟨r2, hr2, hr20, hr21⟩ := ih (deg + 2 ^ lvl)
        (value * fBar[lvl] % ps.zModPr.Modulus) r1 (by omega) hnext hr10 hr11
      refine ⟨r2, ?_, hr20, hr21⟩
      simp only [hg, Option.bind_eq_bind, Option.some_bind, bigMod_of_ne _ hne]
      exact hr2
    · rw [if_neg hnext]
      exact ⟨r1, rfl, hr10, hr11⟩

theorem powerLoop_total (zm : ZModPrime) (hm : zm.Modulus ≠ 0) (ch : Int)
    (body : Int → Nat → Int → Option Int) (len : Nat)
    (hbody : ∀ acc i xi, i < len → 0 ≤ xi → ∃ r, body acc i xi = some r) :
    ∀ (n i : Nat) (acc xi : Int), i + n ≤ len → 0 ≤ xi →
      ∃ r, powerLoop zm ch body n i acc xi = some r := by
  intro n
  induction n with
  | zero => intro i acc xi _ _; exact ⟨acc, rfl⟩
  | succ n ih =>
    intro i acc xi hi hxi
    obtain ⟨a, ha⟩ := hbody acc i xi (by omega) hxi
    obtain ⟨r, hr⟩ := ih (i + 1) a (xi * ch % zm.Modulus) (by omega) (Int.emod_nonneg _ hm)
    refine ⟨r, ?_⟩
    simp only [powerLoop, ha, ZModPrime.Mul, bigMod_of_ne _ hm, Option.bind_eq_bind,
      Option.some_bind]
    exact hr


theorem bind_total {α β : Type} (x : Option α) (f : α → Option β) (hx : ∃ a, x = some a)
    (hf : ∀ a, x = some a → ∃ b, f a = some b) : ∃ b, x.bind f = some b := by
  obtain ⟨a, ha⟩ := hx
  obtain ⟨b, hb⟩ := hf a ha
  exact ⟨b, by rw [ha, Option.some_bind, hb]⟩

theorem getBig_map_Exp (g : GStarModPrime) (ch : Int) (hch : 0 ≤ ch) (l : List Int) (i : Nat)
    (h : i < l.length) :
    getBig (l.map (fun c => g.Exp c ch)) i = some (l[i] ^ ch.toNat % g.Modulus) := by
  simp [getBig, List.getElem?_map, List.getElem?_eq_getElem h, GStarModPrime.Exp,
    bigExp_of_nonneg _ _ hch]

theorem getElem_one_range (l : List Int) (ord : Int) (h : ∀ e ∈ l, 0 ≤ e ∧ e ≤ ord) (m : Int)
    (i : Nat) (hi : i < l.length) (hm : m ∈ [l[i]]) : 0 ≤ m ∧ m ≤ ord := by
  have : m = l[i] := by simpa using hm
  rw [this]
  exact h _ (List.getElem_mem hi)

/-- Verify of the polynomial-evaluation system returns a boolean on a transcript without nil
entries whose arrays have at least the expected number of entries and whose responses lie in
[0, ord]. -/
theorem PolyEval_Verify_total (commP : PedersenCommitmentScheme) (poly : Polynomial)
    (ps : PolynomialEvaluationProofSystem)
    (hps : NewPolynomialEvaluationProofSystem commP poly = some ps)
    (sha256 : List Nat → List Nat)
    (cArr cfArr cdArr cfuArr fBar rBar xiBar : List Int) (tBar commToU : Int) (vote : String)
    (hmod : commP.G.Modulus ≠ 0) (hord : 0 < commP.G.Order) (hlen : commP.Hm.length = 1)
    (l1 : ps.d ≤ cArr.length) (l2 : ps.d + 1 ≤ cfArr.length) (l3 : ps.d + 1 ≤ cdArr.length)
    (l4 : ps.d ≤ cfuArr.length) (l5 : ps.d + 1 ≤ fBar.length) (l6 : ps.d + 1 ≤ rBar.length)
    (l7 : ps.d ≤ xiBar.length)
    (hf : ∀ e ∈ fBar, 0 ≤ e ∧ e ≤ commP.G.Order) (hr : ∀ e ∈ rBar, 0 ≤ e ∧ e ≤ commP.G.Order)
    (hxi : ∀ e ∈ xiBar, 0 ≤ e ∧ e ≤ commP.G.Order) (ht : 0 ≤ tBar ∧ tBar ≤ commP.G.Order) :
    ∃ b, ps.Verify sha256
      { CArr := cArr.map some, CfArr := cfArr.map some, CdArr := cdArr.map some,
        CfuArr := cfuArr.map some, FBarArr := fBar.map some, RBarArr := rBar.map some,
        TBar := some tBar, XiBarArr := xiBar.map some } commToU vote = some b := by
  simp only [NewPolynomialEvaluationProofSystem] at hps
  obtain ⟨deg, hdeg, hps⟩ := Option.bind_eq_some.mp hps
  split_ifs at hps
  have hps2 := Option.some.inj hps
  have hne : commP.G.Order ≠ 0 := ne_of_gt hord
  subst hps2
  simp only at l1 l2 l3 l4 l5 l6 l7
  have hch : 0 ≤ SetBytes (sha256 (([[commToU, commToV], cArr, cfArr, cdArr, cfuArr].map
      (fun c => (c.map Bytes).flatten)).flatten ++ voteBytes vote)) % commP.G.Order :=
    Int.emod_nonneg _ hne
  simp only [PolynomialEvaluationProofSystem.Verify, derefAll_map_some, Option.some_bind,
    PolynomialEvaluationProofSystem.generateChallenge, hashToChallenge,
    GStarModPrime.ZModOrder, NewZModPrime, bigMod_of_ne _ hne]
  apply bind_total
  · apply foldlM_total
    intro v i hi
    have hid : i < Nat.log2 deg + 1 := List.mem_range.mp hi
    cases v with
    | false => exact ⟨false, by simp [verifyStep1]⟩
    | true =>
      have hc := Commit_eq_of_le commP (rBar[i]) [fBar[i]] hmod (by simp [hlen])
        (hr _ (List.getElem_mem (by omega)))
        (fun m hm => getElem_one_range fBar _ hf m i (by omega) hm)
      have hcx := getBig_map_Exp commP.G _ hch (commToU :: cArr) i
        (by simp only [List.length_cons]; omega)
      have hcf : cfArr[i]? = some (cfArr[i]) := List.getElem?_eq_getElem (by omega)
      simp only [verifyStep1, if_true, getBig_map_some_lt rBar i (by omega),
        getBig_map_some_lt fBar i (by omega), hc, hcx, hcf, GStarModPrime.Mul,
        bigMod_of_ne _ hmod, Option.some_bind]
      exact ⟨_, rfl⟩
  · intro v1 _
    apply bind_total
    · apply foldlM_total
      intro v i hi
      have hid : i < Nat.log2 deg := List.mem_range.mp hi
      cases v with
      | false => exact ⟨false, by simp [verifyStep2]⟩
      | true =>
        have hc := Commit_eq_of_le commP (xiBar[i]) [0] hmod (by simp [hlen])
          (hxi _ (List.getElem_mem (by omega)))
          (fun m hm => by
            have : m = 0 := by simpa using hm
            rw [this]
            exact ⟨le_refl _, le_of_lt hord⟩)
        have hcx := getBig_map_Exp commP.G _ hch (commToU :: cArr) (i + 1)
          (by simp only [List.length_cons]; omega)
        have hlt : i < (commToU :: cArr).length := by
          simp only [List.length_cons]
          omega
        have hci : (commToU :: cArr)[i]? = some ((commToU :: cArr)[i]) :=
          List.getElem?_eq_getElem hlt
        have hcfu : cfuArr[i]? = some (cfuArr[i]) := List.getElem?_eq_getElem (by omega)
        have hinv : 0 ≤ (commP.G.Order - fBar[i]) % commP.G.Order := Int.emod_nonneg _ hne
        simp only [GStarModPrime.Exp] at hcx
        simp only [verifyStep2, if_true, getBig_map_some_lt xiBar i (by omega),
          getBig_map_some_lt fBar i (by omega), hc, hcx, hci, hcfu, GStarModPrime.Mul,
          GStarModPrime.Exp, ZModPrime.AdditiveInvert, bigExp_of_nonneg _ _ hinv,
          bigMod_of_ne _ hmod, bigMod_of_ne _ hne, Option.some_bind]
        exact ⟨_, rfl⟩
    · intro v _
      apply bind_total
      · have hpow : 0 ≤ (SetBytes (sha256 (([[commToU, commToV], cArr, cfArr, cdArr,
            cfuArr].map (fun c => (c.map Bytes).flatten)).flatten ++ voteBytes vote))
            % commP.G.Order) ^ (((Nat.log2 deg + 1 : Nat) : Int)).toNat % commP.G.Order :=
          Int.emod_nonneg _ hne
        have hone : (0 : Int) ≤ (SetBytes (sha256 (([[commToU, commToV], cArr, cfArr, cdArr,
            cfuArr].map (fun c => (c.map Bytes).flatten)).flatten ++ voteBytes vote))
            % commP.G.Order) ^ (0 : Int).toNat % commP.G.Order :=
          Int.emod_nonneg _ hne
        simp only [verifyLeft, ZModPrime.Exp, GStarModPrime.Exp,
          bigExp_of_nonneg _ _ (Int.natCast_nonneg _), bigExp_of_nonneg _ _ (le_refl (0 : Int)),
          bigExp_of_nonneg _ _ hpow, Option.some_bind]
        refine powerLoop_total _ hne _ _ (Nat.log2 deg + 1) ?_ _ _ _ _ (by omega) hone
        intro acc i xi hi hxi0
        have hcd : cdArr[i]? = some (cdArr[i]) := List.getElem?_eq_getElem (by omega)
        simp only [hcd, Option.some_bind, bigExp_of_nonneg _ _ hxi0,
          GStarModPrime.Mul, bigMod_of_ne _ hmod]
        exact ⟨_, rfl⟩
      · intro left _
        obtain ⟨dBar, hd1, hd2, hd3⟩ := calcDeltaBarTreelike_total
          { CommScheme := commP, Polynomial := poly, gStarModPr := commP.G,
            zModPr := { Modulus := commP.G.Order, ref := commP.G.OrderRef },
            d := Nat.log2 deg } deg hdeg hord fBar
          (SetBytes (sha256 (([[commToU, commToV], cArr, cfArr, cdArr,
            cfuArr].map (fun c => (c.map Bytes).flatten)).flatten ++ voteBytes vote))
            % commP.G.Order) (Nat.log2 deg + 1) 0 1 0 l5 (Nat.zero_le _) (le_refl _)
          (le_of_lt hord)
        have hc := Commit_eq_of_le commP tBar [dBar] hmod (by simp [hlen]) ht (fun m hm => by
          have : m = dBar := by simpa using hm
          rw [this]
          exact ⟨hd2, hd3⟩)
        simp only [PolynomialEvaluationProofSystem.calcDeltaBar, hd1, Option.some_bind, hc]
        cases v with
        | false => exact ⟨false, by simp⟩
        | true =>
          simp only [if_true]
          exact ⟨_, rfl⟩


theorem log2_two : Nat.log2 2 = 1 := by
  simp [Nat.log2]

/-- The proof system of the witnesses: the group of order 11 modulo 23 and the polynomial
6 + 6 X + X^2 = (X - 2)(X - 3) modulo 11, of degree 2, so d = 1. -/
theorem NewPolynomialEvaluationProofSystem_example :
    NewPolynomialEvaluationProofSystem
        (NewPedersenCommitmentScheme (NewGStarModPrime 23 11 0 1) 2 [3])
        (NewPolynomial [6, 6, 1] (NewGStarModPrime 23 11 0 1).ZModOrder)
      = some ⟨NewPedersenCommitmentScheme (NewGStarModPrime 23 11 0 1) 2 [3],
          NewPolynomial [6, 6, 1] (NewGStarModPrime 23 11 0 1).ZModOrder,
          NewGStarModPrime 23 11 0 1, (NewGStarModPrime 23 11 0 1).ZModOrder, 1⟩ := by
  have h : (NewPolynomial [6, 6, 1] (NewGStarModPrime 23 11 0 1).ZModOrder).Degree = some 2 := by
    decide
  simp only [NewPolynomialEvaluationProofSystem, h, Option.some_bind]
  rw [if_neg (by decide), log2_two]
  rfl

/-- The constructor of the polynomial-evaluation proof system on a polynomial of degree
D >= 1: the system with d = floor(log2 D). -/
theorem NewPolynomialEvaluationProofSystem_of_degree (commP : PedersenCommitmentScheme)
    (poly : Polynomial) (D : Nat) (hD : poly.Degree = some D) (h1 : 1 ≤ D) :
    NewPolynomialEvaluationProofSystem commP poly
      = some { CommScheme := commP, Polynomial := poly, gStarModPr := commP.G,
               zModPr := commP.G.ZModOrder, d := Nat.log2 D } := by
  simp only [NewPolynomialEvaluationProofSystem, hD, Option.some_bind]
  rw [if_neg (by omega)]

/-- C4, amended: each of the three Verify functions returns a boolean on every well-formed
transcript: no nil entry, arrays with at least the expected number of entries (d or d + 1 for
the polynomial-evaluation proof, k for the double-discrete-log proof), rows of `ZMArr` with one
entry per message generator of the G_q scheme, and every response in [0, ord] for the order of
the group it is committed in. The polynomial-evaluation system is the one the constructor
returns for a credential polynomial of degree D >= 1, with d = floor(log2 D); the
double-discrete-log system is one its constructor accepts; the moduli are not 0, ord(G_p) is
positive, ord(G_q) is not 0, there is one message generator for G_p and there are two for the
scheme of the preimage-equality proof, and the modulus of G_q is at most ord(G_p) + 1. -/
theorem Verify_total_of_wellformed :
    (∀ (commP : PedersenCommitmentScheme) (poly : Polynomial) (D : Nat)
      (sha256 : List Nat → List Nat)
      (cArr cfArr cdArr cfuArr fBar rBar xiBar : List Int) (tBar commToU : Int) (vote : String),
      poly.Degree = some D → 1 ≤ D →
      commP.G.Modulus ≠ 0 → 0 < commP.G.Order → commP.Hm.length = 1 →
      Nat.log2 D ≤ cArr.length → Nat.log2 D + 1 ≤ cfArr.length →
      Nat.log2 D + 1 ≤ cdArr.length → Nat.log2 D ≤ cfuArr.length →
      Nat.log2 D + 1 ≤ fBar.length → Nat.log2 D + 1 ≤ rBar.length →
      Nat.log2 D ≤ xiBar.length →
      (∀ e ∈ fBar, 0 ≤ e ∧ e ≤ commP.G.Order) → (∀ e ∈ rBar, 0 ≤ e ∧ e ≤ commP.G.Order) →
      (∀ e ∈ xiBar, 0 ≤ e ∧ e ≤ commP.G.Order) → (0 ≤ tBar ∧ tBar ≤ commP.G.Order) →
      ∃ ps, NewPolynomialEvaluationProofSystem commP poly = some ps ∧ ps.d = Nat.log2 D ∧
        ∃ b, ps.Verify sha256
          { CArr := cArr.map some, CfArr := cfArr.map some, CdArr := cdArr.map some,
            CfuArr := cfuArr.map some, FBarArr := fBar.map some, RBarArr := rBar.map some,
            TBar := some tBar, XiBarArr := xiBar.map some } commToU vote = some b) ∧
    (∀ (commP commQ : PedersenCommitmentScheme) (k : Nat) (ps : DoubleDiscreteLogProofSystem)
      (sha256 : List Nat → List Nat) (t : Int) (t1 t2 : List Int) (zX zR : Int)
      (zM : List (List Int)) (zS zRArr : List Int) (commToU commToAandB : Int) (vote : String),
      NewDoubleDiscreteLogProofSystem commP commQ k = some ps →
      commP.G.Modulus ≠ 0 → 0 < commQ.G.Modulus → commQ.G.Modulus ≤ commP.G.Order + 1 →
      commP.Hm.length = 1 →
      k ≤ t1.length → k ≤ t2.length → k ≤ zM.length → k ≤ zS.length → k ≤ zRArr.length →
      (0 ≤ zX ∧ zX ≤ commP.G.Order) → (0 ≤ zR ∧ zR ≤ commP.G.Order) →
      (∀ e ∈ zS, 0 ≤ e ∧ e ≤ commQ.G.Order) →
      (∀ row ∈ zM, row.length = commQ.Hm.length ∧ ∀ e ∈ row, 0 ≤ e ∧ e ≤ commQ.G.Order) →
      (∀ e ∈ zRArr, 0 ≤ e ∧ e ≤ commP.G.Order) →
      ∃ b, ps.Verify sha256
        { T := some t, T1Arr := t1.map some, T2Arr := t2.map some, ZX := some zX,
          ZR := some zR, ZMArr := zM.map (fun row => row.map some), ZSArr := zS.map some,
          ZRArr := zRArr.map some } commToU commToAandB vote = some b) ∧
    (∀ (hHat : Int) (commQ : PedersenCommitmentScheme) (sha256 : List Nat → List Nat)
      (comm commHHat respA respB respS commToAandB uHat : Int) (vote : String),
      commQ.G.Modulus ≠ 0 → commQ.G.Order ≠ 0 → commQ.Hm.length = 2 →
      (0 ≤ respA ∧ respA ≤ commQ.G.Order) → (0 ≤ respB ∧ respB ≤ commQ.G.Order) →
      (0 ≤ respS ∧ respS ≤ commQ.G.Order) →
      ∃ b, (NewPreimageEqualityProofSystem hHat commQ).Verify sha256
        { Comm := some comm, CommHHat := some commHHat, RespA := some respA,
          RespB := some respB, RespS := some respS } commToAandB uHat vote = some b) := by
  refine ⟨?_, ?_, ?_⟩
  · intro commP poly D sha256 cArr cfArr cdArr cfuArr fBar rBar xiBar tBar commToU vote
      hD h1 hmod hord hlen l1 l2 l3 l4 l5 l6 l7 hf hr hxi ht
    have hps := NewPolynomialEvaluationProofSystem_of_degree commP poly D hD h1
    exact ⟨_, hps, rfl, PolyEval_Verify_total commP poly _ hps sha256 cArr cfArr cdArr cfuArr
      fBar rBar xiBar tBar commToU vote hmod hord hlen l1 l2 l3 l4 l5 l6 l7 hf hr hxi ht⟩
  · intro commP commQ k ps sha256 t t1 t2 zX zR zM zS zRArr commToU commToAandB vote
      hps hmodP hmodQ hle hlenP h1 h2 h3 h4 h5 hzX hzR0 hzS hzM hzR
    exact DoubleDiscreteLog_Verify_total commP commQ k ps hps sha256 t t1 t2 zX zR zM zS
      zRArr commToU commToAandB vote hmodP hmodQ hle hlenP h1 h2 h3 h4 h5 hzX hzR0 hzS hzM hzR
  · intro hHat commQ sha256 comm commHHat respA respB respS commToAandB uHat vote
      hmod hord hlen hA hB hS
    exact PreimageEquality_Verify_total hHat commQ sha256 comm commHHat respA respB respS
      commToAandB uHat vote hmod hord hlen hA hB hS

/-- Witness of C4 (amended): G_p of order 11 modulo 23 with the polynomial 6 + 6 X + X^2 of
degree 2 (d = 1), G_q of order 5 modulo 11, k = 1, and transcripts with all entries in
range. -/
theorem Verify_total_of_wellformed_witness :
    (∃ ps, NewPolynomialEvaluationProofSystem
        (NewPedersenCommitmentScheme (NewGStarModPrime 23 11 0 1) 2 [3])
        (NewPolynomial [6, 6, 1] (NewGStarModPrime 23 11 0 1).ZModOrder) = some ps ∧
      ps.d = Nat.log2 2 ∧
      ∃ b, ps.Verify (fun bs => [bs.length % 256])
        { CArr := [1].map some, CfArr := [1, 2].map some, CdArr := [3, 4].map some,
          CfuArr := [5].map some, FBarArr := [0, 11].map some, RBarArr := [1, 2].map some,
          TBar := some 7, XiBarArr := [3].map some } 6 "yes" = some b) ∧
    (∃ ps, NewDoubleDiscreteLogProofSystem
        (NewPedersenCommitmentScheme (NewGStarModPrime 23 11 0 1) 2 [3])
        (NewPedersenCommitmentScheme (NewGStarModPrime 11 5 1 2) 3 [4, 5]) 1 = some ps ∧
      ∃ b, ps.Verify (fun bs => [bs.length % 256])
        { T := some 1, T1Arr := [1].map some, T2Arr := [1].map some, ZX := some 0,
          ZR := some 11, ZMArr := [[1, 5]].map (fun row => row.map some),
          ZSArr := [1].map some, ZRArr := [1].map some } 6 4 "yes" = some b) ∧
    (∃ b, (NewPreimageEqualityProofSystem 9
        (NewPedersenCommitmentScheme (NewGStarModPrime 11 5 1 2) 3 [4, 5])).Verify
        (fun bs => [bs.length % 256])
        { Comm := some 1, CommHHat := some 2, RespA := some 0, RespB := some 5,
          RespS := some 3 } 4 5 "yes" = some b) :=
  ⟨Verify_total_of_wellformed.1
      (NewPedersenCommitmentScheme (NewGStarModPrime 23 11 0 1) 2 [3])
      (NewPolynomial [6, 6, 1] (NewGStarModPrime 23 11 0 1).ZModOrder) 2
      (fun bs => [bs.length % 256]) [1] [1, 2] [3, 4] [5] [0, 11] [1, 2] [3] 7 6 "yes"
      (by decide) (by decide) (by decide) (by decide) (by decide)
      (by rw [log2_two]; decide) (by rw [log2_two]; decide) (by rw [log2_two]; decide)
      (by rw [log2_two]; decide) (by rw [log2_two]; decide) (by rw [log2_two]; decide)
      (by rw [log2_two]; decide) (by decide) (by decide) (by decide) (by decide),
    ⟨_, rfl, Verify_total_of_wellformed.2.1
      (NewPedersenCommitmentScheme (NewGStarModPrime 23 11 0 1) 2 [3])
      (NewPedersenCommitmentScheme (NewGStarModPrime 11 5 1 2) 3 [4, 5]) 1 _
      (fun bs => [bs.length % 256]) 1 [1] [1] 0 11 [[1, 5]] [1] [1] 6 4 "yes" rfl
      (by decide) (by decide) (by decide) (by decide) (by decide) (by decide) (by decide)
      (by decide) (by decide) (by decide) (by decide) (by decide) (by decide) (by decide)⟩,
    Verify_total_of_wellformed.2.2 9
      (NewPedersenCommitmentScheme (NewGStarModPrime 11 5 1 2) 3 [4, 5])
      (fun bs => [bs.length % 256]) 1 2 0 5 3 4 5 "yes"
      (by decide) (by decide) (by decide) (by decide) (by decide) (by decide)⟩

/-- Counterexample to C4 as stated: a preimage-equality transcript whose response `RespS` is
6 > ord = 5, a double-discrete-log transcript whose row of `ZMArr` has one entry instead of
two, and a polynomial-evaluation transcript with empty arrays make Verify panic. -/
theorem Verify_panics_counterexample :
    (NewPreimageEqualityProofSystem 9
        (NewPedersenCommitmentScheme (NewGStarModPrime 11 5 1 2) 3 [4, 5])).Verify
      (fun bs => [bs.length % 256])
      { Comm := some 1, CommHHat := some 2, RespA := some 0, RespB := some 1,
        RespS := some 6 } 4 5 "yes" = none ∧
    (NewDoubleDiscreteLogProofSystem
        (NewPedersenCommitmentScheme (NewGStarModPrime 23 11 0 1) 2 [3])
        (NewPedersenCommitmentScheme (NewGStarModPrime 11 5 1 2) 3 [4, 5]) 1).bind
      (fun ps => ps.Verify (fun bs => [bs.length % 256])
        { T := some 1, T1Arr := [some 1], T2Arr := [some 1], ZX := some 0, ZR := some 0,
          ZMArr := [[some 1]], ZSArr := [some 1], ZRArr := [some 1] } 6 4 "yes") = none ∧
    (⟨NewPedersenCommitmentScheme (NewGStarModPrime 23 11 0 1) 2 [3],
        NewPolynomial [6, 6, 1] (NewGStarModPrime 23 11 0 1).ZModOrder,
        NewGStarModPrime 23 11 0 1, (NewGStarModPrime 23 11 0 1).ZModOrder, 1⟩ :
          PolynomialEvaluationProofSystem).Verify (fun bs => [bs.length % 256])
      { CArr := [], CfArr := [], CdArr := [], CfuArr := [], FBarArr := [], RBarArr := [],
        TBar := some 0, XiBarArr := [] } 6 "yes" = none := by
  decide

/-- A transcript that is not well-formed need not make Verify panic: with the responses
`FBarArr = [0, 99]`, `RBarArr = [1, 99]`, `TBar = 99` (99 > ord = 11) and no entry in `CfuArr`
and `XiBarArr`, the first check fails at i = 0, the later commitments are not computed and
Verify returns false. -/
theorem Verify_short_circuit_example :
    (⟨NewPedersenCommitmentScheme (NewGStarModPrime 23 11 0 1) 2 [3],
        NewPolynomial [6, 6, 1] (NewGStarModPrime 23 11 0 1).ZModOrder,
        NewGStarModPrime 23 11 0 1, (NewGStarModPrime 23 11 0 1).ZModOrder, 1⟩ :
          PolynomialEvaluationProofSystem).Verify (fun bs => [bs.length % 256])
      { CArr := [some 1], CfArr := [some 1, some 2], CdArr := [some 3, some 4], CfuArr := [],
        FBarArr := [some 0, some 99], RBarArr := [some 1, some 99], TBar := some 99,
        XiBarArr := [] } 6 "yes" = some false := by
  decide

end crypto

namespace crypto

/-- deltaSum respects congruences of the value, of cX and of the entries of cF. -/
theorem deltaSum_congr (m : Int) (coeffs : List Int) (D : Nat) (cX cX2 : Int)
    (cF cF2 : List Int) (hX : cX ≡ cX2 [ZMOD m]) :
    ∀ (lvl deg : Nat) (v v2 : Int), v ≡ v2 [ZMOD m] →
      (∀ i, i < lvl → coeffAt cF i ≡ coeffAt cF2 i [ZMOD m]) →
      deltaSum coeffs D cX cF lvl deg v ≡ deltaSum coeffs D cX2 cF2 lvl deg v2 [ZMOD m] := by
  intro lvl
  induction lvl with
  | zero =>
    intro deg v v2 hv _
    simp only [deltaSum]
    exact hv.mul_right _
  | succ lvl ih =>
    intro deg v v2 hv hF
    simp only [deltaSum]
    have h1 := ih deg (v * cX) (v2 * cX2) (hv.mul hX) (fun i hi => hF i (by omega))
    by_cases hc : deg + 2 ^ lvl ≤ D
    · rw [if_pos hc, if_pos hc]
      exact h1.add (ih _ _ _ (hv.mul (hF lvl (by omega))) (fun i hi => hF i (by omega)))
    · rw [if_neg hc, if_neg hc]
      exact h1.add (Int.ModEq.refl 0)

/-- deltaSum is linear in the value. -/
theorem deltaSum_mul (coeffs : List Int) (D : Nat) (cX : Int) (cF : List Int) :
    ∀ (lvl deg : Nat) (v c : Int),
      deltaSum coeffs D cX cF lvl deg (c * v) = c * deltaSum coeffs D cX cF lvl deg v := by
  intro lvl
  induction lvl with
  | zero => intro deg v c; simp only [deltaSum]; ring
  | succ lvl ih =>
    intro deg v c
    simp only [deltaSum]
    have e1 : c * v * cX = c * (v * cX) := by ring
    have e2 : c * v * coeffAt cF lvl = c * (v * coeffAt cF lvl) := by ring
    rw [e1, e2, ih deg (v * cX) c, ih (deg + 2 ^ lvl) (v * coeffAt cF lvl) c]
    split_ifs <;> ring

/-- The value of calcDeltaBarTreelike: `result` plus the sum over the leaves, modulo m. -/
theorem calcDeltaBarTreelike_eq (ps : PolynomialEvaluationProofSystem) (D : Nat)
    (hD : ps.Polynomial.Degree = some D) (hm : ps.zModPr.Modulus ≠ 0)
    (fBar : List Int) (ch : Int) :
    ∀ (lvl deg : Nat) (value result r : Int),
      ps.calcDeltaBarTreelike lvl deg value (fBar.map some) ch result = some r →
      r ≡ result + deltaSum ps.Polynomial.Coeffs D ch fBar lvl deg value
        [ZMOD ps.zModPr.Modulus] := by
  intro lvl
  induction lvl with
  | zero =>
    intro deg value result r h
    simp only [PolynomialEvaluationProofSystem.calcDeltaBarTreelike, ZModPrime.Mul,
      ZModPrime.Add, bigMod_of_ne _ hm, Option.bind_eq_bind] at h
    obtain ⟨c, hc, h⟩ := Option.bind_eq_some.mp h
    simp only [Option.some_bind, Option.some.injEq] at h
    rw [← h]
    have hcc : coeffAt ps.Polynomial.Coeffs deg = c := by
      rw [coeffAt_eq_getD, List.getD_eq_getElem?_getD, hc]
      rfl
    simp only [deltaSum, hcc]
    exact (Int.mod_modEq _ _).trans ((Int.ModEq.refl _).add (Int.mod_modEq _ _))
  | succ lvl ih =>
    intro deg value result r h
    simp only [PolynomialEvaluationProofSystem.calcDeltaBarTreelike, ZModPrime.Mul,
      bigMod_of_ne _ hm, Option.bind_eq_bind, Option.some_bind, hD] at h
    obtain ⟨r1, hr1, h⟩ := Option.bind_eq_some.mp h
    have h1 := ih deg _ result r1 hr1
    have h1b : r1 ≡ result + deltaSum ps.Polynomial.Coeffs D ch fBar lvl deg (value * ch)
        [ZMOD ps.zModPr.Modulus] :=
      h1.trans ((Int.ModEq.refl _).add (deltaSum_congr _ _ _ _ _ _ _ (Int.ModEq.refl _) _ _ _ _
        (Int.mod_modEq _ _) (fun i _ => Int.ModEq.refl _)))
    simp only [deltaSum]
    by_cases hc : deg + 2 ^ lvl ≤ D
    · rw [if_pos hc] at h ⊢
      obtain ⟨fb, hfb, h⟩ := Option.bind_eq_some.mp h
      have h2 := ih _ _ r1 r h
      have hfb2 : coeffAt fBar lvl = fb := by
        rw [getBig_map_some] at hfb
        rw [coeffAt_eq_getD, List.getD_eq_getElem?_getD, hfb]
        rfl
      have h2b : r ≡ r1 + deltaSum ps.Polynomial.Coeffs D ch fBar lvl (deg + 2 ^ lvl)
          (value * coeffAt fBar lvl) [ZMOD ps.zModPr.Modulus] := by
        rw [hfb2]
        exact h2.trans ((Int.ModEq.refl _).add (deltaSum_congr _ _ _ _ _ _ _ (Int.ModEq.refl _)
          _ _ _ _ (Int.mod_modEq _ _) (fun i _ => Int.ModEq.refl _)))
      refine h2b.trans ?_
      have := h1b.add_right (deltaSum ps.Polynomial.Coeffs D ch fBar lvl (deg + 2 ^ lvl)
          (value * coeffAt fBar lvl))
      refine this.trans ?_
      rw [add_assoc]
    · rw [if_neg hc] at h ⊢
      simp only [Option.some.injEq] at h
      rw [← h, add_zero]
      exact h1b


/-- The value of a coefficient list as a finite sum. -/
theorem evalAt_eq_sum (x : Int) : ∀ (l : List Int) (N : Nat), l.length ≤ N →
    evalAt l x = ∑ b in Finset.range N, coeffAt l b * x ^ b := by
  intro l
  induction l with
  | nil => intro N _; simp [evalAt_nil, coeffAt]
  | cons a l ih =>
    intro N hN
    obtain ⟨N2, rfl⟩ : ∃ N2, N = N2 + 1 := ⟨N - 1, by simp at hN; omega⟩
    rw [evalAt_cons, ih N2 (by simpa using hN), Finset.sum_range_succ', Finset.mul_sum]
    simp only [coeffAt, pow_zero, mul_one]
    rw [add_comm]
    congr 1
    apply Finset.sum_congr rfl
    intro b _
    rw [pow_succ]
    ring

/-- With cX = 1 and cF[i] = u^(2^i) the sum over the leaves is the value times the sum of
`a_(deg+b) * u^b` over b below 2^lvl. -/
theorem deltaSum_pow (m : Int) (coeffs : List Int) (D : Nat)
    (hD : ∀ k, D < k → coeffAt coeffs k = 0) (u : Int) (cF : List Int) :
    ∀ (lvl deg : Nat) (v : Int), (∀ i, i < lvl → coeffAt cF i ≡ u ^ (2 ^ i) [ZMOD m]) →
      deltaSum coeffs D 1 cF lvl deg v
        ≡ v * ∑ b in Finset.range (2 ^ lvl), coeffAt coeffs (deg + b) * u ^ b [ZMOD m] := by
  intro lvl
  induction lvl with
  | zero =>
    intro deg v _
    simp [deltaSum]
  | succ lvl ih =>
    intro deg v hF
    simp only [deltaSum, mul_one]
    have h1 := ih deg v (fun i hi => hF i (by omega))
    have e : 2 ^ (lvl + 1) = 2 ^ lvl + 2 ^ lvl := by rw [pow_succ]; omega
    rw [e, Finset.sum_range_add, mul_add]
    refine h1.add ?_
    by_cases hc : deg + 2 ^ lvl ≤ D
    · rw [if_pos hc]
      have h2 := ih (deg + 2 ^ lvl) (v * coeffAt cF lvl) (fun i hi => hF i (by omega))
      refine h2.trans ?_
      have h3 : v * coeffAt cF lvl ≡ v * u ^ (2 ^ lvl) [ZMOD m] :=
        (Int.ModEq.refl v).mul (hF lvl (by omega))
      refine (h3.mul_right _).trans ?_
      have e2 : v * u ^ (2 ^ lvl) * ∑ b in Finset.range (2 ^ lvl),
            coeffAt coeffs (deg + 2 ^ lvl + b) * u ^ b
          = v * ∑ x in Finset.range (2 ^ lvl),
            coeffAt coeffs (deg + (2 ^ lvl + x)) * u ^ (2 ^ lvl + x) := by
        rw [mul_assoc, Finset.mul_sum]
        congr 1
        apply Finset.sum_congr rfl
        intro b _
        rw [pow_add, add_assoc]
        ring
      rw [e2]
    · rw [if_neg hc]
      have e2 : ∑ x in Finset.range (2 ^ lvl),
          coeffAt coeffs (deg + (2 ^ lvl + x)) * u ^ (2 ^ lvl + x) = 0 := by
        apply Finset.sum_eq_zero
        intro b _
        rw [hD _ (by omega)]
        simp
      rw [e2, mul_zero]

theorem coeffAt_map_zero (g : Int → Int) (hg : g 0 = 0) : ∀ (l : List Int) (k : Nat),
    coeffAt (l.map g) k = g (coeffAt l k) := by
  intro l
  induction l with
  | nil => intro k; simp [coeffAt, hg]
  | cons a l ih =>
    intro k
    cases k with
    | zero => simp [coeffAt]
    | succ k => simpa [coeffAt] using ih k

/-- MulScalar on a non-empty coefficient list: the result has between 1 and len(p) entries
and the coefficient at index k is that of p times the scalar, modulo m. -/
theorem MulScalar_spec (p : Polynomial) (s : Int) (hm : p.ZModPr.Modulus ≠ 0)
    (hne : p.Coeffs ≠ []) :
    ∃ t, p.MulScalar s = some ⟨t, p.ZModPr⟩ ∧ 1 ≤ t.length ∧ t.length ≤ p.Coeffs.length ∧
      ∀ k, coeffAt t k ≡ coeffAt p.Coeffs k * s [ZMOD p.ZModPr.Modulus] := by
  have hmap : p.Coeffs.mapM (fun coefficient => p.ZModPr.Mul coefficient s)
      = some (p.Coeffs.map (fun c => c * s % p.ZModPr.Modulus)) :=
    mapM_eq_some_map _ _ _ (fun a _ => by simp [ZModPrime.Mul, bigMod_of_ne _ hm])
  have hne2 : p.Coeffs.map (fun c => c * s % p.ZModPr.Modulus) ≠ [] := by
    simpa using hne
  obtain ⟨t, ht1, ht2, ht3, ht4⟩ := trim_spec _ hne2
  refine ⟨t, ?_, ht2, by simpa using ht3, fun k => ?_⟩
  · simp only [Polynomial.MulScalar, hmap, Option.bind_eq_bind, Option.some_bind, ht1,
      NewPolynomial]
  · rw [ht4, coeffAt_map_zero (fun c => c * s % p.ZModPr.Modulus) (by simp)]
    exact Int.mod_modEq _ _

theorem mem_range_of_coeffAt (R : List Int) (m : Int)
    (h : ∀ k, k < R.length → 0 ≤ coeffAt R k ∧ coeffAt R k < m) :
    ∀ x ∈ R, 0 ≤ x ∧ x < m := by
  intro x hx
  obtain ⟨k, hk, hxk⟩ := List.getElem_of_mem hx
  have := h k hk
  rw [coeffAt_eq_getD, List.getD_eq_getElem _ _ hk, hxk] at this
  exact this

/-- The leaf of calcDeltaPolynomial: `base.Add(curr.MulScalar(a))`. -/
theorem leaf_spec (ring : ZModPrime) (hm : 0 < ring.Modulus) (c B : List Int) (a : Int)
    (N : Nat) (hc : c ≠ []) (hcN : c.length = N) (hBN : B.length = N) :
    ∃ R, ((⟨c, ring⟩ : Polynomial).MulScalar a).bind (fun term =>
        (⟨B, ring⟩ : Polynomial).Add term) = some ⟨R, ring⟩ ∧
      R.length = N ∧ (∀ x ∈ R, 0 ≤ x ∧ x < ring.Modulus) ∧
      ∀ k, coeffAt R k ≡ coeffAt B k + a * coeffAt c k [ZMOD ring.Modulus] := by
  obtain ⟨t, ht1, ht2, ht3, ht4⟩ := MulScalar_spec ⟨c, ring⟩ a (ne_of_gt hm) hc
  obtain ⟨R, hR1, hR2, hR3, hR4⟩ := Add_spec ⟨B, ring⟩ ⟨t, ring⟩ rfl hm
  refine ⟨R, ?_, ?_, mem_range_of_coeffAt R _ hR4, fun k => ?_⟩
  · rw [ht1, Option.some_bind]
    exact hR1
  · rw [hR2]
    simp only at ht3 ⊢
    omega
  · refine (hR3 k).trans ((Int.ModEq.refl _).add ?_)
    have := ht4 k
    simp only at this
    rw [mul_comm a]
    exact this

end crypto

namespace crypto

/-- One multiplication of calcDeltaPolynomial: the current polynomial, with reduced
coefficients and a leading coefficient that is not 0 modulo m, times `b0 + b1 X` with b1 not
0 modulo m. The product has one more coefficient and the same properties. -/
theorem mul_step (ring : ZModPrime) (hm : 1 < ring.Modulus)
    (hprime : ∀ a b : Int, a % ring.Modulus ≠ 0 → b % ring.Modulus ≠ 0 →
      (a * b) % ring.Modulus ≠ 0)
    (c : List Int) (b0 b1 : Int) (hc : c ≠ [])
    (hlead : coeffAt c (c.length - 1) % ring.Modulus ≠ 0) (hb : b1 % ring.Modulus ≠ 0) :
    ∃ R, (⟨c, ring⟩ : Polynomial).Mul ⟨[b0, b1], ring⟩ = some ⟨R, ring⟩ ∧
      R.length = c.length + 1 ∧ R ≠ [] ∧
      coeffAt R (R.length - 1) % ring.Modulus ≠ 0 ∧
      coeffAt R c.length = (coeffAt c (c.length - 1) * b1) % ring.Modulus ∧
      ∀ x, evalAt R x ≡ evalAt c x * (b0 + b1 * x) [ZMOD ring.Modulus] := by
  have hm0 : ring.Modulus ≠ 0 := by omega
  have hpos := List.length_pos.mpr hc
  have hc0 : coeffAt c (c.length - 1) ≠ 0 := by
    intro h
    rw [h] at hlead
    simp at hlead
  have hb0 : b1 ≠ 0 := by
    intro h
    rw [h] at hb
    simp at hb
  have ht1 : trim (Polynomial.Coeffs ⟨c, ring⟩) = some (Polynomial.Coeffs ⟨c, ring⟩) :=
    trim_of_last c hc hc0
  have ht2 : trim (Polynomial.Coeffs ⟨[b0, b1], ring⟩)
      = some (Polynomial.Coeffs ⟨[b0, b1], ring⟩) :=
    trim_of_last _ (by simp) (by simpa [coeffAt] using hb0)
  obtain ⟨R, h1, h2, _, h4, h5, _⟩ := Mul_full ⟨c, ring⟩ ⟨[b0, b1], ring⟩ rfl hm0 ht1 ht2
  simp only [List.length_cons, List.length_nil, Nat.zero_add, Nat.add_sub_cancel] at h2 h5
  have hlen : R.length = c.length + 1 := by omega
  have e1 : c.length - 1 + 1 = c.length := by omega
  rw [e1] at h5
  have h5b : coeffAt R c.length = (coeffAt c (c.length - 1) * b1) % ring.Modulus := by
    rw [h5]
    simp [coeffAt]
  refine ⟨R, h1, hlen, ?_, ?_, h5b, fun x => ?_⟩
  · intro h0
    rw [h0] at hlen
    simp at hlen
  · have e2 : R.length - 1 = c.length := by omega
    rw [e2, h5b, Int.emod_emod_of_dvd _ (dvd_refl _)]
    exact hprime _ _ hlead hb
  · have := h4 x
    simp only [evalAt_cons, evalAt_nil, mul_zero, add_zero] at this
    rw [mul_comm b1 x]
    exact this


/-- The recursion of calcDeltaPolynomial below a node whose degree argument is not 0: it adds
to the polynomial `result` the leaves' polynomials times their coefficients. The statement is
about a functional psi on coefficient lists that is additive modulo m and a functional phi
that is multiplied by cX (by cF[i]) when the current polynomial is multiplied by X (by
`fArr[i] + uArr[i] X`) and agrees with psi on lists of N entries. -/
theorem calcDeltaPolynomial_spec (ps : PolynomialEvaluationProofSystem) (D N : Nat)
    (uArr fArr : List Int) (phi psi : List Int → Int) (cX : Int) (cF : List Int)
    (hm : 1 < ps.Polynomial.ZModPr.Modulus)
    (hprime : ∀ a b : Int, a % ps.Polynomial.ZModPr.Modulus ≠ 0 →
      b % ps.Polynomial.ZModPr.Modulus ≠ 0 → (a * b) % ps.Polynomial.ZModPr.Modulus ≠ 0)
    (hD : ps.Polynomial.Degree = some D)
    (hu : ∀ i, i < uArr.length → coeffAt uArr i % ps.Polynomial.ZModPr.Modulus ≠ 0)
    (hpsi : ∀ (l1 l2 l3 : List Int) (a : Int),
      (∀ k, coeffAt l1 k ≡ coeffAt l2 k + a * coeffAt l3 k [ZMOD ps.Polynomial.ZModPr.Modulus]) →
      psi l1 ≡ psi l2 + a * psi l3 [ZMOD ps.Polynomial.ZModPr.Modulus])
    (h0 : ∀ c : List Int, c.length = N → phi c ≡ psi c [ZMOD ps.Polynomial.ZModPr.Modulus])
    (hX : ∀ c R : List Int, c ≠ [] →
      coeffAt c (c.length - 1) % ps.Polynomial.ZModPr.Modulus ≠ 0 →
      (⟨c, ps.Polynomial.ZModPr⟩ : Polynomial).Mul ⟨[0, 1], ps.Polynomial.ZModPr⟩
        = some ⟨R, ps.Polynomial.ZModPr⟩ →
      phi R ≡ phi c * cX [ZMOD ps.Polynomial.ZModPr.Modulus])
    (hF : ∀ (i : Nat) (c R : List Int), i < uArr.length → i < fArr.length → c ≠ [] →
      coeffAt c (c.length - 1) % ps.Polynomial.ZModPr.Modulus ≠ 0 →
      (⟨c, ps.Polynomial.ZModPr⟩ : Polynomial).Mul
        ⟨[coeffAt fArr i, coeffAt uArr i], ps.Polynomial.ZModPr⟩
        = some ⟨R, ps.Polynomial.ZModPr⟩ →
      phi R ≡ phi c * coeffAt cF i [ZMOD ps.Polynomial.ZModPr.Modulus]) :
    ∀ (lvl deg : Nat) (c R : List Int), lvl ≤ uArr.length → lvl ≤ fArr.length → deg ≤ D →
      deg ≠ 0 → c ≠ [] → coeffAt c (c.length - 1) % ps.Polynomial.ZModPr.Modulus ≠ 0 →
      c.length + lvl = N → R.length = N →
      ∃ R2, ps.calcDeltaPolynomial ⟨[0, 1], ps.Polynomial.ZModPr⟩ lvl deg
          ⟨c, ps.Polynomial.ZModPr⟩ uArr fArr (some ⟨R, ps.Polynomial.ZModPr⟩)
          = some ⟨R2, ps.Polynomial.ZModPr⟩ ∧
        R2.length = N ∧ (∀ x ∈ R2, 0 ≤ x ∧ x < ps.Polynomial.ZModPr.Modulus) ∧
        psi R2 ≡ psi R + deltaSum ps.Polynomial.Coeffs D cX cF lvl deg (phi c)
          [ZMOD ps.Polynomial.ZModPr.Modulus] := by
  have hlenD := Degree_lt_length _ _ hD
  have hone : (1 : Int) % ps.Polynomial.ZModPr.Modulus ≠ 0 := by
    rw [Int.emod_eq_of_lt (by norm_num) hm]
    norm_num
  intro lvl
  induction lvl with
  | zero =>
    intro deg c R _ _ hdeg hdeg0 hc hlead hcN hRN
    have hget : ps.Polynomial.Coeffs[deg]? = some (coeffAt ps.Polynomial.Coeffs deg) := by
      rw [coeffAt_eq_getD, List.getD_eq_getElem _ _ (by omega)]
      exact List.getElem?_eq_getElem (by omega)
    obtain ⟨R2, h1, h2, h3, h4⟩ := leaf_spec ps.Polynomial.ZModPr (by omega) c R
      (coeffAt ps.Polynomial.Coeffs deg) N hc (by omega) hRN
    refine ⟨R2, ?_, h2, h3, ?_⟩
    · simp only [PolynomialEvaluationProofSystem.calcDeltaPolynomial, if_neg hdeg0, hget,
        Option.bind_eq_bind, Option.some_bind]
      exact h1
    · have := hpsi R2 R c _ h4
      refine this.trans ((Int.ModEq.refl _).add ?_)
      simp only [deltaSum]
      rw [mul_comm]
      exact ((h0 c (by omega)).symm).mul_right _
  | succ lvl ih =>
    intro deg c R hlu hlf hdeg hdeg0 hc hlead hcN hRN
    obtain ⟨c1, hm1, hl1, hne1, hlead1, _, _⟩ := mul_step ps.Polynomial.ZModPr hm hprime c 0 1
      hc hlead hone
    obtain ⟨Ra, ha1, ha2, ha3, ha4⟩ := ih deg c1 R (by omega) (by omega) hdeg hdeg0 hne1
      hlead1 (by omega) hRN
    have hphi1 := hX c c1 hc hlead hm1
    have ha5 : psi Ra ≡ psi R + deltaSum ps.Polynomial.Coeffs D cX cF lvl deg (phi c * cX)
        [ZMOD ps.Polynomial.ZModPr.Modulus] :=
      ha4.trans ((Int.ModEq.refl _).add (deltaSum_congr _ _ _ _ _ _ _ (Int.ModEq.refl _) _ _ _ _
        hphi1 (fun i _ => Int.ModEq.refl _)))
    simp only [deltaSum]
    by_cases hnext : deg + 2 ^ lvl ≤ D
    · have hf : fArr[lvl]? = some (coeffAt fArr lvl) := by
        rw [coeffAt_eq_getD, List.getD_eq_getElem _ _ (by omega)]
        exact List.getElem?_eq_getElem (by omega)
      have hu2 : uArr[lvl]? = some (coeffAt uArr lvl) := by
        rw [coeffAt_eq_getD, List.getD_eq_getElem _ _ (by omega)]
        exact List.getElem?_eq_getElem (by omega)
      obtain ⟨c2, hm2, hl2, hne2, hlead2, _, _⟩ := mul_step ps.Polynomial.ZModPr hm hprime c
        (coeffAt fArr lvl) (coeffAt uArr lvl) hc hlead (hu lvl (by omega))
      have hpos2 : 0 < 2 ^ lvl := Nat.two_pow_pos lvl
      obtain ⟨Rb, hb1, hb2, hb3, hb4⟩ := ih (deg + 2 ^ lvl) c2 Ra (by omega) (by omega) hnext
        (by omega) hne2 hlead2 (by omega) ha2
      have hphi2 := hF lvl c c2 (by omega) (by omega) hc hlead hm2
      refine ⟨Rb, ?_, hb2, hb3, ?_⟩
      · simp only [PolynomialEvaluationProofSystem.calcDeltaPolynomial, hm1,
          Option.bind_eq_bind, Option.some_bind, ha1, hD, if_pos hnext, hf, hu2, NewPolynomial,
          hm2]
        exact hb1
      · rw [if_pos hnext]
        have hb5 : psi Rb ≡ psi Ra + deltaSum ps.Polynomial.Coeffs D cX cF lvl (deg + 2 ^ lvl)
            (phi c * coeffAt cF lvl) [ZMOD ps.Polynomial.ZModPr.Modulus] :=
          hb4.trans ((Int.ModEq.refl _).add (deltaSum_congr _ _ _ _ _ _ _ (Int.ModEq.refl _)
            _ _ _ _ hphi2 (fun i _ => Int.ModEq.refl _)))
        refine hb5.trans ?_
        have := ha5.add_right (deltaSum ps.Polynomial.Coeffs D cX cF lvl (deg + 2 ^ lvl)
            (phi c * coeffAt cF lvl))
        refine this.trans ?_
        rw [add_assoc]
    · refine ⟨Ra, ?_, ha2, ha3, ?_⟩
      · simp only [PolynomialEvaluationProofSystem.calcDeltaPolynomial, hm1,
          Option.bind_eq_bind, Option.some_bind, ha1, hD, if_neg hnext]
      · rw [if_neg hnext, add_zero]
        exact ha5


/-- The recursion of calcDeltaPolynomial from the degree argument 0, whatever `result` is: the
leftmost leaf replaces `result` by its polynomial, the current one times X^lvl, and every
leaf adds its polynomial times its coefficient. -/
theorem calcDeltaPolynomial_zero (ps : PolynomialEvaluationProofSystem) (D N : Nat)
    (uArr fArr : List Int) (phi psi : List Int → Int) (cX : Int) (cF : List Int)
    (hm : 1 < ps.Polynomial.ZModPr.Modulus)
    (hprime : ∀ a b : Int, a % ps.Polynomial.ZModPr.Modulus ≠ 0 →
      b % ps.Polynomial.ZModPr.Modulus ≠ 0 → (a * b) % ps.Polynomial.ZModPr.Modulus ≠ 0)
    (hD : ps.Polynomial.Degree = some D)
    (hu : ∀ i, i < uArr.length → coeffAt uArr i % ps.Polynomial.ZModPr.Modulus ≠ 0)
    (hpsi : ∀ (l1 l2 l3 : List Int) (a : Int),
      (∀ k, coeffAt l1 k ≡ coeffAt l2 k + a * coeffAt l3 k [ZMOD ps.Polynomial.ZModPr.Modulus]) →
      psi l1 ≡ psi l2 + a * psi l3 [ZMOD ps.Polynomial.ZModPr.Modulus])
    (h0 : ∀ c : List Int, c.length = N → phi c ≡ psi c [ZMOD ps.Polynomial.ZModPr.Modulus])
    (hX : ∀ c R : List Int, c ≠ [] →
      coeffAt c (c.length - 1) % ps.Polynomial.ZModPr.Modulus ≠ 0 →
      (⟨c, ps.Polynomial.ZModPr⟩ : Polynomial).Mul ⟨[0, 1], ps.Polynomial.ZModPr⟩
        = some ⟨R, ps.Polynomial.ZModPr⟩ →
      phi R ≡ phi c * cX [ZMOD ps.Polynomial.ZModPr.Modulus])
    (hF : ∀ (i : Nat) (c R : List Int), i < uArr.length → i < fArr.length → c ≠ [] →
      coeffAt c (c.length - 1) % ps.Polynomial.ZModPr.Modulus ≠ 0 →
      (⟨c, ps.Polynomial.ZModPr⟩ : Polynomial).Mul
        ⟨[coeffAt fArr i, coeffAt uArr i], ps.Polynomial.ZModPr⟩
        = some ⟨R, ps.Polynomial.ZModPr⟩ →
      phi R ≡ phi c * coeffAt cF i [ZMOD ps.Polynomial.ZModPr.Modulus]) :
    ∀ (lvl : Nat) (c : List Int) (res : Option Polynomial), lvl ≤ uArr.length →
      lvl ≤ fArr.length → c ≠ [] →
      coeffAt c (c.length - 1) % ps.Polynomial.ZModPr.Modulus ≠ 0 → c.length + lvl = N →
      ∃ R2, ps.calcDeltaPolynomial ⟨[0, 1], ps.Polynomial.ZModPr⟩ lvl 0
          ⟨c, ps.Polynomial.ZModPr⟩ uArr fArr res = some ⟨R2, ps.Polynomial.ZModPr⟩ ∧
        R2.length = N ∧ (∀ x ∈ R2, 0 ≤ x ∧ x < ps.Polynomial.ZModPr.Modulus) ∧
        psi R2 ≡ phi c * cX ^ lvl + deltaSum ps.Polynomial.Coeffs D cX cF lvl 0 (phi c)
          [ZMOD ps.Polynomial.ZModPr.Modulus] := by
  have hlenD := Degree_lt_length _ _ hD
  have hone : (1 : Int) % ps.Polynomial.ZModPr.Modulus ≠ 0 := by
    rw [Int.emod_eq_of_lt (by norm_num) hm]
    norm_num
  intro lvl
  induction lvl with
  | zero =>
    intro c res _ _ hc hlead hcN
    have hget : ps.Polynomial.Coeffs[0]? = some (coeffAt ps.Polynomial.Coeffs 0) := by
      rw [coeffAt_eq_getD, List.getD_eq_getElem _ _ (by omega)]
      exact List.getElem?_eq_getElem (by omega)
    obtain ⟨R2, h1, h2, h3, h4⟩ := leaf_spec ps.Polynomial.ZModPr (by omega) c c
      (coeffAt ps.Polynomial.Coeffs 0) N hc (by omega) (by omega)
    refine ⟨R2, ?_, h2, h3, ?_⟩
    · simp only [PolynomialEvaluationProofSystem.calcDeltaPolynomial, if_true, hget,
        Option.bind_eq_bind, Option.some_bind]
      exact h1
    · have := hpsi R2 c c _ h4
      refine this.trans ?_
      simp only [deltaSum, pow_zero, mul_one]
      have h5 := (h0 c (by omega)).symm
      refine h5.add ?_
      rw [mul_comm]
      exact h5.mul_right _
  | succ lvl ih =>
    intro c res hlu hlf hc hlead hcN
    obtain ⟨c1, hm1, hl1, hne1, hlead1, _, _⟩ := mul_step ps.Polynomial.ZModPr hm hprime c 0 1
      hc hlead hone
    obtain ⟨Ra, ha1, ha2, ha3, ha4⟩ := ih c1 res (by omega) (by omega) hne1 hlead1 (by omega)
    have hphi1 := hX c c1 hc hlead hm1
    have ha5 : psi Ra ≡ phi c * cX ^ (lvl + 1)
        + deltaSum ps.Polynomial.Coeffs D cX cF lvl 0 (phi c * cX)
        [ZMOD ps.Polynomial.ZModPr.Modulus] := by
      refine ha4.trans ?_
      have e : phi c * cX ^ (lvl + 1) = phi c * cX * cX ^ lvl := by
        rw [pow_succ]
        ring
      rw [e]
      exact (hphi1.mul_right _).add (deltaSum_congr _ _ _ _ _ _ _ (Int.ModEq.refl _) _ _ _ _
        hphi1 (fun i _ => Int.ModEq.refl _))
    simp only [deltaSum]
    by_cases hnext : 0 + 2 ^ lvl ≤ D
    · have hf : fArr[lvl]? = some (coeffAt fArr lvl) := by
        rw [coeffAt_eq_getD, List.getD_eq_getElem _ _ (by omega)]
        exact List.getElem?_eq_getElem (by omega)
      have hu2 : uArr[lvl]? = some (coeffAt uArr lvl) := by
        rw [coeffAt_eq_getD, List.getD_eq_getElem _ _ (by omega)]
        exact List.getElem?_eq_getElem (by omega)
      obtain ⟨c2, hm2, hl2, hne2, hlead2, _, _⟩ := mul_step ps.Polynomial.ZModPr hm hprime c
        (coeffAt fArr lvl) (coeffAt uArr lvl) hc hlead (hu lvl (by omega))
      have hpos2 : 0 < 2 ^ lvl := Nat.two_pow_pos lvl
      obtain ⟨Rb, hb1, hb2, hb3, hb4⟩ := calcDeltaPolynomial_spec ps D N uArr fArr phi psi cX cF
        hm hprime hD hu hpsi h0 hX hF lvl (0 + 2 ^ lvl) c2 Ra (by omega) (by omega) hnext
        (by omega) hne2 hlead2 (by omega) ha2
      have hphi2 := hF lvl c c2 (by omega) (by omega) hc hlead hm2
      refine ⟨Rb, ?_, hb2, hb3, ?_⟩
      · simp only [PolynomialEvaluationProofSystem.calcDeltaPolynomial, hm1,
          Option.bind_eq_bind, Option.some_bind, ha1, hD, if_pos hnext, hf, hu2, NewPolynomial,
          hm2]
        exact hb1
      · rw [if_pos hnext]
        have hb5 : psi Rb ≡ psi Ra + deltaSum ps.Polynomial.Coeffs D cX cF lvl (0 + 2 ^ lvl)
            (phi c * coeffAt cF lvl) [ZMOD ps.Polynomial.ZModPr.Modulus] :=
          hb4.trans ((Int.ModEq.refl _).add (deltaSum_congr _ _ _ _ _ _ _ (Int.ModEq.refl _)
            _ _ _ _ hphi2 (fun i _ => Int.ModEq.refl _)))
        refine hb5.trans ?_
        have := ha5.add_right (deltaSum ps.Polynomial.Coeffs D cX cF lvl (0 + 2 ^ lvl)
            (phi c * coeffAt cF lvl))
        refine this.trans ?_
        rw [add_assoc]
    · refine ⟨Ra, ?_, ha2, ha3, ?_⟩
      · simp only [PolynomialEvaluationProofSystem.calcDeltaPolynomial, hm1,
          Option.bind_eq_bind, Option.some_bind, ha1, hD, if_neg hnext]
      · rw [if_neg hnext, add_zero]
        exact ha5

end crypto

namespace crypto

theorem evalAt_map_mul (a x : Int) : ∀ l : List Int,
    evalAt (l.map (fun c => a * c)) x = a * evalAt l x := by
  intro l
  induction l with
  | nil => simp [evalAt_nil]
  | cons b l ih =>
    simp only [List.map_cons, evalAt_cons, ih]
    ring

theorem evalAt_congr_add_smul (m x a : Int) (l1 l2 l3 : List Int)
    (h : ∀ k, coeffAt l1 k ≡ coeffAt l2 k + a * coeffAt l3 k [ZMOD m]) :
    evalAt l1 x ≡ evalAt l2 x + a * evalAt l3 x [ZMOD m] := by
  have := evalAt_congr_add m x l1 l2 (l3.map (fun c => a * c)) (fun k => by
    rw [coeffAt_map_zero (fun c => a * c) (by simp)]
    exact h k)
  rw [evalAt_map_mul] at this
  exact this

theorem prime_mul_ne (m : Int) (hp : Nat.Prime m.toNat) (a b : Int) (ha : a % m ≠ 0)
    (hb : b % m ≠ 0) : (a * b) % m ≠ 0 := by
  have hm2 := hp.two_le
  have hm0 : 0 ≤ m := by omega
  have hpi : Prime m := by
    have := Nat.prime_iff_prime_int.mp hp
    rwa [Int.toNat_of_nonneg hm0] at this
  intro h
  have hdvd : m ∣ a * b := Int.dvd_of_emod_eq_zero h
  rcases hpi.dvd_or_dvd hdvd with h1 | h1
  · exact ha (Int.emod_eq_zero_of_dvd h1)
  · exact hb (Int.emod_eq_zero_of_dvd h1)

/-- The slice calcDeltas returns: d + 2 entries in [0, m); its value at ch is ch^(d+1) plus
the sum over the leaves with the factors ch and fBar[i]; its entry d + 1 is 1 modulo m when
the polynomial vanishes at u. -/
theorem calcDeltas_spec (ps : PolynomialEvaluationProofSystem) (D : Nat)
    (uArr fArr fBar : List Int) (u ch : Int)
    (hp : Nat.Prime ps.Polynomial.ZModPr.Modulus.toNat)
    (htrim : trim ps.Polynomial.Coeffs = some ps.Polynomial.Coeffs)
    (hD : ps.Polynomial.Coeffs.length = D + 1) (hDd : D < 2 ^ (ps.d + 1))
    (hul : uArr.length = ps.d + 1) (hfl : fArr.length = ps.d + 1)
    (hu : ∀ i, i < ps.d + 1 →
      coeffAt uArr i ≡ u ^ (2 ^ i) [ZMOD ps.Polynomial.ZModPr.Modulus])
    (hu0 : ∀ i, i < uArr.length → coeffAt uArr i % ps.Polynomial.ZModPr.Modulus ≠ 0)
    (hfBar : ∀ i, i < ps.d + 1 →
      coeffAt fBar i ≡ coeffAt fArr i + coeffAt uArr i * ch [ZMOD ps.Polynomial.ZModPr.Modulus])
    (hroot : evalAt ps.Polynomial.Coeffs u ≡ 0 [ZMOD ps.Polynomial.ZModPr.Modulus]) :
    ∃ dArr, ps.calcDeltas uArr fArr = some dArr ∧ dArr.length = ps.d + 2 ∧
      (∀ x ∈ dArr, 0 ≤ x ∧ x < ps.Polynomial.ZModPr.Modulus) ∧
      ∑ i in Finset.range (ps.d + 1), coeffAt dArr i * ch ^ i
        ≡ deltaSum ps.Polynomial.Coeffs D ch fBar (ps.d + 1) 0 1
          [ZMOD ps.Polynomial.ZModPr.Modulus] := by
  have hm2 := hp.two_le
  have hm : 1 < ps.Polynomial.ZModPr.Modulus := by omega
  have hprime := prime_mul_ne _ hp
  have hDeg : ps.Polynomial.Degree = some D := by
    rw [Degree_of_trim _ htrim, hD]
    rfl
  have hone : (1 : Int) % ps.Polynomial.ZModPr.Modulus ≠ 0 := by
    rw [Int.emod_eq_of_lt (by norm_num) hm]
    norm_num
  -- the value at ch
  obtain ⟨R, hR1, hR2, hR3, hR4⟩ := calcDeltaPolynomial_zero ps D (ps.d + 2) uArr fArr
    (fun l => evalAt l ch) (fun l => evalAt l ch) ch fBar hm hprime hDeg hu0
    (fun l1 l2 l3 a h => evalAt_congr_add_smul _ ch a l1 l2 l3 h)
    (fun c _ => Int.ModEq.refl _)
    (fun c R hc hlead hmul => by
      obtain ⟨R2, h1, _, _, _, _, h6⟩ := mul_step ps.Polynomial.ZModPr hm hprime c 0 1 hc hlead
        hone
      rw [hmul] at h1
      have e : R = R2 := congrArg Polynomial.Coeffs (Option.some.inj h1)
      subst e
      have := h6 ch
      simpa using this)
    (fun i c R hiu hif hc hlead hmul => by
      obtain ⟨R2, h1, _, _, _, _, h6⟩ := mul_step ps.Polynomial.ZModPr hm hprime c
        (coeffAt fArr i) (coeffAt uArr i) hc hlead (hu0 i hiu)
      rw [hmul] at h1
      have e : R = R2 := congrArg Polynomial.Coeffs (Option.some.inj h1)
      subst e
      exact (h6 ch).trans ((Int.ModEq.refl _).mul (hfBar i (by omega)).symm))
    (ps.d + 1) [1] none (by omega) (by omega) (by simp) (by simpa [coeffAt] using hone)
    (by simp; omega)
  -- the entry d + 1
  obtain ⟨R', hR1', _, _, hR4'⟩ := calcDeltaPolynomial_zero ps D (ps.d + 2) uArr fArr
    (fun c => coeffAt c (c.length - 1)) (fun l => coeffAt l (ps.d + 1)) 1 uArr hm hprime hDeg hu0
    (fun l1 l2 l3 a h => h (ps.d + 1))
    (fun c hc => by
      simp only [hc, Nat.add_sub_cancel]
      exact Int.ModEq.refl _)
    (fun c R hc hlead hmul => by
      obtain ⟨R2, h1, h2, _, _, h5, _⟩ := mul_step ps.Polynomial.ZModPr hm hprime c 0 1 hc hlead
        hone
      rw [hmul] at h1
      have e : R = R2 := congrArg Polynomial.Coeffs (Option.some.inj h1)
      subst e
      simp only [h2, Nat.add_sub_cancel, h5]
      exact Int.mod_modEq _ _)
    (fun i c R hiu hif hc hlead hmul => by
      obtain ⟨R2, h1, h2, _, _, h5, _⟩ := mul_step ps.Polynomial.ZModPr hm hprime c
        (coeffAt fArr i) (coeffAt uArr i) hc hlead (hu0 i hiu)
      rw [hmul] at h1
      have e : R = R2 := congrArg Polynomial.Coeffs (Option.some.inj h1)
      subst e
      simp only [h2, Nat.add_sub_cancel, h5]
      exact Int.mod_modEq _ _)
    (ps.d + 1) [1] none (by omega) (by omega) (by simp) (by simpa [coeffAt] using hone)
    (by simp; omega)
  rw [hR1] at hR1'
  have e : R = R' := congrArg Polynomial.Coeffs (Option.some.inj hR1')
  subst e
  have hzero : ∀ k, D < k → coeffAt ps.Polynomial.Coeffs k = 0 :=
    fun k hk => coeffAt_of_le _ _ (by omega)
  have htop : coeffAt R (ps.d + 1) ≡ 1 [ZMOD ps.Polynomial.ZModPr.Modulus] := by
    refine hR4'.trans ?_
    simp only [List.length_singleton, Nat.sub_self, coeffAt, one_pow, mul_one]
    have h1 := deltaSum_pow ps.Polynomial.ZModPr.Modulus ps.Polynomial.Coeffs D hzero u uArr
      (ps.d + 1) 0 1 hu
    have h2 := evalAt_eq_sum u ps.Polynomial.Coeffs (2 ^ (ps.d + 1)) (by omega)
    simp only [Nat.zero_add, one_mul] at h1
    rw [← h2] at h1
    have := (Int.ModEq.refl (1 : Int)).add (h1.trans hroot)
    simpa using this
  refine ⟨R, ?_, hR2, hR3, ?_⟩
  · simp only [PolynomialEvaluationProofSystem.calcDeltas, NewPolynomial, hR1,
      Option.bind_eq_bind, Option.some_bind]
  · have h3 := evalAt_eq_sum ch R (ps.d + 2) (by omega)
    rw [Finset.sum_range_succ] at h3
    have hR5 : evalAt R ch ≡ evalAt [1] ch * ch ^ (ps.d + 1)
        + deltaSum ps.Polynomial.Coeffs D ch fBar (ps.d + 1) 0 (evalAt [1] ch)
        [ZMOD ps.Polynomial.ZModPr.Modulus] := hR4
    clear hR4
    rename' hR5 => hR4
    rw [h3] at hR4
    simp only [evalAt_cons, evalAt_nil, mul_zero, add_zero, one_mul] at hR4
    have h4 : coeffAt R (ps.d + 1) * ch ^ (ps.d + 1) ≡ ch ^ (ps.d + 1)
        [ZMOD ps.Polynomial.ZModPr.Modulus] := by
      simpa using htop.mul_right (ch ^ (ps.d + 1))
    have h5 := hR4.sub h4
    simpa using h5

end crypto

namespace crypto

theorem toNat_add_of_nonneg (a b : Int) (ha : 0 ≤ a) (hb : 0 ≤ b) :
    (a + b).toNat = a.toNat + b.toNat := by
  omega

theorem cmt_congr (o p gr gm a b a2 b2 : Int) (hp : 0 ≤ p)
    (hgr : gr ^ p.toNat ≡ 1 [ZMOD o]) (hgm : gm ^ p.toNat ≡ 1 [ZMOD o])
    (ha : 0 ≤ a) (hb : 0 ≤ b) (ha2 : 0 ≤ a2) (hb2 : 0 ≤ b2)
    (h1 : a ≡ a2 [ZMOD p]) (h2 : b ≡ b2 [ZMOD p]) :
    cmt o gr gm a b = cmt o gr gm a2 b2 := by
  unfold cmt
  exact (pow_toNat_modEq gr o p hgr hp ha ha2 h1).mul (pow_toNat_modEq gm o p hgm hp hb hb2 h2)

theorem cmt_pow (o gr gm a b e : Int) (ha : 0 ≤ a) (hb : 0 ≤ b) (he : 0 ≤ e) :
    cmt o gr gm a b ^ e.toNat % o = cmt o gr gm (a * e) (b * e) := by
  unfold cmt
  have h : (gr ^ a.toNat * gm ^ b.toNat % o) ^ e.toNat
      ≡ (gr ^ a.toNat * gm ^ b.toNat) ^ e.toNat [ZMOD o] := (Int.mod_modEq _ _).pow _
  rw [pow_toNat_mul gr a e ha he, pow_toNat_mul gm b e hb he, ← mul_pow]
  exact h

theorem cmt_mul (o gr gm a b c d : Int) (ha : 0 ≤ a) (hb : 0 ≤ b) (hc : 0 ≤ c) (hd : 0 ≤ d) :
    cmt o gr gm a b * cmt o gr gm c d % o = cmt o gr gm (a + c) (b + d) := by
  unfold cmt
  have h : gr ^ a.toNat * gm ^ b.toNat % o * (gr ^ c.toNat * gm ^ d.toNat % o)
      ≡ gr ^ a.toNat * gm ^ b.toNat * (gr ^ c.toNat * gm ^ d.toNat) [ZMOD o] :=
    (Int.mod_modEq _ _).mul (Int.mod_modEq _ _)
  rw [toNat_add_of_nonneg a c ha hc, toNat_add_of_nonneg b d hb hd, pow_add, pow_add]
  refine h.trans ?_
  have e : gr ^ a.toNat * gm ^ b.toNat * (gr ^ c.toNat * gm ^ d.toNat)
      = gr ^ a.toNat * gr ^ c.toNat * (gm ^ b.toNat * gm ^ d.toNat) := by ring
  rw [e]

theorem cmt_zero (o gr gm : Int) (ho : 1 < o) : cmt o gr gm 0 0 = 1 := by
  simp [cmt, Int.emod_eq_of_lt (by norm_num : (0 : Int) ≤ 1) ho]

/-- Commit with one message generator, on values in [0, ord]. -/
theorem Commit_one (s : PedersenCommitmentScheme) (gm a b : Int) (hHm : s.Hm = [gm])
    (hmod : s.G.Modulus ≠ 0) (ha : 0 ≤ a ∧ a ≤ s.G.Order) (hb : 0 ≤ b ∧ b ≤ s.G.Order) :
    s.Commit a [b] = some (cmt s.G.Modulus s.Hr gm a b) := by
  rw [Commit_eq_of_le s a [b] hmod (by simp [hHm]) ha (by
    intro m hm
    have : m = b := by simpa using hm
    rw [this]
    exact hb)]
  simp [cmt, hHm]

theorem uPow_nonneg (p u : Int) (hp : 0 < p) (hu : 0 ≤ u ∧ u < p) :
    ∀ i, 0 ≤ uPow p u i ∧ uPow p u i < p := by
  intro i
  cases i with
  | zero => exact hu
  | succ i => exact ⟨Int.emod_nonneg _ (ne_of_gt hp), Int.emod_lt_of_pos _ hp⟩

theorem uPow_modEq (p u : Int) : ∀ i, uPow p u i ≡ u ^ (2 ^ i) [ZMOD p] := by
  intro i
  induction i with
  | zero => simp [uPow]
  | succ i ih =>
    simp only [uPow]
    refine (Int.mod_modEq _ _).trans ?_
    have := ih.mul ih
    rw [← pow_add] at this
    have e : 2 ^ i + 2 ^ i = 2 ^ (i + 1) := by rw [pow_succ]; omega
    rw [e] at this
    exact this

theorem uPow_ne (p u : Int) (hp : Nat.Prime p.toNat) (hu : u % p ≠ 0) :
    ∀ i, uPow p u i % p ≠ 0 := by
  intro i
  induction i with
  | zero => exact hu
  | succ i ih =>
    simp only [uPow]
    rw [Int.emod_emod_of_dvd _ (dvd_refl _)]
    exact prime_mul_ne p hp _ _ ih ih

theorem uPow_shift (p u : Int) : ∀ i, uPow p (u * u % p) i = uPow p u (i + 1) := by
  intro i
  induction i with
  | zero => rfl
  | succ i ih =>
    rw [uPow, ih]
    rfl

theorem uArrFrom_eq (zm : ZModPrime) (hm : zm.Modulus ≠ 0) : ∀ (n : Nat) (u : Int),
    uArrFrom zm n u = some ((List.range (n + 1)).map (uPow zm.Modulus u)) := by
  intro n
  induction n with
  | zero => intro u; rfl
  | succ n ih =>
    intro u
    simp only [uArrFrom, ZModPrime.Mul, bigMod_of_ne _ hm, Option.bind_eq_bind,
      Option.some_bind, ih]
    rw [List.range_succ_eq_map (n + 1)]
    simp only [List.map_cons, List.map_map, Option.some.injEq]
    congr 1
    apply List.map_congr_left
    intro i _
    exact uPow_shift _ _ i

end crypto

namespace crypto

theorem getElem?_range_map (f : Nat → Int) (n i : Nat) (h : i < n) :
    ((List.range n).map f)[i]? = some (f i) := by
  simp [List.getElem?_map, List.getElem?_range h]

/-- A loop that fills a slice of n entries, entry i being `h i`. -/
theorem mapM_range_spec (g : Nat → Option Int) (h : Nat → Int) (n : Nat)
    (hg : ∀ i, i < n → g i = some (h i)) :
    ∃ l, (List.range n).mapM g = some l ∧ l.length = n ∧ ∀ i, i < n → l[i]? = some (h i) :=
  ⟨(List.range n).map h,
    mapM_eq_some_map g h _ (fun i hi => hg i (List.mem_range.mp hi)),
    by simp, fun i hi => getElem?_range_map h n i hi⟩

theorem coeffAt_of_getElem? (l : List Int) (i : Nat) (v : Int) (h : l[i]? = some v) :
    coeffAt l i = v := by
  rw [coeffAt_eq_getD, List.getD_eq_getElem?_getD, h]
  rfl

/-- The slice `cArr[1:]` of Generate. -/
theorem genCArr_spec (ps : PolynomialEvaluationProofSystem) (gm : Int) (rArr uArr : List Int)
    (R U : Nat → Int) (hHm : ps.CommScheme.Hm = [gm]) (hmod : ps.CommScheme.G.Modulus ≠ 0)
    (hr : ∀ i, i < ps.d + 1 → rArr[i]? = some (R i))
    (hu : ∀ i, i < ps.d + 1 → uArr[i]? = some (U i))
    (hR : ∀ i, 0 ≤ R i ∧ R i ≤ ps.CommScheme.G.Order)
    (hU : ∀ i, 0 ≤ U i ∧ U i ≤ ps.CommScheme.G.Order) :
    ∃ l, genCArr ps rArr uArr = some l ∧ l.length = ps.d ∧ ∀ i, i < ps.d →
      l[i]? = some (cmt ps.CommScheme.G.Modulus ps.CommScheme.Hr gm (R (i + 1)) (U (i + 1))) := by
  apply mapM_range_spec
  intro i hi
  simp only [hr (i + 1) (by omega), hu (i + 1) (by omega), Option.some_bind]
  exact Commit_one _ gm _ _ hHm hmod (hR _) (hU _)

/-- The slices `cfArr` and `cdArr` of Generate: entry i is the commitment to `yArr[i]` with
the randomness `xArr[i]`. -/
theorem genCfArr_spec (ps : PolynomialEvaluationProofSystem) (gm : Int) (sArr fArr : List Int)
    (S F : Nat → Int) (hHm : ps.CommScheme.Hm = [gm]) (hmod : ps.CommScheme.G.Modulus ≠ 0)
    (hs : ∀ i, i < ps.d + 1 → sArr[i]? = some (S i))
    (hf : ∀ i, i < ps.d + 1 → fArr[i]? = some (F i))
    (hS : ∀ i, 0 ≤ S i ∧ S i ≤ ps.CommScheme.G.Order)
    (hF : ∀ i, 0 ≤ F i ∧ F i ≤ ps.CommScheme.G.Order) :
    ∃ l, genCfArr ps sArr fArr = some l ∧ l.length = ps.d + 1 ∧ ∀ i, i < ps.d + 1 →
      l[i]? = some (cmt ps.CommScheme.G.Modulus ps.CommScheme.Hr gm (S i) (F i)) := by
  apply mapM_range_spec
  intro i hi
  simp only [hs i hi, hf i hi, Option.some_bind]
  exact Commit_one _ gm _ _ hHm hmod (hS _) (hF _)

theorem genCdArr_spec (ps : PolynomialEvaluationProofSystem) (gm : Int) (tArr dArr : List Int)
    (T Dl : Nat → Int) (hHm : ps.CommScheme.Hm = [gm]) (hmod : ps.CommScheme.G.Modulus ≠ 0)
    (ht : ∀ i, i < ps.d + 1 → tArr[i]? = some (T i))
    (hd : ∀ i, i < ps.d + 1 → dArr[i]? = some (Dl i))
    (hT : ∀ i, 0 ≤ T i ∧ T i ≤ ps.CommScheme.G.Order)
    (hDl : ∀ i, 0 ≤ Dl i ∧ Dl i ≤ ps.CommScheme.G.Order) :
    ∃ l, genCdArr ps tArr dArr = some l ∧ l.length = ps.d + 1 ∧ ∀ i, i < ps.d + 1 →
      l[i]? = some (cmt ps.CommScheme.G.Modulus ps.CommScheme.Hr gm (T i) (Dl i)) := by
  apply mapM_range_spec
  intro i hi
  simp only [ht i hi, hd i hi, Option.some_bind]
  exact Commit_one _ gm _ _ hHm hmod (hT _) (hDl _)

/-- The slice `cfuArr` of Generate. -/
theorem genCfuArr_spec (ps : PolynomialEvaluationProofSystem) (gm : Int)
    (xiArr fArr uArr : List Int) (Xi F U : Nat → Int) (hHm : ps.CommScheme.Hm = [gm])
    (hmod : ps.CommScheme.G.Modulus ≠ 0) (hp : 0 < ps.zModPr.Modulus)
    (hz : ps.zModPr.Modulus = ps.CommScheme.G.Order)
    (hxi : ∀ i, i < ps.d → xiArr[i]? = some (Xi i))
    (hf : ∀ i, i < ps.d + 1 → fArr[i]? = some (F i))
    (hu : ∀ i, i < ps.d + 1 → uArr[i]? = some (U i))
    (hXi : ∀ i, 0 ≤ Xi i ∧ Xi i ≤ ps.CommScheme.G.Order) :
    ∃ l, genCfuArr ps xiArr fArr uArr = some l ∧ l.length = ps.d ∧ ∀ i, i < ps.d →
      l[i]? = some (cmt ps.CommScheme.G.Modulus ps.CommScheme.Hr gm (Xi i)
        (F i * U i % ps.zModPr.Modulus)) := by
  apply mapM_range_spec
  intro i hi
  simp only [hxi i hi, hf i (by omega), hu i (by omega), Option.some_bind, ZModPrime.Mul,
    bigMod_of_ne _ (ne_of_gt hp)]
  exact Commit_one _ gm _ _ hHm hmod (hXi _)
    ⟨Int.emod_nonneg _ (ne_of_gt hp), by rw [← hz]; exact le_of_lt (Int.emod_lt_of_pos _ hp)⟩

/-- The slices `fBarArr` and `rBarArr` of Generate. -/
theorem genBarArr_spec (ps : PolynomialEvaluationProofSystem) (xArr yArr : List Int)
    (X Y : Nat → Int) (ch : Int) (hp : ps.zModPr.Modulus ≠ 0)
    (hx : ∀ i, i < ps.d + 1 → xArr[i]? = some (X i))
    (hy : ∀ i, i < ps.d + 1 → yArr[i]? = some (Y i)) :
    ∃ l, genBarArr ps xArr yArr ch = some l ∧ l.length = ps.d + 1 ∧ ∀ i, i < ps.d + 1 →
      l[i]? = some ((X i * ch % ps.zModPr.Modulus + Y i) % ps.zModPr.Modulus) := by
  apply mapM_range_spec
  intro i hi
  simp only [hx i hi, hy i hi, Option.some_bind, ZModPrime.Mul, ZModPrime.Add,
    bigMod_of_ne _ hp]

/-- The slice `xiBarArr` of Generate. -/
theorem genXiBarArr_spec (ps : PolynomialEvaluationProofSystem) (rArr fBarArr xiArr : List Int)
    (R fB Xi : Nat → Int) (ch : Int) (hp : ps.zModPr.Modulus ≠ 0)
    (hr : ∀ i, i < ps.d + 1 → rArr[i]? = some (R i))
    (hf : ∀ i, i < ps.d + 1 → fBarArr[i]? = some (fB i))
    (hxi : ∀ i, i < ps.d → xiArr[i]? = some (Xi i)) :
    ∃ l, genXiBarArr ps rArr fBarArr xiArr ch = some l ∧ l.length = ps.d ∧ ∀ i, i < ps.d →
      l[i]? = some (((R (i + 1) * ch % ps.zModPr.Modulus
        + (ps.zModPr.Modulus - fB i * R i % ps.zModPr.Modulus) % ps.zModPr.Modulus)
          % ps.zModPr.Modulus + Xi i) % ps.zModPr.Modulus) := by
  apply mapM_range_spec
  intro i hi
  simp only [hr (i + 1) (by omega), hr i (by omega), hf i (by omega), hxi i hi,
    Option.some_bind, ZModPrime.Mul, ZModPrime.Add, ZModPrime.AdditiveInvert,
    bigMod_of_ne _ hp]


theorem sum_range_modEq (m : Int) (f g : Nat → Int) (h : ∀ j, f j ≡ g j [ZMOD m]) :
    ∀ n, ∑ j in Finset.range n, f j ≡ ∑ j in Finset.range n, g j [ZMOD m] := by
  intro n
  induction n with
  | zero => simp
  | succ n ih =>
    rw [Finset.sum_range_succ, Finset.sum_range_succ]
    exact ih.add (h n)

theorem ZModPrime_Mul_eq (zm : ZModPrime) (hm : zm.Modulus ≠ 0) (x y : Int) :
    zm.Mul x y = some (x * y % zm.Modulus) := by
  simp [ZModPrime.Mul, bigMod_of_ne _ hm]

theorem ZModPrime_Add_eq (zm : ZModPrime) (hm : zm.Modulus ≠ 0) (x y : Int) :
    zm.Add x y = some ((x + y) % zm.Modulus) := by
  simp [ZModPrime.Add, bigMod_of_ne _ hm]

/-- The loop of response 3 of Generate: it adds `tArr[i+j] * xi * ch^j` for j below n,
modulo p. -/
theorem powerLoop_tBar (zm : ZModPrime) (hp : 0 < zm.Modulus) (ch : Int) (tArr : List Int)
    (T : Nat → Int) :
    ∀ (n i : Nat) (acc xi : Int), (∀ j, j < n → tArr[i + j]? = some (T (i + j))) →
      0 ≤ acc → acc < zm.Modulus →
      ∃ t, powerLoop zm ch (fun tBar i xi =>
          (tArr[i]?).bind (fun ti => (zm.Mul ti xi).bind (fun x => zm.Add tBar x)))
          n i acc xi = some t ∧ 0 ≤ t ∧ t < zm.Modulus ∧
        t ≡ acc + ∑ j in Finset.range n, T (i + j) * (xi * ch ^ j) [ZMOD zm.Modulus] := by
  have hne : zm.Modulus ≠ 0 := ne_of_gt hp
  intro n
  induction n with
  | zero =>
    intro i acc xi _ h0 h1
    exact ⟨acc, rfl, h0, h1, by simp⟩
  | succ n ih =>
    intro i acc xi hT h0 h1
    have hti := hT 0 (by omega)
    simp only [Nat.add_zero] at hti
    obtain ⟨t, ht1, ht2, ht3, ht4⟩ := ih (i + 1) ((acc + T i * xi % zm.Modulus) % zm.Modulus)
      (xi * ch % zm.Modulus)
      (fun j hj => by
        have := hT (j + 1) (by omega)
        have e : i + 1 + j = i + (j + 1) := by omega
        rw [e]
        exact this)
      (Int.emod_nonneg _ hne) (Int.emod_lt_of_pos _ hp)
    refine ⟨t, ?_, ht2, ht3, ?_⟩
    · rw [powerLoop]
      simp only [hti, Option.bind_eq_bind, Option.some_bind]
      rw [ZModPrime_Mul_eq zm hne (T i) xi]
      simp only [Option.some_bind]
      rw [ZModPrime_Add_eq zm hne, ZModPrime_Mul_eq zm hne xi ch]
      simp only [Option.some_bind]
      exact ht1
    · refine ht4.trans ?_
      rw [Finset.sum_range_succ']
      have h5 : (acc + T i * xi % zm.Modulus) % zm.Modulus ≡ acc + T i * xi [ZMOD zm.Modulus] :=
        (Int.mod_modEq _ _).trans ((Int.ModEq.refl _).add (Int.mod_modEq _ _))
      have h6 : ∑ j in Finset.range n, T (i + 1 + j) * (xi * ch % zm.Modulus * ch ^ j)
          ≡ ∑ j in Finset.range n, T (i + (j + 1)) * (xi * ch ^ (j + 1)) [ZMOD zm.Modulus] := by
        have hterm : ∀ j, T (i + 1 + j) * (xi * ch % zm.Modulus * ch ^ j)
            ≡ T (i + (j + 1)) * (xi * ch ^ (j + 1)) [ZMOD zm.Modulus] := by
          intro j
          have e : i + 1 + j = i + (j + 1) := by omega
          rw [e]
          refine (Int.ModEq.refl _).mul ?_
          have := (Int.mod_modEq (xi * ch) zm.Modulus).mul_right (ch ^ j)
          refine this.trans ?_
          rw [pow_succ]
          have e2 : xi * ch * ch ^ j = xi * (ch ^ j * ch) := by ring
          rw [e2]
        exact sum_range_modEq _ _ _ hterm n
      have := h5.add h6
      refine this.trans ?_
      simp only [Nat.add_zero, pow_zero, mul_one]
      rw [add_assoc, add_comm (T i * xi)]

/-- The tBar of Generate. -/
theorem genTBar_spec (ps : PolynomialEvaluationProofSystem) (tArr : List Int) (T : Nat → Int)
    (ch : Int) (hp : 1 < ps.zModPr.Modulus)
    (ht : ∀ i, i < ps.d + 1 → tArr[i]? = some (T i)) :
    ∃ t, genTBar ps tArr ch = some t ∧ 0 ≤ t ∧ t < ps.zModPr.Modulus ∧
      t ≡ ∑ j in Finset.range (ps.d + 1), T j * ch ^ j [ZMOD ps.zModPr.Modulus] := by
  have hne : ps.zModPr.Modulus ≠ 0 := by omega
  have h1m : (1 : Int) % ps.zModPr.Modulus = 1 := Int.emod_eq_of_lt (by norm_num) hp
  obtain ⟨t, ht1, ht2, ht3, ht4⟩ := powerLoop_tBar ps.zModPr (by omega) ch tArr T (ps.d + 1) 0
    0 1 (fun j hj => by simpa using ht j hj) (le_refl _) (by omega)
  refine ⟨t, ?_, ht2, ht3, ?_⟩
  · rw [genTBar]
    simp only [ZModPrime.Exp, bigExp_of_nonneg _ _ (Int.natCast_nonneg _),
      bigExp_of_nonneg _ _ (le_refl (0 : Int)), Option.some_bind]
    rw [ZModPrime_Mul_eq ps.zModPr hne]
    simp only [commToVRandomness, mul_zero, Int.zero_emod, Int.toNat_zero, pow_zero, h1m,
      Option.some_bind]
    exact ht1
  · simpa using ht4


theorem GStarModPrime_Exp_eq (g : GStarModPrime) (x e : Int) (he : 0 ≤ e) :
    g.Exp x e = some (x ^ e.toNat % g.Modulus) := by
  simp [GStarModPrime.Exp, bigExp_of_nonneg _ _ he]

theorem GStarModPrime_Mul_eq (g : GStarModPrime) (hm : g.Modulus ≠ 0) (x y : Int) :
    g.Mul x y = some (x * y % g.Modulus) := by
  simp [GStarModPrime.Mul, bigMod_of_ne _ hm]

/-- The loop of the product `left` of Verify on commitments `cdArr[i] = cmt (T i) (Dl i)`:
from `cmt A B` it reaches `cmt A2 B2` with A2 and B2 the sums of `T (i+j) * xi * ch^j` and of
`Dl (i+j) * xi * ch^j` added to A and B, modulo p. -/
theorem powerLoop_left (zm : ZModPrime) (g : GStarModPrime) (gr gm : Int) (hp : 0 < zm.Modulus)
    (ho : g.Modulus ≠ 0) (ch : Int) (cdArr : List Int) (T Dl : Nat → Int)
    (hT : ∀ i, 0 ≤ T i) (hDl : ∀ i, 0 ≤ Dl i) :
    ∀ (n i : Nat) (A B xi : Int),
      (∀ j, j < n → cdArr[i + j]? = some (cmt g.Modulus gr gm (T (i + j)) (Dl (i + j)))) →
      0 ≤ A → 0 ≤ B → 0 ≤ xi →
      ∃ A2 B2, 0 ≤ A2 ∧ 0 ≤ B2 ∧
        powerLoop zm ch (fun left i xi =>
          (cdArr[i]?).bind (fun cd => (g.Exp cd xi).bind (g.Mul left)))
          n i (cmt g.Modulus gr gm A B) xi = some (cmt g.Modulus gr gm A2 B2) ∧
        A2 ≡ A + ∑ j in Finset.range n, T (i + j) * (xi * ch ^ j) [ZMOD zm.Modulus] ∧
        B2 ≡ B + ∑ j in Finset.range n, Dl (i + j) * (xi * ch ^ j) [ZMOD zm.Modulus] := by
  have hne : zm.Modulus ≠ 0 := ne_of_gt hp
  have hshift : ∀ (f : Nat → Int) (n i : Nat) (xi : Int),
      ∑ j in Finset.range n, f (i + 1 + j) * (xi * ch % zm.Modulus * ch ^ j)
        ≡ ∑ j in Finset.range n, f (i + (j + 1)) * (xi * ch ^ (j + 1)) [ZMOD zm.Modulus] := by
    intro f n i xi
    refine sum_range_modEq _ _ _ (fun j => ?_) n
    have e : i + 1 + j = i + (j + 1) := by omega
    rw [e]
    refine (Int.ModEq.refl _).mul ?_
    have := (Int.mod_modEq (xi * ch) zm.Modulus).mul_right (ch ^ j)
    refine this.trans ?_
    rw [pow_succ]
    have e2 : xi * ch * ch ^ j = xi * (ch ^ j * ch) := by ring
    rw [e2]
  intro n
  induction n with
  | zero =>
    intro i A B xi _ hA hB _
    exact ⟨A, B, hA, hB, rfl, by simp, by simp⟩
  | succ n ih =>
    intro i A B xi hcd hA hB hxi
    have hcdi := hcd 0 (by omega)
    simp only [Nat.add_zero] at hcdi
    obtain ⟨A2, B2, hA2, hB2, h1, h2, h3⟩ := ih (i + 1) (A + T i * xi) (B + Dl i * xi)
      (xi * ch % zm.Modulus)
      (fun j hj => by
        have := hcd (j + 1) (by omega)
        have e : i + 1 + j = i + (j + 1) := by omega
        rw [e]
        exact this)
      (add_nonneg hA (mul_nonneg (hT i) hxi)) (add_nonneg hB (mul_nonneg (hDl i) hxi))
      (Int.emod_nonneg _ hne)
    refine ⟨A2, B2, hA2, hB2, ?_, ?_, ?_⟩
    · rw [powerLoop]
      simp only [hcdi, Option.bind_eq_bind, Option.some_bind]
      rw [GStarModPrime_Exp_eq g _ xi hxi]
      simp only [Option.some_bind]
      rw [GStarModPrime_Mul_eq g ho, ZModPrime_Mul_eq zm hne xi ch]
      simp only [Option.some_bind]
      rw [cmt_pow _ _ _ _ _ _ (hT i) (hDl i) hxi,
        cmt_mul _ _ _ _ _ _ _ hA hB (mul_nonneg (hT i) hxi) (mul_nonneg (hDl i) hxi)]
      exact h1
    · refine h2.trans ?_
      rw [Finset.sum_range_succ']
      have := (Int.ModEq.refl (A + T i * xi)).add (hshift T n i xi)
      refine this.trans ?_
      simp only [Nat.add_zero, pow_zero, mul_one]
      rw [add_assoc, add_comm (T i * xi)]
    · refine h3.trans ?_
      rw [Finset.sum_range_succ']
      have := (Int.ModEq.refl (B + Dl i * xi)).add (hshift Dl n i xi)
      refine this.trans ?_
      simp only [Nat.add_zero, pow_zero, mul_one]
      rw [add_assoc, add_comm (Dl i * xi)]

/-- The product `left` of Verify. -/
theorem verifyLeft_spec (ps : PolynomialEvaluationProofSystem) (gr gm : Int) (cdArr : List Int)
    (T Dl : Nat → Int) (ch : Int) (hp : 1 < ps.zModPr.Modulus) (ho : 1 < ps.gStarModPr.Modulus)
    (hT : ∀ i, 0 ≤ T i) (hDl : ∀ i, 0 ≤ Dl i)
    (hcd : ∀ i, i < ps.d + 1 →
      cdArr[i]? = some (cmt ps.gStarModPr.Modulus gr gm (T i) (Dl i))) :
    ∃ A2 B2, 0 ≤ A2 ∧ 0 ≤ B2 ∧
      verifyLeft ps cdArr ch = some (cmt ps.gStarModPr.Modulus gr gm A2 B2) ∧
      A2 ≡ ∑ j in Finset.range (ps.d + 1), T j * ch ^ j [ZMOD ps.zModPr.Modulus] ∧
      B2 ≡ ∑ j in Finset.range (ps.d + 1), Dl j * ch ^ j [ZMOD ps.zModPr.Modulus] := by
  have hne : ps.zModPr.Modulus ≠ 0 := by omega
  have h1m : (1 : Int) % ps.zModPr.Modulus = 1 := Int.emod_eq_of_lt (by norm_num) hp
  have h1o : (1 : Int) % ps.gStarModPr.Modulus = 1 := Int.emod_eq_of_lt (by norm_num) ho
  obtain ⟨A2, B2, hA2, hB2, h1, h2, h3⟩ := powerLoop_left ps.zModPr ps.gStarModPr gr gm
    (by omega) (by omega) ch cdArr T Dl hT hDl (ps.d + 1) 0 0 0 1
    (fun j hj => by simpa using hcd j hj) (le_refl _) (le_refl _) (by norm_num)
  refine ⟨A2, B2, hA2, hB2, ?_, by simpa using h2, by simpa using h3⟩
  have hexp : 0 ≤ ch ^ (((ps.d + 1 : Nat) : Int)).toNat % ps.zModPr.Modulus :=
    Int.emod_nonneg _ hne
  rw [verifyLeft]
  simp only [ZModPrime.Exp, bigExp_of_nonneg _ _ (Int.natCast_nonneg _),
    bigExp_of_nonneg _ _ (le_refl (0 : Int)), Option.some_bind]
  rw [GStarModPrime_Exp_eq _ _ _ hexp]
  simp only [commToV, one_pow, h1o, Int.toNat_zero, pow_zero, h1m, Option.some_bind]
  rw [cmt_zero _ gr gm ho] at h1
  exact h1

end crypto

namespace crypto

theorem getBig_map_some_of (l : List Int) (i : Nat) (v : Int) (h : l[i]? = some v) :
    getBig (l.map some) i = some v := by
  rw [getBig_map_some, h]

theorem getBig_map_Exp_of (g : GStarModPrime) (ch : Int) (hch : 0 ≤ ch) (l : List Int)
    (i : Nat) (v : Int) (h : l[i]? = some v) :
    getBig (l.map (fun c => g.Exp c ch)) i = some (v ^ ch.toNat % g.Modulus) := by
  simp [getBig, List.getElem?_map, h, GStarModPrime.Exp, bigExp_of_nonneg _ _ hch]

/-- The first check of Verify holds at the index i. -/
theorem verifyStep1_true (ps : PolynomialEvaluationProofSystem) (gm : Int)
    (proof : PolyEvalProof) (fBar rBar cl cfArr : List Int) (ch : Int) (i : Nat)
    (R U S F fB rB : Int)
    (hG : ps.gStarModPr = ps.CommScheme.G) (hHm : ps.CommScheme.Hm = [gm])
    (hz : ps.zModPr.Modulus = ps.CommScheme.G.Order)
    (hp : 1 < ps.zModPr.Modulus) (ho : 1 < ps.CommScheme.G.Modulus)
    (hgr : ps.CommScheme.Hr ^ ps.zModPr.Modulus.toNat ≡ 1 [ZMOD ps.CommScheme.G.Modulus])
    (hgm : gm ^ ps.zModPr.Modulus.toNat ≡ 1 [ZMOD ps.CommScheme.G.Modulus])
    (hch : 0 ≤ ch)
    (hF1 : proof.FBarArr = fBar.map some) (hR1 : proof.RBarArr = rBar.map some)
    (hC : cl[i]? = some (cmt ps.CommScheme.G.Modulus ps.CommScheme.Hr gm R U))
    (hCf : cfArr[i]? = some (cmt ps.CommScheme.G.Modulus ps.CommScheme.Hr gm S F))
    (hfB : fBar[i]? = some fB) (hrB : rBar[i]? = some rB)
    (hR : 0 ≤ R) (hU : 0 ≤ U) (hS : 0 ≤ S) (hF : 0 ≤ F)
    (hfBr : 0 ≤ fB ∧ fB ≤ ps.zModPr.Modulus) (hrBr : 0 ≤ rB ∧ rB ≤ ps.zModPr.Modulus)
    (hfBc : fB ≡ U * ch + F [ZMOD ps.zModPr.Modulus])
    (hrBc : rB ≡ R * ch + S [ZMOD ps.zModPr.Modulus]) :
    verifyStep1 ps proof (cl.map (fun c => ps.gStarModPr.Exp c ch)) cfArr true i
      = some true := by
  have ho0 : ps.CommScheme.G.Modulus ≠ 0 := by omega
  have hcommit := Commit_one ps.CommScheme gm rB fB hHm ho0 (by rw [← hz]; exact hrBr)
    (by rw [← hz]; exact hfBr)
  have hcx := getBig_map_Exp_of ps.gStarModPr ch hch cl i _ hC
  rw [verifyStep1]
  simp only [if_true, hR1, hF1, getBig_map_some_of _ _ _ hrB, getBig_map_some_of _ _ _ hfB,
    Option.some_bind, hcommit, hcx, hCf]
  rw [GStarModPrime_Mul_eq _ (by rw [hG]; exact ho0)]
  simp only [Option.some_bind, hG, Option.some.injEq, decide_eq_true_eq]
  rw [cmt_pow _ _ _ _ _ _ hR hU hch,
    cmt_mul _ _ _ _ _ _ _ (mul_nonneg hR hch) (mul_nonneg hU hch) hS hF]
  exact cmt_congr _ ps.zModPr.Modulus _ _ _ _ _ _ (by omega) hgr hgm
    (add_nonneg (mul_nonneg hR hch) hS) (add_nonneg (mul_nonneg hU hch) hF) hrBr.1 hfBr.1
    hrBc.symm hfBc.symm

/-- The second check of Verify holds at the index i. -/
theorem verifyStep2_true (ps : PolynomialEvaluationProofSystem) (gm : Int)
    (proof : PolyEvalProof) (fBar xiBar cl cfuArr : List Int) (ch : Int) (i : Nat)
    (R U R1 U1 Xi FU F fB xB : Int)
    (hG : ps.gStarModPr = ps.CommScheme.G) (hHm : ps.CommScheme.Hm = [gm])
    (hz : ps.zModPr.Modulus = ps.CommScheme.G.Order)
    (hp : 1 < ps.zModPr.Modulus) (ho : 1 < ps.CommScheme.G.Modulus)
    (hgr : ps.CommScheme.Hr ^ ps.zModPr.Modulus.toNat ≡ 1 [ZMOD ps.CommScheme.G.Modulus])
    (hgm : gm ^ ps.zModPr.Modulus.toNat ≡ 1 [ZMOD ps.CommScheme.G.Modulus])
    (hch : 0 ≤ ch)
    (hF1 : proof.FBarArr = fBar.map some) (hX1 : proof.XiBarArr = xiBar.map some)
    (hC : cl[i]? = some (cmt ps.CommScheme.G.Modulus ps.CommScheme.Hr gm R U))
    (hC1 : cl[i + 1]? = some (cmt ps.CommScheme.G.Modulus ps.CommScheme.Hr gm R1 U1))
    (hCfu : cfuArr[i]? = some (cmt ps.CommScheme.G.Modulus ps.CommScheme.Hr gm Xi FU))
    (hfB : fBar[i]? = some fB) (hxB : xiBar[i]? = some xB)
    (hR : 0 ≤ R) (hU : 0 ≤ U) (hR1 : 0 ≤ R1) (hU1 : 0 ≤ U1) (hXi : 0 ≤ Xi) (hFU : 0 ≤ FU)
    (hxBr : 0 ≤ xB ∧ xB ≤ ps.zModPr.Modulus)
    (hfBc : fB ≡ U * ch + F [ZMOD ps.zModPr.Modulus])
    (hxBc : xB ≡ R1 * ch - fB * R + Xi [ZMOD ps.zModPr.Modulus])
    (hFUc : FU ≡ F * U [ZMOD ps.zModPr.Modulus])
    (hU1c : U1 ≡ U * U [ZMOD ps.zModPr.Modulus]) :
    verifyStep2 ps proof cl (cl.map (fun c => ps.gStarModPr.Exp c ch)) cfuArr true i
      = some true := by
  have ho0 : ps.CommScheme.G.Modulus ≠ 0 := by omega
  have hp0 : ps.zModPr.Modulus ≠ 0 := by omega
  have hcommit := Commit_one ps.CommScheme gm xB 0 hHm ho0 (by rw [← hz]; exact hxBr)
    (by rw [← hz]; exact ⟨le_refl _, by omega⟩)
  have hcx := getBig_map_Exp_of ps.gStarModPr ch hch cl (i + 1) _ hC1
  have hI : 0 ≤ (ps.zModPr.Modulus - fB) % ps.zModPr.Modulus := Int.emod_nonneg _ hp0
  have hIc : (ps.zModPr.Modulus - fB) % ps.zModPr.Modulus ≡ -fB [ZMOD ps.zModPr.Modulus] := by
    refine (Int.mod_modEq _ _).trans ?_
    have h0 : ps.zModPr.Modulus ≡ 0 [ZMOD ps.zModPr.Modulus] := by simp [Int.ModEq]
    simpa using h0.sub_right fB
  rw [verifyStep2]
  simp only [if_true, hX1, hF1, getBig_map_some_of _ _ _ hxB, getBig_map_some_of _ _ _ hfB,
    Option.some_bind, hcommit, hcx, hCfu, hC]
  rw [ZModPrime.AdditiveInvert, bigMod_of_ne _ hp0]
  simp only [Option.some_bind]
  rw [GStarModPrime_Exp_eq _ _ _ hI]
  simp only [Option.some_bind]
  rw [GStarModPrime_Mul_eq _ (by rw [hG]; exact ho0)]
  simp only [Option.some_bind]
  rw [GStarModPrime_Mul_eq _ (by rw [hG]; exact ho0)]
  simp only [Option.some_bind, hG, Option.some.injEq, decide_eq_true_eq]
  rw [cmt_pow _ _ _ _ _ _ hR1 hU1 hch, cmt_pow _ _ _ _ _ _ hR hU hI,
    cmt_mul _ _ _ _ _ _ _ (mul_nonneg hR1 hch) (mul_nonneg hU1 hch) (mul_nonneg hR hI)
      (mul_nonneg hU hI),
    cmt_mul _ _ _ _ _ _ _ (add_nonneg (mul_nonneg hR1 hch) (mul_nonneg hR hI))
      (add_nonneg (mul_nonneg hU1 hch) (mul_nonneg hU hI)) hXi hFU]
  refine cmt_congr _ ps.zModPr.Modulus _ _ _ _ _ _ (by omega) hgr hgm
    (add_nonneg (add_nonneg (mul_nonneg hR1 hch) (mul_nonneg hR hI)) hXi)
    (add_nonneg (add_nonneg (mul_nonneg hU1 hch) (mul_nonneg hU hI)) hFU) hxBr.1 (le_refl _)
    ?_ ?_
  · have h1 : R1 * ch + R * ((ps.zModPr.Modulus - fB) % ps.zModPr.Modulus) + Xi
        ≡ R1 * ch + R * (-fB) + Xi [ZMOD ps.zModPr.Modulus] :=
      ((Int.ModEq.refl _).add ((Int.ModEq.refl R).mul hIc)).add (Int.ModEq.refl _)
    refine h1.trans ?_
    have e : R1 * ch + R * (-fB) + Xi = R1 * ch - fB * R + Xi := by ring
    rw [e]
    exact hxBc.symm
  · have h1 : U1 * ch + U * ((ps.zModPr.Modulus - fB) % ps.zModPr.Modulus) + FU
        ≡ U * U * ch + U * (-(U * ch + F)) + F * U [ZMOD ps.zModPr.Modulus] :=
      ((hU1c.mul_right ch).add ((Int.ModEq.refl U).mul (hIc.trans hfBc.neg))).add hFUc
    refine h1.trans ?_
    have e : U * U * ch + U * (-(U * ch + F)) + F * U = 0 := by ring
    rw [e]


/-- Verify accepts a transcript whose entries are the commitments and responses of the
protocol: `c_i = cmt (R i) (U i)`, `cf_i = cmt (S i) (F i)`, `cd_i = cmt (T i) (Dl i)`,
`cfu_i = cmt (Xi i) (FU i)`, responses congruent modulo p to their defining expressions, and
a calcDeltaBar that is congruent to the sum of `Dl j * ch^j`. -/
theorem Verify_spec (ps : PolynomialEvaluationProofSystem) (gm : Int)
    (sha256 : List Nat → List Nat) (vote : String)
    (cArr cfArr cdArr cfuArr fBar rBar xiBar : List Int) (tBar c ch : Int)
    (R U S F T Dl Xi FU fB rB xB : Nat → Int)
    (hG : ps.gStarModPr = ps.CommScheme.G) (hHm : ps.CommScheme.Hm = [gm])
    (hz : ps.zModPr.Modulus = ps.CommScheme.G.Order)
    (hp : 1 < ps.zModPr.Modulus) (ho : 1 < ps.CommScheme.G.Modulus)
    (hgr : ps.CommScheme.Hr ^ ps.zModPr.Modulus.toNat ≡ 1 [ZMOD ps.CommScheme.G.Modulus])
    (hgm : gm ^ ps.zModPr.Modulus.toNat ≡ 1 [ZMOD ps.CommScheme.G.Modulus])
    (hch : ps.generateChallenge sha256 vote [[c, commToV], cArr, cfArr, cdArr, cfuArr]
      = some ch)
    (hch0 : 0 ≤ ch)
    (hC : ∀ i, i < ps.d + 1 →
      (c :: cArr)[i]? = some (cmt ps.CommScheme.G.Modulus ps.CommScheme.Hr gm (R i) (U i)))
    (hCf : ∀ i, i < ps.d + 1 →
      cfArr[i]? = some (cmt ps.CommScheme.G.Modulus ps.CommScheme.Hr gm (S i) (F i)))
    (hCd : ∀ i, i < ps.d + 1 →
      cdArr[i]? = some (cmt ps.CommScheme.G.Modulus ps.CommScheme.Hr gm (T i) (Dl i)))
    (hCfu : ∀ i, i < ps.d →
      cfuArr[i]? = some (cmt ps.CommScheme.G.Modulus ps.CommScheme.Hr gm (Xi i) (FU i)))
    (hfB : ∀ i, i < ps.d + 1 → fBar[i]? = some (fB i))
    (hrB : ∀ i, i < ps.d + 1 → rBar[i]? = some (rB i))
    (hxB : ∀ i, i < ps.d → xiBar[i]? = some (xB i))
    (hR : ∀ i, 0 ≤ R i) (hU : ∀ i, 0 ≤ U i) (hS : ∀ i, 0 ≤ S i) (hF : ∀ i, 0 ≤ F i)
    (hT : ∀ i, 0 ≤ T i) (hDl : ∀ i, 0 ≤ Dl i) (hXi : ∀ i, 0 ≤ Xi i) (hFU : ∀ i, 0 ≤ FU i)
    (hfBr : ∀ i, 0 ≤ fB i ∧ fB i ≤ ps.zModPr.Modulus)
    (hrBr : ∀ i, 0 ≤ rB i ∧ rB i ≤ ps.zModPr.Modulus)
    (hxBr : ∀ i, 0 ≤ xB i ∧ xB i ≤ ps.zModPr.Modulus)
    (htBr : 0 ≤ tBar ∧ tBar ≤ ps.zModPr.Modulus)
    (hfBc : ∀ i, fB i ≡ U i * ch + F i [ZMOD ps.zModPr.Modulus])
    (hrBc : ∀ i, rB i ≡ R i * ch + S i [ZMOD ps.zModPr.Modulus])
    (hxBc : ∀ i, xB i ≡ R (i + 1) * ch - fB i * R i + Xi i [ZMOD ps.zModPr.Modulus])
    (hFUc : ∀ i, FU i ≡ F i * U i [ZMOD ps.zModPr.Modulus])
    (hU1c : ∀ i, U (i + 1) ≡ U i * U i [ZMOD ps.zModPr.Modulus])
    (htBc : tBar ≡ ∑ j in Finset.range (ps.d + 1), T j * ch ^ j [ZMOD ps.zModPr.Modulus])
    (hdBar : ∃ dBar, ps.calcDeltaBar (fBar.map some) ch = some dBar ∧
      (0 ≤ dBar ∧ dBar ≤ ps.zModPr.Modulus) ∧
      dBar ≡ ∑ j in Finset.range (ps.d + 1), Dl j * ch ^ j [ZMOD ps.zModPr.Modulus]) :
    ps.Verify sha256
      { CArr := cArr.map some, CfArr := cfArr.map some, CdArr := cdArr.map some,
        CfuArr := cfuArr.map some, FBarArr := fBar.map some, RBarArr := rBar.map some,
        TBar := some tBar, XiBarArr := xiBar.map some } c vote = some true := by
  have ho0 : ps.CommScheme.G.Modulus ≠ 0 := by omega
  obtain ⟨dBar, hd1, hd2, hd3⟩ := hdBar
  have h1 : (List.range (ps.d + 1)).foldlM
      (verifyStep1 ps
        { CArr := cArr.map some, CfArr := cfArr.map some, CdArr := cdArr.map some,
          CfuArr := cfuArr.map some, FBarArr := fBar.map some, RBarArr := rBar.map some,
          TBar := some tBar, XiBarArr := xiBar.map some }
        ((c :: cArr).map (fun c => ps.gStarModPr.Exp c ch)) cfArr) true = some true := by
    apply foldlM_range_true
    intro i hi
    exact verifyStep1_true ps gm _ fBar rBar (c :: cArr) cfArr ch i (R i) (U i) (S i) (F i)
      (fB i) (rB i) hG hHm hz hp ho hgr hgm hch0 rfl rfl (hC i hi) (hCf i hi) (hfB i hi)
      (hrB i hi) (hR i) (hU i) (hS i) (hF i) (hfBr i) (hrBr i) (hfBc i) (hrBc i)
  have h2 : (List.range ps.d).foldlM
      (verifyStep2 ps
        { CArr := cArr.map some, CfArr := cfArr.map some, CdArr := cdArr.map some,
          CfuArr := cfuArr.map some, FBarArr := fBar.map some, RBarArr := rBar.map some,
          TBar := some tBar, XiBarArr := xiBar.map some }
        (c :: cArr) ((c :: cArr).map (fun c => ps.gStarModPr.Exp c ch)) cfuArr) true
      = some true := by
    apply foldlM_range_true
    intro i hi
    exact verifyStep2_true ps gm _ fBar xiBar (c :: cArr) cfuArr ch i (R i) (U i) (R (i + 1))
      (U (i + 1)) (Xi i) (FU i) (F i) (fB i) (xB i) hG hHm hz hp ho hgr hgm hch0 rfl rfl
      (hC i (by omega)) (hC (i + 1) (by omega)) (hCfu i hi) (hfB i (by omega)) (hxB i hi)
      (hR i) (hU i) (hR _) (hU _) (hXi i) (hFU i) (hxBr i) (hfBc i) (hxBc i) (hFUc i) (hU1c i)
  obtain ⟨A2, B2, hA2, hB2, hl1, hl2, hl3⟩ := verifyLeft_spec ps ps.CommScheme.Hr gm cdArr T Dl
    ch hp (by rw [hG]; exact ho) hT hDl (by rw [hG]; exact hCd)
  rw [hG] at hl1
  have hcommit := Commit_one ps.CommScheme gm tBar dBar hHm ho0 (by rw [← hz]; exact htBr)
    (by rw [← hz]; exact hd2)
  have hfinal : cmt ps.CommScheme.G.Modulus ps.CommScheme.Hr gm A2 B2
      = cmt ps.CommScheme.G.Modulus ps.CommScheme.Hr gm tBar dBar :=
    cmt_congr _ ps.zModPr.Modulus _ _ _ _ _ _ (by omega) hgr hgm hA2 hB2 htBr.1 hd2.1
      (hl2.trans htBc.symm) (hl3.trans hd3.symm)
  rw [PolynomialEvaluationProofSystem.Verify]
  simp only [derefAll_map_some, Option.some_bind, hch, h1, h2, hl1, hd1, if_true, hcommit,
    hfinal, decide_True]

end crypto
namespace crypto

theorem getElem?_coeffAt (l : List Int) (i : Nat) (h : i < l.length) :
    l[i]? = some (coeffAt l i) := by
  rw [coeffAt_eq_getD, List.getD_eq_getElem _ _ h]
  exact List.getElem?_eq_getElem h

theorem coeffAt_range (l : List Int) (m : Int) (hm : 0 < m)
    (h : ∀ x ∈ l, 0 ≤ x ∧ x < m) (i : Nat) : 0 ≤ coeffAt l i ∧ coeffAt l i < m := by
  by_cases hi : i < l.length
  · exact h _ (coeffAt_mem l i hi)
  · rw [coeffAt_of_le l i (by omega)]
    exact ⟨le_refl _, hm⟩

theorem sub_mod_modEq (p x : Int) : (p - x % p) % p ≡ -x [ZMOD p] := by
  have h0 : p ≡ 0 [ZMOD p] := by simp [Int.ModEq]
  have := h0.sub (Int.mod_modEq x p)
  rw [zero_sub] at this
  exact (Int.mod_modEq _ _).trans this

/-- Generate followed by Verify on a proof system whose group and ring are those of its
commitment scheme, whose polynomial is over the ring of the exponents and has a trimmed
coefficient list of degree D below `2^(d+1)`: Generate returns a transcript, and Verify returns
true on it. -/
theorem Generate_Verify_spec (ps : PolynomialEvaluationProofSystem) (gm u r : Int)
    (sha256 : List Nat → List Nat) (rnd : Nat → Int → Int) (vote : String) (D : Nat)
    (hG : ps.gStarModPr = ps.CommScheme.G) (hHm : ps.CommScheme.Hm = [gm])
    (hz : ps.zModPr.Modulus = ps.CommScheme.G.Order)
    (hzp : ps.Polynomial.ZModPr.Modulus = ps.zModPr.Modulus)
    (hp : Nat.Prime ps.zModPr.Modulus.toNat) (ho : 1 < ps.CommScheme.G.Modulus)
    (hgr : ps.CommScheme.Hr ^ ps.zModPr.Modulus.toNat ≡ 1 [ZMOD ps.CommScheme.G.Modulus])
    (hgm : gm ^ ps.zModPr.Modulus.toNat ≡ 1 [ZMOD ps.CommScheme.G.Modulus])
    (htrim : trim ps.Polynomial.Coeffs = some ps.Polynomial.Coeffs)
    (hD : ps.Polynomial.Coeffs.length = D + 1) (hDd : D < 2 ^ (ps.d + 1))
    (hu : 1 ≤ u ∧ u < ps.zModPr.Modulus)
    (hroot : evalAt ps.Polynomial.Coeffs u ≡ 0 [ZMOD ps.zModPr.Modulus])
    (hr : 0 ≤ r ∧ r < ps.zModPr.Modulus)
    (hrnd : ∀ k, 0 < rnd k ps.zModPr.Modulus ∧ rnd k ps.zModPr.Modulus < ps.zModPr.Modulus) :
    ∃ proof,
      ps.Generate sha256 rnd u r (cmt ps.CommScheme.G.Modulus ps.CommScheme.Hr gm r u) vote
        = some proof ∧
      ps.Verify sha256 proof (cmt ps.CommScheme.G.Modulus ps.CommScheme.Hr gm r u) vote
        = some true := by
  have hp2 := hp.two_le
  have hp1 : 1 < ps.zModPr.Modulus := by omega
  have hp0 : 0 < ps.zModPr.Modulus := by omega
  have hpne : ps.zModPr.Modulus ≠ 0 := by omega
  have hone : ps.CommScheme.G.Modulus ≠ 0 := by omega
  have hDeg : ps.Polynomial.Degree = some D := by
    rw [Degree_of_trim _ htrim, hD]
    rfl
  -- the entries of the slices of random elements, of uArr and of the responses
  have hRnd : ∀ k, 0 ≤ ps.zModPr.RandomElement rnd k ∧
      ps.zModPr.RandomElement rnd k ≤ ps.CommScheme.G.Order := by
    intro k
    rw [← hz]
    have := hrnd k
    simp only [ZModPrime.RandomElement, RandInt]
    omega
  have hRr : ∀ i, 0 ≤ (if i = 0 then r else ps.zModPr.RandomElement rnd (ps.d + 4 * i)) ∧
      (if i = 0 then r else ps.zModPr.RandomElement rnd (ps.d + 4 * i))
        ≤ ps.CommScheme.G.Order := by
    intro i
    split_ifs
    · rw [← hz]
      omega
    · exact hRnd _
  have hUr : ∀ i, 0 ≤ uPow ps.zModPr.Modulus u i ∧
      uPow ps.zModPr.Modulus u i ≤ ps.CommScheme.G.Order := by
    intro i
    rw [← hz]
    have := uPow_nonneg ps.zModPr.Modulus u hp0 ⟨by omega, hu.2⟩ i
    omega
  have hu0 : u % ps.zModPr.Modulus ≠ 0 := by
    rw [Int.emod_eq_of_lt (by omega) hu.2]
    omega
  have huArr := uArrFrom_eq ps.zModPr hpne ps.d u
  have hUget := getElem?_range_map (uPow ps.zModPr.Modulus u) (ps.d + 1)
  have hRget := getElem?_range_map
    (fun i => if i = 0 then r else ps.zModPr.RandomElement rnd (ps.d + 4 * i)) (ps.d + 1)
  have hFget := getElem?_range_map
    (fun i => ps.zModPr.RandomElement rnd (ps.d + 4 * i + 1)) (ps.d + 1)
  have hSget := getElem?_range_map
    (fun i => ps.zModPr.RandomElement rnd (ps.d + 4 * i + 2)) (ps.d + 1)
  have hTget := getElem?_range_map
    (fun i => ps.zModPr.RandomElement rnd (ps.d + 4 * i + 3)) (ps.d + 1)
  have hXiget := getElem?_range_map (fun i => ps.zModPr.RandomElement rnd i) ps.d
  -- the commitments
  obtain ⟨cArr, hcArr, _, hcArrE⟩ := genCArr_spec ps gm _ _ _ _ hHm hone hRget hUget hRr hUr
  obtain ⟨cfArr, hcfArr, _, hcfArrE⟩ := genCfArr_spec ps gm _ _ _ _ hHm hone hSget hFget
    (fun i => hRnd _) (fun i => hRnd _)
  have hcd0 := calcDeltas_spec ps D
    ((List.range (ps.d + 1)).map (uPow ps.zModPr.Modulus u))
    ((List.range (ps.d + 1)).map (fun i => ps.zModPr.RandomElement rnd (ps.d + 4 * i + 1)))
  have hcd1 : ∀ (fBar : List Int) (ch : Int),
      (∀ i, i < ps.d + 1 → coeffAt fBar i
        ≡ ps.zModPr.RandomElement rnd (ps.d + 4 * i + 1) + uPow ps.zModPr.Modulus u i * ch
          [ZMOD ps.zModPr.Modulus]) →
      ∃ dArr, ps.calcDeltas ((List.range (ps.d + 1)).map (uPow ps.zModPr.Modulus u))
          ((List.range (ps.d + 1)).map
            (fun i => ps.zModPr.RandomElement rnd (ps.d + 4 * i + 1))) = some dArr ∧
        dArr.length = ps.d + 2 ∧ (∀ x ∈ dArr, 0 ≤ x ∧ x < ps.zModPr.Modulus) ∧
        ∑ i in Finset.range (ps.d + 1), coeffAt dArr i * ch ^ i
          ≡ deltaSum ps.Polynomial.Coeffs D ch fBar (ps.d + 1) 0 1 [ZMOD ps.zModPr.Modulus] := by
    intro fBar ch hfBar
    have := hcd0 fBar u ch (by rw [hzp]; exact hp) htrim hD hDd (by simp) (by simp)
      (fun i hi => by
        rw [hzp, coeffAt_of_getElem? _ _ _ (hUget i hi)]
        exact uPow_modEq _ _ i)
      (fun i hi => by
        have hi2 : i < ps.d + 1 := by simpa using hi
        rw [hzp, coeffAt_of_getElem? _ _ _ (hUget i hi2)]
        exact uPow_ne _ _ hp hu0 i)
      (fun i hi => by
        rw [hzp, coeffAt_of_getElem? _ _ _ (hUget i hi), coeffAt_of_getElem? _ _ _ (hFget i hi)]
        exact hfBar i hi)
      (by rw [hzp]; exact hroot)
    rw [hzp] at this
    exact this
  obtain ⟨dArr, hdArr, hdlen, hdrange, _⟩ := hcd1
    ((List.range (ps.d + 1)).map (fun i => ps.zModPr.RandomElement rnd (ps.d + 4 * i + 1))) 0
    (fun i hi => by
      rw [coeffAt_of_getElem? _ _ _ (hFget i hi)]
      simp)
  have hDlr := coeffAt_range dArr _ hp0 hdrange
  obtain ⟨cdArr, hcdArr, _, hcdArrE⟩ := genCdArr_spec ps gm _ dArr _ (coeffAt dArr) hHm hone
    hTget (fun i hi => getElem?_coeffAt dArr i (by omega)) (fun i => hRnd _)
    (fun i => by
      rw [← hz]
      have := hDlr i
      omega)
  obtain ⟨cfuArr, hcfuArr, _, hcfuArrE⟩ := genCfuArr_spec ps gm _ _ _ _ _ _ hHm hone hp0 hz
    hXiget hFget hUget (fun i => hRnd _)
  -- the challenge and the responses
  obtain ⟨ch, hch, hch0, hch1⟩ := hashToChallenge_eq sha256
    [[cmt ps.CommScheme.G.Modulus ps.CommScheme.Hr gm r u, commToV], cArr, cfArr, cdArr, cfuArr]
    vote ps.zModPr.Modulus hp0
  obtain ⟨fBarArr, hfBarArr, hfBlen, hfBarArrE⟩ := genBarArr_spec ps _ _ _ _ ch hpne hUget hFget
  obtain ⟨rBarArr, hrBarArr, _, hrBarArrE⟩ := genBarArr_spec ps _ _ _ _ ch hpne hRget hSget
  obtain ⟨tBar, htBar, htBar0, htBar1, htBarc⟩ := genTBar_spec ps _ _ ch hp1 hTget
  obtain ⟨xiBarArr, hxiBarArr, _, hxiBarArrE⟩ := genXiBarArr_spec ps _ fBarArr _ _ _ _ ch hpne
    hRget hfBarArrE hXiget
  refine ⟨{ CArr := cArr.map some, CfArr := cfArr.map some, CdArr := cdArr.map some,
            CfuArr := cfuArr.map some, FBarArr := fBarArr.map some,
            RBarArr := rBarArr.map some, TBar := some tBar,
            XiBarArr := xiBarArr.map some }, ?_, ?_⟩
  · rw [PolynomialEvaluationProofSystem.Generate]
    simp only [huArr, Option.some_bind, hcArr, hcfArr, hdArr, hcdArr, hcfuArr,
      PolynomialEvaluationProofSystem.generateChallenge, hch, hfBarArr, hrBarArr, htBar,
      hxiBarArr]
  · -- the value of calcDeltaBar
    obtain ⟨dArr2, hdArr2, _, _, hsum⟩ := hcd1 fBarArr ch (fun i hi => by
      rw [coeffAt_of_getElem? _ _ _ (hfBarArrE i hi)]
      refine (Int.mod_modEq _ _).trans ?_
      rw [add_comm]
      exact (Int.ModEq.refl _).add (Int.mod_modEq _ _))
    rw [hdArr] at hdArr2
    have e := Option.some.inj hdArr2
    subst e
    obtain ⟨dBar, hdBar, hdBar0, hdBar1⟩ := calcDeltaBarTreelike_total ps D hDeg hp0 fBarArr ch
      (ps.d + 1) 0 1 0 (by omega) (by omega) (le_refl _) (by omega)
    have hdBarc := calcDeltaBarTreelike_eq ps D hDeg hpne fBarArr ch (ps.d + 1) 0 1 0 dBar hdBar
    rw [zero_add] at hdBarc
    exact Verify_spec ps gm sha256 vote cArr cfArr cdArr cfuArr fBarArr rBarArr xiBarArr tBar
      _ ch _ _ _ _ _ (coeffAt dArr) _ _ _ _ _ hG hHm hz hp1 ho hgr hgm hch hch0
      (fun i hi => by
        cases i with
        | zero => simp [uPow]
        | succ i =>
          rw [List.getElem?_cons_succ]
          exact hcArrE i (by omega))
      hcfArrE hcdArrE hcfuArrE hfBarArrE hrBarArrE hxiBarArrE
      (fun i => (hRr i).1) (fun i => (hUr i).1) (fun i => (hRnd _).1) (fun i => (hRnd _).1)
      (fun i => (hRnd _).1) (fun i => (hDlr i).1) (fun i => (hRnd _).1)
      (fun i => Int.emod_nonneg _ hpne)
      (fun i => ⟨Int.emod_nonneg _ hpne, le_of_lt (Int.emod_lt_of_pos _ hp0)⟩)
      (fun i => ⟨Int.emod_nonneg _ hpne, le_of_lt (Int.emod_lt_of_pos _ hp0)⟩)
      (fun i => ⟨Int.emod_nonneg _ hpne, le_of_lt (Int.emod_lt_of_pos _ hp0)⟩)
      ⟨htBar0, le_of_lt htBar1⟩
      (fun i => (Int.mod_modEq _ _).trans ((Int.mod_modEq _ _).add_right _))
      (fun i => (Int.mod_modEq _ _).trans ((Int.mod_modEq _ _).add_right _))
      (fun i => by
        refine (Int.mod_modEq _ _).trans ?_
        refine Int.ModEq.add_right _ ?_
        refine (Int.mod_modEq _ _).trans ?_
        rw [sub_eq_add_neg]
        exact (Int.mod_modEq _ _).add (sub_mod_modEq _ _))
      (fun i => Int.mod_modEq _ _)
      (fun i => Int.mod_modEq _ _)
      htBarc
      ⟨dBar, hdBar, ⟨hdBar0, hdBar1⟩, hdBarc.trans hsum.symm⟩

/-- C1: completeness of the polynomial-evaluation proof. For every commitment scheme with one
message generator over a group with modulus o above 1 (in particular o prime) and prime order
p, whose two generators h satisfy `h^p = 1 (mod o)`, every polynomial over the ring modulo p
with a trimmed coefficient list of degree at least 1, every u in `[1, p)` at which the
polynomial is 0 modulo p, every r in `[0, p)`, every outcome of the random draws (each in
`(0, p)` as `RandInt` returns them), every vote and every hash function:
`NewPolynomialEvaluationProofSystem` builds the proof system, `Commit(r; u)` returns a
commitment c, `Generate(u, r, c, vote)` returns a transcript, and `Verify` returns true on
that transcript with c and the vote. -/
theorem PolynomialEvaluation_complete (commScheme : PedersenCommitmentScheme)
    (poly : Polynomial) (gm u r : Int) (sha256 : List Nat → List Nat)
    (rnd : Nat → Int → Int) (vote : String)
    (ho : 1 < commScheme.G.Modulus)
    (hp : Nat.Prime commScheme.G.Order.toNat)
    (hHm : commScheme.Hm = [gm])
    (hgr : commScheme.Hr ^ commScheme.G.Order.toNat ≡ 1 [ZMOD commScheme.G.Modulus])
    (hgm : gm ^ commScheme.G.Order.toNat ≡ 1 [ZMOD commScheme.G.Modulus])
    (hring : poly.ZModPr.Modulus = commScheme.G.Order)
    (htrim : trim poly.Coeffs = some poly.Coeffs)
    (hdeg : 2 ≤ poly.Coeffs.length)
    (hu : 1 ≤ u ∧ u < commScheme.G.Order)
    (hroot : evalAt poly.Coeffs u ≡ 0 [ZMOD commScheme.G.Order])
    (hr : 0 ≤ r ∧ r < commScheme.G.Order)
    (hrnd : ∀ k, 0 < rnd k commScheme.G.Order ∧ rnd k commScheme.G.Order < commScheme.G.Order) :
    ∃ ps c proof,
      NewPolynomialEvaluationProofSystem commScheme poly = some ps ∧
      commScheme.Commit r [u] = some c ∧
      ps.Generate sha256 rnd u r c vote = some proof ∧
      ps.Verify sha256 proof c vote = some true := by
  have hD : poly.Coeffs.length = (poly.Coeffs.length - 1) + 1 := by omega
  have hne : poly.Coeffs.length - 1 ≠ 0 := by omega
  obtain ⟨proof, h1, h2⟩ := Generate_Verify_spec
    { CommScheme := commScheme, Polynomial := poly, gStarModPr := commScheme.G,
      zModPr := commScheme.G.ZModOrder, d := Nat.log2 (poly.Coeffs.length - 1) }
    gm u r sha256 rnd vote (poly.Coeffs.length - 1) rfl hHm rfl hring hp ho hgr hgm htrim hD
    Nat.lt_log2_self hu hroot hr hrnd
  refine ⟨_, _, proof, ?_, ?_, h1, h2⟩
  · simp only [NewPolynomialEvaluationProofSystem, Degree_of_trim poly htrim, Option.some_bind,
      if_neg hne]
  · exact Commit_one commScheme gm r u hHm (by omega) ⟨hr.1, le_of_lt hr.2⟩
      ⟨by omega, le_of_lt hu.2⟩

/-- The instance of C1 at the group of order 11 modulo 23 with the generators 2 and 3, the
polynomial `6 + 6 X + X^2 = (X - 2)(X - 3)` modulo 11, the credential u = 2 and r = 4. -/
theorem PolynomialEvaluation_complete_witness :
    ∃ ps c proof,
      NewPolynomialEvaluationProofSystem
          (NewPedersenCommitmentScheme (NewGStarModPrime 23 11 0 1) 2 [3])
          (NewPolynomial [6, 6, 1] (NewGStarModPrime 23 11 0 1).ZModOrder) = some ps ∧
      (NewPedersenCommitmentScheme (NewGStarModPrime 23 11 0 1) 2 [3]).Commit 4 [2] = some c ∧
      ps.Generate (fun bs => [bs.length % 256]) (fun k _ => ((k % 5 : Nat) : Int) + 1) 2 4 c
        "yes" = some proof ∧
      ps.Verify (fun bs => [bs.length % 256]) proof c "yes" = some true :=
  PolynomialEvaluation_complete (NewPedersenCommitmentScheme (NewGStarModPrime 23 11 0 1) 2 [3])
    (NewPolynomial [6, 6, 1] (NewGStarModPrime 23 11 0 1).ZModOrder) 3 2 4
    (fun bs => [bs.length % 256]) (fun k _ => ((k % 5 : Nat) : Int) + 1) "yes"
    (by decide) (by show Nat.Prime 11; norm_num) rfl (by decide) (by decide) rfl (by decide)
    (by decide) (by decide) (by decide) (by decide)
    (fun k => by
      have := Nat.mod_lt k (by decide : 0 < 5)
      simp only [NewPedersenCommitmentScheme, NewGStarModPrime]
      omega)

end crypto
namespace crypto

/-- C21, amended: NewGStarModPrime checks nothing. For every modulus m and order q it returns
the group value with exactly these two numbers, so the returned value satisfies
`ord | (mod - 1)` if and only if the arguments do; the relation is a precondition on the
caller. -/
theorem NewGStarModPrime_unchecked (m q : Int) (mref qref : Nat) :
    (NewGStarModPrime m q mref qref).Modulus = m ∧
    (NewGStarModPrime m q mref qref).Order = q ∧
    ((NewGStarModPrime m q mref qref).Order ∣ (NewGStarModPrime m q mref qref).Modulus - 1
      ↔ q ∣ m - 1) :=
  ⟨rfl, rfl, Iff.rfl⟩

/-- Counterexample to C21 as stated: 5 does not divide 7 - 1, yet `NewGStarModPrime(7, 5)`
returns a group value, one whose order does not divide its modulus minus 1; its cofactor is
`6 / 5 = 1`, and `RandomElement` on the draw 3 returns 3, which `Contains` rejects. -/
theorem NewGStarModPrime_counterexample :
    ¬ ((5 : Int) ∣ 7 - 1) ∧
    NewGStarModPrime 7 5 0 1 = { Modulus := 7, Order := 5, ModulusRef := 0, OrderRef := 1 } ∧
    ¬ ((NewGStarModPrime 7 5 0 1).Order ∣ (NewGStarModPrime 7 5 0 1).Modulus - 1) ∧
    (NewGStarModPrime 7 5 0 1).Cofactor = some 1 ∧
    (NewGStarModPrime 7 5 0 1).RandomElement (fun _ _ => 3) 0 = some 3 ∧
    (NewGStarModPrime 7 5 0 1).Contains 3 = some false := by
  decide

theorem P_dvd_O_sub_one : P ∣ O - 1 := ⟨980, by norm_num [P, O]⟩

theorem Q1_dvd_P1_sub_one : Q1 ∣ P1 - 1 := ⟨2, by norm_num [P1, Q1]⟩

theorem P1_dvd_O1_sub_one : P1 ∣ O1 - 1 := ⟨324, by norm_num [P1, O1]⟩

theorem Q2_dvd_P2_sub_one : Q2 ∣ P2 - 1 := ⟨2, by norm_num [P2, Q2]⟩

theorem P2_dvd_O2_sub_one : P2 ∣ O2 - 1 := ⟨3156, by norm_num [P2, O2]⟩

/-- C22: in each of the three embedded parameter triples the order q divides p - 1 and p
divides o - 1. -/
theorem parameter_triples_divide :
    (Q ∣ P - 1 ∧ P ∣ O - 1) ∧ (Q1 ∣ P1 - 1 ∧ P1 ∣ O1 - 1) ∧ (Q2 ∣ P2 - 1 ∧ P2 ∣ O2 - 1) :=
  ⟨⟨Q_dvd_P_sub_one, P_dvd_O_sub_one⟩, ⟨Q1_dvd_P1_sub_one, P1_dvd_O1_sub_one⟩,
    ⟨Q2_dvd_P2_sub_one, P2_dvd_O2_sub_one⟩⟩

/-- C23: the cofactors of the three moduli of G_p are 980, 324 and 3156, each one less than
the comment beside the constant says (`O = 981 * P + 1`, `O1 = 325 * P1 + 1`,
`O2 = 3157 * P2 + 1`); the relations `P1 = 2 * Q1 + 1` and `P2 = 2 * Q2 + 1` hold as
documented. -/
theorem cofactor_relations :
    (O = 980 * P + 1 ∧ O ≠ 981 * P + 1) ∧
    P1 = 2 * Q1 + 1 ∧
    (O1 = 324 * P1 + 1 ∧ O1 ≠ 325 * P1 + 1) ∧
    P2 = 2 * Q2 + 1 ∧
    (O2 = 3156 * P2 + 1 ∧ O2 ≠ 3157 * P2 + 1) := by
  refine ⟨⟨?_, ?_⟩, ?_, ⟨?_, ?_⟩, ?_, ⟨?_, ?_⟩⟩ <;> norm_num [O, P, O1, P1, Q1, O2, P2, Q2]

end crypto
namespace crypto

/-- C28: for every commitment scheme in G_q with modulus p not 0, order q and at least two
message generators h1 = Hm[0], h2 = Hm[1], and every outcome of the two random draws (each in
`(0, q)` as `RandInt` returns them), GenerateNewVoter returns a voter with A and B in `[1, q)`,
hence in `[0, q)`, and `U = h1^A * h2^B mod p`; when `Contains` accepts h1 and h2, it accepts
U. -/
theorem GenerateNewVoter_spec (commQ : PedersenCommitmentScheme) (rnd : Nat → Int → Int)
    (h1 h2 : Int) (rest : List Int) (hHm : commQ.Hm = h1 :: h2 :: rest)
    (hp : commQ.G.Modulus ≠ 0)
    (hrnd : ∀ k, 0 < rnd k commQ.G.Order ∧ rnd k commQ.G.Order < commQ.G.Order) :
    ∃ v, GenerateNewVoter commQ rnd = some v ∧
      (0 < v.A ∧ v.A < commQ.G.Order) ∧ (0 < v.B ∧ v.B < commQ.G.Order) ∧
      v.U = h1 ^ v.A.toNat * h2 ^ v.B.toNat % commQ.G.Modulus ∧
      (commQ.G.Contains h1 = some true → commQ.G.Contains h2 = some true →
        commQ.G.Contains v.U = some true) := by
  obtain ⟨ha0, ha1⟩ := hrnd 0
  obtain ⟨hb0, hb1⟩ := hrnd 1
  have hq : 0 ≤ commQ.G.Order := by omega
  refine ⟨NewVoter (rnd 0 commQ.G.Order) (rnd 1 commQ.G.Order)
    ((h1 ^ (rnd 0 commQ.G.Order).toNat % commQ.G.Modulus)
      * (h2 ^ (rnd 1 commQ.G.Order).toNat % commQ.G.Modulus) % commQ.G.Modulus),
    ?_, ⟨ha0, ha1⟩, ⟨hb0, hb1⟩, ?_, ?_⟩
  · simp only [GenerateNewVoter, hHm, ZModPrime.RandomElement, RandInt,
      GStarModPrime.ZModOrder, NewZModPrime, List.getElem?_cons_zero, List.getElem?_cons_succ,
      Option.some_bind, GStarModPrime.Exp, bigExp_of_nonneg _ _ (le_of_lt ha0),
      bigExp_of_nonneg _ _ (le_of_lt hb0), GStarModPrime.Mul, bigMod_of_ne _ hp]
  · simp only [NewVoter]
    exact ((Int.mod_modEq _ _).mul (Int.mod_modEq _ _))
  · intro hc1 hc2
    rw [Contains_of_nonneg _ _ hq] at hc1 hc2 ⊢
    simp only [Option.some.injEq, decide_eq_true_eq] at hc1 hc2 ⊢
    obtain ⟨h11, h12, h13⟩ := hc1
    obtain ⟨h21, h22, h23⟩ := hc2
    have hm1 : 1 < commQ.G.Modulus := by omega
    simp only [NewVoter]
    have hpow : ((h1 ^ (rnd 0 commQ.G.Order).toNat % commQ.G.Modulus)
        * (h2 ^ (rnd 1 commQ.G.Order).toNat % commQ.G.Modulus) % commQ.G.Modulus)
          ^ commQ.G.Order.toNat ≡ 1 [ZMOD commQ.G.Modulus] := by
      have e1 : (h1 ^ (rnd 0 commQ.G.Order).toNat % commQ.G.Modulus)
          * (h2 ^ (rnd 1 commQ.G.Order).toNat % commQ.G.Modulus) % commQ.G.Modulus
          ≡ h1 ^ (rnd 0 commQ.G.Order).toNat * h2 ^ (rnd 1 commQ.G.Order).toNat
            [ZMOD commQ.G.Modulus] :=
        (Int.mod_modEq _ _).trans ((Int.mod_modEq _ _).mul (Int.mod_modEq _ _))
      refine (e1.pow _).trans ?_
      rw [mul_pow, ← pow_mul, ← pow_mul, mul_comm _ commQ.G.Order.toNat,
        mul_comm _ commQ.G.Order.toNat, pow_mul, pow_mul]
      have := (h13.pow (rnd 0 commQ.G.Order).toNat).mul (h23.pow (rnd 1 commQ.G.Order).toNat)
      simpa using this
    have hnn : 0 ≤ (h1 ^ (rnd 0 commQ.G.Order).toNat % commQ.G.Modulus)
        * (h2 ^ (rnd 1 commQ.G.Order).toNat % commQ.G.Modulus) % commQ.G.Modulus :=
      Int.emod_nonneg _ hp
    have hlt : (h1 ^ (rnd 0 commQ.G.Order).toNat % commQ.G.Modulus)
        * (h2 ^ (rnd 1 commQ.G.Order).toNat % commQ.G.Modulus) % commQ.G.Modulus
          < commQ.G.Modulus := Int.emod_lt_of_pos _ (by omega)
    refine ⟨?_, hlt, hpow⟩
    by_contra hzero
    have hz : (h1 ^ (rnd 0 commQ.G.Order).toNat % commQ.G.Modulus)
        * (h2 ^ (rnd 1 commQ.G.Order).toNat % commQ.G.Modulus) % commQ.G.Modulus = 0 := by
      omega
    rw [hz] at hpow
    have hqpos : commQ.G.Order.toNat ≠ 0 := by omega
    rw [zero_pow hqpos] at hpow
    have := hpow.dvd
    have h3 : commQ.G.Modulus ∣ 1 := by simpa using this
    have := Int.le_of_dvd (by norm_num) h3
    omega

theorem GenerateNewVoter_spec_witness :
    ∃ v, GenerateNewVoter (NewPedersenCommitmentScheme (NewGStarModPrime 23 11 0 1) 2 [3, 4])
        (fun k _ => ((k % 5 : Nat) : Int) + 3) = some v ∧
      (0 < v.A ∧ v.A < 11) ∧ (0 < v.B ∧ v.B < 11) ∧
      v.U = (3 : Int) ^ v.A.toNat * 4 ^ v.B.toNat % 23 ∧
      ((NewGStarModPrime 23 11 0 1).Contains 3 = some true →
        (NewGStarModPrime 23 11 0 1).Contains 4 = some true →
        (NewGStarModPrime 23 11 0 1).Contains v.U = some true) :=
  GenerateNewVoter_spec (NewPedersenCommitmentScheme (NewGStarModPrime 23 11 0 1) 2 [3, 4])
    (fun k _ => ((k % 5 : Nat) : Int) + 3) 3 4 [] rfl (by decide)
    (fun k => by
      have := Nat.mod_lt k (by decide : 0 < 5)
      simp only [NewPedersenCommitmentScheme, NewGStarModPrime]
      omega)

end crypto
namespace crypto

/-- C25: the JSON encoding of a DdLogProof is an object whose keys are, in this order, `t`,
`t1_ar`, `t2_arr`, `zx`, `zr`, `zm_arr`, `zs_arr`, `zr_arr`: the second key is `t1_ar`, the tag
of the field `T1Arr`, and not `t1_arr`. Every integer is a JSON string holding its base-10
text (0 for a nil pointer); the arrays keep the order and the lengths of the slices. -/
theorem DdLogProof_MarshalJSON_keys (p : DdLogProof) :
    (p.MarshalJSON).keys = ["t", "t1_ar", "t2_arr", "zx", "zr", "zm_arr", "zs_arr", "zr_arr"] ∧
    (p.MarshalJSON).keys ≠ ["t", "t1_arr", "t2_arr", "zx", "zr", "zm_arr", "zs_arr", "zr_arr"] ∧
    p.MarshalJSON = JSON.obj
      [("t", JSON.str (MarshalText (p.T.getD 0))),
       ("t1_ar", JSON.arr (p.T1Arr.map (fun x => JSON.str (MarshalText (x.getD 0))))),
       ("t2_arr", JSON.arr (p.T2Arr.map (fun x => JSON.str (MarshalText (x.getD 0))))),
       ("zx", JSON.str (MarshalText (p.ZX.getD 0))),
       ("zr", JSON.str (MarshalText (p.ZR.getD 0))),
       ("zm_arr", JSON.arr (p.ZMArr.map (fun row =>
          JSON.arr (row.map (fun x => JSON.str (MarshalText (x.getD 0))))))),
       ("zs_arr", JSON.arr (p.ZSArr.map (fun x => JSON.str (MarshalText (x.getD 0))))),
       ("zr_arr", JSON.arr (p.ZRArr.map (fun x => JSON.str (MarshalText (x.getD 0)))))] := by
  have hkeys : (p.MarshalJSON).keys
      = ["t", "t1_ar", "t2_arr", "zx", "zr", "zm_arr", "zs_arr", "zr_arr"] := rfl
  refine ⟨hkeys, ?_, ?_⟩
  · rw [hkeys]
    decide
  · simp only [DdLogProof.MarshalJSON, ddLogProofDTO.MarshalJSON, DdLogProof.wrapInDTO,
      AminoInt.MarshalJSON, NewInt, List.map_map, Function.comp_def]

/-- The texts of the integers 5, -17 and 0, and of a nil pointer, in the encoding. -/
theorem MarshalJSON_examples :
    MarshalText 5 = "5" ∧ MarshalText (-17) = "-17" ∧ MarshalText 0 = "0" ∧
    MarshalText ((NewInt none).i.getD 0) = "0" := by
  decide

end crypto

namespace pbb

theorem lookup_append_of_some (l : List (List Nat × List Nat)) (key value k2 v2 : List Nat)
    (h : l.lookup key = some value) : (l ++ [(k2, v2)]).lookup key = some value := by
  induction l with
  | nil => simp at h
  | cons e l ih =>
    obtain ⟨a, b⟩ := e
    simp only [List.cons_append, List.lookup_cons] at h ⊢
    cases hk : (key == a) with
    | true =>
      rw [hk] at h
      exact h
    | false =>
      rw [hk] at h
      exact ih h

theorem lookup_isSome_iff_mem_keys (l : List (List Nat × List Nat)) (key : List Nat) :
    (l.lookup key).isSome = true ↔ key ∈ l.map Prod.fst := by
  induction l with
  | nil => simp
  | cons e l ih =>
    obtain ⟨a, b⟩ := e
    simp only [List.lookup_cons, List.map_cons, List.mem_cons]
    cases hk : (key == a) with
    | true =>
      have : key = a := by simpa using hk
      simp [this]
    | false =>
      have : key ≠ a := by simpa using hk
      simp only [ih]
      constructor
      · intro h
        exact Or.inr h
      · intro h
        rcases h with h | h
        · exact absurd h this
        · exact h

/-- What StoreBallot returns: with a nil pointer for uHat or a panic of the codec nothing;
an error and the store as it was when the key is present; the store with one more entry
otherwise. -/
theorem StoreBallot_cases (cdc : types.Ballot → Option (List Nat)) (store : sdk.KVStore)
    (b : types.Ballot) (r : Option String × sdk.KVStore)
    (h : keeper.StoreBallot cdc store b = some r) :
    ∃ uHat, b.UHat.BigInt = some uHat ∧
      ((store.Has (crypto.Bytes uHat) = true ∧ r.1 ≠ none ∧ r.2 = store) ∨
       (store.Has (crypto.Bytes uHat) = false ∧ ∃ bz, cdc b = some bz ∧ r.1 = none ∧
          r.2 = { entries := store.entries ++ [(crypto.Bytes uHat, bz)] })) := by
  unfold keeper.StoreBallot at h
  cases hu : b.UHat.BigInt with
  | none =>
    rw [hu] at h
    simp at h
  | some uHat =>
    rw [hu] at h
    simp only [Option.some_bind] at h
    refine ⟨uHat, rfl, ?_⟩
    by_cases hhas : store.Has (crypto.Bytes uHat) = true
    · rw [if_pos hhas] at h
      have := Option.some.inj h
      subst this
      exact Or.inl ⟨hhas, by simp, rfl⟩
    · rw [if_neg hhas] at h
      have hhas2 : store.Has (crypto.Bytes uHat) = false := by simpa using hhas
      cases hc : cdc b with
      | none =>
        rw [hc] at h
        simp at h
      | some bz =>
        rw [hc] at h
        simp only [Option.map_some', Option.some.injEq] at h
        subst h
        refine Or.inr ⟨hhas2, bz, rfl, rfl, ?_⟩
        simp [sdk.KVStore.Set, hhas2]

/-- What handleMsgPutBallot leaves in the store: the store as it was, or the store with one
more entry, under the bytes of uHat, when the key was absent and the result is OK. -/
theorem handleMsgPutBallot_cases (sha256 : List Nat → List Nat)
    (cdc : types.Ballot → Option (List Nat)) (params : types.Params)
    (polyStore : Option crypto.Polynomial) (store : sdk.KVStore) (msg : types.MsgPutBallot)
    (r : sdk.Result × sdk.KVStore)
    (h : handleMsgPutBallot sha256 cdc params polyStore store msg = some r) :
    (r.1.Code ≠ sdk.CodeOK ∧ r.2 = store) ∨
    (r.1.Code = sdk.CodeOK ∧ ∃ uHat bz, msg.Ballot.UHat.BigInt = some uHat ∧
      store.Has (crypto.Bytes uHat) = false ∧ cdc msg.Ballot = some bz ∧
      r.2 = { entries := store.entries ++ [(crypto.Bytes uHat, bz)] }) := by
  unfold handleMsgPutBallot at h
  obtain ⟨has, _, h⟩ := Option.bind_eq_some.mp h
  have hrej : ∀ m, (types.ErrInvalidBallot m).Code ≠ sdk.CodeOK := by
    intro m
    simp [types.ErrInvalidBallot, types.InvalidBallot, sdk.CodeOK]
  split_ifs at h with h0
  · have := Option.some.inj h
    subst this
    exact Or.inl ⟨hrej _, rfl⟩
  · obtain ⟨v1, _, h⟩ := Option.bind_eq_some.mp h
    split_ifs at h with h1
    · have := Option.some.inj h
      subst this
      exact Or.inl ⟨hrej _, rfl⟩
    · obtain ⟨v2, _, h⟩ := Option.bind_eq_some.mp h
      split_ifs at h with h2
      · have := Option.some.inj h
        subst this
        exact Or.inl ⟨hrej _, rfl⟩
      · obtain ⟨v3, _, h⟩ := Option.bind_eq_some.mp h
        split_ifs at h with h3
        · have := Option.some.inj h
          subst this
          exact Or.inl ⟨hrej _, rfl⟩
        · obtain ⟨sr, hsr, h⟩ := Option.bind_eq_some.mp h
          obtain ⟨uHat, hu, hcase⟩ := StoreBallot_cases cdc store msg.Ballot sr hsr
          rcases hcase with ⟨_, herr, hst⟩ | ⟨hhas, bz, hbz, herr, hst⟩
          · cases he : sr.1 with
            | none => exact absurd he herr
            | some err =>
              rw [he] at h
              have := Option.some.inj h
              subst this
              exact Or.inl ⟨hrej _, hst⟩
          · rw [herr] at h
            have := Option.some.inj h
            subst this
            exact Or.inr ⟨rfl, uHat, bz, hu, hhas, hbz, hst⟩

/-- One operation keeps every entry of the ballot store and the uniqueness of the keys. -/
theorem applyOp_keeps (sha256 : List Nat → List Nat) (cdc : types.Ballot → Option (List Nat))
    (store : sdk.KVStore) (op : Op) :
    (∀ key value, store.Get key = some value →
      (applyOp sha256 cdc store op).Get key = some value) ∧
    ((store.entries.map Prod.fst).Nodup →
      ((applyOp sha256 cdc store op).entries.map Prod.fst).Nodup) := by
  have happ : ∀ (k bz : List Nat), store.Has k = false →
      (∀ key value, store.Get key = some value →
        (sdk.KVStore.mk (store.entries ++ [(k, bz)])).Get key = some value) ∧
      ((store.entries.map Prod.fst).Nodup →
        ((sdk.KVStore.mk (store.entries ++ [(k, bz)])).entries.map Prod.fst).Nodup) := by
    intro k bz hk
    refine ⟨fun key value hv => lookup_append_of_some _ _ _ _ _ hv, fun hnd => ?_⟩
    simp only [List.map_append, List.map_cons, List.map_nil]
    rw [List.nodup_append]
    refine ⟨hnd, by simp, ?_⟩
    intro a ha hb
    have hab : a = k := by simpa using hb
    rw [hab] at ha
    have := (lookup_isSome_iff_mem_keys store.entries k).mpr ha
    simp only [sdk.KVStore.Has] at hk
    rw [hk] at this
    exact Bool.false_ne_true this
  cases op with
  | storeBallot b =>
    simp only [applyOp]
    cases hs : keeper.StoreBallot cdc store b with
    | none => exact ⟨fun _ _ h => h, fun h => h⟩
    | some r =>
      obtain ⟨uHat, _, hcase⟩ := StoreBallot_cases cdc store b r hs
      rcases hcase with ⟨_, _, hst⟩ | ⟨hhas, bz, _, _, hst⟩
      · simp only [hst]
        exact ⟨fun _ _ h => h, fun h => h⟩
      · simp only [hst]
        exact happ _ bz hhas
  | putBallot params polyStore msg =>
    simp only [applyOp]
    cases hs : handleMsgPutBallot sha256 cdc params polyStore store msg with
    | none => exact ⟨fun _ _ h => h, fun h => h⟩
    | some r =>
      rcases handleMsgPutBallot_cases sha256 cdc params polyStore store msg r hs with
        ⟨_, hst⟩ | ⟨_, uHat, bz, _, hhas, _, hst⟩
      · simp only [hst]
        exact ⟨fun _ _ h => h, fun h => h⟩
      · simp only [hst]
        exact happ _ bz hhas

/-- A sequence of operations keeps every entry of the ballot store and the uniqueness of the
keys. -/
theorem run_keeps (sha256 : List Nat → List Nat) (cdc : types.Ballot → Option (List Nat)) :
    ∀ (ops : List Op) (store : sdk.KVStore),
      (∀ key value, store.Get key = some value →
        (run sha256 cdc ops store).Get key = some value) ∧
      ((store.entries.map Prod.fst).Nodup →
        ((run sha256 cdc ops store).entries.map Prod.fst).Nodup) := by
  intro ops
  induction ops with
  | nil => intro store; exact ⟨fun _ _ h => h, fun h => h⟩
  | cons op ops ih =>
    intro store
    obtain ⟨h1, h2⟩ := applyOp_keeps sha256 cdc store op
    obtain ⟨h3, h4⟩ := ih (applyOp sha256 cdc store op)
    simp only [run, List.foldl_cons] at h3 h4 ⊢
    exact ⟨fun key value h => h3 key value (h1 key value h), fun h => h4 (h2 h)⟩

/-- C24: double-vote prevention on the ballot store. For a ballot whose uHat is not a nil
pointer: when the store holds an entry under the bytes of uHat, StoreBallot returns an error
and handleMsgPutBallot returns the invalid-ballot result, both leaving the store as it was;
when it holds none, StoreBallot adds exactly one entry, under the bytes of uHat, and
handleMsgPutBallot either rejects and leaves the store as it was or returns OK and adds that
one entry. Over every sequence of the two operations an entry of the store is never
overwritten or removed, and the keys stay pairwise different: a pseudonym has at most one
stored ballot. -/
theorem ballot_store_double_vote (sha256 : List Nat → List Nat)
    (cdc : types.Ballot → Option (List Nat)) (ops : List Op) (store : sdk.KVStore)
    (params : types.Params) (polyStore : Option crypto.Polynomial) (msg : types.MsgPutBallot)
    (uHat : Int) (hu : msg.Ballot.UHat.BigInt = some uHat) :
    (store.Has (crypto.Bytes uHat) = true →
      (∃ err, keeper.StoreBallot cdc store msg.Ballot = some (some err, store)) ∧
      handleMsgPutBallot sha256 cdc params polyStore store msg
        = some (types.ErrInvalidBallot
            "A ballot has already been stored for this election credential.", store)) ∧
    (store.Has (crypto.Bytes uHat) = false → ∀ bz, cdc msg.Ballot = some bz →
      keeper.StoreBallot cdc store msg.Ballot
        = some (none, { entries := store.entries ++ [(crypto.Bytes uHat, bz)] }) ∧
      ∀ r, handleMsgPutBallot sha256 cdc params polyStore store msg = some r →
        (r.1.Code ≠ sdk.CodeOK ∧ r.2 = store) ∨
        (r.1.Code = sdk.CodeOK ∧
          r.2 = { entries := store.entries ++ [(crypto.Bytes uHat, bz)] })) ∧
    (∀ key value, store.Get key = some value →
      (run sha256 cdc ops store).Get key = some value) ∧
    ((store.entries.map Prod.fst).Nodup →
      ((run sha256 cdc ops store).entries.map Prod.fst).Nodup) := by
  refine ⟨fun hhas => ⟨?_, ?_⟩, fun hhas bz hbz => ⟨?_, fun r hr => ?_⟩,
    (run_keeps sha256 cdc ops store).1, (run_keeps sha256 cdc ops store).2⟩
  · simp only [keeper.StoreBallot, hu, Option.some_bind, if_pos hhas]
    exact ⟨_, rfl⟩
  · simp only [handleMsgPutBallot, keeper.HasElectionCredential, hu, Option.map_some',
      Option.some_bind, hhas, if_true]
  · simp only [keeper.StoreBallot, hu, Option.some_bind, hhas, hbz, Option.map_some',
      sdk.KVStore.Set]
    simp
  · rcases handleMsgPutBallot_cases sha256 cdc params polyStore store msg r hr with
      h | ⟨hc, u2, bz2, hu2, _, hbz2, hst⟩
    · exact Or.inl h
    · rw [hu] at hu2
      rw [hbz] at hbz2
      have e1 := Option.some.inj hu2
      have e2 := Option.some.inj hbz2
      subst e1
      subst e2
      exact Or.inr ⟨hc, hst⟩

/-- The instance of C24 at a store that holds the entry `[8] -> [1]`, a ballot with uHat = 8,
and the sequence of a StoreBallot and a handleMsgPutBallot of that ballot. -/
theorem ballot_store_double_vote_witness :
    (sdk.KVStore.mk [([8], [1])]).Has (crypto.Bytes 8) = true ∧
    (∃ err, keeper.StoreBallot (fun _ => some [2]) (sdk.KVStore.mk [([8], [1])])
        { C := crypto.NewInt (some 6), D := crypto.NewInt (some 3), V := "yes",
          UHat := crypto.NewInt (some 8),
          Proof1 := ⟨[], [], [], [], [], [], none, []⟩,
          Proof2 := ⟨none, [], [], none, none, [], [], []⟩,
          Proof3 := ⟨none, none, none, none, none⟩ }
      = some (some err, sdk.KVStore.mk [([8], [1])])) ∧
    (run (fun bs => [bs.length % 256]) (fun _ => some [2])
      [Op.storeBallot
          { C := crypto.NewInt (some 6), D := crypto.NewInt (some 3), V := "yes",
            UHat := crypto.NewInt (some 8),
            Proof1 := ⟨[], [], [], [], [], [], none, []⟩,
            Proof2 := ⟨none, [], [], none, none, [], [], []⟩,
            Proof3 := ⟨none, none, none, none, none⟩ }]
      (sdk.KVStore.mk [([8], [1])])).Get [8] = some [1] :=
  ⟨by decide,
    ((ballot_store_double_vote (fun bs => [bs.length % 256]) (fun _ => some [2])
      [Op.storeBallot
          { C := crypto.NewInt (some 6), D := crypto.NewInt (some 3), V := "yes",
            UHat := crypto.NewInt (some 8),
            Proof1 := ⟨[], [], [], [], [], [], none, []⟩,
            Proof2 := ⟨none, [], [], none, none, [], [], []⟩,
            Proof3 := ⟨none, none, none, none, none⟩ }]
      (sdk.KVStore.mk [([8], [1])])
      { CommP := crypto.NewPedersenCommitmentScheme (crypto.NewGStarModPrime 23 11 0 1) 2 [3],
        CommQ := crypto.NewPedersenCommitmentScheme (crypto.NewGStarModPrime 11 5 1 2) 3 [4, 5],
        HHat := crypto.NewInt (some 9), SecurityParam := 3 }
      none
      { Ballot :=
          { C := crypto.NewInt (some 6), D := crypto.NewInt (some 3), V := "yes",
            UHat := crypto.NewInt (some 8),
            Proof1 := ⟨[], [], [], [], [], [], none, []⟩,
            Proof2 := ⟨none, [], [], none, none, [], [], []⟩,
            Proof3 := ⟨none, none, none, none, none⟩ },
        Signer := [] }
      8 rfl).1 (by decide)).1,
    (ballot_store_double_vote (fun bs => [bs.length % 256]) (fun _ => some [2])
      [Op.storeBallot
          { C := crypto.NewInt (some 6), D := crypto.NewInt (some 3), V := "yes",
            UHat := crypto.NewInt (some 8),
            Proof1 := ⟨[], [], [], [], [], [], none, []⟩,
            Proof2 := ⟨none, [], [], none, none, [], [], []⟩,
            Proof3 := ⟨none, none, none, none, none⟩ }]
      (sdk.KVStore.mk [([8], [1])])
      { CommP := crypto.NewPedersenCommitmentScheme (crypto.NewGStarModPrime 23 11 0 1) 2 [3],
        CommQ := crypto.NewPedersenCommitmentScheme (crypto.NewGStarModPrime 11 5 1 2) 3 [4, 5],
        HHat := crypto.NewInt (some 9), SecurityParam := 3 }
      none
      { Ballot :=
          { C := crypto.NewInt (some 6), D := crypto.NewInt (some 3), V := "yes",
            UHat := crypto.NewInt (some 8),
            Proof1 := ⟨[], [], [], [], [], [], none, []⟩,
            Proof2 := ⟨none, [], [], none, none, [], [], []⟩,
            Proof3 := ⟨none, none, none, none, none⟩ },
        Signer := [] }
      8 rfl).2.2.1 [8] [1] (by decide)⟩

end pbb
namespace crypto

/-- A result of the recursion of calcDeltaBar is reduced modulo the ring modulus: every leaf
ends with `Add`. -/
theorem calcDeltaBarTreelike_lt (ps : PolynomialEvaluationProofSystem)
    (hm : 0 < ps.zModPr.Modulus) (fBarArr : List (Option Int)) (ch : Int) :
    ∀ (lvl deg : Nat) (value result r : Int),
      ps.calcDeltaBarTreelike lvl deg value fBarArr ch result = some r →
      0 ≤ r ∧ r < ps.zModPr.Modulus := by
  have hne : ps.zModPr.Modulus ≠ 0 := ne_of_gt hm
  intro lvl
  induction lvl with
  | zero =>
    intro deg value result r h
    simp only [PolynomialEvaluationProofSystem.calcDeltaBarTreelike, ZModPrime.Mul,
      ZModPrime.Add, bigMod_of_ne _ hne, Option.bind_eq_bind] at h
    obtain ⟨c, _, h⟩ := Option.bind_eq_some.mp h
    simp only [Option.some_bind, Option.some.injEq] at h
    rw [← h]
    exact ⟨Int.emod_nonneg _ hne, Int.emod_lt_of_pos _ hm⟩
  | succ lvl ih =>
    intro deg value result r h
    simp only [PolynomialEvaluationProofSystem.calcDeltaBarTreelike, ZModPrime.Mul,
      bigMod_of_ne _ hne, Option.bind_eq_bind, Option.some_bind] at h
    obtain ⟨r1, hr1, h⟩ := Option.bind_eq_some.mp h
    obtain ⟨dg, _, h⟩ := Option.bind_eq_some.mp h
    split_ifs at h with hnext
    · obtain ⟨fb, _, h⟩ := Option.bind_eq_some.mp h
      exact ih _ _ _ _ h
    · have := Option.some.inj h
      rw [← this]
      exact ih _ _ _ _ hr1

/-- The slice calcDeltas returns, for arrays `uArr[i] = u^(2^i)` modulo m (not 0 modulo m):
d + 2 entries in [0, m); the sum of `dArr[i] * ch^i` over i up to d, plus the value of the
polynomial at u times `ch^(d+1)`, is the sum over the leaves with the factors ch and
`fBar[i] = fArr[i] + uArr[i] * ch`; the entry d + 1 is 1 plus the value at u. -/
theorem calcDeltas_general (ps : PolynomialEvaluationProofSystem) (D : Nat)
    (uArr fArr fBar : List Int) (u ch : Int)
    (hp : Nat.Prime ps.Polynomial.ZModPr.Modulus.toNat)
    (htrim : trim ps.Polynomial.Coeffs = some ps.Polynomial.Coeffs)
    (hD : ps.Polynomial.Coeffs.length = D + 1) (hDd : D < 2 ^ (ps.d + 1))
    (hul : uArr.length = ps.d + 1) (hfl : fArr.length = ps.d + 1)
    (hu : ∀ i, i < ps.d + 1 →
      coeffAt uArr i ≡ u ^ (2 ^ i) [ZMOD ps.Polynomial.ZModPr.Modulus])
    (hu0 : ∀ i, i < uArr.length → coeffAt uArr i % ps.Polynomial.ZModPr.Modulus ≠ 0)
    (hfBar : ∀ i, i < ps.d + 1 →
      coeffAt fBar i ≡ coeffAt fArr i + coeffAt uArr i * ch
        [ZMOD ps.Polynomial.ZModPr.Modulus]) :
    ∃ dArr, ps.calcDeltas uArr fArr = some dArr ∧ dArr.length = ps.d + 2 ∧
      (∀ x ∈ dArr, 0 ≤ x ∧ x < ps.Polynomial.ZModPr.Modulus) ∧
      coeffAt dArr (ps.d + 1) ≡ 1 + evalAt ps.Polynomial.Coeffs u
        [ZMOD ps.Polynomial.ZModPr.Modulus] ∧
      ∑ i in Finset.range (ps.d + 1), coeffAt dArr i * ch ^ i
          + evalAt ps.Polynomial.Coeffs u * ch ^ (ps.d + 1)
        ≡ deltaSum ps.Polynomial.Coeffs D ch fBar (ps.d + 1) 0 1
          [ZMOD ps.Polynomial.ZModPr.Modulus] := by
  have hm2 := hp.two_le
  have hm : 1 < ps.Polynomial.ZModPr.Modulus := by omega
  have hprime := prime_mul_ne _ hp
  have hDeg : ps.Polynomial.Degree = some D := by
    rw [Degree_of_trim _ htrim, hD]
    rfl
  have hone : (1 : Int) % ps.Polynomial.ZModPr.Modulus ≠ 0 := by
    rw [Int.emod_eq_of_lt (by norm_num) hm]
    norm_num
  -- the value at ch
  obtain ⟨R, hR1, hR2, hR3, hR4⟩ := calcDeltaPolynomial_zero ps D (ps.d + 2) uArr fArr
    (fun l => evalAt l ch) (fun l => evalAt l ch) ch fBar hm hprime hDeg hu0
    (fun l1 l2 l3 a h => evalAt_congr_add_smul _ ch a l1 l2 l3 h)
    (fun c _ => Int.ModEq.refl _)
    (fun c R hc hlead hmul => by
      obtain ⟨R2, h1, _, _, _, _, h6⟩ := mul_step ps.Polynomial.ZModPr hm hprime c 0 1 hc hlead
        hone
      rw [hmul] at h1
      have e : R = R2 := congrArg Polynomial.Coeffs (Option.some.inj h1)
      subst e
      have := h6 ch
      simpa using this)
    (fun i c R hiu hif hc hlead hmul => by
      obtain ⟨R2, h1, _, _, _, _, h6⟩ := mul_step ps.Polynomial.ZModPr hm hprime c
        (coeffAt fArr i) (coeffAt uArr i) hc hlead (hu0 i hiu)
      rw [hmul] at h1
      have e : R = R2 := congrArg Polynomial.Coeffs (Option.some.inj h1)
      subst e
      exact (h6 ch).trans ((Int.ModEq.refl _).mul (hfBar i (by omega)).symm))
    (ps.d + 1) [1] none (by omega) (by omega) (by simp) (by simpa [coeffAt] using hone)
    (by simp; omega)
  -- the entry d + 1
  obtain ⟨R', hR1', _, _, hR4'⟩ := calcDeltaPolynomial_zero ps D (ps.d + 2) uArr fArr
    (fun c => coeffAt c (c.length - 1)) (fun l => coeffAt l (ps.d + 1)) 1 uArr hm hprime hDeg hu0
    (fun l1 l2 l3 a h => h (ps.d + 1))
    (fun c hc => by
      simp only [hc, Nat.add_sub_cancel]
      exact Int.ModEq.refl _)
    (fun c R hc hlead hmul => by
      obtain ⟨R2, h1, h2, _, _, h5, _⟩ := mul_step ps.Polynomial.ZModPr hm hprime c 0 1 hc hlead
        hone
      rw [hmul] at h1
      have e : R = R2 := congrArg Polynomial.Coeffs (Option.some.inj h1)
      subst e
      simp only [h2, Nat.add_sub_cancel, h5]
      exact Int.mod_modEq _ _)
    (fun i c R hiu hif hc hlead hmul => by
      obtain ⟨R2, h1, h2, _, _, h5, _⟩ := mul_step ps.Polynomial.ZModPr hm hprime c
        (coeffAt fArr i) (coeffAt uArr i) hc hlead (hu0 i hiu)
      rw [hmul] at h1
      have e : R = R2 := congrArg Polynomial.Coeffs (Option.some.inj h1)
      subst e
      simp only [h2, Nat.add_sub_cancel, h5]
      exact Int.mod_modEq _ _)
    (ps.d + 1) [1] none (by omega) (by omega) (by simp) (by simpa [coeffAt] using hone)
    (by simp; omega)
  rw [hR1] at hR1'
  have e : R = R' := congrArg Polynomial.Coeffs (Option.some.inj hR1')
  subst e
  have hzero : ∀ k, D < k → coeffAt ps.Polynomial.Coeffs k = 0 :=
    fun k hk => coeffAt_of_le _ _ (by omega)
  have htop : coeffAt R (ps.d + 1) ≡ 1 + evalAt ps.Polynomial.Coeffs u
      [ZMOD ps.Polynomial.ZModPr.Modulus] := by
    refine hR4'.trans ?_
    simp only [List.length_singleton, Nat.sub_self, coeffAt, one_pow, mul_one]
    have h1 := deltaSum_pow ps.Polynomial.ZModPr.Modulus ps.Polynomial.Coeffs D hzero u uArr
      (ps.d + 1) 0 1 hu
    have h2 := evalAt_eq_sum u ps.Polynomial.Coeffs (2 ^ (ps.d + 1)) (by omega)
    simp only [Nat.zero_add, one_mul] at h1
    rw [← h2] at h1
    exact (Int.ModEq.refl (1 : Int)).add h1
  refine ⟨R, ?_, hR2, hR3, htop, ?_⟩
  · simp only [PolynomialEvaluationProofSystem.calcDeltas, NewPolynomial, hR1,
      Option.bind_eq_bind, Option.some_bind]
  · have h3 := evalAt_eq_sum ch R (ps.d + 2) (by omega)
    rw [Finset.sum_range_succ] at h3
    have hR5 : evalAt R ch ≡ evalAt [1] ch * ch ^ (ps.d + 1)
        + deltaSum ps.Polynomial.Coeffs D ch fBar (ps.d + 1) 0 (evalAt [1] ch)
        [ZMOD ps.Polynomial.ZModPr.Modulus] := hR4
    clear hR4
    rename' hR5 => hR4
    rw [h3] at hR4
    simp only [evalAt_cons, evalAt_nil, mul_zero, add_zero, one_mul] at hR4
    have h4 : coeffAt R (ps.d + 1) * ch ^ (ps.d + 1)
        ≡ (1 + evalAt ps.Polynomial.Coeffs u) * ch ^ (ps.d + 1)
        [ZMOD ps.Polynomial.ZModPr.Modulus] := htop.mul_right (ch ^ (ps.d + 1))
    have h5 := (hR4.sub h4).symm
    have e1 : ch ^ (ps.d + 1) + deltaSum ps.Polynomial.Coeffs D ch fBar (ps.d + 1) 0 1
        - (1 + evalAt ps.Polynomial.Coeffs u) * ch ^ (ps.d + 1)
        = deltaSum ps.Polynomial.Coeffs D ch fBar (ps.d + 1) 0 1
          - evalAt ps.Polynomial.Coeffs u * ch ^ (ps.d + 1) := by ring
    have e2 : ∑ x in Finset.range (ps.d + 1), coeffAt R x * ch ^ x
        + coeffAt R (ps.d + 1) * ch ^ (ps.d + 1) - coeffAt R (ps.d + 1) * ch ^ (ps.d + 1)
        = ∑ x in Finset.range (ps.d + 1), coeffAt R x * ch ^ x := by ring
    rw [e1, e2] at h5
    have := h5.symm.add_right (evalAt ps.Polynomial.Coeffs u * ch ^ (ps.d + 1))
    simpa using this

/-- C30: the polynomial and the scalar instantiation of the delta recursion agree. For every
proof system whose polynomial has a trimmed coefficient list of degree D over the prime
modulus p of its ring, with `d = floor(log2 D)`, every u not 0 modulo p, every array uArr of
d + 1 entries with `uArr[i] = u^(2^i)` modulo p, every array fArr of d + 1 entries and every
integer ch: calcDeltas returns dArr, calcDeltaBar on `fBar[i] = (uArr[i] * ch + fArr[i]) mod p`
and ch returns dBar, and dBar is the sum of `dArr[i] * ch^i` over i from 0 to d plus
`Phi(u) * ch^(d+1)`, reduced modulo p. -/
theorem calcDeltaBar_eq_calcDeltas (ps : PolynomialEvaluationProofSystem) (D : Nat)
    (uArr fArr : List Int) (u ch : Int)
    (hp : Nat.Prime ps.zModPr.Modulus.toNat)
    (hzp : ps.Polynomial.ZModPr.Modulus = ps.zModPr.Modulus)
    (htrim : trim ps.Polynomial.Coeffs = some ps.Polynomial.Coeffs)
    (hD : ps.Polynomial.Coeffs.length = D + 1) (hd : ps.d = Nat.log2 D)
    (hu0 : u % ps.zModPr.Modulus ≠ 0)
    (hul : uArr.length = ps.d + 1) (hfl : fArr.length = ps.d + 1)
    (hu : ∀ i, i < ps.d + 1 → coeffAt uArr i ≡ u ^ (2 ^ i) [ZMOD ps.zModPr.Modulus]) :
    ∃ dArr dBar, ps.calcDeltas uArr fArr = some dArr ∧
      ps.calcDeltaBar
        (((List.range (ps.d + 1)).map
          (fun i => (coeffAt uArr i * ch + coeffAt fArr i) % ps.zModPr.Modulus)).map some) ch
        = some dBar ∧
      dBar = (∑ i in Finset.range (ps.d + 1), coeffAt dArr i * ch ^ i
          + evalAt ps.Polynomial.Coeffs u * ch ^ (ps.d + 1)) % ps.zModPr.Modulus := by
  have hp2 := hp.two_le
  have hp0 : 0 < ps.zModPr.Modulus := by omega
  have hpne : ps.zModPr.Modulus ≠ 0 := by omega
  have hDd : D < 2 ^ (ps.d + 1) := by
    rw [hd]
    exact Nat.lt_log2_self
  have hDeg : ps.Polynomial.Degree = some D := by
    rw [Degree_of_trim _ htrim, hD]
    rfl
  have hprime : Prime ps.zModPr.Modulus := by
    have := Nat.prime_iff_prime_int.mp hp
    rwa [Int.toNat_of_nonneg (le_of_lt hp0)] at this
  have hu1 : ∀ i, i < uArr.length → coeffAt uArr i % ps.Polynomial.ZModPr.Modulus ≠ 0 := by
    intro i hi h
    rw [hzp] at h
    have hdvd : ps.zModPr.Modulus ∣ coeffAt uArr i := Int.dvd_of_emod_eq_zero h
    have h1 : ps.zModPr.Modulus ∣ u ^ (2 ^ i) := by
      have := dvd_add (hu i (by omega)).dvd hdvd
      rwa [sub_add_cancel] at this
    exact hu0 (Int.emod_eq_zero_of_dvd (hprime.dvd_of_dvd_pow h1))
  have hfBget := getElem?_range_map
    (fun i => (coeffAt uArr i * ch + coeffAt fArr i) % ps.zModPr.Modulus) (ps.d + 1)
  obtain ⟨dArr, hdArr, hdlen, hdrange, _, hsum⟩ := calcDeltas_general ps D uArr fArr
    ((List.range (ps.d + 1)).map
      (fun i => (coeffAt uArr i * ch + coeffAt fArr i) % ps.zModPr.Modulus)) u ch
    (by rw [hzp]; exact hp) htrim hD hDd hul hfl
    (fun i hi => by rw [hzp]; exact hu i hi) hu1
    (fun i hi => by
      rw [hzp, coeffAt_of_getElem? _ _ _ (hfBget i hi)]
      refine (Int.mod_modEq _ _).trans ?_
      rw [add_comm])
  rw [hzp] at hsum
  obtain ⟨dBar, hdBar, _, _⟩ := calcDeltaBarTreelike_total ps D hDeg hp0
    ((List.range (ps.d + 1)).map
      (fun i => (coeffAt uArr i * ch + coeffAt fArr i) % ps.zModPr.Modulus)) ch
    (ps.d + 1) 0 1 0 (by simp) (by omega) (le_refl _) (by omega)
  obtain ⟨hlt0, hlt1⟩ := calcDeltaBarTreelike_lt ps hp0 _ ch _ _ _ _ _ hdBar
  have hdBarc := calcDeltaBarTreelike_eq ps D hDeg hpne _ ch (ps.d + 1) 0 1 0 dBar hdBar
  rw [zero_add] at hdBarc
  refine ⟨dArr, dBar, hdArr, hdBar, ?_⟩
  have h3 := (hdBarc.trans hsum.symm).eq
  rw [Int.emod_eq_of_lt hlt0 hlt1] at h3
  exact h3

theorem calcDeltaBar_eq_calcDeltas_witness :
    ∃ dArr dBar,
      (PolynomialEvaluationProofSystem.mk
        (NewPedersenCommitmentScheme (NewGStarModPrime 23 11 0 1) 2 [3])
        (NewPolynomial [6, 6, 1] (NewGStarModPrime 23 11 0 1).ZModOrder)
        (NewGStarModPrime 23 11 0 1) (NewGStarModPrime 23 11 0 1).ZModOrder 1).calcDeltas
          [5, 3] [7, 4] = some dArr ∧
      (PolynomialEvaluationProofSystem.mk
        (NewPedersenCommitmentScheme (NewGStarModPrime 23 11 0 1) 2 [3])
        (NewPolynomial [6, 6, 1] (NewGStarModPrime 23 11 0 1).ZModOrder)
        (NewGStarModPrime 23 11 0 1) (NewGStarModPrime 23 11 0 1).ZModOrder 1).calcDeltaBar
          (((List.range (1 + 1)).map
            (fun i => (coeffAt [5, 3] i * 9 + coeffAt [7, 4] i) % 11)).map some) 9
        = some dBar ∧
      dBar = (∑ i in Finset.range (1 + 1), coeffAt dArr i * 9 ^ i
          + evalAt [6, 6, 1] 5 * 9 ^ (1 + 1)) % 11 :=
  calcDeltaBar_eq_calcDeltas
    (PolynomialEvaluationProofSystem.mk
      (NewPedersenCommitmentScheme (NewGStarModPrime 23 11 0 1) 2 [3])
      (NewPolynomial [6, 6, 1] (NewGStarModPrime 23 11 0 1).ZModOrder)
      (NewGStarModPrime 23 11 0 1) (NewGStarModPrime 23 11 0 1).ZModOrder 1)
    2 [5, 3] [7, 4] 5 9 (by show Nat.Prime 11; norm_num) rfl (by decide) rfl log2_two.symm
    (by decide) rfl rfl
    (fun i hi => by
      have hi2 : i < 2 := hi
      interval_cases i <;> decide)

end crypto
namespace crypto

/-- Modulo o above 1, powers of an element g with `g^p = 1`, p prime, g not 1, agree only for
exponents that agree modulo p. -/
theorem modEq_of_pow_modEq (o g : Int) (p : Nat) (hp : p.Prime) (ho : 1 < o)
    (hg : g ^ p ≡ 1 [ZMOD o]) (hg1 : ¬ g ≡ 1 [ZMOD o]) (a b : Nat)
    (h : g ^ a ≡ g ^ b [ZMOD o]) : a ≡ b [MOD p] := by
  have hopos : 0 ≤ o := by omega
  lift o to ℕ using hopos
  haveI : Fact p.Prime := ⟨hp⟩
  have hx : ((g : ZMod o)) ^ p = 1 := by
    have := (ZMod.intCast_eq_intCast_iff (g ^ p) 1 o).2 hg
    simpa using this
  have hxv : ((Units.ofPowEqOne (g : ZMod o) p hx hp.ne_zero : (ZMod o)ˣ) : ZMod o) = g := rfl
  have hx1 : Units.ofPowEqOne (g : ZMod o) p hx hp.ne_zero ≠ 1 := by
    intro h1
    apply hg1
    have h2 := congrArg Units.val h1
    rw [hxv] at h2
    have h3 : ((g : ZMod o)) = ((1 : Int) : ZMod o) := by simpa using h2
    exact (ZMod.intCast_eq_intCast_iff g 1 o).1 h3
  have hxp : (Units.ofPowEqOne (g : ZMod o) p hx hp.ne_zero) ^ p = 1 := by
    apply Units.ext
    rw [Units.val_pow_eq_pow_val, hxv, hx]
    rfl
  have hord := orderOf_eq_prime hxp hx1
  have hpow : (Units.ofPowEqOne (g : ZMod o) p hx hp.ne_zero) ^ a
      = (Units.ofPowEqOne (g : ZMod o) p hx hp.ne_zero) ^ b := by
    apply Units.ext
    rw [Units.val_pow_eq_pow_val, Units.val_pow_eq_pow_val, hxv]
    have := (ZMod.intCast_eq_intCast_iff (g ^ a) (g ^ b) o).2 h
    simpa using this
  have := pow_eq_pow_iff_modEq.mp hpow
  rwa [hord] at this

/-- Modulo o above 1, an element with `g^p = 1` for a positive p can be cancelled. -/
theorem mul_left_cancel_modEq (o g : Int) (p : Nat) (hp0 : p ≠ 0)
    (hg : g ^ p ≡ 1 [ZMOD o]) (x y : Int) (h : g * x ≡ g * y [ZMOD o]) : x ≡ y [ZMOD o] := by
  obtain ⟨k, rfl⟩ : ∃ k, p = k + 1 := ⟨p - 1, by omega⟩
  have h1 := (Int.ModEq.refl (g ^ k)).mul h
  have e1 : g ^ k * (g * x) = g ^ (k + 1) * x := by rw [pow_succ]; ring
  have e2 : g ^ k * (g * y) = g ^ (k + 1) * y := by rw [pow_succ]; ring
  rw [e1, e2] at h1
  have h2 := (hg.mul_right x).symm.trans (h1.trans (hg.mul_right y))
  simpa using h2

/-- Two commitments with randomness exponents that agree modulo p are equal exactly when the
message exponents agree modulo p, for generators of order p and a message generator that is
not 1. -/
theorem cmt_eq_iff (o p gr gm a b a2 b2 : Int) (hp : Nat.Prime p.toNat) (ho : 1 < o)
    (hgr : gr ^ p.toNat ≡ 1 [ZMOD o]) (hgm : gm ^ p.toNat ≡ 1 [ZMOD o])
    (hgm1 : ¬ gm ≡ 1 [ZMOD o])
    (ha : 0 ≤ a) (hb : 0 ≤ b) (ha2 : 0 ≤ a2) (hb2 : 0 ≤ b2) (h1 : a ≡ a2 [ZMOD p]) :
    cmt o gr gm a b = cmt o gr gm a2 b2 ↔ b ≡ b2 [ZMOD p] := by
  have hp2 := hp.two_le
  have hp0 : 0 ≤ p := by omega
  constructor
  · intro h
    have h2 : gr ^ a.toNat * gm ^ b.toNat ≡ gr ^ a2.toNat * gm ^ b2.toNat [ZMOD o] := h
    have h3 : gr ^ a2.toNat ≡ gr ^ a.toNat [ZMOD o] :=
      (pow_toNat_modEq gr o p hgr hp0 ha ha2 h1).symm
    have h4 : gr ^ a.toNat * gm ^ b.toNat ≡ gr ^ a.toNat * gm ^ b2.toNat [ZMOD o] :=
      h2.trans (h3.mul_right _)
    have hgra : (gr ^ a.toNat) ^ p.toNat ≡ 1 [ZMOD o] := by
      rw [← pow_mul, mul_comm, pow_mul]
      simpa using hgr.pow a.toNat
    have h5 := mul_left_cancel_modEq o (gr ^ a.toNat) p.toNat (by omega) hgra _ _ h4
    have h6 := modEq_of_pow_modEq o gm p.toNat hp ho hgm hgm1 _ _ h5
    have h7 := (Int.natCast_modEq_iff).mpr h6
    rwa [Int.toNat_of_nonneg hb, Int.toNat_of_nonneg hb2, Int.toNat_of_nonneg hp0] at h7
  · intro h
    exact cmt_congr o p gr gm a b a2 b2 hp0 hgr hgm ha hb ha2 hb2 h1 h

/-- Verify on a transcript whose entries are the commitments and responses of the protocol:
the two checking loops pass, and the result is the last comparison, of the product `left`, a
commitment to the sums of `T j * ch^j` and `Dl j * ch^j`, with `Commit(tBar, dBar)`. -/
theorem Verify_decide (ps : PolynomialEvaluationProofSystem) (gm : Int)
    (sha256 : List Nat → List Nat) (vote : String)
    (cArr cfArr cdArr cfuArr fBar rBar xiBar : List Int) (tBar c ch : Int)
    (R U S F T Dl Xi FU fB rB xB : Nat → Int)
    (hG : ps.gStarModPr = ps.CommScheme.G) (hHm : ps.CommScheme.Hm = [gm])
    (hz : ps.zModPr.Modulus = ps.CommScheme.G.Order)
    (hp : 1 < ps.zModPr.Modulus) (ho : 1 < ps.CommScheme.G.Modulus)
    (hgr : ps.CommScheme.Hr ^ ps.zModPr.Modulus.toNat ≡ 1 [ZMOD ps.CommScheme.G.Modulus])
    (hgm : gm ^ ps.zModPr.Modulus.toNat ≡ 1 [ZMOD ps.CommScheme.G.Modulus])
    (hch : ps.generateChallenge sha256 vote [[c, commToV], cArr, cfArr, cdArr, cfuArr]
      = some ch)
    (hch0 : 0 ≤ ch)
    (hC : ∀ i, i < ps.d + 1 →
      (c :: cArr)[i]? = some (cmt ps.CommScheme.G.Modulus ps.CommScheme.Hr gm (R i) (U i)))
    (hCf : ∀ i, i < ps.d + 1 →
      cfArr[i]? = some (cmt ps.CommScheme.G.Modulus ps.CommScheme.Hr gm (S i) (F i)))
    (hCd : ∀ i, i < ps.d + 1 →
      cdArr[i]? = some (cmt ps.CommScheme.G.Modulus ps.CommScheme.Hr gm (T i) (Dl i)))
    (hCfu : ∀ i, i < ps.d →
      cfuArr[i]? = some (cmt ps.CommScheme.G.Modulus ps.CommScheme.Hr gm (Xi i) (FU i)))
    (hfB : ∀ i, i < ps.d + 1 → fBar[i]? = some (fB i))
    (hrB : ∀ i, i < ps.d + 1 → rBar[i]? = some (rB i))
    (hxB : ∀ i, i < ps.d → xiBar[i]? = some (xB i))
    (hR : ∀ i, 0 ≤ R i) (hU : ∀ i, 0 ≤ U i) (hS : ∀ i, 0 ≤ S i) (hF : ∀ i, 0 ≤ F i)
    (hT : ∀ i, 0 ≤ T i) (hDl : ∀ i, 0 ≤ Dl i) (hXi : ∀ i, 0 ≤ Xi i) (hFU : ∀ i, 0 ≤ FU i)
    (hfBr : ∀ i, 0 ≤ fB i ∧ fB i ≤ ps.zModPr.Modulus)
    (hrBr : ∀ i, 0 ≤ rB i ∧ rB i ≤ ps.zModPr.Modulus)
    (hxBr : ∀ i, 0 ≤ xB i ∧ xB i ≤ ps.zModPr.Modulus)
    (htBr : 0 ≤ tBar ∧ tBar ≤ ps.zModPr.Modulus)
    (hfBc : ∀ i, fB i ≡ U i * ch + F i [ZMOD ps.zModPr.Modulus])
    (hrBc : ∀ i, rB i ≡ R i * ch + S i [ZMOD ps.zModPr.Modulus])
    (hxBc : ∀ i, xB i ≡ R (i + 1) * ch - fB i * R i + Xi i [ZMOD ps.zModPr.Modulus])
    (hFUc : ∀ i, FU i ≡ F i * U i [ZMOD ps.zModPr.Modulus])
    (hU1c : ∀ i, U (i + 1) ≡ U i * U i [ZMOD ps.zModPr.Modulus])
    (dBar : Int) (hd1 : ps.calcDeltaBar (fBar.map some) ch = some dBar)
    (hd2 : 0 ≤ dBar ∧ dBar ≤ ps.zModPr.Modulus) :
    ∃ A2 B2, 0 ≤ A2 ∧ 0 ≤ B2 ∧
      A2 ≡ ∑ j in Finset.range (ps.d + 1), T j * ch ^ j [ZMOD ps.zModPr.Modulus] ∧
      B2 ≡ ∑ j in Finset.range (ps.d + 1), Dl j * ch ^ j [ZMOD ps.zModPr.Modulus] ∧
      ps.Verify sha256
        { CArr := cArr.map some, CfArr := cfArr.map some, CdArr := cdArr.map some,
          CfuArr := cfuArr.map some, FBarArr := fBar.map some, RBarArr := rBar.map some,
          TBar := some tBar, XiBarArr := xiBar.map some } c vote
        = some (decide (cmt ps.CommScheme.G.Modulus ps.CommScheme.Hr gm A2 B2
            = cmt ps.CommScheme.G.Modulus ps.CommScheme.Hr gm tBar dBar)) := by
  have ho0 : ps.CommScheme.G.Modulus ≠ 0 := by omega
  have h1 : (List.range (ps.d + 1)).foldlM
      (verifyStep1 ps
        { CArr := cArr.map some, CfArr := cfArr.map some, CdArr := cdArr.map some,
          CfuArr := cfuArr.map some, FBarArr := fBar.map some, RBarArr := rBar.map some,
          TBar := some tBar, XiBarArr := xiBar.map some }
        ((c :: cArr).map (fun c => ps.gStarModPr.Exp c ch)) cfArr) true = some true := by
    apply foldlM_range_true
    intro i hi
    exact verifyStep1_true ps gm _ fBar rBar (c :: cArr) cfArr ch i (R i) (U i) (S i) (F i)
      (fB i) (rB i) hG hHm hz hp ho hgr hgm hch0 rfl rfl (hC i hi) (hCf i hi) (hfB i hi)
      (hrB i hi) (hR i) (hU i) (hS i) (hF i) (hfBr i) (hrBr i) (hfBc i) (hrBc i)
  have h2 : (List.range ps.d).foldlM
      (verifyStep2 ps
        { CArr := cArr.map some, CfArr := cfArr.map some, CdArr := cdArr.map some,
          CfuArr := cfuArr.map some, FBarArr := fBar.map some, RBarArr := rBar.map some,
          TBar := some tBar, XiBarArr := xiBar.map some }
        (c :: cArr) ((c :: cArr).map (fun c => ps.gStarModPr.Exp c ch)) cfuArr) true
      = some true := by
    apply foldlM_range_true
    intro i hi
    exact verifyStep2_true ps gm _ fBar xiBar (c :: cArr) cfuArr ch i (R i) (U i) (R (i + 1))
      (U (i + 1)) (Xi i) (FU i) (F i) (fB i) (xB i) hG hHm hz hp ho hgr hgm hch0 rfl rfl
      (hC i (by omega)) (hC (i + 1) (by omega)) (hCfu i hi) (hfB i (by omega)) (hxB i hi)
      (hR i) (hU i) (hR _) (hU _) (hXi i) (hFU i) (hxBr i) (hfBc i) (hxBc i) (hFUc i) (hU1c i)
  obtain ⟨A2, B2, hA2, hB2, hl1, hl2, hl3⟩ := verifyLeft_spec ps ps.CommScheme.Hr gm cdArr T Dl
    ch hp (by rw [hG]; exact ho) hT hDl (by rw [hG]; exact hCd)
  rw [hG] at hl1
  have hcommit := Commit_one ps.CommScheme gm tBar dBar hHm ho0 (by rw [← hz]; exact htBr)
    (by rw [← hz]; exact hd2)
  refine ⟨A2, B2, hA2, hB2, hl2, hl3, ?_⟩
  rw [PolynomialEvaluationProofSystem.Verify]
  simp only [derefAll_map_some, Option.some_bind, hch, h1, h2, hl1, hd1, if_true, hcommit]

/-- Generate followed by Verify on a proof system whose group and ring are those of its
commitment scheme, whose polynomial is over the ring of the exponents and has a trimmed
coefficient list of degree D below `2^(d+1)`, for any u in [1, p), a root or not, and a
message generator that is not 1: Generate returns a transcript, and Verify on it returns
whether p divides `Phi(u) * ch^(d+1)`, ch being the challenge. -/
theorem Generate_Verify_general (ps : PolynomialEvaluationProofSystem) (gm u r : Int)
    (sha256 : List Nat → List Nat) (rnd : Nat → Int → Int) (vote : String) (D : Nat)
    (hG : ps.gStarModPr = ps.CommScheme.G) (hHm : ps.CommScheme.Hm = [gm])
    (hz : ps.zModPr.Modulus = ps.CommScheme.G.Order)
    (hzp : ps.Polynomial.ZModPr.Modulus = ps.zModPr.Modulus)
    (hp : Nat.Prime ps.zModPr.Modulus.toNat) (ho : 1 < ps.CommScheme.G.Modulus)
    (hgr : ps.CommScheme.Hr ^ ps.zModPr.Modulus.toNat ≡ 1 [ZMOD ps.CommScheme.G.Modulus])
    (hgm : gm ^ ps.zModPr.Modulus.toNat ≡ 1 [ZMOD ps.CommScheme.G.Modulus])
    (hgm1 : ¬ gm ≡ 1 [ZMOD ps.CommScheme.G.Modulus])
    (htrim : trim ps.Polynomial.Coeffs = some ps.Polynomial.Coeffs)
    (hD : ps.Polynomial.Coeffs.length = D + 1) (hDd : D < 2 ^ (ps.d + 1))
    (hu : 1 ≤ u ∧ u < ps.zModPr.Modulus)
    (hr : 0 ≤ r ∧ r < ps.zModPr.Modulus)
    (hrnd : ∀ k, 0 < rnd k ps.zModPr.Modulus ∧ rnd k ps.zModPr.Modulus < ps.zModPr.Modulus) :
    ∃ proof cArr cfArr cdArr cfuArr ch,
      ps.Generate sha256 rnd u r (cmt ps.CommScheme.G.Modulus ps.CommScheme.Hr gm r u) vote
        = some proof ∧
      proof.CArr = cArr.map some ∧ proof.CfArr = cfArr.map some ∧
      proof.CdArr = cdArr.map some ∧ proof.CfuArr = cfuArr.map some ∧
      ps.generateChallenge sha256 vote
        [[cmt ps.CommScheme.G.Modulus ps.CommScheme.Hr gm r u, commToV], cArr, cfArr, cdArr,
          cfuArr] = some ch ∧
      (0 ≤ ch ∧ ch < ps.zModPr.Modulus) ∧
      ps.Verify sha256 proof (cmt ps.CommScheme.G.Modulus ps.CommScheme.Hr gm r u) vote
        = some (decide (ps.zModPr.Modulus
            ∣ evalAt ps.Polynomial.Coeffs u * ch ^ (ps.d + 1))) := by
  have hp2 := hp.two_le
  have hp1 : 1 < ps.zModPr.Modulus := by omega
  have hp0 : 0 < ps.zModPr.Modulus := by omega
  have hpne : ps.zModPr.Modulus ≠ 0 := by omega
  have hone : ps.CommScheme.G.Modulus ≠ 0 := by omega
  have hDeg : ps.Polynomial.Degree = some D := by
    rw [Degree_of_trim _ htrim, hD]
    rfl
  -- the entries of the slices of random elements, of uArr and of the responses
  have hRnd : ∀ k, 0 ≤ ps.zModPr.RandomElement rnd k ∧
      ps.zModPr.RandomElement rnd k ≤ ps.CommScheme.G.Order := by
    intro k
    rw [← hz]
    have := hrnd k
    simp only [ZModPrime.RandomElement, RandInt]
    omega
  have hRr : ∀ i, 0 ≤ (if i = 0 then r else ps.zModPr.RandomElement rnd (ps.d + 4 * i)) ∧
      (if i = 0 then r else ps.zModPr.RandomElement rnd (ps.d + 4 * i))
        ≤ ps.CommScheme.G.Order := by
    intro i
    split_ifs
    · rw [← hz]
      omega
    · exact hRnd _
  have hUr : ∀ i, 0 ≤ uPow ps.zModPr.Modulus u i ∧
      uPow ps.zModPr.Modulus u i ≤ ps.CommScheme.G.Order := by
    intro i
    rw [← hz]
    have := uPow_nonneg ps.zModPr.Modulus u hp0 ⟨by omega, hu.2⟩ i
    omega
  have hu0 : u % ps.zModPr.Modulus ≠ 0 := by
    rw [Int.emod_eq_of_lt (by omega) hu.2]
    omega
  have huArr := uArrFrom_eq ps.zModPr hpne ps.d u
  have hUget := getElem?_range_map (uPow ps.zModPr.Modulus u) (ps.d + 1)
  have hRget := getElem?_range_map
    (fun i => if i = 0 then r else ps.zModPr.RandomElement rnd (ps.d + 4 * i)) (ps.d + 1)
  have hFget := getElem?_range_map
    (fun i => ps.zModPr.RandomElement rnd (ps.d + 4 * i + 1)) (ps.d + 1)
  have hSget := getElem?_range_map
    (fun i => ps.zModPr.RandomElement rnd (ps.d + 4 * i + 2)) (ps.d + 1)
  have hTget := getElem?_range_map
    (fun i => ps.zModPr.RandomElement rnd (ps.d + 4 * i + 3)) (ps.d + 1)
  have hXiget := getElem?_range_map (fun i => ps.zModPr.RandomElement rnd i) ps.d
  -- the commitments
  obtain ⟨cArr, hcArr, _, hcArrE⟩ := genCArr_spec ps gm _ _ _ _ hHm hone hRget hUget hRr hUr
  obtain ⟨cfArr, hcfArr, _, hcfArrE⟩ := genCfArr_spec ps gm _ _ _ _ hHm hone hSget hFget
    (fun i => hRnd _) (fun i => hRnd _)
  have hcd0 := calcDeltas_general ps D
    ((List.range (ps.d + 1)).map (uPow ps.zModPr.Modulus u))
    ((List.range (ps.d + 1)).map (fun i => ps.zModPr.RandomElement rnd (ps.d + 4 * i + 1)))
  have hcd1 : ∀ (fBar : List Int) (ch : Int),
      (∀ i, i < ps.d + 1 → coeffAt fBar i
        ≡ ps.zModPr.RandomElement rnd (ps.d + 4 * i + 1) + uPow ps.zModPr.Modulus u i * ch
          [ZMOD ps.zModPr.Modulus]) →
      ∃ dArr, ps.calcDeltas ((List.range (ps.d + 1)).map (uPow ps.zModPr.Modulus u))
          ((List.range (ps.d + 1)).map
            (fun i => ps.zModPr.RandomElement rnd (ps.d + 4 * i + 1))) = some dArr ∧
        dArr.length = ps.d + 2 ∧ (∀ x ∈ dArr, 0 ≤ x ∧ x < ps.zModPr.Modulus) ∧
        ∑ i in Finset.range (ps.d + 1), coeffAt dArr i * ch ^ i
            + evalAt ps.Polynomial.Coeffs u * ch ^ (ps.d + 1)
          ≡ deltaSum ps.Polynomial.Coeffs D ch fBar (ps.d + 1) 0 1 [ZMOD ps.zModPr.Modulus] := by
    intro fBar ch hfBar
    have := hcd0 fBar u ch (by rw [hzp]; exact hp) htrim hD hDd (by simp) (by simp)
      (fun i hi => by
        rw [hzp, coeffAt_of_getElem? _ _ _ (hUget i hi)]
        exact uPow_modEq _ _ i)
      (fun i hi => by
        have hi2 : i < ps.d + 1 := by simpa using hi
        rw [hzp, coeffAt_of_getElem? _ _ _ (hUget i hi2)]
        exact uPow_ne _ _ hp hu0 i)
      (fun i hi => by
        rw [hzp, coeffAt_of_getElem? _ _ _ (hUget i hi), coeffAt_of_getElem? _ _ _ (hFget i hi)]
        exact hfBar i hi)
    rw [hzp] at this
    obtain ⟨dArr, h1, h2, h3, _, h5⟩ := this
    exact ⟨dArr, h1, h2, h3, h5⟩
  obtain ⟨dArr, hdArr, hdlen, hdrange, _⟩ := hcd1
    ((List.range (ps.d + 1)).map (fun i => ps.zModPr.RandomElement rnd (ps.d + 4 * i + 1))) 0
    (fun i hi => by
      rw [coeffAt_of_getElem? _ _ _ (hFget i hi)]
      simp)
  have hDlr := coeffAt_range dArr _ hp0 hdrange
  obtain ⟨cdArr, hcdArr, _, hcdArrE⟩ := genCdArr_spec ps gm _ dArr _ (coeffAt dArr) hHm hone
    hTget (fun i hi => getElem?_coeffAt dArr i (by omega)) (fun i => hRnd _)
    (fun i => by
      rw [← hz]
      have := hDlr i
      omega)
  obtain ⟨cfuArr, hcfuArr, _, hcfuArrE⟩ := genCfuArr_spec ps gm _ _ _ _ _ _ hHm hone hp0 hz
    hXiget hFget hUget (fun i => hRnd _)
  -- the challenge and the responses
  obtain ⟨ch, hch, hch0, hch1⟩ := hashToChallenge_eq sha256
    [[cmt ps.CommScheme.G.Modulus ps.CommScheme.Hr gm r u, commToV], cArr, cfArr, cdArr, cfuArr]
    vote ps.zModPr.Modulus hp0
  obtain ⟨fBarArr, hfBarArr, hfBlen, hfBarArrE⟩ := genBarArr_spec ps _ _ _ _ ch hpne hUget hFget
  obtain ⟨rBarArr, hrBarArr, _, hrBarArrE⟩ := genBarArr_spec ps _ _ _ _ ch hpne hRget hSget
  obtain ⟨tBar, htBar, htBar0, htBar1, htBarc⟩ := genTBar_spec ps _ _ ch hp1 hTget
  obtain ⟨xiBarArr, hxiBarArr, _, hxiBarArrE⟩ := genXiBarArr_spec ps _ fBarArr _ _ _ _ ch hpne
    hRget hfBarArrE hXiget
  refine ⟨{ CArr := cArr.map some, CfArr := cfArr.map some, CdArr := cdArr.map some,
            CfuArr := cfuArr.map some, FBarArr := fBarArr.map some,
            RBarArr := rBarArr.map some, TBar := some tBar,
            XiBarArr := xiBarArr.map some }, cArr, cfArr, cdArr, cfuArr, ch, ?_, rfl, rfl, rfl,
    rfl, hch, ⟨hch0, hch1⟩, ?_⟩
  · rw [PolynomialEvaluationProofSystem.Generate]
    simp only [huArr, Option.some_bind, hcArr, hcfArr, hdArr, hcdArr, hcfuArr,
      PolynomialEvaluationProofSystem.generateChallenge, hch, hfBarArr, hrBarArr, htBar,
      hxiBarArr]
  · -- the value of calcDeltaBar
    obtain ⟨dArr2, hdArr2, _, _, hsum⟩ := hcd1 fBarArr ch (fun i hi => by
      rw [coeffAt_of_getElem? _ _ _ (hfBarArrE i hi)]
      refine (Int.mod_modEq _ _).trans ?_
      rw [add_comm]
      exact (Int.ModEq.refl _).add (Int.mod_modEq _ _))
    rw [hdArr] at hdArr2
    have e := Option.some.inj hdArr2
    subst e
    obtain ⟨dBar, hdBar, hdBar0, hdBar1⟩ := calcDeltaBarTreelike_total ps D hDeg hp0 fBarArr ch
      (ps.d + 1) 0 1 0 (by omega) (by omega) (le_refl _) (by omega)
    have hdBarc := calcDeltaBarTreelike_eq ps D hDeg hpne fBarArr ch (ps.d + 1) 0 1 0 dBar hdBar
    rw [zero_add] at hdBarc
    obtain ⟨A2, B2, hA2, hB2, hA2c, hB2c, hver⟩ := Verify_decide ps gm sha256 vote cArr cfArr cdArr cfuArr fBarArr rBarArr xiBarArr tBar
      _ ch _ _ _ _ _ (coeffAt dArr) _ _ _ _ _ hG hHm hz hp1 ho hgr hgm hch hch0
      (fun i hi => by
        cases i with
        | zero => simp [uPow]
        | succ i =>
          rw [List.getElem?_cons_succ]
          exact hcArrE i (by omega))
      hcfArrE hcdArrE hcfuArrE hfBarArrE hrBarArrE hxiBarArrE
      (fun i => (hRr i).1) (fun i => (hUr i).1) (fun i => (hRnd _).1) (fun i => (hRnd _).1)
      (fun i => (hRnd _).1) (fun i => (hDlr i).1) (fun i => (hRnd _).1)
      (fun i => Int.emod_nonneg _ hpne)
      (fun i => ⟨Int.emod_nonneg _ hpne, le_of_lt (Int.emod_lt_of_pos _ hp0)⟩)
      (fun i => ⟨Int.emod_nonneg _ hpne, le_of_lt (Int.emod_lt_of_pos _ hp0)⟩)
      (fun i => ⟨Int.emod_nonneg _ hpne, le_of_lt (Int.emod_lt_of_pos _ hp0)⟩)
      ⟨htBar0, le_of_lt htBar1⟩
      (fun i => (Int.mod_modEq _ _).trans ((Int.mod_modEq _ _).add_right _))
      (fun i => (Int.mod_modEq _ _).trans ((Int.mod_modEq _ _).add_right _))
      (fun i => by
        refine (Int.mod_modEq _ _).trans ?_
        refine Int.ModEq.add_right _ ?_
        refine (Int.mod_modEq _ _).trans ?_
        rw [sub_eq_add_neg]
        exact (Int.mod_modEq _ _).add (sub_mod_modEq _ _))
      (fun i => Int.mod_modEq _ _)
      (fun i => Int.mod_modEq _ _)
      dBar hdBar ⟨hdBar0, hdBar1⟩
    rw [hver]
    congr 1
    apply decide_eq_decide.mpr
    rw [cmt_eq_iff _ ps.zModPr.Modulus _ _ _ _ _ _ hp ho hgr hgm hgm1 hA2 hB2 htBar0 hdBar0
      (hA2c.trans htBarc.symm)]
    constructor
    · intro h
      have h2 := (hB2c.symm.trans (h.trans (hdBarc.trans hsum.symm))).dvd
      simpa using h2
    · intro h
      refine hB2c.trans (Int.ModEq.trans ?_ (hsum.trans hdBarc.symm))
      have h3 : ps.zModPr.Modulus ∣ (∑ i in Finset.range (ps.d + 1), coeffAt dArr i * ch ^ i
          + evalAt ps.Polynomial.Coeffs u * ch ^ (ps.d + 1))
          - ∑ i in Finset.range (ps.d + 1), coeffAt dArr i * ch ^ i := by
        simpa using h
      exact (Int.modEq_iff_dvd).mpr h3

/-- C26: soundness counter-test of the polynomial-evaluation proof. For every commitment
scheme with one message generator over a group with modulus o above 1 and prime order p,
whose generators h satisfy `h^p = 1 (mod o)`, the message generator not being 1, every
polynomial over the ring modulo p with a trimmed coefficient list of degree at least 1, every
u in `[1, p)` at which the polynomial is not 0 modulo p, every r in `[0, p)`, every outcome of
the random draws, every vote and every hash function: Generate returns a transcript for u and
`c = Commit(r; u)`, and Verify on it returns true if the challenge it derives is 0 and false
otherwise. -/
theorem PolynomialEvaluation_nonmember_rejected (commScheme : PedersenCommitmentScheme)
    (poly : Polynomial) (gm u r : Int) (sha256 : List Nat → List Nat)
    (rnd : Nat → Int → Int) (vote : String)
    (ho : 1 < commScheme.G.Modulus)
    (hp : Nat.Prime commScheme.G.Order.toNat)
    (hHm : commScheme.Hm = [gm])
    (hgr : commScheme.Hr ^ commScheme.G.Order.toNat ≡ 1 [ZMOD commScheme.G.Modulus])
    (hgm : gm ^ commScheme.G.Order.toNat ≡ 1 [ZMOD commScheme.G.Modulus])
    (hgm1 : ¬ gm ≡ 1 [ZMOD commScheme.G.Modulus])
    (hring : poly.ZModPr.Modulus = commScheme.G.Order)
    (htrim : trim poly.Coeffs = some poly.Coeffs)
    (hdeg : 2 ≤ poly.Coeffs.length)
    (hu : 1 ≤ u ∧ u < commScheme.G.Order)
    (hnroot : ¬ evalAt poly.Coeffs u ≡ 0 [ZMOD commScheme.G.Order])
    (hr : 0 ≤ r ∧ r < commScheme.G.Order)
    (hrnd : ∀ k, 0 < rnd k commScheme.G.Order ∧ rnd k commScheme.G.Order < commScheme.G.Order) :
    ∃ ps c proof cArr cfArr cdArr cfuArr ch,
      NewPolynomialEvaluationProofSystem commScheme poly = some ps ∧
      commScheme.Commit r [u] = some c ∧
      ps.Generate sha256 rnd u r c vote = some proof ∧
      proof.CArr = cArr.map some ∧ proof.CfArr = cfArr.map some ∧
      proof.CdArr = cdArr.map some ∧ proof.CfuArr = cfuArr.map some ∧
      ps.generateChallenge sha256 vote [[c, commToV], cArr, cfArr, cdArr, cfuArr] = some ch ∧
      ps.Verify sha256 proof c vote = some (decide (ch = 0)) := by
  have hD : poly.Coeffs.length = (poly.Coeffs.length - 1) + 1 := by omega
  have hne : poly.Coeffs.length - 1 ≠ 0 := by omega
  have hp2 := hp.two_le
  have hp0 : 0 ≤ commScheme.G.Order := by omega
  have hprime : Prime commScheme.G.Order := by
    have := Nat.prime_iff_prime_int.mp hp
    rwa [Int.toNat_of_nonneg hp0] at this
  obtain ⟨proof, cArr, cfArr, cdArr, cfuArr, ch, h1, h2, h3, h4, h5, h6, h7, h8⟩ :=
    Generate_Verify_general
      { CommScheme := commScheme, Polynomial := poly, gStarModPr := commScheme.G,
        zModPr := commScheme.G.ZModOrder, d := Nat.log2 (poly.Coeffs.length - 1) }
      gm u r sha256 rnd vote (poly.Coeffs.length - 1) rfl hHm rfl hring hp ho hgr hgm hgm1
      htrim hD Nat.lt_log2_self hu hr hrnd
  refine ⟨_, _, proof, cArr, cfArr, cdArr, cfuArr, ch, ?_, ?_, h1, h2, h3, h4, h5, h6, ?_⟩
  · simp only [NewPolynomialEvaluationProofSystem, Degree_of_trim poly htrim, Option.some_bind,
      if_neg hne]
  · exact Commit_one commScheme gm r u hHm (by omega) ⟨hr.1, le_of_lt hr.2⟩
      ⟨by omega, le_of_lt hu.2⟩
  · rw [h8]
    congr 1
    apply decide_eq_decide.mpr
    simp only [GStarModPrime.ZModOrder, NewZModPrime] at h7 ⊢
    constructor
    · intro hdvd
      rcases hprime.dvd_or_dvd hdvd with h | h
      · exact absurd ((Int.modEq_zero_iff_dvd).mpr h) hnroot
      · have h9 := hprime.dvd_of_dvd_pow h
        exact Int.eq_zero_of_dvd_of_nonneg_of_lt h7.1 h7.2 h9
    · intro hz
      rw [hz, zero_pow (by omega), mul_zero]
      exact dvd_zero _

/-- The instance of C26 at the group of order 11 modulo 23 with the generators 2 and 3, the
polynomial `6 + 6 X + X^2` modulo 11, whose value at u = 5 is 6, and r = 4. -/
theorem PolynomialEvaluation_nonmember_rejected_witness :
    ∃ ps c proof cArr cfArr cdArr cfuArr ch,
      NewPolynomialEvaluationProofSystem
          (NewPedersenCommitmentScheme (NewGStarModPrime 23 11 0 1) 2 [3])
          (NewPolynomial [6, 6, 1] (NewGStarModPrime 23 11 0 1).ZModOrder) = some ps ∧
      (NewPedersenCommitmentScheme (NewGStarModPrime 23 11 0 1) 2 [3]).Commit 4 [5] = some c ∧
      ps.Generate (fun bs => [bs.length % 256]) (fun k _ => ((k % 5 : Nat) : Int) + 1) 5 4 c
        "yes" = some proof ∧
      proof.CArr = cArr.map some ∧ proof.CfArr = cfArr.map some ∧
      proof.CdArr = cdArr.map some ∧ proof.CfuArr = cfuArr.map some ∧
      ps.generateChallenge (fun bs => [bs.length % 256]) "yes"
        [[c, commToV], cArr, cfArr, cdArr, cfuArr] = some ch ∧
      ps.Verify (fun bs => [bs.length % 256]) proof c "yes" = some (decide (ch = 0)) :=
  PolynomialEvaluation_nonmember_rejected
    (NewPedersenCommitmentScheme (NewGStarModPrime 23 11 0 1) 2 [3])
    (NewPolynomial [6, 6, 1] (NewGStarModPrime 23 11 0 1).ZModOrder) 3 5 4
    (fun bs => [bs.length % 256]) (fun k _ => ((k % 5 : Nat) : Int) + 1) "yes"
    (by decide) (by show Nat.Prime 11; norm_num) rfl (by decide) (by decide) (by decide) rfl
    (by decide) (by decide) (by decide) (by decide) (by decide)
    (fun k => by
      have := Nat.mod_lt k (by decide : 0 < 5)
      simp only [NewPedersenCommitmentScheme, NewGStarModPrime]
      omega)

end crypto
namespace crypto

/-- A product `c * g^ch` modulo p determines the exponent ch in [0, q) when g has the prime
order q and c is invertible. -/
theorem mul_pow_ne_of_ne (p q c g ch ch2 : Int) (hq : Nat.Prime q.toNat) (hp1 : 1 < p)
    (hc : c ^ q.toNat ≡ 1 [ZMOD p]) (hg : g ^ q.toNat ≡ 1 [ZMOD p]) (hg1 : ¬ g ≡ 1 [ZMOD p])
    (hch : 0 ≤ ch ∧ ch < q) (hch2 : 0 ≤ ch2 ∧ ch2 < q) (hne : ch ≠ ch2) :
    c * (g ^ ch.toNat % p) % p ≠ c * (g ^ ch2.toNat % p) % p := by
  intro h
  have h1 : c * g ^ ch.toNat ≡ c * g ^ ch2.toNat [ZMOD p] := by
    have h2 : c * (g ^ ch.toNat % p) ≡ c * (g ^ ch2.toNat % p) [ZMOD p] := h
    exact (((Int.ModEq.refl c).mul (Int.mod_modEq _ _)).symm.trans h2).trans
      ((Int.ModEq.refl c).mul (Int.mod_modEq _ _))
  have h3 := mul_left_cancel_modEq p c q.toNat hq.ne_zero hc _ _ h1
  have h4 := modEq_of_pow_modEq p g q.toNat hq hp1 hg hg1 _ _ h3
  have h5 : ch.toNat % q.toNat = ch2.toNat % q.toNat := h4
  rw [Nat.mod_eq_of_lt (by omega), Nat.mod_eq_of_lt (by omega)] at h5
  omega

/-- A reduced product of powers of generators of order q has order dividing q. -/
theorem prod3_pow (p q g1 g2 g3 : Int) (a b c : Nat) (h1 : g1 ^ q.toNat ≡ 1 [ZMOD p])
    (h2 : g2 ^ q.toNat ≡ 1 [ZMOD p]) (h3 : g3 ^ q.toNat ≡ 1 [ZMOD p]) :
    (g1 ^ a * (g2 ^ b * (g3 ^ c * 1)) % p) ^ q.toNat ≡ 1 [ZMOD p] := by
  refine ((Int.mod_modEq _ _).pow _).trans ?_
  rw [mul_one, mul_pow, mul_pow, ← pow_mul, ← pow_mul, ← pow_mul, mul_comm a, mul_comm b,
    mul_comm c, pow_mul, pow_mul, pow_mul]
  have := ((h1.pow a).mul ((h2.pow b).mul (h3.pow c)))
  simpa using this

/-- C27, amended: substitution test of the preimage-equality proof. For every commitment
scheme in G_q with modulus p above 1, prime order q and two message generators, generators h
and election generator with `h^q = 1 (mod p)`, every voter (a, b) with a, b in `[0, q)`, r_d in
`[0, q)`, `d = Commit(r_d; a, b)`, `uHat = hHat^b mod p`, every outcome of the random draws,
every hash function: Generate returns a proof for (d, uHat, vote) on the challenge ch, and
Verify of that proof with any inputs (d2, uHat2, vote2), for which it derives the challenge
ch2, returns false whenever ch2 differs from ch and either the commitment is unchanged and
not 1, or the pseudonym is unchanged and not 1. -/
theorem PreimageEquality_substitution (commScheme : PedersenCommitmentScheme) (hHat : Int)
    (voter : Voter) (rd d uHat : Int) (sha256 : List Nat → List Nat) (rnd : Nat → Int → Int)
    (vote : String) (d2 uHat2 : Int) (vote2 : String)
    (hp1 : 1 < commScheme.G.Modulus)
    (hq : Nat.Prime commScheme.G.Order.toNat)
    (hlen : commScheme.Hm.length = 2)
    (hHr : commScheme.Hr ^ commScheme.G.Order.toNat ≡ 1 [ZMOD commScheme.G.Modulus])
    (hHm : ∀ h ∈ commScheme.Hm, h ^ commScheme.G.Order.toNat ≡ 1 [ZMOD commScheme.G.Modulus])
    (hhat : hHat ^ commScheme.G.Order.toNat ≡ 1 [ZMOD commScheme.G.Modulus])
    (ha : 0 ≤ voter.A ∧ voter.A < commScheme.G.Order)
    (hb : 0 ≤ voter.B ∧ voter.B < commScheme.G.Order)
    (hrd : 0 ≤ rd ∧ rd < commScheme.G.Order)
    (hrnd : ∀ k, 0 < rnd k commScheme.G.Order ∧ rnd k commScheme.G.Order < commScheme.G.Order)
    (hd : commScheme.Commit rd [voter.A, voter.B] = some d)
    (hu : commScheme.G.Exp hHat voter.B = some uHat)
    (halt : (d2 = d ∧ d ≠ 1) ∨ (uHat2 = uHat ∧ uHat ≠ 1)) :
    ∃ proof comm commHHat ch ch2,
      (NewPreimageEqualityProofSystem hHat commScheme).Generate sha256 rnd voter d rd uHat vote
        = some proof ∧
      proof.Comm = some comm ∧ proof.CommHHat = some commHHat ∧
      (NewPreimageEqualityProofSystem hHat commScheme).generateChallenge sha256 d uHat
        [comm, commHHat] vote = some ch ∧
      (NewPreimageEqualityProofSystem hHat commScheme).generateChallenge sha256 d2 uHat2
        [comm, commHHat] vote2 = some ch2 ∧
      (ch ≠ ch2 →
        (NewPreimageEqualityProofSystem hHat commScheme).Verify sha256 proof d2 uHat2 vote2
          = some false) := by
  obtain ⟨G, Hr, Hm⟩ := commScheme
  obtain ⟨p, q, pref, qref⟩ := G
  obtain ⟨a, b, u⟩ := voter
  simp only at hp1 hq hlen hHr hHm hhat ha hb hrd hrnd hd hu
  match Hm, hlen with
  | [h1, h2], _ =>
  have hq2 := hq.two_le
  have hp0 : p ≠ 0 := by omega
  have hq0 : 0 < q := by omega
  have hqne : q ≠ 0 := by omega
  have hqn : 0 ≤ q := by omega
  have hH1 := hHm h1 (by simp)
  have hH2 := hHm h2 (by simp)
  -- the commitment d and the pseudonym uHat
  rw [Commit_eq_of_le _ _ _ hp0 (by simp) ⟨hrd.1, le_of_lt hrd.2⟩
    (by simp; omega)] at hd
  simp only [List.zipWith_cons_cons, List.zipWith_nil_right, List.prod_cons, List.prod_nil,
    Option.some.injEq] at hd
  simp only [GStarModPrime.Exp, bigExp_of_nonneg _ _ hb.1, Option.some.injEq] at hu
  have hdq : d ^ q.toNat ≡ 1 [ZMOD p] := by
    rw [← hd]
    exact prod3_pow p q Hr h1 h2 _ _ _ hHr hH1 hH2
  have huq : uHat ^ q.toNat ≡ 1 [ZMOD p] := by
    rw [← hu]
    refine ((Int.mod_modEq _ _).pow _).trans ?_
    rw [← pow_mul, mul_comm, pow_mul]
    simpa using hhat.pow b.toNat
  have hd01 : 0 ≤ d ∧ d < p := by
    rw [← hd]
    exact ⟨Int.emod_nonneg _ hp0, Int.emod_lt_of_pos _ (by omega)⟩
  have hu01 : 0 ≤ uHat ∧ uHat < p := by
    rw [← hu]
    exact ⟨Int.emod_nonneg _ hp0, Int.emod_lt_of_pos _ (by omega)⟩
  have hne1 : ∀ x : Int, 0 ≤ x ∧ x < p → x ≠ 1 → ¬ x ≡ 1 [ZMOD p] := by
    intro x hx hx1 hcon
    have h5 : x % p = 1 % p := hcon
    rw [Int.emod_eq_of_lt hx.1 hx.2, Int.emod_eq_of_lt (by norm_num) hp1] at h5
    exact hx1 h5
  -- the random draws
  obtain ⟨hra0, hra1⟩ := hrnd 0
  obtain ⟨hrb0, hrb1⟩ := hrnd 1
  obtain ⟨hrs0, hrs1⟩ := hrnd 2
  have hcm1 : ∀ x y z : Int, 0 ≤ x → x < q → 0 ≤ y → y < q → 0 ≤ z → z < q →
      PedersenCommitmentScheme.Commit
        { G := { Modulus := p, Order := q, ModulusRef := pref, OrderRef := qref },
          Hr := Hr, Hm := [h1, h2] } x [y, z]
        = some ((Hr ^ x.toNat * (h1 ^ y.toNat * (h2 ^ z.toNat * 1))) % p) := by
    intro x y z hx0 hx1 hy0 hy1 hz0 hz1
    rw [Commit_eq_of_le _ _ _ hp0 (by simp) ⟨hx0, le_of_lt hx1⟩ (by simp; omega)]
    simp
  have hcommq := prod3_pow p q Hr h1 h2 (rnd 2 q).toNat (rnd 0 q).toNat (rnd 1 q).toNat
    hHr hH1 hH2
  have hchhq : (hHat ^ (rnd 1 q).toNat % p) ^ q.toNat ≡ 1 [ZMOD p] := by
    refine ((Int.mod_modEq _ _).pow _).trans ?_
    rw [← pow_mul, mul_comm, pow_mul]
    simpa using hhat.pow (rnd 1 q).toNat
  obtain ⟨ch, hch, hch0, hch1⟩ := hashToChallenge_eq sha256
    [[d, uHat], [Hr ^ (rnd 2 q).toNat * (h1 ^ (rnd 0 q).toNat * (h2 ^ (rnd 1 q).toNat * 1)) % p,
      hHat ^ (rnd 1 q).toNat % p]] vote q hq0
  obtain ⟨ch2, hch2, hch20, hch21⟩ := hashToChallenge_eq sha256
    [[d2, uHat2], [Hr ^ (rnd 2 q).toNat * (h1 ^ (rnd 0 q).toNat * (h2 ^ (rnd 1 q).toNat * 1)) % p,
      hHat ^ (rnd 1 q).toNat % p]] vote2 q hq0
  generalize hra : rnd 0 q = ra at hra0 hra1 hcommq hch hch2
  generalize hrb : rnd 1 q = rb at hrb0 hrb1 hcommq hchhq hch hch2
  generalize hrs : rnd 2 q = rs at hrs0 hrs1 hcommq hch hch2
  have hA0 : 0 ≤ (ra + a * ch % q) % q := Int.emod_nonneg _ hqne
  have hA1 : (ra + a * ch % q) % q < q := Int.emod_lt_of_pos _ hq0
  have hB0 : 0 ≤ (rb + b * ch % q) % q := Int.emod_nonneg _ hqne
  have hB1 : (rb + b * ch % q) % q < q := Int.emod_lt_of_pos _ hq0
  have hS0 : 0 ≤ (rs + rd * ch % q) % q := Int.emod_nonneg _ hqne
  have hS1 : (rs + rd * ch % q) % q < q := Int.emod_lt_of_pos _ hq0
  have hra' : 0 ≤ ra := le_of_lt hra0
  have hrb' : 0 ≤ rb := le_of_lt hrb0
  have hrs' : 0 ≤ rs := le_of_lt hrs0
  have e1 : Hr ^ ((rs + rd * ch % q) % q).toNat *
        (h1 ^ ((ra + a * ch % q) % q).toNat * (h2 ^ ((rb + b * ch % q) % q).toNat * 1)) % p
      = Hr ^ rs.toNat * (h1 ^ ra.toNat * (h2 ^ rb.toNat * 1)) % p * (d ^ ch.toNat % p) % p := by
    have l1 := pow_resp Hr p q rs rd ch hHr hqn hrs' hrd.1 hch0 hqne
    have l2 := pow_resp h1 p q ra a ch hH1 hqn hra' ha.1 hch0 hqne
    have l3 := pow_resp h2 p q rb b ch hH2 hqn hrb' hb.1 hch0 hqne
    have lhs := l1.mul (l2.mul (l3.mul (Int.ModEq.refl 1)))
    have hdm : d ≡ Hr ^ rd.toNat * (h1 ^ a.toNat * (h2 ^ b.toNat * 1)) [ZMOD p] := by
      rw [← hd]; exact Int.mod_modEq _ _
    have rhs : Hr ^ rs.toNat * (h1 ^ ra.toNat * (h2 ^ rb.toNat * 1)) % p * (d ^ ch.toNat % p)
        ≡ Hr ^ rs.toNat * (h1 ^ ra.toNat * (h2 ^ rb.toNat * 1))
          * (Hr ^ rd.toNat * (h1 ^ a.toNat * (h2 ^ b.toNat * 1))) ^ ch.toNat [ZMOD p] :=
      (Int.mod_modEq _ _).mul ((Int.mod_modEq _ _).trans (hdm.pow _))
    refine lhs.trans (Int.ModEq.trans ?_ rhs.symm)
    have : Hr ^ rs.toNat * (Hr ^ rd.toNat) ^ ch.toNat *
        (h1 ^ ra.toNat * (h1 ^ a.toNat) ^ ch.toNat *
          (h2 ^ rb.toNat * (h2 ^ b.toNat) ^ ch.toNat * 1))
        = Hr ^ rs.toNat * (h1 ^ ra.toNat * (h2 ^ rb.toNat * 1))
          * (Hr ^ rd.toNat * (h1 ^ a.toNat * (h2 ^ b.toNat * 1))) ^ ch.toNat := by ring
    rw [this]
  have e2 : hHat ^ ((rb + b * ch % q) % q).toNat % p
      = hHat ^ rb.toNat % p * (uHat ^ ch.toNat % p) % p := by
    have l3 := pow_resp hHat p q rb b ch hhat hqn hrb' hb.1 hch0 hqne
    have hum : uHat ≡ hHat ^ b.toNat [ZMOD p] := by
      rw [← hu]; exact Int.mod_modEq _ _
    have rhs : hHat ^ rb.toNat % p * (uHat ^ ch.toNat % p)
        ≡ hHat ^ rb.toNat * (hHat ^ b.toNat) ^ ch.toNat [ZMOD p] :=
      (Int.mod_modEq _ _).mul ((Int.mod_modEq _ _).trans (hum.pow _))
    exact l3.trans rhs.symm
  refine ⟨{ Comm := some (Hr ^ rs.toNat * (h1 ^ ra.toNat * (h2 ^ rb.toNat * 1)) % p),
            CommHHat := some (hHat ^ rb.toNat % p),
            RespA := some ((ra + a * ch % q) % q), RespB := some ((rb + b * ch % q) % q),
            RespS := some ((rs + rd * ch % q) % q) }, _, _, ch, ch2, ?_, rfl, rfl, hch, hch2,
    fun hne => ?_⟩
  · simp only [NewPreimageEqualityProofSystem, PreimageEqualityProofSystem.Generate,
      PreimageEqualityProofSystem.generateChallenge,
      ZModPrime.RandomElement, RandInt, GStarModPrime.ZModOrder, NewZModPrime, hra, hrb, hrs,
      hcm1 _ _ _ hrs' hrs1 hra' hra1 hrb' hrb1, GStarModPrime.Exp,
      bigExp_of_nonneg _ _ hrb', Option.bind_eq_bind, Option.some_bind, hch,
      ZModPrime.Mul, ZModPrime.Add, bigMod_of_ne _ hqne]
  · simp only [NewPreimageEqualityProofSystem, PreimageEqualityProofSystem.Verify,
      PreimageEqualityProofSystem.generateChallenge, GStarModPrime.ZModOrder, NewZModPrime,
      Option.bind_eq_bind, Option.some_bind, hch2,
      hcm1 _ _ _ hS0 hS1 hA0 hA1 hB0 hB1, GStarModPrime.Exp, GStarModPrime.Mul,
      bigExp_of_nonneg _ _ hB0, bigExp_of_nonneg _ _ hch20, bigMod_of_ne _ hp0,
      Option.map_some', e1, e2]
    rcases halt with ⟨hd2, hd1⟩ | ⟨hu2, hu1⟩
    · subst hd2
      have hneq := mul_pow_ne_of_ne p q _ d2 ch ch2 hq hp1 hcommq hdq (hne1 d2 hd01 hd1)
        ⟨hch0, hch1⟩ ⟨hch20, hch21⟩ hne
      rw [if_neg hneq]
    · subst hu2
      have hneq := mul_pow_ne_of_ne p q _ uHat2 ch ch2 hq hp1 hchhq huq (hne1 uHat2 hu01 hu1)
        ⟨hch0, hch1⟩ ⟨hch20, hch21⟩ hne
      split_ifs
      · simp only [Option.some.injEq, decide_eq_false_iff_not]
        exact hneq
      · rfl

/-- The instance of C27 at the group of order 11 modulo 23, the voter (3, 5), d = 3 and
uHat = 8, verified with the vote "no" in place of "yes". -/
theorem PreimageEquality_substitution_witness :
    ∃ proof comm commHHat ch ch2,
      (NewPreimageEqualityProofSystem 9
          (NewPedersenCommitmentScheme (NewGStarModPrime 23 11 0 1) 2 [3, 4])).Generate
        sha256Sum (fun _ _ => 2) (NewVoter 3 5 18) 3 7 8 "yes" = some proof ∧
      proof.Comm = some comm ∧ proof.CommHHat = some commHHat ∧
      (NewPreimageEqualityProofSystem 9
          (NewPedersenCommitmentScheme (NewGStarModPrime 23 11 0 1) 2 [3, 4])).generateChallenge
        sha256Sum 3 8 [comm, commHHat] "yes" = some ch ∧
      (NewPreimageEqualityProofSystem 9
          (NewPedersenCommitmentScheme (NewGStarModPrime 23 11 0 1) 2 [3, 4])).generateChallenge
        sha256Sum 3 8 [comm, commHHat] "no" = some ch2 ∧
      (ch ≠ ch2 →
        (NewPreimageEqualityProofSystem 9
            (NewPedersenCommitmentScheme (NewGStarModPrime 23 11 0 1) 2 [3, 4])).Verify
          sha256Sum proof 3 8 "no" = some false) :=
  PreimageEquality_substitution (NewPedersenCommitmentScheme (NewGStarModPrime 23 11 0 1) 2 [3, 4])
    9 (NewVoter 3 5 18) 7 3 8 sha256Sum (fun _ _ => 2) "yes" 3 8 "no"
    (by decide) (by show Nat.Prime 11; norm_num) (by decide) (by decide)
    (by decide) (by decide) (by decide) (by decide) (by decide)
    (fun _ => by norm_num [NewPedersenCommitmentScheme, NewGStarModPrime])
    (by decide) (by decide) (Or.inl ⟨rfl, by decide⟩)

/-- Counterexample to C27 as stated, with SHA-256 as the hash function: in the group of order
11 modulo 23 with the generators 2, 3, 4 and the election generator 9, the voter (1, 0) has
`d = Commit(1; 1, 0) = 6`, which is not 1, and `uHat = 9^0 = 1`. With the draws 1, 2, 3
Generate returns the proof (16, 12, 4, 2, 6) on the challenge 3 for the vote "yes". Verified
with the commitment 13 in place of 6, the challenge is 7, not 3, and Verify returns true. -/
theorem PreimageEquality_substitution_counterexample :
    (NewPedersenCommitmentScheme (NewGStarModPrime 23 11 0 1) 2 [3, 4]).Commit 1 [1, 0]
      = some 6 ∧
    (NewGStarModPrime 23 11 0 1).Exp 9 0 = some 1 ∧
    (NewPreimageEqualityProofSystem 9
        (NewPedersenCommitmentScheme (NewGStarModPrime 23 11 0 1) 2 [3, 4])).Generate
      sha256Sum (fun k _ => ((k : Nat) : Int) + 1) (NewVoter 1 0 3) 6 1 1 "yes"
      = some ⟨some 16, some 12, some 4, some 2, some 6⟩ ∧
    (NewPreimageEqualityProofSystem 9
        (NewPedersenCommitmentScheme (NewGStarModPrime 23 11 0 1) 2 [3, 4])).generateChallenge
      sha256Sum 6 1 [16, 12] "yes" = some 3 ∧
    (NewPreimageEqualityProofSystem 9
        (NewPedersenCommitmentScheme (NewGStarModPrime 23 11 0 1) 2 [3, 4])).generateChallenge
      sha256Sum 13 1 [16, 12] "yes" = some 7 ∧
    (NewPreimageEqualityProofSystem 9
        (NewPedersenCommitmentScheme (NewGStarModPrime 23 11 0 1) 2 [3, 4])).Verify
      sha256Sum ⟨some 16, some 12, some 4, some 2, some 6⟩ 13 1 "yes" = some true := by
  refine ⟨by decide, by decide, ?_, ?_, ?_, ?_⟩
  · set_option maxRecDepth 100000 in decide
  · set_option maxRecDepth 100000 in decide
  · set_option maxRecDepth 100000 in decide
  · set_option maxRecDepth 100000 in decide

/-- The SHA-256 digest of the three bytes of the text abc. -/
theorem sha256Sum_abc :
    sha256Sum [97, 98, 99]
      = [186, 120, 22, 191, 143, 1, 207, 234, 65, 65, 64, 222, 93, 174, 34, 35,
         176, 3, 97, 163, 150, 23, 122, 156, 180, 16, 255, 97, 242, 0, 21, 173] := by
  decide

end crypto
namespace crypto

/-- The sum over the leaves in closed form: the leaf reached by the left descents at the
levels of the set bits of b contributes the coefficient of degree `deg + b` times the product
of the factors; a pruned leaf has a zero coefficient. -/
theorem deltaSumR_closed {R : Type} [CommRing R] (coeffs : Nat → R) (D : Nat)
    (hD : ∀ k, D < k → coeffs k = 0) (cX : R) (cF : Nat → R) :
    ∀ (lvl deg : Nat) (v : R),
      deltaSumR coeffs D cX cF lvl deg v
        = v * ∑ b in Finset.range (2 ^ lvl), coeffs (deg + b)
            * ∏ i in Finset.range lvl, (if b.testBit i then cF i else cX) := by
  intro lvl
  induction lvl with
  | zero =>
    intro deg v
    simp [deltaSumR]
  | succ lvl ih =>
    intro deg v
    simp only [deltaSumR]
    have e : 2 ^ (lvl + 1) = 2 ^ lvl + 2 ^ lvl := by rw [pow_succ]; omega
    rw [e, Finset.sum_range_add, ih deg (v * cX)]
    have hleft : (if deg + 2 ^ lvl ≤ D then
          deltaSumR coeffs D cX cF lvl (deg + 2 ^ lvl) (v * cF lvl) else 0)
        = v * cF lvl * ∑ b in Finset.range (2 ^ lvl), coeffs (deg + 2 ^ lvl + b)
            * ∏ i in Finset.range lvl, (if b.testBit i then cF i else cX) := by
      split_ifs with h
      · exact ih _ _
      · symm
        rw [Finset.sum_eq_zero, mul_zero]
        intro b _
        rw [hD _ (by omega), zero_mul]
    rw [hleft, mul_add]
    congr 1
    · rw [mul_assoc, Finset.mul_sum]
      congr 1
      apply Finset.sum_congr rfl
      intro b hb
      have hb2 : b < 2 ^ lvl := Finset.mem_range.mp hb
      rw [Finset.prod_range_succ, Nat.testBit_lt_two_pow hb2]
      simp only [Bool.false_eq_true, if_false]
      ring
    · rw [mul_assoc, Finset.mul_sum]
      congr 1
      apply Finset.sum_congr rfl
      intro b hb
      have hb2 : b < 2 ^ lvl := Finset.mem_range.mp hb
      rw [Finset.prod_range_succ, Nat.testBit_two_pow_add_eq, Nat.testBit_lt_two_pow hb2]
      simp only [Bool.not_false, if_true]
      have hprod : ∏ i in Finset.range lvl, (if (2 ^ lvl + b).testBit i then cF i else cX)
          = ∏ i in Finset.range lvl, (if b.testBit i then cF i else cX) := by
        apply Finset.prod_congr rfl
        intro i hi
        rw [Nat.testBit_two_pow_add_gt (Finset.mem_range.mp hi)]
      rw [hprod, add_assoc]
      ring

/-- The coefficients of the product of a trimmed coefficient list with `b0 + b1 X`, b1 not 0:
the coefficient k is `c_k * b0 + c_(k-1) * b1` modulo m. -/
theorem mul_step_coeff (ring : ZModPrime) (hm : 1 < ring.Modulus) (c : List Int)
    (b0 b1 : Int) (hc : c ≠ []) (hc0 : coeffAt c (c.length - 1) ≠ 0) (hb0 : b1 ≠ 0)
    (Rl : List Int)
    (hmul : (⟨c, ring⟩ : Polynomial).Mul ⟨[b0, b1], ring⟩ = some ⟨Rl, ring⟩) :
    ∀ k, coeffAt Rl k
      ≡ coeffAt c k * b0 + (if k = 0 then 0 else coeffAt c (k - 1) * b1)
        [ZMOD ring.Modulus] := by
  have hm0 : ring.Modulus ≠ 0 := by omega
  have hpos := List.length_pos.mpr hc
  have ht1 : trim (Polynomial.Coeffs ⟨c, ring⟩) = some (Polynomial.Coeffs ⟨c, ring⟩) :=
    trim_of_last c hc hc0
  have ht2 : trim (Polynomial.Coeffs ⟨[b0, b1], ring⟩)
      = some (Polynomial.Coeffs ⟨[b0, b1], ring⟩) :=
    trim_of_last _ (by simp) (by simpa [coeffAt] using hb0)
  obtain ⟨R2, h1, h2, h3, _⟩ := Mul_full ⟨c, ring⟩ ⟨[b0, b1], ring⟩ rfl hm0 ht1 ht2
  rw [hmul] at h1
  have e : Rl = R2 := congrArg Polynomial.Coeffs (Option.some.inj h1)
  subst e
  simp only [List.length_cons, List.length_nil, Nat.zero_add, Nat.add_sub_cancel] at h2 h3
  have hlen : Rl.length = c.length + 1 := by omega
  intro k
  by_cases hk : k < Rl.length
  · rw [h3 k hk]
    refine (Int.mod_modEq _ _).trans ?_
    rw [Finset.sum_range_succ, Nat.sub_self]
    cases k with
    | zero => simp [coeffAt]
    | succ k =>
      rw [Finset.sum_range_succ, Finset.sum_eq_zero]
      · have e1 : k + 1 - k = 1 := by omega
        rw [e1]
        simp only [coeffAt, zero_add, Nat.add_sub_cancel, if_neg (Nat.succ_ne_zero k)]
        rw [add_comm]
      · intro i hi
        have hi2 : i < k := Finset.mem_range.mp hi
        rw [coeffAt_of_le [b0, b1] (k + 1 - i) (by simp; omega), mul_zero]
  · rw [coeffAt_of_le Rl k (by omega), coeffAt_of_le c k (by omega)]
    have hk0 : k ≠ 0 := by omega
    rw [if_neg hk0, coeffAt_of_le c (k - 1) (by omega)]
    simp

/-- The recursion of calcDeltaPolynomial below a node whose degree argument is not 0, for
functionals with values in a commutative ring. -/
theorem calcDeltaPolynomial_specR {R : Type} [CommRing R]
    (ps : PolynomialEvaluationProofSystem) (D N : Nat)
    (uArr fArr : List Int) (phi psi : List Int → R) (cX : R) (cF : Nat → R)
    (hm : 1 < ps.Polynomial.ZModPr.Modulus)
    (hprime : ∀ a b : Int, a % ps.Polynomial.ZModPr.Modulus ≠ 0 →
      b % ps.Polynomial.ZModPr.Modulus ≠ 0 → (a * b) % ps.Polynomial.ZModPr.Modulus ≠ 0)
    (hD : ps.Polynomial.Degree = some D)
    (hu : ∀ i, i < uArr.length → coeffAt uArr i % ps.Polynomial.ZModPr.Modulus ≠ 0)
    (hpsi : ∀ (l1 l2 l3 : List Int) (a : Int),
      (∀ k, coeffAt l1 k ≡ coeffAt l2 k + a * coeffAt l3 k [ZMOD ps.Polynomial.ZModPr.Modulus]) →
      psi l1 = psi l2 + (a : R) * psi l3)
    (h0 : ∀ c : List Int, c.length = N → phi c = psi c)
    (hX : ∀ c c2 : List Int, c ≠ [] →
      coeffAt c (c.length - 1) % ps.Polynomial.ZModPr.Modulus ≠ 0 →
      (⟨c, ps.Polynomial.ZModPr⟩ : Polynomial).Mul ⟨[0, 1], ps.Polynomial.ZModPr⟩
        = some ⟨c2, ps.Polynomial.ZModPr⟩ →
      phi c2 = phi c * cX)
    (hF : ∀ (i : Nat) (c c2 : List Int), i < uArr.length → i < fArr.length → c ≠ [] →
      coeffAt c (c.length - 1) % ps.Polynomial.ZModPr.Modulus ≠ 0 →
      (⟨c, ps.Polynomial.ZModPr⟩ : Polynomial).Mul
        ⟨[coeffAt fArr i, coeffAt uArr i], ps.Polynomial.ZModPr⟩
        = some ⟨c2, ps.Polynomial.ZModPr⟩ →
      phi c2 = phi c * cF i) :
    ∀ (lvl deg : Nat) (c Rl : List Int), lvl ≤ uArr.length → lvl ≤ fArr.length → deg ≤ D →
      deg ≠ 0 → c ≠ [] → coeffAt c (c.length - 1) % ps.Polynomial.ZModPr.Modulus ≠ 0 →
      c.length + lvl = N → Rl.length = N →
      ∃ R2, ps.calcDeltaPolynomial ⟨[0, 1], ps.Polynomial.ZModPr⟩ lvl deg
          ⟨c, ps.Polynomial.ZModPr⟩ uArr fArr (some ⟨Rl, ps.Polynomial.ZModPr⟩)
          = some ⟨R2, ps.Polynomial.ZModPr⟩ ∧
        R2.length = N ∧ (∀ x ∈ R2, 0 ≤ x ∧ x < ps.Polynomial.ZModPr.Modulus) ∧
        psi R2 = psi Rl
          + deltaSumR (fun j => ((coeffAt ps.Polynomial.Coeffs j : Int) : R)) D cX cF lvl deg
              (phi c) := by
  have hlenD := Degree_lt_length _ _ hD
  have hone : (1 : Int) % ps.Polynomial.ZModPr.Modulus ≠ 0 := by
    rw [Int.emod_eq_of_lt (by norm_num) hm]
    norm_num
  intro lvl
  induction lvl with
  | zero =>
    intro deg c Rl _ _ hdeg hdeg0 hc hlead hcN hRN
    have hget : ps.Polynomial.Coeffs[deg]? = some (coeffAt ps.Polynomial.Coeffs deg) := by
      rw [coeffAt_eq_getD, List.getD_eq_getElem _ _ (by omega)]
      exact List.getElem?_eq_getElem (by omega)
    obtain ⟨R2, h1, h2, h3, h4⟩ := leaf_spec ps.Polynomial.ZModPr (by omega) c Rl
      (coeffAt ps.Polynomial.Coeffs deg) N hc (by omega) hRN
    refine ⟨R2, ?_, h2, h3, ?_⟩
    · simp only [PolynomialEvaluationProofSystem.calcDeltaPolynomial, if_neg hdeg0, hget,
        Option.bind_eq_bind, Option.some_bind]
      exact h1
    · rw [hpsi R2 Rl c _ h4]
      simp only [deltaSumR]
      rw [h0 c (by omega), mul_comm]
  | succ lvl ih =>
    intro deg c Rl hlu hlf hdeg hdeg0 hc hlead hcN hRN
    obtain ⟨c1, hm1, hl1, hne1, hlead1, _, _⟩ := mul_step ps.Polynomial.ZModPr hm hprime c 0 1
      hc hlead hone
    obtain ⟨Ra, ha1, ha2, ha3, ha4⟩ := ih deg c1 Rl (by omega) (by omega) hdeg hdeg0 hne1
      hlead1 (by omega) hRN
    have hphi1 := hX c c1 hc hlead hm1
    rw [hphi1] at ha4
    simp only [deltaSumR]
    by_cases hnext : deg + 2 ^ lvl ≤ D
    · have hf : fArr[lvl]? = some (coeffAt fArr lvl) := by
        rw [coeffAt_eq_getD, List.getD_eq_getElem _ _ (by omega)]
        exact List.getElem?_eq_getElem (by omega)
      have hu2 : uArr[lvl]? = some (coeffAt uArr lvl) := by
        rw [coeffAt_eq_getD, List.getD_eq_getElem _ _ (by omega)]
        exact List.getElem?_eq_getElem (by omega)
      obtain ⟨c2, hm2, hl2, hne2, hlead2, _, _⟩ := mul_step ps.Polynomial.ZModPr hm hprime c
        (coeffAt fArr lvl) (coeffAt uArr lvl) hc hlead (hu lvl (by omega))
      have hpos2 : 0 < 2 ^ lvl := Nat.two_pow_pos lvl
      obtain ⟨Rb, hb1, hb2, hb3, hb4⟩ := ih (deg + 2 ^ lvl) c2 Ra (by omega) (by omega) hnext
        (by omega) hne2 hlead2 (by omega) ha2
      have hphi2 := hF lvl c c2 (by omega) (by omega) hc hlead hm2
      rw [hphi2] at hb4
      refine ⟨Rb, ?_, hb2, hb3, ?_⟩
      · simp only [PolynomialEvaluationProofSystem.calcDeltaPolynomial, hm1,
          Option.bind_eq_bind, Option.some_bind, ha1, hD, if_pos hnext, hf, hu2, NewPolynomial,
          hm2]
        exact hb1
      · rw [if_pos hnext, hb4, ha4, add_assoc]
    · refine ⟨Ra, ?_, ha2, ha3, ?_⟩
      · simp only [PolynomialEvaluationProofSystem.calcDeltaPolynomial, hm1,
          Option.bind_eq_bind, Option.some_bind, ha1, hD, if_neg hnext]
      · rw [if_neg hnext, add_zero]
        exact ha4

/-- The recursion of calcDeltaPolynomial from the degree argument 0, for functionals with
values in a commutative ring. -/
theorem calcDeltaPolynomial_zeroR {R : Type} [CommRing R]
    (ps : PolynomialEvaluationProofSystem) (D N : Nat)
    (uArr fArr : List Int) (phi psi : List Int → R) (cX : R) (cF : Nat → R)
    (hm : 1 < ps.Polynomial.ZModPr.Modulus)
    (hprime : ∀ a b : Int, a % ps.Polynomial.ZModPr.Modulus ≠ 0 →
      b % ps.Polynomial.ZModPr.Modulus ≠ 0 → (a * b) % ps.Polynomial.ZModPr.Modulus ≠ 0)
    (hD : ps.Polynomial.Degree = some D)
    (hu : ∀ i, i < uArr.length → coeffAt uArr i % ps.Polynomial.ZModPr.Modulus ≠ 0)
    (hpsi : ∀ (l1 l2 l3 : List Int) (a : Int),
      (∀ k, coeffAt l1 k ≡ coeffAt l2 k + a * coeffAt l3 k [ZMOD ps.Polynomial.ZModPr.Modulus]) →
      psi l1 = psi l2 + (a : R) * psi l3)
    (h0 : ∀ c : List Int, c.length = N → phi c = psi c)
    (hX : ∀ c c2 : List Int, c ≠ [] →
      coeffAt c (c.length - 1) % ps.Polynomial.ZModPr.Modulus ≠ 0 →
      (⟨c, ps.Polynomial.ZModPr⟩ : Polynomial).Mul ⟨[0, 1], ps.Polynomial.ZModPr⟩
        = some ⟨c2, ps.Polynomial.ZModPr⟩ →
      phi c2 = phi c * cX)
    (hF : ∀ (i : Nat) (c c2 : List Int), i < uArr.length → i < fArr.length → c ≠ [] →
      coeffAt c (c.length - 1) % ps.Polynomial.ZModPr.Modulus ≠ 0 →
      (⟨c, ps.Polynomial.ZModPr⟩ : Polynomial).Mul
        ⟨[coeffAt fArr i, coeffAt uArr i], ps.Polynomial.ZModPr⟩
        = some ⟨c2, ps.Polynomial.ZModPr⟩ →
      phi c2 = phi c * cF i) :
    ∀ (lvl : Nat) (c : List Int) (res : Option Polynomial), lvl ≤ uArr.length →
      lvl ≤ fArr.length → c ≠ [] →
      coeffAt c (c.length - 1) % ps.Polynomial.ZModPr.Modulus ≠ 0 → c.length + lvl = N →
      ∃ R2, ps.calcDeltaPolynomial ⟨[0, 1], ps.Polynomial.ZModPr⟩ lvl 0
          ⟨c, ps.Polynomial.ZModPr⟩ uArr fArr res = some ⟨R2, ps.Polynomial.ZModPr⟩ ∧
        R2.length = N ∧ (∀ x ∈ R2, 0 ≤ x ∧ x < ps.Polynomial.ZModPr.Modulus) ∧
        psi R2 = phi c * cX ^ lvl
          + deltaSumR (fun j => ((coeffAt ps.Polynomial.Coeffs j : Int) : R)) D cX cF lvl 0
              (phi c) := by
  have hlenD := Degree_lt_length _ _ hD
  have hone : (1 : Int) % ps.Polynomial.ZModPr.Modulus ≠ 0 := by
    rw [Int.emod_eq_of_lt (by norm_num) hm]
    norm_num
  intro lvl
  induction lvl with
  | zero =>
    intro c res _ _ hc hlead hcN
    have hget : ps.Polynomial.Coeffs[0]? = some (coeffAt ps.Polynomial.Coeffs 0) := by
      rw [coeffAt_eq_getD, List.getD_eq_getElem _ _ (by omega)]
      exact List.getElem?_eq_getElem (by omega)
    obtain ⟨R2, h1, h2, h3, h4⟩ := leaf_spec ps.Polynomial.ZModPr (by omega) c c
      (coeffAt ps.Polynomial.Coeffs 0) N hc (by omega) (by omega)
    refine ⟨R2, ?_, h2, h3, ?_⟩
    · simp only [PolynomialEvaluationProofSystem.calcDeltaPolynomial, if_true, hget,
        Option.bind_eq_bind, Option.some_bind]
      exact h1
    · rw [hpsi R2 c c _ h4]
      simp only [deltaSumR, pow_zero, mul_one]
      rw [h0 c (by omega), mul_comm]
  | succ lvl ih =>
    intro c res hlu hlf hc hlead hcN
    obtain ⟨c1, hm1, hl1, hne1, hlead1, _, _⟩ := mul_step ps.Polynomial.ZModPr hm hprime c 0 1
      hc hlead hone
    obtain ⟨Ra, ha1, ha2, ha3, ha4⟩ := ih c1 res (by omega) (by omega) hne1 hlead1 (by omega)
    have hphi1 := hX c c1 hc hlead hm1
    rw [hphi1] at ha4
    have ha5 : psi Ra = phi c * cX ^ (lvl + 1)
        + deltaSumR (fun j => ((coeffAt ps.Polynomial.Coeffs j : Int) : R)) D cX cF lvl 0
            (phi c * cX) := by
      rw [ha4, pow_succ]
      ring
    simp only [deltaSumR]
    by_cases hnext : 0 + 2 ^ lvl ≤ D
    · have hf : fArr[lvl]? = some (coeffAt fArr lvl) := by
        rw [coeffAt_eq_getD, List.getD_eq_getElem _ _ (by omega)]
        exact List.getElem?_eq_getElem (by omega)
      have hu2 : uArr[lvl]? = some (coeffAt uArr lvl) := by
        rw [coeffAt_eq_getD, List.getD_eq_getElem _ _ (by omega)]
        exact List.getElem?_eq_getElem (by omega)
      obtain ⟨c2, hm2, hl2, hne2, hlead2, _, _⟩ := mul_step ps.Polynomial.ZModPr hm hprime c
        (coeffAt fArr lvl) (coeffAt uArr lvl) hc hlead (hu lvl (by omega))
      have hpos2 : 0 < 2 ^ lvl := Nat.two_pow_pos lvl
      obtain ⟨Rb, hb1, hb2, hb3, hb4⟩ := calcDeltaPolynomial_specR ps D N uArr fArr phi psi cX
        cF hm hprime hD hu hpsi h0 hX hF lvl (0 + 2 ^ lvl) c2 Ra (by omega) (by omega) hnext
        (by omega) hne2 hlead2 (by omega) ha2
      have hphi2 := hF lvl c c2 (by omega) (by omega) hc hlead hm2
      rw [hphi2] at hb4
      refine ⟨Rb, ?_, hb2, hb3, ?_⟩
      · simp only [PolynomialEvaluationProofSystem.calcDeltaPolynomial, hm1,
          Option.bind_eq_bind, Option.some_bind, ha1, hD, if_pos hnext, hf, hu2, NewPolynomial,
          hm2]
        exact hb1
      · rw [if_pos hnext, hb4, ha5, add_assoc]
    · refine ⟨Ra, ?_, ha2, ha3, ?_⟩
      · simp only [PolynomialEvaluationProofSystem.calcDeltaPolynomial, hm1,
          Option.bind_eq_bind, Option.some_bind, ha1, hD, if_neg hnext]
      · rw [if_neg hnext, add_zero]
        exact ha5

end crypto
namespace polyeval

open Polynomial

theorem mapM_congr_option {α β : Type} (f g : α → Option β) :
    ∀ (l : List α), (∀ a ∈ l, f a = g a) → l.mapM f = l.mapM g := by
  intro l
  induction l with
  | nil => intro _; rfl
  | cons a l ih =>
    intro h
    rw [List.mapM_cons, List.mapM_cons, h a (List.mem_cons_self _ _),
      ih (fun b hb => h b (List.mem_cons_of_mem _ hb))]

/-- The polynomial that calcDeltaPolynomial builds from the constant 1, as a polynomial over
the integers modulo the ring modulus. -/
theorem calcDeltaPolynomial_poly (ps : crypto.PolynomialEvaluationProofSystem) (D : Nat)
    (uArr fArr : List Int)
    (hp : Nat.Prime ps.Polynomial.ZModPr.Modulus.toNat)
    (htrim : crypto.trim ps.Polynomial.Coeffs = some ps.Polynomial.Coeffs)
    (hD : ps.Polynomial.Coeffs.length = D + 1) (hDd : D < 2 ^ (ps.d + 1))
    (hul : uArr.length = ps.d + 1) (hfl : fArr.length = ps.d + 1)
    (hu0 : ∀ i, i < ps.d + 1 →
      crypto.coeffAt uArr i % ps.Polynomial.ZModPr.Modulus ≠ 0) :
    ∃ dArr, ps.calcDeltas uArr fArr = some dArr ∧ dArr.length = ps.d + 2 ∧
      (∀ x ∈ dArr, 0 ≤ x ∧ x < ps.Polynomial.ZModPr.Modulus) ∧
      ∀ k, crypto.coeffAt dArr k
        ≡ (X ^ (ps.d + 1)
            + ∑ j in Finset.range (D + 1), C (crypto.coeffAt ps.Polynomial.Coeffs j)
              * ∏ i in Finset.range (ps.d + 1),
                  (if j.testBit i then
                    C (crypto.coeffAt fArr i) + C (crypto.coeffAt uArr i) * X
                  else X) : Polynomial Int).coeff k
        [ZMOD ps.Polynomial.ZModPr.Modulus] := by
  have hm2 := hp.two_le
  have hm : 1 < ps.Polynomial.ZModPr.Modulus := by omega
  have hprime := crypto.prime_mul_ne _ hp
  have hDeg : ps.Polynomial.Degree = some D := by
    rw [crypto.Degree_of_trim _ htrim, hD]
    rfl
  have hone : (1 : Int) % ps.Polynomial.ZModPr.Modulus ≠ 0 := by
    rw [Int.emod_eq_of_lt (by norm_num) hm]
    norm_num
  have hne0 : ∀ a : Int, a % ps.Polynomial.ZModPr.Modulus ≠ 0 → a ≠ 0 := by
    intro a h e
    rw [e] at h
    exact h (Int.zero_emod _)
  have hn : ((ps.Polynomial.ZModPr.Modulus.toNat : Nat) : Int) = ps.Polynomial.ZModPr.Modulus :=
    Int.toNat_of_nonneg (by omega)
  have hcast : ∀ a b : Int, a ≡ b [ZMOD ps.Polynomial.ZModPr.Modulus] →
      ((a : Int) : ZMod ps.Polynomial.ZModPr.Modulus.toNat) = b := by
    intro a b h
    rw [ZMod.intCast_eq_intCast_iff, hn]
    exact h
  have hcoeff : ∀ (l : List Int) (k : Nat),
      (∑ j in Finset.range l.length,
        monomial j ((crypto.coeffAt l j : Int) : ZMod ps.Polynomial.ZModPr.Modulus.toNat)).coeff k
        = ((crypto.coeffAt l k : Int) : ZMod ps.Polynomial.ZModPr.Modulus.toNat) := by
    intro l k
    simp only [Polynomial.finset_sum_coeff, Polynomial.coeff_monomial, Finset.sum_ite_eq',
      Finset.mem_range]
    by_cases hk : k < l.length
    · rw [if_pos hk]
    · rw [if_neg hk, crypto.coeffAt_of_le l k (by omega)]
      simp
  obtain ⟨R2, hR1, hR2, hR3, hR4⟩ := crypto.calcDeltaPolynomial_zeroR ps D (ps.d + 2) uArr fArr
    (fun l => ∑ j in Finset.range l.length,
        monomial j ((crypto.coeffAt l j : Int) : ZMod ps.Polynomial.ZModPr.Modulus.toNat))
    (fun l => ∑ j in Finset.range l.length,
        monomial j ((crypto.coeffAt l j : Int) : ZMod ps.Polynomial.ZModPr.Modulus.toNat))
    X
    (fun i => C ((crypto.coeffAt fArr i : Int) : ZMod ps.Polynomial.ZModPr.Modulus.toNat)
      + C ((crypto.coeffAt uArr i : Int) : ZMod ps.Polynomial.ZModPr.Modulus.toNat) * X)
    hm hprime hDeg (fun i hi => hu0 i (by omega))
    (fun l1 l2 l3 a h => by
      ext k
      rw [Polynomial.coeff_add, ← Polynomial.C_eq_intCast, Polynomial.coeff_C_mul, hcoeff,
        hcoeff, hcoeff, hcast _ _ (h k)]
      push_cast
      rfl)
    (fun c _ => rfl)
    (fun c c2 hc hlead hmul => by
      have h := crypto.mul_step_coeff ps.Polynomial.ZModPr hm c 0 1 hc (hne0 _ hlead)
        one_ne_zero c2 hmul
      ext k
      rw [hcoeff]
      cases k with
      | zero =>
        rw [Polynomial.coeff_mul_X_zero, hcast _ _ (h 0)]
        simp
      | succ k =>
        rw [Polynomial.coeff_mul_X, hcoeff, hcast _ _ (h (k + 1))]
        simp)
    (fun i c c2 hiu hif hc hlead hmul => by
      have h := crypto.mul_step_coeff ps.Polynomial.ZModPr hm c (crypto.coeffAt fArr i)
        (crypto.coeffAt uArr i) hc (hne0 _ hlead) (hne0 _ (hu0 i (by omega))) c2 hmul
      ext k
      rw [hcoeff, mul_add, ← mul_assoc, Polynomial.coeff_add, Polynomial.coeff_mul_C]
      cases k with
      | zero =>
        rw [Polynomial.coeff_mul_X_zero, hcoeff, hcast _ _ (h 0)]
        simp
      | succ k =>
        rw [Polynomial.coeff_mul_X, Polynomial.coeff_mul_C, hcoeff, hcoeff,
          hcast _ _ (h (k + 1))]
        simp)
    (ps.d + 1) [1] none (by omega) (by omega) (by simp)
    (by simpa [crypto.coeffAt] using hone) (by simp; omega)
  refine ⟨R2, ?_, hR2, hR3, ?_⟩
  · simp only [crypto.PolynomialEvaluationProofSystem.calcDeltas, crypto.NewPolynomial, hR1,
      Option.bind_eq_bind, Option.some_bind]
  · intro k
    have hzero : ∀ j, D < j →
        (((crypto.coeffAt ps.Polynomial.Coeffs j : Int) :
          Polynomial (ZMod ps.Polynomial.ZModPr.Modulus.toNat))) = 0 := by
      intro j hj
      rw [crypto.coeffAt_of_le _ _ (by omega)]
      simp
    have h1 : (∑ j in Finset.range ([1] : List Int).length,
        monomial j ((crypto.coeffAt [1] j : Int) : ZMod ps.Polynomial.ZModPr.Modulus.toNat))
        = 1 := by
      simp [crypto.coeffAt]
    simp only [] at hR4
    rw [h1, crypto.deltaSumR_closed _ D hzero, one_mul, one_mul] at hR4
    have hsub : ∑ b in Finset.range (2 ^ (ps.d + 1)),
        ((crypto.coeffAt ps.Polynomial.Coeffs (0 + b) : Int) :
          Polynomial (ZMod ps.Polynomial.ZModPr.Modulus.toNat))
          * ∏ i in Finset.range (ps.d + 1), (if b.testBit i then
              C ((crypto.coeffAt fArr i : Int) : ZMod ps.Polynomial.ZModPr.Modulus.toNat)
                + C ((crypto.coeffAt uArr i : Int) : ZMod ps.Polynomial.ZModPr.Modulus.toNat)
                  * X
            else X)
        = ∑ b in Finset.range (D + 1),
        ((crypto.coeffAt ps.Polynomial.Coeffs b : Int) :
          Polynomial (ZMod ps.Polynomial.ZModPr.Modulus.toNat))
          * ∏ i in Finset.range (ps.d + 1), (if b.testBit i then
              C ((crypto.coeffAt fArr i : Int) : ZMod ps.Polynomial.ZModPr.Modulus.toNat)
                + C ((crypto.coeffAt uArr i : Int) : ZMod ps.Polynomial.ZModPr.Modulus.toNat)
                  * X
            else X) := by
      simp only [Nat.zero_add]
      symm
      apply Finset.sum_subset
      · intro x hx
        rw [Finset.mem_range] at hx ⊢
        omega
      · intro x _ hx
        rw [Finset.mem_range] at hx
        rw [hzero x (by omega), zero_mul]
    rw [hsub] at hR4
    have hc := congrArg (fun q => Polynomial.coeff q k) hR4
    simp only [hcoeff] at hc
    have hmap : (Polynomial.map (Int.castRingHom (ZMod ps.Polynomial.ZModPr.Modulus.toNat))
        (X ^ (ps.d + 1)
            + ∑ j in Finset.range (D + 1), C (crypto.coeffAt ps.Polynomial.Coeffs j)
              * ∏ i in Finset.range (ps.d + 1),
                  (if j.testBit i then
                    C (crypto.coeffAt fArr i) + C (crypto.coeffAt uArr i) * X
                  else X) : Polynomial Int))
        = X ^ (ps.d + 1) + ∑ b in Finset.range (D + 1),
        ((crypto.coeffAt ps.Polynomial.Coeffs b : Int) :
          Polynomial (ZMod ps.Polynomial.ZModPr.Modulus.toNat))
          * ∏ i in Finset.range (ps.d + 1), (if b.testBit i then
              C ((crypto.coeffAt fArr i : Int) : ZMod ps.Polynomial.ZModPr.Modulus.toNat)
                + C ((crypto.coeffAt uArr i : Int) : ZMod ps.Polynomial.ZModPr.Modulus.toNat)
                  * X
            else X) := by
      simp only [Polynomial.map_add, Polynomial.map_pow, Polynomial.map_X, Polynomial.map_sum,
        Polynomial.map_mul, Polynomial.map_prod, Polynomial.map_C, apply_ite (Polynomial.map _),
        eq_intCast, Polynomial.C_eq_intCast, Polynomial.map_intCast]
    rw [← hmap, Polynomial.coeff_map, eq_intCast, ZMod.intCast_eq_intCast_iff, hn] at hc
    exact hc

/-- C29: the delta recursion on the side of the prover. For every proof system whose
polynomial Phi has a trimmed coefficient list of degree D over the prime modulus p of its
ring, with `d = floor(log2 D)`, and all arrays uArr (entries not 0 modulo p) and fArr of d + 1
entries: calcDeltas returns a slice dArr of d + 2 entries, the entry k is the coefficient of
`X^k` in `X^(d+1) + sum over j from 0 to D of Phi_j * P_j(X)`, reduced modulo p, where `P_j(X)`
is the product over i from 0 to d of `fArr[i] + uArr[i] * X` when the bit i of j is set and of
X otherwise, so every degree j from 0 to D contributes once; and the loop that fills cdArr
commits to the entries 0 to d of dArr. -/
theorem calcDeltas_coefficients (ps : crypto.PolynomialEvaluationProofSystem) (D : Nat)
    (uArr fArr : List Int) (P : Polynomial Int)
    (hp : Nat.Prime ps.Polynomial.ZModPr.Modulus.toNat)
    (htrim : crypto.trim ps.Polynomial.Coeffs = some ps.Polynomial.Coeffs)
    (hD : ps.Polynomial.Coeffs.length = D + 1) (hd : ps.d = Nat.log2 D)
    (hul : uArr.length = ps.d + 1) (hfl : fArr.length = ps.d + 1)
    (hu0 : ∀ i, i < ps.d + 1 →
      crypto.coeffAt uArr i % ps.Polynomial.ZModPr.Modulus ≠ 0)
    (hP : P = X ^ (ps.d + 1)
      + ∑ j in Finset.range (D + 1), C (crypto.coeffAt ps.Polynomial.Coeffs j)
          * ∏ i in Finset.range (ps.d + 1),
              (if j.testBit i then C (crypto.coeffAt fArr i) + C (crypto.coeffAt uArr i) * X
              else X)) :
    ∃ dArr, ps.calcDeltas uArr fArr = some dArr ∧ dArr.length = ps.d + 2 ∧
      (∀ k, k < ps.d + 2 → dArr[k]? = some (P.coeff k % ps.Polynomial.ZModPr.Modulus)) ∧
      ∀ tArr : List Int, crypto.genCdArr ps tArr dArr
        = (List.range (ps.d + 1)).mapM (fun i => (tArr[i]?).bind (fun ti =>
            ps.CommScheme.Commit ti [P.coeff i % ps.Polynomial.ZModPr.Modulus])) := by
  have hDd : D < 2 ^ (ps.d + 1) := by
    rw [hd]
    exact Nat.lt_log2_self
  obtain ⟨dArr, h1, h2, h3, h4⟩ := calcDeltaPolynomial_poly ps D uArr fArr hp htrim hD hDd hul
    hfl hu0
  rw [← hP] at h4
  have hk : ∀ k, k < ps.d + 2 →
      dArr[k]? = some (P.coeff k % ps.Polynomial.ZModPr.Modulus) := by
    intro k hk
    have hget : dArr[k]? = some (crypto.coeffAt dArr k) := by
      rw [crypto.coeffAt_eq_getD, List.getD_eq_getElem _ _ (by omega)]
      exact List.getElem?_eq_getElem (by omega)
    have hmem : crypto.coeffAt dArr k ∈ dArr := List.getElem?_mem hget
    obtain ⟨hlo, hhi⟩ := h3 _ hmem
    have := (h4 k).eq
    rw [Int.emod_eq_of_lt hlo hhi] at this
    rw [hget, this]
  refine ⟨dArr, h1, h2, hk, ?_⟩
  intro tArr
  refine mapM_congr_option _ _ _ (fun i hi => ?_)
  rw [hk i (by have := List.mem_range.mp hi; omega)]
  rfl

theorem calcDeltas_coefficients_witness :
    ∃ dArr,
      (crypto.PolynomialEvaluationProofSystem.mk
        (crypto.NewPedersenCommitmentScheme (crypto.NewGStarModPrime 23 11 0 1) 2 [3])
        (crypto.NewPolynomial [6, 6, 1] (crypto.NewGStarModPrime 23 11 0 1).ZModOrder)
        (crypto.NewGStarModPrime 23 11 0 1)
        (crypto.NewGStarModPrime 23 11 0 1).ZModOrder 1).calcDeltas [5, 3] [7, 4]
        = some dArr ∧ dArr.length = 1 + 2 ∧
      (∀ k, k < 1 + 2 → dArr[k]? = some
        ((X ^ (1 + 1)
          + ∑ j in Finset.range (2 + 1), C (crypto.coeffAt [6, 6, 1] j)
              * ∏ i in Finset.range (1 + 1),
                  (if j.testBit i then
                    C (crypto.coeffAt [7, 4] i) + C (crypto.coeffAt [5, 3] i) * X
                  else X) : Polynomial Int).coeff k % 11)) ∧
      ∀ tArr : List Int, crypto.genCdArr
          (crypto.PolynomialEvaluationProofSystem.mk
            (crypto.NewPedersenCommitmentScheme (crypto.NewGStarModPrime 23 11 0 1) 2 [3])
            (crypto.NewPolynomial [6, 6, 1] (crypto.NewGStarModPrime 23 11 0 1).ZModOrder)
            (crypto.NewGStarModPrime 23 11 0 1)
            (crypto.NewGStarModPrime 23 11 0 1).ZModOrder 1) tArr dArr
        = (List.range (1 + 1)).mapM (fun i => (tArr[i]?).bind (fun ti =>
            (crypto.NewPedersenCommitmentScheme (crypto.NewGStarModPrime 23 11 0 1) 2
              [3]).Commit ti
              [(X ^ (1 + 1)
                + ∑ j in Finset.range (2 + 1), C (crypto.coeffAt [6, 6, 1] j)
                    * ∏ i in Finset.range (1 + 1),
                        (if j.testBit i then
                          C (crypto.coeffAt [7, 4] i) + C (crypto.coeffAt [5, 3] i) * X
                        else X) : Polynomial Int).coeff i % 11])) :=
  calcDeltas_coefficients
    (crypto.PolynomialEvaluationProofSystem.mk
      (crypto.NewPedersenCommitmentScheme (crypto.NewGStarModPrime 23 11 0 1) 2 [3])
      (crypto.NewPolynomial [6, 6, 1] (crypto.NewGStarModPrime 23 11 0 1).ZModOrder)
      (crypto.NewGStarModPrime 23 11 0 1) (crypto.NewGStarModPrime 23 11 0 1).ZModOrder 1)
    2 [5, 3] [7, 4] _ (by show Nat.Prime 11; norm_num) (by decide) rfl crypto.log2_two.symm
    rfl rfl
    (fun i hi => by
      have hi2 : i < 2 := hi
      interval_cases i <;> decide)
    rfl

end polyeval
namespace crypto

theorem Bytes_neg (x : Int) : Bytes (-x) = Bytes x := by
  unfold Bytes
  rw [Int.natAbs_neg]

/-- C36: the hash input of the Fiat-Shamir challenge is not an injective encoding. For every
hash function and every proof system: the double-discrete-log and the preimage-equality
system derive the same challenge for the public inputs (0x0102, 0x03) and (0x01, 0x0203),
which differ; each of the three systems derives the same challenge for a commitment and its
negative, and for a last element 0x0179 with the vote "es" and a last element 0x01 with the
vote "yes". -/
theorem generateChallenge_not_injective (sha256 : List Nat → List Nat) :
    ((258 : Int), (3 : Int)) ≠ (1, 515) ∧ ("es", (377 : Int)) ≠ ("yes", 1) ∧
    (∀ (ps : PreimageEqualityProofSystem) (commitments : List Int) (vote : String),
      ps.generateChallenge sha256 258 3 commitments vote
        = ps.generateChallenge sha256 1 515 commitments vote) ∧
    (∀ (ps : DoubleDiscreteLogProofSystem) (t : Int) (t1Arr t2Arr : List Int) (vote : String),
      ps.generateChallenge sha256 258 3 t t1Arr t2Arr vote
        = ps.generateChallenge sha256 1 515 t t1Arr t2Arr vote) ∧
    (∀ (ps : PreimageEqualityProofSystem) (d uHat : Int) (commitments : List Int)
        (vote : String),
      ps.generateChallenge sha256 (-d) uHat commitments vote
        = ps.generateChallenge sha256 d uHat commitments vote ∧
      ps.generateChallenge sha256 d (-uHat) commitments vote
        = ps.generateChallenge sha256 d uHat commitments vote) ∧
    (∀ (ps : DoubleDiscreteLogProofSystem) (c d t : Int) (t1Arr t2Arr : List Int)
        (vote : String),
      ps.generateChallenge sha256 (-c) d t t1Arr t2Arr vote
        = ps.generateChallenge sha256 c d t t1Arr t2Arr vote) ∧
    (∀ (ps : PolynomialEvaluationProofSystem) (c : Int) (cArr cfArr cdArr cfuArr : List Int)
        (vote : String),
      ps.generateChallenge sha256 vote [[-c, commToV], cArr, cfArr, cdArr, cfuArr]
        = ps.generateChallenge sha256 vote [[c, commToV], cArr, cfArr, cdArr, cfuArr]) ∧
    (∀ (ps : PreimageEqualityProofSystem) (d uHat : Int) (commitments : List Int),
      ps.generateChallenge sha256 d uHat (commitments ++ [377]) "es"
        = ps.generateChallenge sha256 d uHat (commitments ++ [1]) "yes") ∧
    (∀ (ps : DoubleDiscreteLogProofSystem) (c d t : Int) (t1Arr t2Arr : List Int),
      ps.generateChallenge sha256 c d t t1Arr (t2Arr ++ [377]) "es"
        = ps.generateChallenge sha256 c d t t1Arr (t2Arr ++ [1]) "yes") ∧
    (∀ (ps : PolynomialEvaluationProofSystem) (c : Int) (cArr cfArr cdArr cfuArr : List Int),
      ps.generateChallenge sha256 "es" [[c, commToV], cArr, cfArr, cdArr, cfuArr ++ [377]]
        = ps.generateChallenge sha256 "yes" [[c, commToV], cArr, cfArr, cdArr, cfuArr ++ [1]]) := by
  have b258 : Bytes 258 = [1, 2] := by decide
  have b3 : Bytes 3 = [3] := by decide
  have b1 : Bytes 1 = [1] := by decide
  have b515 : Bytes 515 = [2, 3] := by decide
  have b377 : Bytes 377 = [1, 121] := by decide
  have ves : voteBytes "es" = [101, 115] := by decide
  have vyes : voteBytes "yes" = [121, 101, 115] := by decide
  refine ⟨by decide, by decide, ?_, ?_, ?_, ?_, ?_, ?_, ?_, ?_⟩
  · intro ps commitments vote
    simp [PreimageEqualityProofSystem.generateChallenge, hashToChallenge, b258, b3, b1, b515]
  · intro ps t t1Arr t2Arr vote
    simp [DoubleDiscreteLogProofSystem.generateChallenge, hashToChallenge, b258, b3, b1, b515]
  · intro ps d uHat commitments vote
    simp [PreimageEqualityProofSystem.generateChallenge, hashToChallenge, Bytes_neg]
  · intro ps c d t t1Arr t2Arr vote
    simp [DoubleDiscreteLogProofSystem.generateChallenge, hashToChallenge, Bytes_neg]
  · intro ps c cArr cfArr cdArr cfuArr vote
    simp [PolynomialEvaluationProofSystem.generateChallenge, hashToChallenge, Bytes_neg]
  · intro ps d uHat commitments
    simp [PreimageEqualityProofSystem.generateChallenge, hashToChallenge, b377, b1, ves, vyes]
  · intro ps c d t t1Arr t2Arr
    simp [DoubleDiscreteLogProofSystem.generateChallenge, hashToChallenge, b377, b1, ves, vyes]
  · intro ps c cArr cfArr cdArr cfuArr
    simp [PolynomialEvaluationProofSystem.generateChallenge, hashToChallenge, b377, b1, ves,
      vyes]

end crypto
namespace crypto

theorem forall_mem_zipWith {α β γ : Type} (P : γ → Prop) (f : α → β → γ)
    (h : ∀ a b, P (f a b)) : ∀ (l1 : List α) (l2 : List β), ∀ x ∈ List.zipWith f l1 l2, P x := by
  intro l1
  induction l1 with
  | nil => intro l2 x hx; simp at hx
  | cons a l1 ih =>
    intro l2 x hx
    cases l2 with
    | nil => simp at hx
    | cons b l2 =>
      rw [List.zipWith_cons_cons, List.mem_cons] at hx
      rcases hx with hx | hx
      · rw [hx]; exact h a b
      · exact ih l2 x hx

theorem toNat_mul_of_nonneg (a e : Int) (ha : 0 ≤ a) (he : 0 ≤ e) :
    (a * e).toNat = a.toNat * e.toNat := by
  lift a to ℕ using ha
  lift e to ℕ using he
  rw [← Nat.cast_mul, Int.toNat_natCast, Int.toNat_natCast, Int.toNat_natCast]

/-- The product of the powers of the generators for the sums of the exponents modulo q. -/
theorem zipWith_prod_add (p q : Int) (hq : 0 < q) : ∀ (hs m1 m2 : List Int),
    (∀ h ∈ hs, h ^ q.toNat ≡ 1 [ZMOD p]) → m1.length = hs.length → m2.length = hs.length →
    (∀ m ∈ m1, 0 ≤ m) → (∀ m ∈ m2, 0 ≤ m) →
    (List.zipWith (fun h m => h ^ m.toNat) hs
        (List.zipWith (fun a b => (a + b) % q) m1 m2)).prod
      ≡ (List.zipWith (fun h m => h ^ m.toNat) hs m1).prod
        * (List.zipWith (fun h m => h ^ m.toNat) hs m2).prod [ZMOD p] := by
  intro hs
  induction hs with
  | nil => intro m1 m2 _ _ _ _ _; simp
  | cons h hs ih =>
    intro m1 m2 hgen h1 h2 hn1 hn2
    cases m1 with
    | nil => simp at h1
    | cons a m1 =>
      cases m2 with
      | nil => simp at h2
      | cons b m2 =>
        simp only [List.zipWith_cons_cons, List.prod_cons]
        have ha := hn1 a (List.mem_cons_self _ _)
        have hb := hn2 b (List.mem_cons_self _ _)
        have e1 : h ^ ((a + b) % q).toNat ≡ h ^ (a + b).toNat [ZMOD p] :=
          pow_toNat_modEq h p q (hgen h (List.mem_cons_self _ _)) (le_of_lt hq)
            (Int.emod_nonneg _ (ne_of_gt hq)) (by omega) (Int.mod_modEq _ _)
        have e2 : h ^ (a + b).toNat = h ^ a.toNat * h ^ b.toNat := by
          rw [Int.toNat_add ha hb, pow_add]
        rw [e2] at e1
        have e3 := ih m1 m2 (fun x hx => hgen x (List.mem_cons_of_mem _ hx))
          (by simpa using h1) (by simpa using h2)
          (fun x hx => hn1 x (List.mem_cons_of_mem _ hx))
          (fun x hx => hn2 x (List.mem_cons_of_mem _ hx))
        have e4 := e1.mul e3
        refine e4.trans ?_
        have : h ^ a.toNat * h ^ b.toNat
            * ((List.zipWith (fun h m => h ^ m.toNat) hs m1).prod
              * (List.zipWith (fun h m => h ^ m.toNat) hs m2).prod)
            = h ^ a.toNat * (List.zipWith (fun h m => h ^ m.toNat) hs m1).prod
              * (h ^ b.toNat * (List.zipWith (fun h m => h ^ m.toNat) hs m2).prod) := by ring
        rw [this]

/-- The product of the powers of the generators for the exponents times e modulo q. -/
theorem zipWith_prod_pow (p q e : Int) (hq : 0 < q) (he : 0 ≤ e) : ∀ (hs m1 : List Int),
    (∀ h ∈ hs, h ^ q.toNat ≡ 1 [ZMOD p]) → m1.length = hs.length → (∀ m ∈ m1, 0 ≤ m) →
    (List.zipWith (fun h m => h ^ m.toNat) hs (m1.map (fun a => a * e % q))).prod
      ≡ (List.zipWith (fun h m => h ^ m.toNat) hs m1).prod ^ e.toNat [ZMOD p] := by
  intro hs
  induction hs with
  | nil => intro m1 _ _ _; simp
  | cons h hs ih =>
    intro m1 hgen h1 hn1
    cases m1 with
    | nil => simp at h1
    | cons a m1 =>
      simp only [List.map_cons, List.zipWith_cons_cons, List.prod_cons]
      have ha := hn1 a (List.mem_cons_self _ _)
      have e1 : h ^ (a * e % q).toNat ≡ h ^ (a * e).toNat [ZMOD p] :=
        pow_toNat_modEq h p q (hgen h (List.mem_cons_self _ _)) (le_of_lt hq)
          (Int.emod_nonneg _ (ne_of_gt hq)) (mul_nonneg ha he) (Int.mod_modEq _ _)
      have e2 : h ^ (a * e).toNat = (h ^ a.toNat) ^ e.toNat := by
        rw [toNat_mul_of_nonneg a e ha he, pow_mul]
      rw [e2] at e1
      have e3 := ih m1 (fun x hx => hgen x (List.mem_cons_of_mem _ hx)) (by simpa using h1)
        (fun x hx => hn1 x (List.mem_cons_of_mem _ hx))
      have e4 := e1.mul e3
      refine e4.trans ?_
      rw [mul_pow]

theorem zipWith_prod_zero : ∀ (hs : List Int),
    (List.zipWith (fun h m => h ^ m.toNat) hs (List.replicate hs.length (0 : Int))).prod = 1 := by
  intro hs
  induction hs with
  | nil => simp
  | cons h hs ih =>
    simp only [List.length_cons, List.replicate_succ, List.zipWith_cons_cons, List.prod_cons,
      Int.toNat_zero, pow_zero, one_mul]
    exact ih

/-- C35: Pedersen commitments are additively homomorphic. For every scheme with modulus above
1 and positive order whose generators all satisfy `h^ord = 1 (mod mod)`, all inputs
`(r1; m1)` and `(r2; m2)` that Commit accepts (one message per message generator, all values
in [0, ord]) and every e not below 0: the four calls of Commit return, the product of
`Commit(r1; m1)` and `Commit(r2; m2)` modulo mod is Commit of the sums reduced modulo ord, the
power `Commit(r1; m1)^e` modulo mod is Commit of the products with e reduced modulo ord, and
Commit of the randomness 0 and the messages 0 is 1, the constant commToV. -/
theorem Commit_homomorphic (s : PedersenCommitmentScheme) (r1 r2 e : Int) (m1 m2 : List Int)
    (hmod : 1 < s.G.Modulus) (hord : 0 < s.G.Order)
    (hHr : s.Hr ^ s.G.Order.toNat ≡ 1 [ZMOD s.G.Modulus])
    (hHm : ∀ h ∈ s.Hm, h ^ s.G.Order.toNat ≡ 1 [ZMOD s.G.Modulus])
    (hlen1 : m1.length = s.Hm.length) (hlen2 : m2.length = s.Hm.length)
    (hr1 : 0 ≤ r1 ∧ r1 ≤ s.G.Order) (hr2 : 0 ≤ r2 ∧ r2 ≤ s.G.Order)
    (hm1 : ∀ m ∈ m1, 0 ≤ m ∧ m ≤ s.G.Order) (hm2 : ∀ m ∈ m2, 0 ≤ m ∧ m ≤ s.G.Order)
    (he : 0 ≤ e) :
    ∃ c1 c2 c12 ce, s.Commit r1 m1 = some c1 ∧ s.Commit r2 m2 = some c2 ∧
      s.Commit ((r1 + r2) % s.G.Order)
        (List.zipWith (fun a b => (a + b) % s.G.Order) m1 m2) = some c12 ∧
      s.G.Mul c1 c2 = some c12 ∧
      s.Commit (r1 * e % s.G.Order) (m1.map (fun a => a * e % s.G.Order)) = some ce ∧
      s.G.Exp c1 e = some ce ∧
      s.Commit commToVRandomness (List.replicate s.Hm.length 0) = some commToV := by
  have hmod0 : s.G.Modulus ≠ 0 := by omega
  have hord0 : s.G.Order ≠ 0 := by omega
  have hrng : ∀ x : Int, 0 ≤ x % s.G.Order ∧ x % s.G.Order ≤ s.G.Order :=
    fun x => ⟨Int.emod_nonneg _ hord0, le_of_lt (Int.emod_lt_of_pos _ hord)⟩
  have hc1 := Commit_eq_of_le s r1 m1 hmod0 hlen1 hr1 hm1
  have hc2 := Commit_eq_of_le s r2 m2 hmod0 hlen2 hr2 hm2
  have hc12 := Commit_eq_of_le s ((r1 + r2) % s.G.Order)
    (List.zipWith (fun a b => (a + b) % s.G.Order) m1 m2) hmod0
    (by rw [List.length_zipWith, hlen1, hlen2, Nat.min_self]) (hrng _)
    (forall_mem_zipWith (fun x => 0 ≤ x ∧ x ≤ s.G.Order) _ (fun a b => hrng _) m1 m2)
  have hce := Commit_eq_of_le s (r1 * e % s.G.Order) (m1.map (fun a => a * e % s.G.Order))
    hmod0 (by rw [List.length_map, hlen1]) (hrng _)
    (fun m hm => by
      obtain ⟨a, _, rfl⟩ := List.mem_map.mp hm
      exact hrng _)
  have hc0 := Commit_eq_of_le s 0 (List.replicate s.Hm.length 0) hmod0 (by simp)
    ⟨le_refl _, le_of_lt hord⟩
    (fun m hm => by
      rw [List.eq_of_mem_replicate hm]
      exact ⟨le_refl _, le_of_lt hord⟩)
  refine ⟨_, _, _, _, hc1, hc2, hc12, ?_, hce, ?_, ?_⟩
  · rw [GStarModPrime.Mul, bigMod_of_ne _ hmod0]
    congr 1
    have e1 : s.Hr ^ ((r1 + r2) % s.G.Order).toNat ≡ s.Hr ^ (r1 + r2).toNat
        [ZMOD s.G.Modulus] :=
      pow_toNat_modEq s.Hr _ _ hHr (le_of_lt hord) (hrng _).1 (by omega) (Int.mod_modEq _ _)
    have e2 : s.Hr ^ (r1 + r2).toNat = s.Hr ^ r1.toNat * s.Hr ^ r2.toNat := by
      rw [Int.toNat_add hr1.1 hr2.1, pow_add]
    rw [e2] at e1
    have e3 := zipWith_prod_add s.G.Modulus s.G.Order hord s.Hm m1 m2 hHm hlen1 hlen2
      (fun m hm => (hm1 m hm).1) (fun m hm => (hm2 m hm).1)
    have e4 := (e1.mul e3).symm
    have e5 := ((Int.mod_modEq (s.Hr ^ r1.toNat
        * (List.zipWith (fun h m => h ^ m.toNat) s.Hm m1).prod) s.G.Modulus).mul
      (Int.mod_modEq (s.Hr ^ r2.toNat
        * (List.zipWith (fun h m => h ^ m.toNat) s.Hm m2).prod) s.G.Modulus))
    refine (e5.trans ?_).eq
    refine Int.ModEq.trans ?_ e4
    have : s.Hr ^ r1.toNat * (List.zipWith (fun h m => h ^ m.toNat) s.Hm m1).prod
        * (s.Hr ^ r2.toNat * (List.zipWith (fun h m => h ^ m.toNat) s.Hm m2).prod)
        = s.Hr ^ r1.toNat * s.Hr ^ r2.toNat
          * ((List.zipWith (fun h m => h ^ m.toNat) s.Hm m1).prod
            * (List.zipWith (fun h m => h ^ m.toNat) s.Hm m2).prod) := by ring
    rw [this]
  · rw [GStarModPrime.Exp, bigExp_of_nonneg _ _ he]
    congr 1
    have e1 : s.Hr ^ (r1 * e % s.G.Order).toNat ≡ s.Hr ^ (r1 * e).toNat
        [ZMOD s.G.Modulus] :=
      pow_toNat_modEq s.Hr _ _ hHr (le_of_lt hord) (hrng _).1 (mul_nonneg hr1.1 he)
        (Int.mod_modEq _ _)
    have e2 : s.Hr ^ (r1 * e).toNat = (s.Hr ^ r1.toNat) ^ e.toNat := by
      rw [toNat_mul_of_nonneg r1 e hr1.1 he, pow_mul]
    rw [e2] at e1
    have e3 := zipWith_prod_pow s.G.Modulus s.G.Order e hord he s.Hm m1 hHm hlen1
      (fun m hm => (hm1 m hm).1)
    have e4 := (e1.mul e3).symm
    have e5 := (Int.mod_modEq (s.Hr ^ r1.toNat
        * (List.zipWith (fun h m => h ^ m.toNat) s.Hm m1).prod) s.G.Modulus).pow e.toNat
    refine (e5.trans ?_).eq
    refine Int.ModEq.trans ?_ e4
    rw [mul_pow]
  · rw [commToVRandomness, hc0, zipWith_prod_zero, commToV]
    simp only [Int.toNat_zero, pow_zero, mul_one]
    rw [Int.emod_eq_of_lt (by norm_num) hmod]

theorem Commit_homomorphic_witness :
    ∃ c1 c2 c12 ce,
      (NewPedersenCommitmentScheme (NewGStarModPrime 23 11 0 1) 2 [3, 4]).Commit 7 [5, 9]
        = some c1 ∧
      (NewPedersenCommitmentScheme (NewGStarModPrime 23 11 0 1) 2 [3, 4]).Commit 8 [10, 2]
        = some c2 ∧
      (NewPedersenCommitmentScheme (NewGStarModPrime 23 11 0 1) 2 [3, 4]).Commit ((7 + 8) % 11)
        (List.zipWith (fun a b => (a + b) % 11) [5, 9] [10, 2]) = some c12 ∧
      (NewGStarModPrime 23 11 0 1).Mul c1 c2 = some c12 ∧
      (NewPedersenCommitmentScheme (NewGStarModPrime 23 11 0 1) 2 [3, 4]).Commit (7 * 6 % 11)
        ([5, 9].map (fun a => a * 6 % 11)) = some ce ∧
      (NewGStarModPrime 23 11 0 1).Exp c1 6 = some ce ∧
      (NewPedersenCommitmentScheme (NewGStarModPrime 23 11 0 1) 2 [3, 4]).Commit
        commToVRandomness (List.replicate 2 0) = some commToV :=
  Commit_homomorphic (NewPedersenCommitmentScheme (NewGStarModPrime 23 11 0 1) 2 [3, 4])
    7 8 6 [5, 9] [10, 2] (by decide) (by decide) (by decide) (by decide) rfl rfl (by decide)
    (by decide) (by decide) (by decide) (by decide)

end crypto
namespace crypto

/-- One inclusion keeps the invariant of the credential polynomial: the ring, n + 1
coefficients in [0, m), the leading coefficient 1; the degree is then n. -/
theorem invariant_step (ring : ZModPrime) (hm : 1 < ring.Modulus) (cur : Polynomial) (n : Nat)
    (u : Int) (h1 : cur.ZModPr = ring) (h2 : cur.Coeffs.length = n + 1)
    (h3 : coeffAt cur.Coeffs n = 1) :
    ∃ nxt, cur.IncludeCredential u = some nxt ∧ nxt.ZModPr = ring ∧
      nxt.Coeffs.length = n + 2 ∧ coeffAt nxt.Coeffs (n + 1) = 1 ∧
      (∀ c ∈ nxt.Coeffs, 0 ≤ c ∧ c < ring.Modulus) := by
  have hm0 : cur.ZModPr.Modulus ≠ 0 := by rw [h1]; omega
  have hne : cur.Coeffs ≠ [] := by
    intro h0
    rw [h0] at h2
    simp at h2
  have h3b : coeffAt cur.Coeffs (cur.Coeffs.length - 1) = 1 := by
    rw [h2, Nat.add_sub_cancel]
    exact h3
  have htrim : trim cur.Coeffs = some cur.Coeffs :=
    trim_of_last _ hne (by rw [h3b]; decide)
  obtain ⟨R, g1, g2, _, g4, _⟩ := IncludeCredential_full cur u hm0 htrim
  obtain ⟨R2, k1, _, _, k4, _⟩ := IncludeCredential_spec cur u hm0 htrim
  rw [g1] at k1
  have e : R = R2 := congrArg Polynomial.Coeffs (Option.some.inj k1)
  subst e
  have h1m : (1 : Int) % ring.Modulus = 1 := Int.emod_eq_of_lt (by omega) hm
  refine ⟨⟨R, cur.ZModPr⟩, g1, h1, by rw [g2, h2], ?_, ?_⟩
  · have := g4
    rw [h3b, h1, h1m, h2] at this
    exact this
  · intro c hc
    have := k4 c hc
    rw [h1] at this
    rw [← this]
    exact ⟨Int.emod_nonneg _ (by omega), Int.emod_lt_of_pos _ (by omega)⟩

/-- The invariant along a sequence of inclusions. -/
theorem invariant_fold (ring : ZModPrime) (hm : 1 < ring.Modulus) : ∀ (us : List Int)
    (cur : Polynomial) (n : Nat), cur.ZModPr = ring → cur.Coeffs.length = n + 1 →
    coeffAt cur.Coeffs n = 1 → (∀ c ∈ cur.Coeffs, 0 ≤ c ∧ c < ring.Modulus) →
    ∃ p, us.foldlM (fun (q : Polynomial) u => q.IncludeCredential u) cur = some p ∧
      p.ZModPr = ring ∧ p.Coeffs.length = n + us.length + 1 ∧
      coeffAt p.Coeffs (n + us.length) = 1 ∧
      (∀ c ∈ p.Coeffs, 0 ≤ c ∧ c < ring.Modulus) := by
  intro us
  induction us with
  | nil =>
    intro cur n h1 h2 h3 h4
    exact ⟨cur, rfl, h1, by simpa using h2, by simpa using h3, h4⟩
  | cons u us ih =>
    intro cur n h1 h2 h3 h4
    obtain ⟨nxt, g1, g2, g3, g4, g5⟩ := invariant_step ring hm cur n u h1 h2 h3
    obtain ⟨p, k1, k2, k3, k4, k5⟩ := ih nxt (n + 1) g2 g3 g4 g5
    refine ⟨p, ?_, k2, ?_, ?_, k5⟩
    · simp only [List.foldlM, g1, Option.bind_eq_bind, Option.some_bind]
      exact k1
    · rw [k3, List.length_cons]
      omega
    · have e : n + (u :: us).length = n + 1 + us.length := by
        rw [List.length_cons]
        omega
      rw [e]
      exact k4

/-- C38: the invariant of the credential polynomial. Over a ring with modulus m > 1, for every
sequence of n credentials, including them in turn in the constant polynomial [1] returns a
polynomial over the same ring with exactly n + 1 coefficients, all in [0, m), the leading one
being 1; its Degree is n and a further IncludeCredential returns. The same holds for the
polynomial the bulletin board reads after storing n credentials from the empty store. -/
theorem credential_polynomial_invariant (ring : ZModPrime) (hm : 1 < ring.Modulus)
    (us : List Int) :
    (∃ p, us.foldlM (fun (q : Polynomial) u => q.IncludeCredential u) (NewPolynomial [1] ring)
        = some p ∧
      p.ZModPr = ring ∧ p.Coeffs ≠ [] ∧ p.Coeffs.length = us.length + 1 ∧
      (∀ c ∈ p.Coeffs, 0 ≤ c ∧ c < ring.Modulus) ∧
      coeffAt p.Coeffs us.length = 1 ∧ p.Degree = some us.length ∧ p.Trim = some p ∧
      ∀ u, ∃ r, p.IncludeCredential u = some r) ∧
    (∀ gP : GStarModPrime, gP.ZModOrder = ring →
      ∃ store, us.foldlM (keeper.includeCredentialInPolynomial gP) none = some store ∧
        us.foldlM (fun (q : Polynomial) u => q.IncludeCredential u) (NewPolynomial [1] ring)
          = some (keeper.GetCredentialPolynomial gP store)) := by
  obtain ⟨p, h1, h2, h3, h4, h5⟩ := invariant_fold ring hm us (NewPolynomial [1] ring) 0 rfl rfl
    rfl (by
      intro c hc
      have : c = 1 := by simpa [NewPolynomial] using hc
      rw [this]
      omega)
  rw [Nat.zero_add] at h3 h4
  have hne : p.Coeffs ≠ [] := by
    intro h0
    rw [h0] at h3
    simp at h3
  have hlast : coeffAt p.Coeffs (p.Coeffs.length - 1) = 1 := by
    rw [h3, Nat.add_sub_cancel]
    exact h4
  have htrim : trim p.Coeffs = some p.Coeffs := trim_of_last _ hne (by rw [hlast]; decide)
  refine ⟨⟨p, h1, h2, hne, h3, h5, h4, ?_, ?_, ?_⟩, ?_⟩
  · rw [Degree_of_trim p htrim, h3, Nat.add_sub_cancel]
  · simp only [Polynomial.Trim, htrim, Option.map_some', NewPolynomial]
  · intro u
    obtain ⟨nxt, g1, _⟩ := invariant_step ring hm p us.length u h2 h3 h4
    exact ⟨nxt, g1⟩
  · intro gP hg
    have key : ∀ (l : List Int) (store : Option Polynomial) (q : Polynomial),
        l.foldlM (fun (q : Polynomial) u => q.IncludeCredential u)
          (keeper.GetCredentialPolynomial gP store) = some q →
        ∃ store2, l.foldlM (keeper.includeCredentialInPolynomial gP) store = some store2 ∧
          keeper.GetCredentialPolynomial gP store2 = q := by
      intro l
      induction l with
      | nil =>
        intro store q hq
        exact ⟨store, rfl, Option.some.inj hq⟩
      | cons u l ih =>
        intro store q hq
        simp only [List.foldlM, Option.bind_eq_bind] at hq
        obtain ⟨nxt, g1, g2⟩ := Option.bind_eq_some.mp hq
        obtain ⟨store2, k1, k2⟩ := ih (some nxt) q g2
        refine ⟨store2, ?_, k2⟩
        simp only [List.foldlM, keeper.includeCredentialInPolynomial, g1, Option.map_some',
          Option.bind_eq_bind, Option.some_bind]
        exact k1
    have h0 : keeper.GetCredentialPolynomial gP none = NewPolynomial [1] ring := by
      simp only [keeper.GetCredentialPolynomial, hg]
    obtain ⟨store2, k1, k2⟩ := key us none p (by rw [h0]; exact h1)
    exact ⟨store2, k1, by rw [k2]; exact h1⟩

theorem credential_polynomial_invariant_witness :
    (∃ p, [2, 9, 4].foldlM (fun (q : Polynomial) u => q.IncludeCredential u)
        (NewPolynomial [1] (NewZModPrime 11 1)) = some p ∧
      p.ZModPr = NewZModPrime 11 1 ∧ p.Coeffs ≠ [] ∧ p.Coeffs.length = [2, 9, 4].length + 1 ∧
      (∀ c ∈ p.Coeffs, 0 ≤ c ∧ c < (NewZModPrime 11 1).Modulus) ∧
      coeffAt p.Coeffs [2, 9, 4].length = 1 ∧ p.Degree = some [2, 9, 4].length ∧
      p.Trim = some p ∧ ∀ u, ∃ r, p.IncludeCredential u = some r) ∧
    (∀ gP : GStarModPrime, gP.ZModOrder = NewZModPrime 11 1 →
      ∃ store, [2, 9, 4].foldlM (keeper.includeCredentialInPolynomial gP) none = some store ∧
        [2, 9, 4].foldlM (fun (q : Polynomial) u => q.IncludeCredential u)
          (NewPolynomial [1] (NewZModPrime 11 1))
          = some (keeper.GetCredentialPolynomial gP store)) :=
  credential_polynomial_invariant (NewZModPrime 11 1) (by decide) [2, 9, 4]

end crypto
namespace crypto

theorem list_eq_of_coeffAt (l1 l2 : List Int) (hlen : l1.length = l2.length)
    (h : ∀ k, k < l1.length → coeffAt l1 k = coeffAt l2 k) : l1 = l2 := by
  apply List.ext_getElem hlen
  intro i h1 h2
  have := h i h1
  rw [coeffAt_eq_getD, coeffAt_eq_getD, List.getD_eq_getElem _ _ h1,
    List.getD_eq_getElem _ _ h2] at this
  exact this

/-- One inclusion in a coefficient list whose leading coefficient is not 0 modulo m: the
result has one more coefficient, all in [0, m), its leading coefficient is not 0 modulo m, and
its coefficient k is `c_k * ((m - u) mod m) + c_(k-1)` modulo m. -/
theorem include_step (ring : ZModPrime) (hm : 1 < ring.Modulus) (c : List Int) (hc : c ≠ [])
    (hlead : coeffAt c (c.length - 1) % ring.Modulus ≠ 0) (u : Int) :
    ∃ R, (⟨c, ring⟩ : Polynomial).IncludeCredential u = some ⟨R, ring⟩ ∧
      R.length = c.length + 1 ∧ R ≠ [] ∧ coeffAt R (R.length - 1) % ring.Modulus ≠ 0 ∧
      (∀ x ∈ R, 0 ≤ x ∧ x < ring.Modulus) ∧
      ∀ k, coeffAt R k
        ≡ coeffAt c k * ((ring.Modulus - u) % ring.Modulus)
          + (if k = 0 then 0 else coeffAt c (k - 1)) [ZMOD ring.Modulus] := by
  have hm0 : ring.Modulus ≠ 0 := by omega
  have hc0 : coeffAt c (c.length - 1) ≠ 0 := by
    intro h0
    rw [h0] at hlead
    exact hlead (Int.zero_emod _)
  have htrim : trim (Polynomial.Coeffs ⟨c, ring⟩) = some (Polynomial.Coeffs ⟨c, ring⟩) :=
    trim_of_last c hc hc0
  obtain ⟨R, g1, g2, _, g4, _⟩ := IncludeCredential_full ⟨c, ring⟩ u hm0 htrim
  obtain ⟨R2, k1, _, _, k4, _⟩ := IncludeCredential_spec ⟨c, ring⟩ u hm0 htrim
  rw [g1] at k1
  have e : R = R2 := congrArg Polynomial.Coeffs (Option.some.inj k1)
  subst e
  simp only at g1 g2 g4 k4
  have hmul : (⟨c, ring⟩ : Polynomial).Mul
      ⟨[(ring.Modulus - u) % ring.Modulus, 1], ring⟩ = some ⟨R, ring⟩ := by
    have := g1
    simp only [Polynomial.IncludeCredential, ZModPrime.AdditiveInvert, bigMod_of_ne _ hm0,
      Option.bind_eq_bind, Option.some_bind, NewPolynomial] at this
    exact this
  have hco := mul_step_coeff ring hm c ((ring.Modulus - u) % ring.Modulus) 1 hc hc0
    one_ne_zero R hmul
  have hRne : R ≠ [] := by
    intro h0
    rw [h0] at g2
    simp at g2
  refine ⟨R, g1, g2, hRne, ?_, ?_, ?_⟩
  · have e2 : R.length - 1 = c.length := by omega
    rw [e2, g4, Int.emod_emod_of_dvd _ (dvd_refl _)]
    exact hlead
  · intro x hx
    have := k4 x hx
    rw [← this]
    exact ⟨Int.emod_nonneg _ hm0, Int.emod_lt_of_pos _ (by omega)⟩
  · intro k
    have := hco k
    by_cases hk : k = 0
    · simpa [hk] using this
    · simpa [hk] using this

/-- Two inclusions in a non-zero polynomial commute. For every polynomial with a non-empty list of coefficients in [0, m) whose leading coefficient
is not 0 (a non-zero polynomial with reduced, trimmed coefficients) and all credentials u and
v: including u and then v returns a polynomial, and including v and then u returns the same
polynomial, with the same list of coefficients. -/
theorem IncludeCredential_comm (p : Polynomial) (u v : Int) (hne : p.Coeffs ≠ [])
    (hred : ∀ c ∈ p.Coeffs, 0 ≤ c ∧ c < p.ZModPr.Modulus)
    (hlead : coeffAt p.Coeffs (p.Coeffs.length - 1) ≠ 0) :
    ∃ r, (p.IncludeCredential u).bind (fun p1 => p1.IncludeCredential v) = some r ∧
      (p.IncludeCredential v).bind (fun p1 => p1.IncludeCredential u) = some r ∧
      r.ZModPr = p.ZModPr ∧ r.Coeffs.length = p.Coeffs.length + 2 := by
  obtain ⟨c, ring⟩ := p
  simp only at hne hred hlead
  have hmem := coeffAt_mem c (c.length - 1) (by
    have := List.length_pos.mpr hne
    omega)
  obtain ⟨hlo, hhi⟩ := hred _ hmem
  have hm : 1 < ring.Modulus := by omega
  have hlead2 : coeffAt c (c.length - 1) % ring.Modulus ≠ 0 := by
    rw [Int.emod_eq_of_lt hlo hhi]
    exact hlead
  obtain ⟨R1, a1, a2, a3, a4, _, a6⟩ := include_step ring hm c hne hlead2 u
  obtain ⟨R2, b1, b2, _, _, b5, b6⟩ := include_step ring hm R1 a3 a4 v
  obtain ⟨S1, c1, c2, c3, c4, _, c6⟩ := include_step ring hm c hne hlead2 v
  obtain ⟨S2, d1, d2, _, _, d5, d6⟩ := include_step ring hm S1 c3 c4 u
  have hcong : ∀ k, coeffAt R2 k ≡ coeffAt S2 k [ZMOD ring.Modulus] := by
    intro k
    cases k with
    | zero =>
      have h1 := b6 0
      have h2 := a6 0
      have h3 := d6 0
      have h4 := c6 0
      simp only [if_true, add_zero] at h1 h2 h3 h4
      have e1 := h1.trans (h2.mul_right _)
      have e2 := h3.trans (h4.mul_right _)
      refine e1.trans (Int.ModEq.trans ?_ e2.symm)
      rw [mul_assoc, mul_assoc, mul_comm ((ring.Modulus - u) % ring.Modulus)]
    | succ j =>
      have h1 := b6 (j + 1)
      have h2 := a6 (j + 1)
      have h2b := a6 j
      have h3 := d6 (j + 1)
      have h4 := c6 (j + 1)
      have h4b := c6 j
      simp only [Nat.succ_ne_zero, if_false, Nat.add_sub_cancel] at h1 h2 h3 h4
      have e1 := h1.trans ((h2.mul_right _).add h2b)
      have e2 := h3.trans ((h4.mul_right _).add h4b)
      refine e1.trans (Int.ModEq.trans ?_ e2.symm)
      have : (coeffAt c (j + 1) * ((ring.Modulus - u) % ring.Modulus) + coeffAt c j)
            * ((ring.Modulus - v) % ring.Modulus)
          + (coeffAt c j * ((ring.Modulus - u) % ring.Modulus)
            + if j = 0 then 0 else coeffAt c (j - 1))
          = (coeffAt c (j + 1) * ((ring.Modulus - v) % ring.Modulus) + coeffAt c j)
            * ((ring.Modulus - u) % ring.Modulus)
          + (coeffAt c j * ((ring.Modulus - v) % ring.Modulus)
            + if j = 0 then 0 else coeffAt c (j - 1)) := by ring
      rw [this]
  have heq : R2 = S2 := by
    apply list_eq_of_coeffAt R2 S2 (by omega)
    intro k hk
    obtain ⟨l1, l2⟩ := b5 _ (coeffAt_mem R2 k hk)
    obtain ⟨l3, l4⟩ := d5 _ (coeffAt_mem S2 k (by omega))
    have := (hcong k).eq
    rw [Int.emod_eq_of_lt l1 l2, Int.emod_eq_of_lt l3 l4] at this
    exact this
  refine ⟨⟨R2, ring⟩, ?_, ?_, rfl, by simp only; omega⟩
  · rw [a1, Option.some_bind, b1]
  · rw [c1, Option.some_bind, d1, heq]

theorem IncludeCredential_comm_witness :
    ∃ r, ((NewPolynomial [6, 6, 1] (NewZModPrime 11 1)).IncludeCredential 7).bind
        (fun p1 => p1.IncludeCredential 15) = some r ∧
      ((NewPolynomial [6, 6, 1] (NewZModPrime 11 1)).IncludeCredential 15).bind
        (fun p1 => p1.IncludeCredential 7) = some r ∧
      r.ZModPr = (NewPolynomial [6, 6, 1] (NewZModPrime 11 1)).ZModPr ∧
      r.Coeffs.length = (NewPolynomial [6, 6, 1] (NewZModPrime 11 1)).Coeffs.length + 2 :=
  IncludeCredential_comm (NewPolynomial [6, 6, 1] (NewZModPrime 11 1)) 7 15 (by decide)
    (by decide) (by decide)

/-- The zero polynomial [0] over Z_5 has reduced, trimmed coefficients; including 1 returns
the list 0, 0, which is not trimmed, and the second inclusion indexes past the end of the
product slice, in either order. -/
theorem IncludeCredential_zero_example :
    (∀ c ∈ (NewPolynomial [0] (NewZModPrime 5 1)).Coeffs, 0 ≤ c ∧ c < 5) ∧
    (NewPolynomial [0] (NewZModPrime 5 1)).Trim = some (NewPolynomial [0] (NewZModPrime 5 1)) ∧
    (NewPolynomial [0] (NewZModPrime 5 1)).IncludeCredential 1
      = some (NewPolynomial [0, 0] (NewZModPrime 5 1)) ∧
    ((NewPolynomial [0] (NewZModPrime 5 1)).IncludeCredential 1).bind
      (fun p1 => p1.IncludeCredential 2) = none ∧
    ((NewPolynomial [0] (NewZModPrime 5 1)).IncludeCredential 2).bind
      (fun p1 => p1.IncludeCredential 1) = none := by
  decide

end crypto
namespace crypto

theorem mulStep_some (zm : ZModPrime) (idx : Nat) (a b : Int) (s s2 : List (Option Int))
    (h : mulStep zm idx a b s = some s2) : idx < s.length ∧ s2.length = s.length := by
  simp only [mulStep, Option.bind_eq_bind] at h
  obtain ⟨tmp, _, h⟩ := Option.bind_eq_some.mp h
  obtain ⟨cur, hcur, h⟩ := Option.bind_eq_some.mp h
  obtain ⟨sum, _, h⟩ := Option.bind_eq_some.mp h
  have := Option.some.inj h
  subst this
  obtain ⟨hlt, _⟩ := List.getElem?_eq_some_iff.mp hcur
  exact ⟨hlt, by simp⟩

theorem mulInner_some (zm : ZModPrime) (i : Nat) (a : Int) : ∀ (rest : List Int) (j : Nat)
    (s s2 : List (Option Int)), mulInner zm i a rest j s = some s2 →
    s2.length = s.length ∧ (rest ≠ [] → i + j + rest.length ≤ s.length) := by
  intro rest
  induction rest with
  | nil =>
    intro j s s2 h
    simp only [mulInner, Option.some.injEq] at h
    subst h
    exact ⟨rfl, fun h => absurd rfl h⟩
  | cons b rest ih =>
    intro j s s2 h
    simp only [mulInner, Option.bind_eq_bind] at h
    obtain ⟨s1, h1, h⟩ := Option.bind_eq_some.mp h
    obtain ⟨g1, g2⟩ := mulStep_some zm (i + j) a b s s1 h1
    obtain ⟨k1, k2⟩ := ih (j + 1) s1 s2 h
    refine ⟨by rw [k1, g2], fun _ => ?_⟩
    by_cases hr : rest = []
    · subst hr
      simp only [List.length_singleton]
      omega
    · have := k2 hr
      rw [List.length_cons]
      omega

theorem mulOuter_some (zm : ZModPrime) (bs : List Int) (hbs : bs ≠ []) : ∀ (rest : List Int)
    (i : Nat) (s s2 : List (Option Int)), mulOuter zm bs rest i s = some s2 →
    s2.length = s.length ∧ (rest ≠ [] → i + rest.length - 1 + bs.length ≤ s.length) := by
  intro rest
  induction rest with
  | nil =>
    intro i s s2 h
    simp only [mulOuter, Option.some.injEq] at h
    subst h
    exact ⟨rfl, fun h => absurd rfl h⟩
  | cons a rest ih =>
    intro i s s2 h
    simp only [mulOuter, Option.bind_eq_bind] at h
    obtain ⟨s1, h1, h⟩ := Option.bind_eq_some.mp h
    obtain ⟨g1, g2⟩ := mulInner_some zm i a bs 0 s s1 h1
    obtain ⟨k1, k2⟩ := ih (i + 1) s1 s2 h
    refine ⟨by rw [k1, g1], fun _ => ?_⟩
    have g3 := g2 hbs
    by_cases hr : rest = []
    · subst hr
      simp only [List.length_singleton]
      omega
    · have := k2 hr
      have hpos := List.length_pos.mpr hr
      rw [List.length_cons]
      omega

/-- Degree of a non-empty list: the list is trimmed exactly when it has Degree + 1
coefficients, and it is longer exactly when its last coefficient is 0 and it has at least two
coefficients. -/
theorem Degree_cases (p : Polynomial) (hp : p.Coeffs ≠ []) :
    ∃ dp, p.Degree = some dp ∧ dp + 1 ≤ p.Coeffs.length ∧
      (p.Coeffs.length = dp + 1 ↔ trim p.Coeffs = some p.Coeffs) ∧
      (dp + 1 < p.Coeffs.length ↔
        (2 ≤ p.Coeffs.length ∧ coeffAt p.Coeffs (p.Coeffs.length - 1) = 0)) := by
  obtain ⟨j, h1, h2, h3, h4, h5⟩ := trim_eq_take p.Coeffs hp
  have hlen : (p.Coeffs.take j).length = j := by
    rw [List.length_take]
    omega
  refine ⟨j - 1, ?_, by omega, ?_, ?_⟩
  · simp only [Polynomial.Degree, h1, Option.map_some', hlen]
  · constructor
    · intro h
      have : j = p.Coeffs.length := by omega
      rw [h1, this, List.take_length]
    · intro h
      rw [h1] at h
      have := congrArg List.length (Option.some.inj h)
      rw [hlen] at this
      omega
  · constructor
    · intro h
      exact ⟨by omega, h4 _ (by omega)⟩
    · rintro ⟨h6, h7⟩
      by_contra hcon
      have hj : j = p.Coeffs.length := by omega
      rcases h5 with h5 | ⟨h5, _⟩
      · rw [hj] at h5
        exact h5 h7
      · omega

/-- C40: Polynomial.Mul is defined exactly on trimmed operands. For polynomials with non-empty
coefficient lists whose rings share the modulus object, the modulus not being 0: Mul fails if
and only if one of the lists is longer than its Degree + 1, and then its loops index past the
end of the product slice; a list is longer than its Degree + 1 exactly when it has at least
two coefficients and the last one is 0. For operands with exactly Degree + 1 coefficients Mul
returns a polynomial over the ring of p with exactly `Degree(p) + Degree(other) + 1`
coefficients. -/
theorem Mul_defined_iff_trimmed (p other : Polynomial) (href : p.ZModPr.ref = other.ZModPr.ref)
    (hm : p.ZModPr.Modulus ≠ 0) (hp : p.Coeffs ≠ []) (ho : other.Coeffs ≠ []) :
    ∃ dp dq, p.Degree = some dp ∧ other.Degree = some dq ∧
      dp + 1 ≤ p.Coeffs.length ∧ dq + 1 ≤ other.Coeffs.length ∧
      (p.Mul other = none ↔ (dp + 1 < p.Coeffs.length ∨ dq + 1 < other.Coeffs.length)) ∧
      (mulOuter p.ZModPr other.Coeffs p.Coeffs 0 (List.replicate (dp + dq + 1) none) = none
        ↔ (dp + 1 < p.Coeffs.length ∨ dq + 1 < other.Coeffs.length)) ∧
      (dp + 1 < p.Coeffs.length ↔
        (2 ≤ p.Coeffs.length ∧ coeffAt p.Coeffs (p.Coeffs.length - 1) = 0)) ∧
      (dq + 1 < other.Coeffs.length ↔
        (2 ≤ other.Coeffs.length ∧ coeffAt other.Coeffs (other.Coeffs.length - 1) = 0)) ∧
      (p.Coeffs.length = dp + 1 → other.Coeffs.length = dq + 1 →
        ∃ r, p.Mul other = some r ∧ r.ZModPr = p.ZModPr ∧
          r.Coeffs.length = dp + dq + 1) := by
  obtain ⟨dp, a1, a2, a3, a4⟩ := Degree_cases p hp
  obtain ⟨dq, b1, b2, b3, b4⟩ := Degree_cases other ho
  have hgood : p.Coeffs.length = dp + 1 → other.Coeffs.length = dq + 1 →
      ∃ r, p.Mul other = some r ∧ r.ZModPr = p.ZModPr ∧ r.Coeffs.length = dp + dq + 1 := by
    intro h1 h2
    obtain ⟨R, g1, g2, _⟩ := Mul_full p other href hm (a3.mp h1) (b3.mp h2)
    exact ⟨⟨R, p.ZModPr⟩, g1, rfl, by simp only; omega⟩
  have houter : mulOuter p.ZModPr other.Coeffs p.Coeffs 0 (List.replicate (dp + dq + 1) none)
      = none ↔ (dp + 1 < p.Coeffs.length ∨ dq + 1 < other.Coeffs.length) := by
    constructor
    · intro h
      by_contra hcon
      obtain ⟨r, g1, _⟩ := hgood (by omega) (by omega)
      simp only [Polynomial.Mul, href, ne_eq, not_true_eq_false, if_false, a1, b1,
        Option.bind_eq_bind, Option.some_bind, h, Option.none_bind] at g1
      exact absurd g1 (by simp)
    · intro h
      cases hmo : mulOuter p.ZModPr other.Coeffs p.Coeffs 0
          (List.replicate (dp + dq + 1) none) with
      | none => rfl
      | some s2 =>
        obtain ⟨_, k2⟩ := mulOuter_some p.ZModPr other.Coeffs ho p.Coeffs 0 _ s2 hmo
        have := k2 hp
        rw [List.length_replicate] at this
        have hpos := List.length_pos.mpr hp
        omega
  refine ⟨dp, dq, a1, b1, a2, b2, ?_, houter, a4, b4, hgood⟩
  constructor
  · intro h
    by_contra hcon
    obtain ⟨r, g1, _⟩ := hgood (by omega) (by omega)
    rw [h] at g1
    exact absurd g1 (by simp)
  · intro h
    simp only [Polynomial.Mul, href, ne_eq, not_true_eq_false, if_false, a1, b1,
      Option.bind_eq_bind, Option.some_bind, houter.mpr h, Option.none_bind]

theorem Mul_defined_iff_trimmed_witness :
    ∃ dp dq, (NewPolynomial [0, 0] (NewZModPrime 5 1)).Degree = some dp ∧
      (NewPolynomial [3, 1] (NewZModPrime 5 1)).Degree = some dq ∧
      dp + 1 ≤ (NewPolynomial [0, 0] (NewZModPrime 5 1)).Coeffs.length ∧
      dq + 1 ≤ (NewPolynomial [3, 1] (NewZModPrime 5 1)).Coeffs.length ∧
      ((NewPolynomial [0, 0] (NewZModPrime 5 1)).Mul (NewPolynomial [3, 1] (NewZModPrime 5 1))
          = none
        ↔ (dp + 1 < (NewPolynomial [0, 0] (NewZModPrime 5 1)).Coeffs.length ∨
          dq + 1 < (NewPolynomial [3, 1] (NewZModPrime 5 1)).Coeffs.length)) ∧
      (mulOuter (NewPolynomial [0, 0] (NewZModPrime 5 1)).ZModPr
          (NewPolynomial [3, 1] (NewZModPrime 5 1)).Coeffs
          (NewPolynomial [0, 0] (NewZModPrime 5 1)).Coeffs 0
          (List.replicate (dp + dq + 1) none) = none
        ↔ (dp + 1 < (NewPolynomial [0, 0] (NewZModPrime 5 1)).Coeffs.length ∨
          dq + 1 < (NewPolynomial [3, 1] (NewZModPrime 5 1)).Coeffs.length)) ∧
      (dp + 1 < (NewPolynomial [0, 0] (NewZModPrime 5 1)).Coeffs.length ↔
        (2 ≤ (NewPolynomial [0, 0] (NewZModPrime 5 1)).Coeffs.length ∧
          coeffAt (NewPolynomial [0, 0] (NewZModPrime 5 1)).Coeffs
            ((NewPolynomial [0, 0] (NewZModPrime 5 1)).Coeffs.length - 1) = 0)) ∧
      (dq + 1 < (NewPolynomial [3, 1] (NewZModPrime 5 1)).Coeffs.length ↔
        (2 ≤ (NewPolynomial [3, 1] (NewZModPrime 5 1)).Coeffs.length ∧
          coeffAt (NewPolynomial [3, 1] (NewZModPrime 5 1)).Coeffs
            ((NewPolynomial [3, 1] (NewZModPrime 5 1)).Coeffs.length - 1) = 0)) ∧
      ((NewPolynomial [0, 0] (NewZModPrime 5 1)).Coeffs.length = dp + 1 →
        (NewPolynomial [3, 1] (NewZModPrime 5 1)).Coeffs.length = dq + 1 →
        ∃ r, (NewPolynomial [0, 0] (NewZModPrime 5 1)).Mul
            (NewPolynomial [3, 1] (NewZModPrime 5 1)) = some r ∧
          r.ZModPr = (NewPolynomial [0, 0] (NewZModPrime 5 1)).ZModPr ∧
          r.Coeffs.length = dp + dq + 1) :=
  Mul_defined_iff_trimmed (NewPolynomial [0, 0] (NewZModPrime 5 1))
    (NewPolynomial [3, 1] (NewZModPrime 5 1)) rfl (by decide) (by decide) (by decide)

/-- Examples for C40: over Z_5 the sum of 1 + X and 4 + 4X is the untrimmed [0, 0], on which
Mul fails in either position; the product of the trimmed 1 + X and 3 + X has 1 + 1 + 1
coefficients. -/
theorem Mul_defined_examples :
    (NewPolynomial [1, 1] (NewZModPrime 5 1)).Add (NewPolynomial [4, 4] (NewZModPrime 5 1))
      = some (NewPolynomial [0, 0] (NewZModPrime 5 1)) ∧
    (NewPolynomial [0, 0] (NewZModPrime 5 1)).Mul (NewPolynomial [3, 1] (NewZModPrime 5 1))
      = none ∧
    (NewPolynomial [3, 1] (NewZModPrime 5 1)).Mul (NewPolynomial [0, 0] (NewZModPrime 5 1))
      = none ∧
    (NewPolynomial [1, 1] (NewZModPrime 5 1)).Mul (NewPolynomial [3, 1] (NewZModPrime 5 1))
      = some (NewPolynomial [3, 4, 1] (NewZModPrime 5 1)) := by
  decide

end crypto
namespace crypto

/-- The constructor of the polynomial-evaluation proof system on a trimmed polynomial of
degree at least 1. -/
theorem NewPolynomialEvaluationProofSystem_of_trim (commP : PedersenCommitmentScheme)
    (poly : Polynomial) (htrim : trim poly.Coeffs = some poly.Coeffs)
    (hdeg : 2 ≤ poly.Coeffs.length) :
    NewPolynomialEvaluationProofSystem commP poly
      = some { CommScheme := commP, Polynomial := poly, gStarModPr := commP.G,
               zModPr := commP.G.ZModOrder, d := Nat.log2 (poly.Coeffs.length - 1) } := by
  have h0 : poly.Coeffs.length - 1 ≠ 0 := by omega
  simp only [NewPolynomialEvaluationProofSystem, Degree_of_trim poly htrim, Option.some_bind,
    if_neg h0]

/-- C39: verification is total on well-shaped transcripts. With the credential polynomial
trimmed and of degree D at least 1, `d = floor(log2 D)`, transcripts without nil entries whose
arrays have at least the documented numbers of entries (d for CArr, CfuArr and XiBarArr, d + 1
for CfArr, CdArr, FBarArr and RBarArr; k for T1Arr, T2Arr, ZSArr, ZRArr and ZMArr, every row of
ZMArr with exactly two entries) and whose responses all lie in [0, ord] for the order of the
group they are committed in, each of the three Verify functions returns a boolean. The
parameters are valid: non-zero moduli, a positive order of G_p, one message generator in the
scheme of G_p and two in the scheme of G_q, the modulus of G_q at most ord(G_p) + 1, and k
accepted by the constructor of the double-discrete-log system. -/
theorem Verify_total_wellshaped :
    (∀ (commP : PedersenCommitmentScheme) (poly : Polynomial) (sha256 : List Nat → List Nat)
      (cArr cfArr cdArr cfuArr fBar rBar xiBar : List Int) (tBar commToU : Int) (vote : String),
      trim poly.Coeffs = some poly.Coeffs → 2 ≤ poly.Coeffs.length →
      commP.G.Modulus ≠ 0 → 0 < commP.G.Order → commP.Hm.length = 1 →
      Nat.log2 (poly.Coeffs.length - 1) ≤ cArr.length →
      Nat.log2 (poly.Coeffs.length - 1) + 1 ≤ cfArr.length →
      Nat.log2 (poly.Coeffs.length - 1) + 1 ≤ cdArr.length →
      Nat.log2 (poly.Coeffs.length - 1) ≤ cfuArr.length →
      Nat.log2 (poly.Coeffs.length - 1) + 1 ≤ fBar.length →
      Nat.log2 (poly.Coeffs.length - 1) + 1 ≤ rBar.length →
      Nat.log2 (poly.Coeffs.length - 1) ≤ xiBar.length →
      (∀ e ∈ fBar, 0 ≤ e ∧ e ≤ commP.G.Order) → (∀ e ∈ rBar, 0 ≤ e ∧ e ≤ commP.G.Order) →
      (∀ e ∈ xiBar, 0 ≤ e ∧ e ≤ commP.G.Order) → (0 ≤ tBar ∧ tBar ≤ commP.G.Order) →
      ∃ ps b, NewPolynomialEvaluationProofSystem commP poly = some ps ∧
        ps.d = Nat.log2 (poly.Coeffs.length - 1) ∧
        ps.Verify sha256
          { CArr := cArr.map some, CfArr := cfArr.map some, CdArr := cdArr.map some,
            CfuArr := cfuArr.map some, FBarArr := fBar.map some, RBarArr := rBar.map some,
            TBar := some tBar, XiBarArr := xiBar.map some } commToU vote = some b) ∧
    (∀ (commP commQ : PedersenCommitmentScheme) (k : Nat) (ps : DoubleDiscreteLogProofSystem)
      (sha256 : List Nat → List Nat) (t : Int) (t1 t2 : List Int) (zX zR : Int)
      (zM : List (List Int)) (zS zRArr : List Int) (commToU commToAandB : Int) (vote : String),
      NewDoubleDiscreteLogProofSystem commP commQ k = some ps →
      commP.G.Modulus ≠ 0 → 0 < commQ.G.Modulus → commQ.G.Modulus ≤ commP.G.Order + 1 →
      commP.Hm.length = 1 → commQ.Hm.length = 2 →
      k ≤ t1.length → k ≤ t2.length → k ≤ zM.length → k ≤ zS.length → k ≤ zRArr.length →
      (0 ≤ zX ∧ zX ≤ commP.G.Order) → (0 ≤ zR ∧ zR ≤ commP.G.Order) →
      (∀ e ∈ zS, 0 ≤ e ∧ e ≤ commQ.G.Order) →
      (∀ row ∈ zM, row.length = 2 ∧ ∀ e ∈ row, 0 ≤ e ∧ e ≤ commQ.G.Order) →
      (∀ e ∈ zRArr, 0 ≤ e ∧ e ≤ commP.G.Order) →
      ∃ b, ps.Verify sha256
        { T := some t, T1Arr := t1.map some, T2Arr := t2.map some, ZX := some zX,
          ZR := some zR, ZMArr := zM.map (fun row => row.map some), ZSArr := zS.map some,
          ZRArr := zRArr.map some } commToU commToAandB vote = some b) ∧
    (∀ (hHat : Int) (commQ : PedersenCommitmentScheme) (sha256 : List Nat → List Nat)
      (comm commHHat respA respB respS commToAandB uHat : Int) (vote : String),
      commQ.G.Modulus ≠ 0 → commQ.G.Order ≠ 0 → commQ.Hm.length = 2 →
      (0 ≤ respA ∧ respA ≤ commQ.G.Order) → (0 ≤ respB ∧ respB ≤ commQ.G.Order) →
      (0 ≤ respS ∧ respS ≤ commQ.G.Order) →
      ∃ b, (NewPreimageEqualityProofSystem hHat commQ).Verify sha256
        { Comm := some comm, CommHHat := some commHHat, RespA := some respA,
          RespB := some respB, RespS := some respS } commToAandB uHat vote = some b) := by
  refine ⟨?_, ?_, ?_⟩
  · intro commP poly sha256 cArr cfArr cdArr cfuArr fBar rBar xiBar tBar commToU vote
      htrim hdeg hmod hord hlen l1 l2 l3 l4 l5 l6 l7 hf hr hxi ht
    have hps := NewPolynomialEvaluationProofSystem_of_trim commP poly htrim hdeg
    obtain ⟨b, hb⟩ := PolyEval_Verify_total commP poly _ hps sha256 cArr cfArr cdArr cfuArr
      fBar rBar xiBar tBar commToU vote hmod hord hlen l1 l2 l3 l4 l5 l6 l7 hf hr hxi ht
    exact ⟨_, b, hps, rfl, hb⟩
  · intro commP commQ k ps sha256 t t1 t2 zX zR zM zS zRArr commToU commToAandB vote
      hps hmodP hmodQ hle hlenP hlenQ h1 h2 h3 h4 h5 hzX hzR0 hzS hzM hzR
    exact DoubleDiscreteLog_Verify_total commP commQ k ps hps sha256 t t1 t2 zX zR zM zS
      zRArr commToU commToAandB vote hmodP hmodQ hle hlenP h1 h2 h3 h4 h5 hzX hzR0 hzS
      (fun row hrow => by
        obtain ⟨g1, g2⟩ := hzM row hrow
        exact ⟨by rw [g1, hlenQ], g2⟩) hzR
  · intro hHat commQ sha256 comm commHHat respA respB respS commToAandB uHat vote
      hmod hord hlen hA hB hS
    exact PreimageEquality_Verify_total hHat commQ sha256 comm commHHat respA respB respS
      commToAandB uHat vote hmod hord hlen hA hB hS

theorem Verify_total_wellshaped_witness :
    (∃ ps b, NewPolynomialEvaluationProofSystem
        (NewPedersenCommitmentScheme (NewGStarModPrime 23 11 0 1) 2 [3])
        (NewPolynomial [6, 6, 1] (NewGStarModPrime 23 11 0 1).ZModOrder) = some ps ∧
      ps.d = Nat.log2 ((NewPolynomial [6, 6, 1]
        (NewGStarModPrime 23 11 0 1).ZModOrder).Coeffs.length - 1) ∧
      ps.Verify (fun bs => [bs.length % 256])
        { CArr := [4].map some, CfArr := [1, 2].map some, CdArr := [3, 4].map some,
          CfuArr := [5].map some, FBarArr := [10, 11].map some, RBarArr := [0, 2].map some,
          TBar := some 11, XiBarArr := [3].map some } 6 "no" = some b) ∧
    (∃ b, (ddSystem 23 11 5 2 3 3 4 5 0 1 1 2 2).Verify (fun bs => [bs.length % 256])
        { T := some 1, T1Arr := [1, 7].map some, T2Arr := [1, 3].map some, ZX := some 11,
          ZR := some 0, ZMArr := [[1, 5], [0, 2]].map (fun row => row.map some),
          ZSArr := [1, 5].map some, ZRArr := [1, 11].map some } 6 4 "no" = some b) ∧
    (∃ b, (NewPreimageEqualityProofSystem 9
        (NewPedersenCommitmentScheme (NewGStarModPrime 11 5 1 2) 3 [4, 5])).Verify
        (fun bs => [bs.length % 256])
        { Comm := some 1, CommHHat := some 2, RespA := some 5, RespB := some 0,
          RespS := some 4 } 4 5 "no" = some b) :=
  ⟨Verify_total_wellshaped.1
      (NewPedersenCommitmentScheme (NewGStarModPrime 23 11 0 1) 2 [3])
      (NewPolynomial [6, 6, 1] (NewGStarModPrime 23 11 0 1).ZModOrder)
      (fun bs => [bs.length % 256]) [4] [1, 2] [3, 4] [5] [10, 11] [0, 2] [3] 11 6 "no"
      (by decide) (by decide) (by decide) (by decide) (by decide)
      (by show Nat.log2 2 ≤ 1; rw [log2_two])
      (by show Nat.log2 2 + 1 ≤ 2; rw [log2_two])
      (by show Nat.log2 2 + 1 ≤ 2; rw [log2_two])
      (by show Nat.log2 2 ≤ 1; rw [log2_two])
      (by show Nat.log2 2 + 1 ≤ 2; rw [log2_two])
      (by show Nat.log2 2 + 1 ≤ 2; rw [log2_two])
      (by show Nat.log2 2 ≤ 1; rw [log2_two])
      (by decide) (by decide) (by decide) (by decide),
    Verify_total_wellshaped.2.1
      (NewPedersenCommitmentScheme (NewGStarModPrime 23 11 0 1) 2 [3])
      (NewPedersenCommitmentScheme (NewGStarModPrime 11 5 1 2) 3 [4, 5]) 2
      (ddSystem 23 11 5 2 3 3 4 5 0 1 1 2 2)
      (fun bs => [bs.length % 256]) 1 [1, 7] [1, 3] 11 0 [[1, 5], [0, 2]] [1, 5] [1, 11] 6 4
      "no" (by decide)
      (by decide) (by decide) (by decide) (by decide) (by decide) (by decide) (by decide)
      (by decide) (by decide) (by decide) (by decide) (by decide) (by decide) (by decide)
      (by decide),
    Verify_total_wellshaped.2.2 9
      (NewPedersenCommitmentScheme (NewGStarModPrime 11 5 1 2) 3 [4, 5])
      (fun bs => [bs.length % 256]) 1 2 5 0 4 4 5 "no"
      (by decide) (by decide) (by decide) (by decide) (by decide) (by decide)⟩

end crypto
namespace pbb

theorem lookup_append_of_none (l : List (List Nat × List Nat)) (key value : List Nat)
    (h : l.lookup key = none) : (l ++ [(key, value)]).lookup key = some value := by
  induction l with
  | nil => simp [List.lookup]
  | cons e l ih =>
    obtain ⟨k, v⟩ := e
    by_cases hk : key = k
    · subst hk
      simp [List.lookup] at h
    · have hb : (key == k) = false := by simpa using hk
      simp only [List.cons_append, List.lookup, hb] at h ⊢
      exact ih h

/-- The result of handleMsgPutBallot by cases: none for a nil pseudonym or a panic of a
verification, a rejection with the store unchanged when the key is present or a proof is
invalid, and OK with the ballot stored under the bytes of uHat otherwise. -/
theorem handleMsgPutBallot_eval (sha256 : List Nat → List Nat)
    (cdc : types.Ballot → Option (List Nat)) (params : types.Params)
    (polyStore : Option crypto.Polynomial) (store : sdk.KVStore) (msg : types.MsgPutBallot)
    (bz : List Nat) (hcdc : cdc msg.Ballot = some bz) :
    (∀ uHat, msg.Ballot.UHat.BigInt = some uHat → store.Has (crypto.Bytes uHat) = false →
      isMembershipProofValid sha256 msg.Ballot params.CommP
        (keeper.GetCredentialPolynomial params.CommP.G polyStore) = some true →
      isRepresentationProofValid sha256 msg.Ballot params = some true →
      isPreimageProofValid sha256 msg.Ballot params = some true →
      handleMsgPutBallot sha256 cdc params polyStore store msg
        = some ({ Code := sdk.CodeOK, Log := "" }, store.Set (crypto.Bytes uHat) bz)) ∧
    (∀ r, handleMsgPutBallot sha256 cdc params polyStore store msg = some r →
      r.1.Code = sdk.CodeOK →
      ∃ uHat, msg.Ballot.UHat.BigInt = some uHat ∧ store.Has (crypto.Bytes uHat) = false ∧
        isMembershipProofValid sha256 msg.Ballot params.CommP
          (keeper.GetCredentialPolynomial params.CommP.G polyStore) = some true ∧
        isRepresentationProofValid sha256 msg.Ballot params = some true ∧
        isPreimageProofValid sha256 msg.Ballot params = some true) := by
  have hrej : ∀ m, (types.ErrInvalidBallot m).Code ≠ sdk.CodeOK := by
    intro m
    simp [types.ErrInvalidBallot, types.InvalidBallot, sdk.CodeOK]
  constructor
  · intro uHat hu hhas h1 h2 h3
    simp [handleMsgPutBallot, keeper.HasElectionCredential, keeper.StoreBallot, hu, hhas, h1,
      h2, h3, hcdc]
  · intro r h hok
    unfold handleMsgPutBallot keeper.HasElectionCredential at h
    cases hu : msg.Ballot.UHat.BigInt with
    | none =>
      rw [hu] at h
      simp at h
    | some uHat =>
      rw [hu] at h
      simp only [Option.map_some', Option.some_bind] at h
      cases hhas : store.Has (crypto.Bytes uHat) with
      | true =>
        rw [hhas] at h
        simp only [if_true, Option.some.injEq] at h
        subst h
        exact absurd hok (hrej _)
      | false =>
        rw [hhas] at h
        simp only [Bool.false_eq_true, if_false] at h
        obtain ⟨v1, hv1, h⟩ := Option.bind_eq_some.mp h
        split_ifs at h with c1
        · have := Option.some.inj h
          subst this
          exact absurd hok (hrej _)
        · obtain ⟨v2, hv2, h⟩ := Option.bind_eq_some.mp h
          split_ifs at h with c2
          · have := Option.some.inj h
            subst this
            exact absurd hok (hrej _)
          · obtain ⟨v3, hv3, h⟩ := Option.bind_eq_some.mp h
            split_ifs at h with c3
            · have := Option.some.inj h
              subst this
              exact absurd hok (hrej _)
            · have e1 : v1 = true := by simpa using c1
              have e2 : v2 = true := by simpa using c2
              have e3 : v3 = true := by simpa using c3
              subst e1 e2 e3
              exact ⟨uHat, rfl, hhas, hv1, hv2, hv3⟩

/-- C34: ballot acceptance. For a ballot that the codec can encode, handleMsgPutBallot
returns OK if and only if the pseudonym uHat of the ballot is not a key of the ballot store
and the three verifications return true: Verify of the polynomial-evaluation system built on
the current credential polynomial for (Proof1, c, v), Verify of the double-discrete-log system
for (Proof2, c, d, v) and Verify of the preimage-equality system for (Proof3, d, uHat, v). In
that case the store afterwards is the store with the ballot set under the bytes of uHat; in
every other case in which the function returns, the result is not OK and the store is
unchanged. -/
theorem handleMsgPutBallot_accepts_iff (sha256 : List Nat → List Nat)
    (cdc : types.Ballot → Option (List Nat)) (params : types.Params)
    (polyStore : Option crypto.Polynomial) (store : sdk.KVStore) (msg : types.MsgPutBallot)
    (bz : List Nat) (hcdc : cdc msg.Ballot = some bz) :
    ((∃ r, handleMsgPutBallot sha256 cdc params polyStore store msg = some r ∧
        r.1.Code = sdk.CodeOK) ↔
      (∃ uHat c d hHat ps1 ps2, msg.Ballot.UHat.BigInt = some uHat ∧
        msg.Ballot.C.BigInt = some c ∧ msg.Ballot.D.BigInt = some d ∧
        params.HHat.BigInt = some hHat ∧
        store.Has (crypto.Bytes uHat) = false ∧
        crypto.NewPolynomialEvaluationProofSystem params.CommP
          (keeper.GetCredentialPolynomial params.CommP.G polyStore) = some ps1 ∧
        ps1.Verify sha256 msg.Ballot.Proof1 c msg.Ballot.V = some true ∧
        crypto.NewDoubleDiscreteLogProofSystem params.CommP params.CommQ params.SecurityParam
          = some ps2 ∧
        ps2.Verify sha256 msg.Ballot.Proof2 c d msg.Ballot.V = some true ∧
        (crypto.NewPreimageEqualityProofSystem hHat params.CommQ).Verify sha256
          msg.Ballot.Proof3 d uHat msg.Ballot.V = some true)) ∧
    (∀ r, handleMsgPutBallot sha256 cdc params polyStore store msg = some r →
      r.1.Code = sdk.CodeOK →
      ∃ uHat, msg.Ballot.UHat.BigInt = some uHat ∧
        r.2 = store.Set (crypto.Bytes uHat) bz ∧
        r.2.entries = store.entries ++ [(crypto.Bytes uHat, bz)] ∧
        r.2.Get (crypto.Bytes uHat) = some bz) ∧
    (∀ r, handleMsgPutBallot sha256 cdc params polyStore store msg = some r →
      r.1.Code ≠ sdk.CodeOK → r.2 = store) := by
  obtain ⟨hgood, hok⟩ := handleMsgPutBallot_eval sha256 cdc params polyStore store msg bz hcdc
  refine ⟨⟨?_, ?_⟩, ?_, ?_⟩
  · rintro ⟨r, hr, hc⟩
    obtain ⟨uHat, hu, hhas, h1, h2, h3⟩ := hok r hr hc
    unfold isMembershipProofValid at h1
    obtain ⟨ps1, hps1, h1⟩ := Option.bind_eq_some.mp h1
    obtain ⟨c, hc1, h1⟩ := Option.bind_eq_some.mp h1
    unfold isRepresentationProofValid at h2
    obtain ⟨ps2, hps2, h2⟩ := Option.bind_eq_some.mp h2
    obtain ⟨c', hc2, h2⟩ := Option.bind_eq_some.mp h2
    obtain ⟨d, hd, h2⟩ := Option.bind_eq_some.mp h2
    unfold isPreimageProofValid at h3
    obtain ⟨hHat, hh, h3⟩ := Option.bind_eq_some.mp h3
    obtain ⟨d', hd2, h3⟩ := Option.bind_eq_some.mp h3
    obtain ⟨uHat', hu2, h3⟩ := Option.bind_eq_some.mp h3
    rw [hc1] at hc2
    rw [hd] at hd2
    rw [hu] at hu2
    have e1 := Option.some.inj hc2
    have e2 := Option.some.inj hd2
    have e3 := Option.some.inj hu2
    subst e1 e2 e3
    exact ⟨uHat, c, d, hHat, ps1, ps2, hu, hc1, hd, hh, hhas, hps1, h1, hps2, h2, h3⟩
  · rintro ⟨uHat, c, d, hHat, ps1, ps2, hu, hc, hd, hh, hhas, hps1, h1, hps2, h2, h3⟩
    refine ⟨_, hgood uHat hu hhas ?_ ?_ ?_, rfl⟩
    · simp only [isMembershipProofValid, hps1, hc, Option.some_bind, h1]
    · simp only [isRepresentationProofValid, hps2, hc, hd, Option.some_bind, h2]
    · simp only [isPreimageProofValid, hh, hd, hu, Option.some_bind, h3]
  · intro r hr hc
    obtain ⟨uHat, hu, hhas, h1, h2, h3⟩ := hok r hr hc
    have := hgood uHat hu hhas h1 h2 h3
    rw [hr] at this
    have e := Option.some.inj this
    subst e
    refine ⟨uHat, hu, rfl, ?_, ?_⟩
    · simp [sdk.KVStore.Set, hhas]
    · have hnone : store.entries.lookup (crypto.Bytes uHat) = none := by
        simpa [sdk.KVStore.Has] using hhas
      simp only [sdk.KVStore.Set, hhas, Bool.false_eq_true, if_false, sdk.KVStore.Get]
      exact lookup_append_of_none _ _ _ hnone
  · intro r hr hc
    rcases handleMsgPutBallot_cases sha256 cdc params polyStore store msg r hr with h | h
    · exact h.2
    · exact absurd h.1 hc

/-- Witness of C34: over G_p of order 11 modulo 23 and G_q of order 5 modulo 11, with the
credential polynomial 6 + 6 X + X^2 (roots 2 and 3) and SHA-256, the ballot of the voter
(a, b) = (2, 1) with u = 3, c = 18, d = 9, uHat = 9 and honestly generated proofs is
accepted from the empty store. -/
theorem handleMsgPutBallot_accepts_iff_witness :
    ∃ r, handleMsgPutBallot crypto.sha256Sum (fun _ => some [1])
      { CommP := crypto.NewPedersenCommitmentScheme (crypto.NewGStarModPrime 23 11 0 1) 2 [3],
        CommQ := crypto.NewPedersenCommitmentScheme (crypto.NewGStarModPrime 11 5 1 2) 3
          [4, 5],
        HHat := crypto.NewInt (some 9), SecurityParam := 2 }
      (some (crypto.NewPolynomial [6, 6, 1] (crypto.NewGStarModPrime 23 11 0 1).ZModOrder))
      { entries := [] }
      { Ballot :=
          { C := crypto.NewInt (some 18), D := crypto.NewInt (some 9), V := "yes",
            UHat := crypto.NewInt (some 9),
            Proof1 := { CArr := [some 3], CfArr := [some 18, some 18],
                        CdArr := [some 2, some 16], CfuArr := [some 13],
                        FBarArr := [some 5, some 9], RBarArr := [some 3, some 9],
                        TBar := some 9, XiBarArr := [some 8] },
            Proof2 := { T := some 12, T1Arr := [some 2, some 2], T2Arr := [some 5, some 5],
                        ZX := some 5, ZR := some 0,
                        ZMArr := [[some 1, some 2], [some 4, some 1]],
                        ZSArr := [some 3, some 2], ZRArr := [some 4, some 10] },
            Proof3 := { Comm := some 5, CommHHat := some 4, RespA := some 1,
                        RespB := some 2, RespS := some 3 } },
        Signer := [] } = some r ∧ r.1.Code = sdk.CodeOK :=
  (handleMsgPutBallot_accepts_iff crypto.sha256Sum (fun _ => some [1])
      { CommP := crypto.NewPedersenCommitmentScheme (crypto.NewGStarModPrime 23 11 0 1) 2 [3],
        CommQ := crypto.NewPedersenCommitmentScheme (crypto.NewGStarModPrime 11 5 1 2) 3
          [4, 5],
        HHat := crypto.NewInt (some 9), SecurityParam := 2 }
      (some (crypto.NewPolynomial [6, 6, 1] (crypto.NewGStarModPrime 23 11 0 1).ZModOrder))
      { entries := [] }
      { Ballot :=
          { C := crypto.NewInt (some 18), D := crypto.NewInt (some 9), V := "yes",
            UHat := crypto.NewInt (some 9),
            Proof1 := { CArr := [some 3], CfArr := [some 18, some 18],
                        CdArr := [some 2, some 16], CfuArr := [some 13],
                        FBarArr := [some 5, some 9], RBarArr := [some 3, some 9],
                        TBar := some 9, XiBarArr := [some 8] },
            Proof2 := { T := some 12, T1Arr := [some 2, some 2], T2Arr := [some 5, some 5],
                        ZX := some 5, ZR := some 0,
                        ZMArr := [[some 1, some 2], [some 4, some 1]],
                        ZSArr := [some 3, some 2], ZRArr := [some 4, some 10] },
            Proof3 := { Comm := some 5, CommHHat := some 4, RespA := some 1,
                        RespB := some 2, RespS := some 3 } },
        Signer := [] } [1] rfl).1.mpr
    ⟨9, 18, 9, 9,
      crypto.PolynomialEvaluationProofSystem.mk
        (crypto.NewPedersenCommitmentScheme (crypto.NewGStarModPrime 23 11 0 1) 2 [3])
        (crypto.NewPolynomial [6, 6, 1] (crypto.NewGStarModPrime 23 11 0 1).ZModOrder)
        (crypto.NewGStarModPrime 23 11 0 1) (crypto.NewGStarModPrime 23 11 0 1).ZModOrder 1,
      crypto.ddSystem 23 11 5 2 3 3 4 5 0 1 1 2 2,
      rfl, rfl, rfl, rfl, by decide, crypto.NewPolynomialEvaluationProofSystem_example,
      by set_option maxRecDepth 100000 in decide, by decide,
      by set_option maxRecDepth 100000 in decide,
      by set_option maxRecDepth 100000 in decide⟩

end pbb
namespace crypto

theorem respRound_congr (ps : DoubleDiscreteLogProofSystem) (voter : Voter) (r s ch ch2 : Int)
    (rounds : List DdLogRound) (i : Nat) (h : bigBit ch i = bigBit ch2 i) :
    ps.respRound voter r s ch rounds i = ps.respRound voter r s ch2 rounds i := by
  simp only [DoubleDiscreteLogProofSystem.respRound, h]

theorem verifyRound_congr (ps : DoubleDiscreteLogProofSystem) (proof : DdLogProof)
    (commToU commToAandB ch ch2 : Int) (v : Bool) (i : Nat) (h : bigBit ch i = bigBit ch2 i) :
    ps.verifyRound proof commToU commToAandB ch v i
      = ps.verifyRound proof commToU commToAandB ch2 v i := by
  simp only [DoubleDiscreteLogProofSystem.verifyRound, h]

/-- The parts of the transcript of Generate, with the challenge it derived. -/
theorem Generate_parts (ps : DoubleDiscreteLogProofSystem) (sha256 : List Nat → List Nat)
    (rnd : Nat → Int → Int) (voter : Voter) (cU rU cAB rAB : Int) (vote : String)
    (pr : DdLogProof) (h : ps.Generate sha256 rnd voter cU rU cAB rAB vote = some pr) :
    ∃ t rounds ch zX zR resps,
      ps.CommSchemeInGp.Commit (ps.zp.RandomElement rnd 1) [ps.zp.RandomElement rnd 0] = some t ∧
      (List.range ps.SecurityParam).mapM (ps.commitRound rnd) = some rounds ∧
      ps.generateChallenge sha256 cU cAB t (rounds.map (fun x => x.t1))
        (rounds.map (fun x => x.t2)) vote = some ch ∧
      ((ps.zp.Mul voter.U ch).bind ps.zp.AdditiveInvert).bind
        (ps.zp.Add (ps.zp.RandomElement rnd 0)) = some zX ∧
      ((ps.zp.Mul rU ch).bind ps.zp.AdditiveInvert).bind
        (ps.zp.Add (ps.zp.RandomElement rnd 1)) = some zR ∧
      (List.range ps.SecurityParam).mapM (ps.respRound voter rU rAB ch rounds) = some resps ∧
      pr = { T := some t, T1Arr := (rounds.map (fun x => x.t1)).map some,
             T2Arr := (rounds.map (fun x => x.t2)).map some, ZX := some zX, ZR := some zR,
             ZMArr := resps.map (fun x => x.zM.map some),
             ZSArr := resps.map (fun x => some x.zS),
             ZRArr := resps.map (fun x => some x.zR) } := by
  simp only [DoubleDiscreteLogProofSystem.Generate, Option.bind_eq_bind] at h
  obtain ⟨t, ht, h⟩ := Option.bind_eq_some.mp h
  obtain ⟨rounds, hrounds, h⟩ := Option.bind_eq_some.mp h
  obtain ⟨ch, hch, h⟩ := Option.bind_eq_some.mp h
  obtain ⟨zX, hzX, h⟩ := Option.bind_eq_some.mp h
  obtain ⟨zR, hzR, h⟩ := Option.bind_eq_some.mp h
  obtain ⟨resps, hresps, h⟩ := Option.bind_eq_some.mp h
  exact ⟨t, rounds, ch, zX, zR, resps, ht, hrounds, hch, hzX, hzR, hresps,
    (Option.some.inj h).symm⟩

/-- What the k rounds of the double-discrete-log proof read of the challenge: the bits 0 to
k - 1. For two challenge values ch and ch2 that agree on these bits: the response loop of
Generate computes the same per-round responses and the loop of Verify the same result from
every start value; two runs of Generate with the same randomness whose hash functions give ch
and ch2 return transcripts with the same T, T1Arr, T2Arr, ZMArr, ZSArr and ZRArr; and Verify
returns the same result for both hash functions whenever in addition
`commToU^ch = commToU^ch2` in G_p. -/
theorem challenge_low_bits (ps : DoubleDiscreteLogProofSystem) (ch ch2 : Int)
    (hbits : ∀ i, i < ps.SecurityParam → bigBit ch i = bigBit ch2 i) :
    (∀ (voter : Voter) (r s : Int) (rounds : List DdLogRound),
      (List.range ps.SecurityParam).mapM (ps.respRound voter r s ch rounds)
        = (List.range ps.SecurityParam).mapM (ps.respRound voter r s ch2 rounds)) ∧
    (∀ (proof : DdLogProof) (cU cAB : Int) (v : Bool),
      (List.range ps.SecurityParam).foldlM
          (fun v i => ps.verifyRound proof cU cAB ch v i) v
        = (List.range ps.SecurityParam).foldlM
          (fun v i => ps.verifyRound proof cU cAB ch2 v i) v) ∧
    (∀ (sha256 sha2 : List Nat → List Nat) (rnd : Nat → Int → Int) (voter : Voter)
      (cU rU cAB rAB : Int) (vote : String) (pr pr2 : DdLogProof) (t : Int)
      (t1 t2 : List Int),
      ps.Generate sha256 rnd voter cU rU cAB rAB vote = some pr →
      ps.Generate sha2 rnd voter cU rU cAB rAB vote = some pr2 →
      pr.T = some t → derefAll pr.T1Arr = some t1 → derefAll pr.T2Arr = some t2 →
      ps.generateChallenge sha256 cU cAB t t1 t2 vote = some ch →
      ps.generateChallenge sha2 cU cAB t t1 t2 vote = some ch2 →
      pr.T = pr2.T ∧ pr.T1Arr = pr2.T1Arr ∧ pr.T2Arr = pr2.T2Arr ∧ pr.ZMArr = pr2.ZMArr ∧
        pr.ZSArr = pr2.ZSArr ∧ pr.ZRArr = pr2.ZRArr) ∧
    (∀ (sha256 sha2 : List Nat → List Nat) (proof : DdLogProof) (cU cAB : Int)
      (vote : String) (t : Int) (t1 t2 : List Int),
      proof.T = some t → derefAll proof.T1Arr = some t1 → derefAll proof.T2Arr = some t2 →
      ps.generateChallenge sha256 cU cAB t t1 t2 vote = some ch →
      ps.generateChallenge sha2 cU cAB t t1 t2 vote = some ch2 →
      ps.gp.Exp cU ch = ps.gp.Exp cU ch2 →
      ps.Verify sha256 proof cU cAB vote = ps.Verify sha2 proof cU cAB vote) := by
  have hresp : ∀ (voter : Voter) (r s : Int) (rounds : List DdLogRound),
      (List.range ps.SecurityParam).mapM (ps.respRound voter r s ch rounds)
        = (List.range ps.SecurityParam).mapM (ps.respRound voter r s ch2 rounds) := by
    intro voter r s rounds
    exact polyeval.mapM_congr_option _ _ _ (fun i hi =>
      respRound_congr ps voter r s ch ch2 rounds i (hbits i (List.mem_range.mp hi)))
  have hver : ∀ (proof : DdLogProof) (cU cAB : Int) (v : Bool),
      (List.range ps.SecurityParam).foldlM
          (fun v i => ps.verifyRound proof cU cAB ch v i) v
        = (List.range ps.SecurityParam).foldlM
          (fun v i => ps.verifyRound proof cU cAB ch2 v i) v := by
    intro proof cU cAB v
    exact foldlM_congr _ _ _ v (fun w i hi =>
      verifyRound_congr ps proof cU cAB ch ch2 w i (hbits i (List.mem_range.mp hi)))
  refine ⟨hresp, hver, ?_, ?_⟩
  · intro sha256 sha2 rnd voter cU rU cAB rAB vote pr pr2 t t1 t2 hG hG2 hT hT1 hT2 hc hc2
    obtain ⟨ta, rounds, cha, zX, zR, resps, a1, a2, a3, _, _, a6, a7⟩ :=
      Generate_parts ps sha256 rnd voter cU rU cAB rAB vote pr hG
    obtain ⟨tb, rounds2, chb, zX2, zR2, resps2, b1, b2, b3, _, _, b6, b7⟩ :=
      Generate_parts ps sha2 rnd voter cU rU cAB rAB vote pr2 hG2
    rw [a1] at b1
    rw [a2] at b2
    have e1 := Option.some.inj b1
    have e2 := Option.some.inj b2
    subst e1 e2
    subst a7
    simp only at hT hT1 hT2
    rw [derefAll_map_some] at hT1 hT2
    have e3 := Option.some.inj hT
    have e4 := Option.some.inj hT1
    have e5 := Option.some.inj hT2
    subst e3 e4 e5
    rw [hc] at a3
    rw [hc2] at b3
    have e6 := Option.some.inj a3
    have e7 := Option.some.inj b3
    subst e6 e7
    rw [hresp, b6] at a6
    have e8 := Option.some.inj a6
    subst e8
    subst b7
    exact ⟨rfl, rfl, rfl, rfl, rfl, rfl⟩
  · intro sha256 sha2 proof cU cAB vote t t1 t2 hT hT1 hT2 hc hc2 hexp
    simp only [DoubleDiscreteLogProofSystem.Verify, hT, hT1, hT2, hc, hc2, hexp,
      Option.bind_eq_bind, Option.some_bind, hver]

theorem challenge_low_bits_witness :
    (∀ i, i < (ddSystem 23 11 5 2 3 3 4 5 0 1 1 2 1).SecurityParam → bigBit 1 i = bigBit 3 i) ∧
    (List.range (ddSystem 23 11 5 2 3 3 4 5 0 1 1 2 1).SecurityParam).mapM
        ((ddSystem 23 11 5 2 3 3 4 5 0 1 1 2 1).respRound (NewVoter 2 1 3) 4 1 1
          [{ rhoS := 3, rhoR := 4, rhoM := [1, 2], t1 := 2, t2 := 5 }])
      = (List.range (ddSystem 23 11 5 2 3 3 4 5 0 1 1 2 1).SecurityParam).mapM
        ((ddSystem 23 11 5 2 3 3 4 5 0 1 1 2 1).respRound (NewVoter 2 1 3) 4 1 3
          [{ rhoS := 3, rhoR := 4, rhoM := [1, 2], t1 := 2, t2 := 5 }]) :=
  ⟨fun i hi => by
      have hi2 : i < 1 := hi
      interval_cases i
      decide,
    (challenge_low_bits (ddSystem 23 11 5 2 3 3 4 5 0 1 1 2 1) 1 3 (fun i hi => by
      have hi2 : i < 1 := hi
      interval_cases i
      decide)).1 (NewVoter 2 1 3) 4 1
      [{ rhoS := 3, rhoR := 4, rhoM := [1, 2], t1 := 2, t2 := 5 }]⟩

/-- C31: the responses ZX and ZR and the first check of Verify use the whole challenge, not
only its k low-order bits. With k = 1, G_p of order 11 modulo 23 (generators 2 and 3), G_q of
order 5 modulo 11 (generators 3, 4 and 5), the voter (u, a, b) = (2, 1, 3), the commitments
c = 18 (with r = 4) and d = 9 (with r = 1), SHA-256 and the same randomness (`rhoX = 1`,
`rhoR = 2`), the votes "no" and "A" give the challenges 1 and 3, which agree on the bit 0,
the only bit the k = 1 rounds read. Generate returns the same T, T1Arr, T2Arr, ZMArr, ZSArr
and ZRArr for both, but `ZX = 9`, `ZR = 9` for the challenge 1 and `ZX = 3`, `ZR = 1` for the
challenge 3; Verify accepts each transcript with its own vote, and the transcript made under
the challenge 1 is rejected under the challenge 3. -/
theorem challenge_high_bits_used :
    (ddSystem 23 11 5 2 3 3 4 5 0 1 1 2 1).generateChallenge sha256Sum 18 9 12 [2] [5] "no"
      = some 1 ∧
    (ddSystem 23 11 5 2 3 3 4 5 0 1 1 2 1).generateChallenge sha256Sum 18 9 12 [2] [5] "A"
      = some 3 ∧
    (ddSystem 23 11 5 2 3 3 4 5 0 1 1 2 1).SecurityParam = 1 ∧ bigBit 1 0 = bigBit 3 0 ∧
    (ddSystem 23 11 5 2 3 3 4 5 0 1 1 2 1).Generate sha256Sum
        (fun k _ => ((k % 4 : Nat) : Int) + 1) (NewVoter 2 1 3) 18 4 9 1 "no"
      = some { T := some 12, T1Arr := [some 2], T2Arr := [some 5], ZX := some 9, ZR := some 9,
               ZMArr := [[some 4, some 1]], ZSArr := [some 2], ZRArr := [some 10] } ∧
    (ddSystem 23 11 5 2 3 3 4 5 0 1 1 2 1).Generate sha256Sum
        (fun k _ => ((k % 4 : Nat) : Int) + 1) (NewVoter 2 1 3) 18 4 9 1 "A"
      = some { T := some 12, T1Arr := [some 2], T2Arr := [some 5], ZX := some 3, ZR := some 1,
               ZMArr := [[some 4, some 1]], ZSArr := [some 2], ZRArr := [some 10] } ∧
    (ddSystem 23 11 5 2 3 3 4 5 0 1 1 2 1).Verify sha256Sum
        { T := some 12, T1Arr := [some 2], T2Arr := [some 5], ZX := some 9, ZR := some 9,
          ZMArr := [[some 4, some 1]], ZSArr := [some 2], ZRArr := [some 10] } 18 9 "no"
      = some true ∧
    (ddSystem 23 11 5 2 3 3 4 5 0 1 1 2 1).Verify sha256Sum
        { T := some 12, T1Arr := [some 2], T2Arr := [some 5], ZX := some 3, ZR := some 1,
          ZMArr := [[some 4, some 1]], ZSArr := [some 2], ZRArr := [some 10] } 18 9 "A"
      = some true ∧
    (ddSystem 23 11 5 2 3 3 4 5 0 1 1 2 1).Verify sha256Sum
        { T := some 12, T1Arr := [some 2], T2Arr := [some 5], ZX := some 9, ZR := some 9,
          ZMArr := [[some 4, some 1]], ZSArr := [some 2], ZRArr := [some 10] } 18 9 "A"
      = some false := by
  exact ⟨by set_option maxRecDepth 100000 in decide,
    by set_option maxRecDepth 100000 in decide, rfl, by decide,
    by set_option maxRecDepth 100000 in decide,
    by set_option maxRecDepth 100000 in decide,
    by set_option maxRecDepth 100000 in decide,
    by set_option maxRecDepth 100000 in decide,
    by set_option maxRecDepth 100000 in decide⟩

end crypto
namespace crypto.stream

theorem foldl_bytes_lt : ∀ (bs : List Nat) (acc : Nat), (∀ b ∈ bs, b < 256) →
    bs.foldl (fun acc b => acc * 256 + b) acc < (acc + 1) * 256 ^ bs.length := by
  intro bs
  induction bs with
  | nil => intro acc _; simp
  | cons b bs ih =>
    intro acc h
    have hb := h b (List.mem_cons_self _ _)
    have := ih (acc * 256 + b) (fun x hx => h x (List.mem_cons_of_mem _ hx))
    simp only [List.foldl_cons, List.length_cons]
    calc List.foldl (fun acc b => acc * 256 + b) (acc * 256 + b) bs
        < (acc * 256 + b + 1) * 256 ^ bs.length := this
      _ ≤ ((acc + 1) * 256) * 256 ^ bs.length := Nat.mul_le_mul_right _ (by omega)
      _ = (acc + 1) * 256 ^ (bs.length + 1) := by ring

theorem Read_length (stream : Nat → Nat) (pos n : Nat) : (Read stream pos n).length = n := by
  simp [Read]

theorem Read_lt (stream : Nat → Nat) (pos n : Nat) : ∀ b ∈ Read stream pos n, b < 256 := by
  intro b hb
  simp only [Read, List.mem_map] at hb
  obtain ⟨i, _, rfl⟩ := hb
  exact Nat.mod_lt _ (by norm_num)

/-- RandomBits without `exact` returns a slice of `(bitlen+7)/8` bytes whose value is below
`2^bitlen`. -/
theorem RandomBits_lt (stream : Nat → Nat) (pos bitlen : Nat) :
    ∃ b, RandomBits stream pos bitlen false = some b ∧ b.length = (bitlen + 7) / 8 ∧
      (∀ x ∈ b, x < 256) ∧ 0 ≤ SetBytes b ∧ SetBytes b < 2 ^ bitlen := by
  have hand : bitlen &&& 7 = bitlen % 8 := by
    have := Nat.and_pow_two_sub_one_eq_mod bitlen 3
    simpa using this
  have hlen := Read_length stream pos ((bitlen + 7) / 8)
  have hlt := Read_lt stream pos ((bitlen + 7) / 8)
  by_cases h0 : bitlen % 8 = 0
  · refine ⟨Read stream pos ((bitlen + 7) / 8), ?_, hlen, hlt, SetBytes_nonneg _, ?_⟩
    · simp [RandomBits, hand, h0]
    · have h1 := foldl_bytes_lt _ 0 hlt
      rw [hlen] at h1
      have h2 : (256 : Nat) ^ ((bitlen + 7) / 8) = 2 ^ bitlen := by
        have e : bitlen = 8 * ((bitlen + 7) / 8) := by omega
        have e2 : (256 : Nat) = 2 ^ 8 := by norm_num
        rw [e2, ← pow_mul]
        exact congrArg _ e.symm
      rw [h2] at h1
      unfold SetBytes
      have : ((List.foldl (fun acc b => acc * 256 + b) 0
          (Read stream pos ((bitlen + 7) / 8)) : Nat) : Int) < ((2 ^ bitlen : Nat) : Int) := by
        exact_mod_cast (by simpa using h1)
      simpa using this
  · have hh1 : 0 < bitlen % 8 := Nat.pos_of_ne_zero h0
    have hh2 : bitlen % 8 < 8 := Nat.mod_lt _ (by norm_num)
    have hmask : 255 - (255 <<< (bitlen % 8)) % 256 = 2 ^ (bitlen % 8) - 1 := by
      generalize bitlen % 8 = h at hh1 hh2
      interval_cases h <;> rfl
    cases hr : Read stream pos ((bitlen + 7) / 8) with
    | nil =>
      rw [hr] at hlen
      simp at hlen
      omega
    | cons x rest =>
      rw [hr] at hlen hlt
      have hx : x &&& (2 ^ (bitlen % 8) - 1) < 2 ^ (bitlen % 8) := by
        have := @Nat.and_le_right x (2 ^ (bitlen % 8) - 1)
        have hpos : 0 < 2 ^ (bitlen % 8) := Nat.two_pow_pos _
        omega
      refine ⟨(x &&& (2 ^ (bitlen % 8) - 1)) :: rest, ?_, by simpa using hlen, ?_,
        SetBytes_nonneg _, ?_⟩
      · simp [RandomBits, hand, h0, hr, updateFirst, hmask]
      · intro y hy
        rcases List.mem_cons.mp hy with hy | hy
        · rw [hy]
          have : 2 ^ (bitlen % 8) ≤ 256 := by
            have e2 : (256 : Nat) = 2 ^ 8 := by norm_num
            rw [e2]
            exact Nat.pow_le_pow_right (by norm_num) (by omega)
          omega
        · exact hlt y (List.mem_cons_of_mem _ hy)
      · have h1 := foldl_bytes_lt rest (x &&& (2 ^ (bitlen % 8) - 1))
          (fun y hy => hlt y (List.mem_cons_of_mem _ hy))
        have hrl : rest.length = (bitlen + 7) / 8 - 1 := by
          simp only [List.length_cons] at hlen
          omega
        have h2 : 2 ^ (bitlen % 8) * 256 ^ rest.length = 2 ^ bitlen := by
          have e : bitlen = bitlen % 8 + 8 * rest.length := by omega
          have e2 : (256 : Nat) = 2 ^ 8 := by norm_num
          rw [e2, ← pow_mul, ← pow_add]
          exact congrArg _ e.symm
        have h3 : List.foldl (fun acc b => acc * 256 + b) 0
            ((x &&& (2 ^ (bitlen % 8) - 1)) :: rest) < 2 ^ bitlen := by
          simp only [List.foldl_cons, Nat.zero_mul, Nat.zero_add]
          calc _ < ((x &&& (2 ^ (bitlen % 8) - 1)) + 1) * 256 ^ rest.length := h1
            _ ≤ 2 ^ (bitlen % 8) * 256 ^ rest.length := Nat.mul_le_mul_right _ hx
            _ = 2 ^ bitlen := h2
        unfold SetBytes
        have : ((List.foldl (fun acc b => acc * 256 + b) 0
            ((x &&& (2 ^ (bitlen % 8) - 1)) :: rest) : Nat) : Int)
            < ((2 ^ bitlen : Nat) : Int) := by
          exact_mod_cast h3
        simpa using this

theorem RandInt_range (stream : Nat → Nat) (exclMax : Int) : ∀ (fuel pos : Nat) (i : Int)
    (pos2 : Nat), RandInt stream exclMax fuel pos = some (i, pos2) → 0 < i ∧ i < exclMax := by
  intro fuel
  induction fuel with
  | zero => intro pos i pos2 h; simp [RandInt] at h
  | succ fuel ih =>
    intro pos i pos2 h
    simp only [RandInt] at h
    obtain ⟨b, _, h⟩ := Option.bind_eq_some.mp h
    split_ifs at h with hc
    · have := Option.some.inj h
      have e : SetBytes b = i := congrArg Prod.fst this
      rw [← e]
      exact hc
    · exact ih _ _ _ h

theorem RandIntInRange_range (stream : Nat → Nat) (min exclMax : Int) : ∀ (fuel pos : Nat)
    (i : Int) (pos2 : Nat), RandIntInRange stream min exclMax fuel pos = some (i, pos2) →
    min ≤ i ∧ i < exclMax := by
  intro fuel
  induction fuel with
  | zero => intro pos i pos2 h; simp [RandIntInRange] at h
  | succ fuel ih =>
    intro pos i pos2 h
    simp only [RandIntInRange] at h
    obtain ⟨b, _, h⟩ := Option.bind_eq_some.mp h
    split_ifs at h with hc
    · have := Option.some.inj h
      have e : SetBytes b = i := congrArg Prod.fst this
      rw [← e]
      exact hc
    · exact ih _ _ _ h

/-- RandInt returns the first candidate that passes the test, when there is one within the
fuel. -/
theorem RandInt_first (stream : Nat → Nat) (exclMax : Int) : ∀ (j fuel pos : Nat),
    (∀ i, i < j → ¬ (0 < SetBytes ((RandomBits stream (pos + i * ((BitLen exclMax + 7) / 8))
        (BitLen exclMax) false).getD [])
      ∧ SetBytes ((RandomBits stream (pos + i * ((BitLen exclMax + 7) / 8))
        (BitLen exclMax) false).getD []) < exclMax)) →
    (0 < SetBytes ((RandomBits stream (pos + j * ((BitLen exclMax + 7) / 8))
        (BitLen exclMax) false).getD [])
      ∧ SetBytes ((RandomBits stream (pos + j * ((BitLen exclMax + 7) / 8))
        (BitLen exclMax) false).getD []) < exclMax) →
    j < fuel →
    RandInt stream exclMax fuel pos
      = some (SetBytes ((RandomBits stream (pos + j * ((BitLen exclMax + 7) / 8))
          (BitLen exclMax) false).getD []), pos + (j + 1) * ((BitLen exclMax + 7) / 8)) := by
  intro j
  induction j with
  | zero =>
    intro fuel pos _ hj hf
    obtain ⟨fuel, rfl⟩ : ∃ f, fuel = f + 1 := ⟨fuel - 1, by omega⟩
    obtain ⟨b, hb, _⟩ := RandomBits_lt stream pos (BitLen exclMax)
    simp only [Nat.zero_mul, Nat.add_zero, hb, Option.getD_some] at hj
    simp only [RandInt, hb, Option.some_bind, if_pos hj, Nat.zero_mul, Nat.add_zero,
      Option.getD_some, Nat.zero_add, Nat.one_mul]
  | succ j ih =>
    intro fuel pos hfirst hj hf
    obtain ⟨fuel, rfl⟩ : ∃ f, fuel = f + 1 := ⟨fuel - 1, by omega⟩
    obtain ⟨b, hb, _⟩ := RandomBits_lt stream pos (BitLen exclMax)
    have h0 := hfirst 0 (by omega)
    simp only [Nat.zero_mul, Nat.add_zero, hb, Option.getD_some] at h0
    have e : ∀ i, pos + (BitLen exclMax + 7) / 8 + i * ((BitLen exclMax + 7) / 8)
        = pos + (i + 1) * ((BitLen exclMax + 7) / 8) := by
      intro i
      ring
    have := ih fuel (pos + (BitLen exclMax + 7) / 8)
      (fun i hi => by
        rw [e]
        exact hfirst (i + 1) (by omega))
      (by rw [e]; exact hj) (by omega)
    simp only [RandInt, hb, Option.some_bind, if_neg h0]
    rw [this, e, e]

theorem bitLenLoop_spec : ∀ (fuel n : Nat), n ≤ fuel →
    n < 2 ^ bitLenLoop fuel n ∧ (n ≠ 0 → 2 ^ (bitLenLoop fuel n - 1) ≤ n) := by
  intro fuel
  induction fuel with
  | zero =>
    intro n hn
    have : n = 0 := by omega
    subst this
    simp [bitLenLoop]
  | succ fuel ih =>
    intro n hn
    by_cases h0 : n = 0
    · subst h0
      simp [bitLenLoop]
    · simp only [bitLenLoop, if_neg h0, Nat.add_sub_cancel]
      obtain ⟨g1, g2⟩ := ih (n / 2) (by omega)
      refine ⟨?_, fun _ => ?_⟩
      · rw [pow_succ]
        omega
      · by_cases h1 : n / 2 = 0
        · rw [h1]
          have : bitLenLoop fuel 0 = 0 := by
            cases fuel <;> simp [bitLenLoop]
          rw [this]
          simp
          omega
        · have g3 := g2 h1
          have hpos : 0 < bitLenLoop fuel (n / 2) := by
            by_contra hc
            have : bitLenLoop fuel (n / 2) = 0 := by omega
            rw [this] at g1
            simp at g1
            exact h1 g1
          have e : bitLenLoop fuel (n / 2) = (bitLenLoop fuel (n / 2) - 1) + 1 := by omega
          rw [e, pow_succ]
          omega

/-- C32: the range of the samplers, for every stream of random bytes. A value returned by
RandInt(exclMax) satisfies `0 < i < exclMax`, so a value returned by ZModPrime.RandomElement
lies in [1, p) and is not 0; a value returned by RandIntInRange(min, exclMax) satisfies
`min <= i < exclMax`; every candidate, drawn with RandomBits(bitlen, false) for the bit length
of exclMax, is below `2^bitlen`, and exclMax is below `2^bitlen` and, when it is not 0, at
least `2^(bitlen-1)` in absolute value. RandInt returns the first candidate that passes its
test as soon as the bound on the iterations allows to reach it. -/
theorem samplers_range (stream : Nat → Nat) :
    (∀ (exclMax : Int) (fuel pos : Nat) (i : Int) (pos2 : Nat),
      RandInt stream exclMax fuel pos = some (i, pos2) → 0 < i ∧ i < exclMax) ∧
    (∀ (g : ZModPrime) (fuel pos : Nat) (i : Int) (pos2 : Nat),
      ZModPrime.RandomElement g stream fuel pos = some (i, pos2) →
      1 ≤ i ∧ i < g.Modulus ∧ i ≠ 0) ∧
    (∀ (min exclMax : Int) (fuel pos : Nat) (i : Int) (pos2 : Nat),
      RandIntInRange stream min exclMax fuel pos = some (i, pos2) → min ≤ i ∧ i < exclMax) ∧
    (∀ (exclMax : Int) (pos : Nat), ∃ b,
      RandomBits stream pos (BitLen exclMax) false = some b ∧
      b.length = (BitLen exclMax + 7) / 8 ∧ 0 ≤ SetBytes b ∧
      SetBytes b < 2 ^ BitLen exclMax) ∧
    (∀ exclMax : Int, exclMax.natAbs < 2 ^ BitLen exclMax ∧
      (exclMax ≠ 0 → 2 ^ (BitLen exclMax - 1) ≤ exclMax.natAbs)) ∧
    (∀ (exclMax : Int) (j fuel pos : Nat),
      (∀ i, i < j →
        ¬ (0 < SetBytes ((RandomBits stream (pos + i * ((BitLen exclMax + 7) / 8))
            (BitLen exclMax) false).getD [])
          ∧ SetBytes ((RandomBits stream (pos + i * ((BitLen exclMax + 7) / 8))
            (BitLen exclMax) false).getD []) < exclMax)) →
      (0 < SetBytes ((RandomBits stream (pos + j * ((BitLen exclMax + 7) / 8))
          (BitLen exclMax) false).getD [])
        ∧ SetBytes ((RandomBits stream (pos + j * ((BitLen exclMax + 7) / 8))
          (BitLen exclMax) false).getD []) < exclMax) →
      j < fuel →
      RandInt stream exclMax fuel pos
        = some (SetBytes ((RandomBits stream (pos + j * ((BitLen exclMax + 7) / 8))
            (BitLen exclMax) false).getD []),
          pos + (j + 1) * ((BitLen exclMax + 7) / 8))) := by
  refine ⟨RandInt_range stream, ?_, RandIntInRange_range stream, ?_, ?_,
    RandInt_first stream⟩
  · intro g fuel pos i pos2 h
    obtain ⟨h1, h2⟩ := RandInt_range stream g.Modulus fuel pos i pos2 h
    exact ⟨by omega, h2, by omega⟩
  · intro exclMax pos
    obtain ⟨b, h1, h2, _, h4, h5⟩ := RandomBits_lt stream pos (BitLen exclMax)
    exact ⟨b, h1, h2, h4, h5⟩
  · intro exclMax
    obtain ⟨h1, h2⟩ := bitLenLoop_spec exclMax.natAbs exclMax.natAbs (le_refl _)
    exact ⟨h1, fun h => h2 (Int.natAbs_ne_zero.mpr h)⟩

/-- Witness of C32: on the stream 255, 255, 2, 3, ... the first candidate for exclMax = 1000
(10 bits, 2 bytes) is 1023, which is rejected, and the second is 515. -/
theorem samplers_range_witness :
    RandInt (fun i => if i < 2 then 255 else i) 1000 10 0 = some (515, 4) ∧
    (0 < (515 : Int) ∧ (515 : Int) < 1000) :=
  ⟨by decide,
    (samplers_range (fun i => if i < 2 then 255 else i)).1 1000 10 0 515 4 (by decide)⟩

end crypto.stream
namespace crypto

/-- For a prime m and a prime q dividing m - 1 some h with 2 <= h < m has a cofactor power
different from 1: a primitive root modulo m. -/
theorem exists_cofactor_power_ne_one (m q : Int) (hm : Nat.Prime m.toNat)
    (hq : Nat.Prime q.toNat) (hdvd : q ∣ m - 1) :
    ∃ h : Nat, 2 ≤ h ∧ (h : Int) < m ∧ (h : Int) ^ ((m - 1) / q).toNat % m ≠ 1 := by
  have hm2 := hm.two_le
  have hq2 := hq.two_le
  have hmpos : 0 ≤ m := by omega
  have hqpos : 0 < q := by omega
  lift m to ℕ using hmpos
  simp only [Int.toNat_ofNat] at hm hm2
  haveI : Fact (Nat.Prime m) := ⟨hm⟩
  obtain ⟨r, hr⟩ := hdvd
  have hr0 : 0 < r := by
    by_contra hc
    have : r ≤ 0 := by omega
    have : q * r ≤ 0 := Int.mul_nonpos_of_nonneg_of_nonpos (le_of_lt hqpos) this
    omega
  have hdiv : ((m : Int) - 1) / q = r := by
    rw [hr, Int.mul_ediv_cancel_left _ (ne_of_gt hqpos)]
  have hrlt : r < (m : Int) - 1 := by
    have : 2 * r ≤ q * r := Int.mul_le_mul_of_nonneg_right (by omega) (le_of_lt hr0)
    omega
  obtain ⟨g, hg⟩ := IsCyclic.exists_generator (α := (ZMod m)ˣ)
  have hord : orderOf g = m - 1 := by
    rw [orderOf_eq_card_of_forall_mem_zpowers hg, Nat.card_eq_fintype_card, ZMod.card_units]
  have hgr : g ^ r.toNat ≠ 1 := by
    intro hc
    have h1 := orderOf_dvd_of_pow_eq_one hc
    rw [hord] at h1
    have h2 := Nat.le_of_dvd (by omega) h1
    omega
  have hval : (((g : ZMod m).val : Nat) : ZMod m) = (g : ZMod m) := ZMod.natCast_zmod_val _
  have hlt : (g : ZMod m).val < m := ZMod.val_lt _
  have hpow : (((g : ZMod m).val : Nat) : Int) ^ r.toNat % (m : Int) ≠ 1 := by
    intro hc
    have h1 : (((g : ZMod m).val : Nat) : Int) ^ r.toNat ≡ 1 [ZMOD (m : Int)] := by
      rw [Int.ModEq, hc, Int.emod_eq_of_lt (by norm_num) (by omega)]
    have h2 := (ZMod.intCast_eq_intCast_iff _ _ m).2 h1
    push_cast at h2
    rw [hval] at h2
    apply hgr
    apply Units.ext
    rw [Units.val_pow_eq_pow_val, h2]
    rfl
  refine ⟨(g : ZMod m).val, ?_, by exact_mod_cast hlt, by rw [hdiv]; exact hpow⟩
  by_contra hc
  have h01 : (g : ZMod m).val = 0 ∨ (g : ZMod m).val = 1 := by omega
  rcases h01 with h0 | h1
  · rw [h0] at hpow
    have hz : (g : ZMod m) = 0 := by
      rw [← hval, h0]
      simp
    exact g.ne_zero hz
  · rw [h1] at hpow
    apply hpow
    simp only [Nat.cast_one, one_pow]
    exact Int.emod_eq_of_lt (by norm_num) (by omega)

theorem defaultGeneratorLoop_of_ne (g : GStarModPrime) (c : Int) (fuel : Nat) (h gen : Int)
    (hne : gen ≠ 1) : defaultGeneratorLoop g c fuel h gen = some gen := by
  cases fuel <;> simp [defaultGeneratorLoop, hne]

/-- The loop of DefaultGenerator from `h` with the generator 1: when the cofactor powers of
`h, ..., h + n - 1` are 1 and the one of `h + n` is not, more than n iterations return the
cofactor power of `h + n`. -/
theorem defaultGeneratorLoop_some (g : GStarModPrime) (c : Int) (hc : 0 ≤ c) :
    ∀ (n fuel h : Nat),
      (∀ j : Nat, h ≤ j → j < h + n → (j : Int) ^ c.toNat % g.Modulus = 1) →
      ((h + n : Nat) : Int) ^ c.toNat % g.Modulus ≠ 1 → n < fuel →
      defaultGeneratorLoop g c fuel (h : Int) 1
        = some (((h + n : Nat) : Int) ^ c.toNat % g.Modulus) := by
  intro n
  induction n with
  | zero =>
    intro fuel h _ hne hf
    obtain ⟨fuel, rfl⟩ : ∃ f, fuel = f + 1 := ⟨fuel - 1, by omega⟩
    simp only [defaultGeneratorLoop, if_true, bigExp_of_nonneg _ _ hc, Option.getD_some]
    exact defaultGeneratorLoop_of_ne g c fuel _ _ hne
  | succ n ih =>
    intro fuel h hall hne hf
    obtain ⟨fuel, rfl⟩ : ∃ f, fuel = f + 1 := ⟨fuel - 1, by omega⟩
    have h1 := hall h (le_refl _) (by omega)
    simp only [defaultGeneratorLoop, if_true, bigExp_of_nonneg _ _ hc, Option.getD_some, h1]
    have := ih fuel (h + 1) (fun j hj1 hj2 => hall j (by omega) (by omega))
      (by
        have e : h + 1 + n = h + (n + 1) := by omega
        rw [e]
        exact hne) (by omega)
    have e : h + 1 + n = h + (n + 1) := by omega
    rw [e] at this
    rw [← this]
    push_cast
    rfl

/-- The loop of DefaultGenerator runs out of iterations while the cofactor powers are 1. -/
theorem defaultGeneratorLoop_none (g : GStarModPrime) (c : Int) (hc : 0 ≤ c) :
    ∀ (fuel h : Nat),
      (∀ j : Nat, h ≤ j → j < h + fuel → (j : Int) ^ c.toNat % g.Modulus = 1) →
      defaultGeneratorLoop g c fuel (h : Int) 1 = none := by
  intro fuel
  induction fuel with
  | zero => intro h _; simp [defaultGeneratorLoop]
  | succ fuel ih =>
    intro h hall
    have h1 := hall h (le_refl _) (by omega)
    simp only [defaultGeneratorLoop, if_true, bigExp_of_nonneg _ _ hc, Option.getD_some, h1]
    have := ih (h + 1) (fun j hj1 hj2 => hall j (by omega) (by omega))
    rw [← this]
    push_cast
    rfl

/-- C33: DefaultGenerator terminates and returns a generator. For every group with a prime
modulus m and a prime order q dividing m - 1 there is a least integer h with 2 <= h whose
cofactor power `h^((m-1)/q) mod m` is not 1, and h < m; the loop stops after h iterations:
with a bound of at least h iterations DefaultGenerator returns that cofactor power (and with
a smaller bound it has not returned yet). The returned value satisfies Contains, is not 1,
and none of its powers with an exponent in (0, q) is 1 modulo m. -/
theorem DefaultGenerator_spec (g : GStarModPrime) (hm : Nat.Prime g.Modulus.toNat)
    (hq : Nat.Prime g.Order.toNat) (hdvd : g.Order ∣ g.Modulus - 1) :
    ∃ h : Nat, 2 ≤ h ∧ (h : Int) < g.Modulus ∧
      (h : Int) ^ ((g.Modulus - 1) / g.Order).toNat % g.Modulus ≠ 1 ∧
      (∀ j : Nat, 2 ≤ j → j < h →
        (j : Int) ^ ((g.Modulus - 1) / g.Order).toNat % g.Modulus = 1) ∧
      (∀ fuel, h ≤ fuel → g.DefaultGenerator fuel
        = some ((h : Int) ^ ((g.Modulus - 1) / g.Order).toNat % g.Modulus)) ∧
      (∀ fuel, fuel < h → g.DefaultGenerator fuel = none) ∧
      g.Contains ((h : Int) ^ ((g.Modulus - 1) / g.Order).toNat % g.Modulus) = some true ∧
      (∀ e : Nat, 0 < e → (e : Int) < g.Order →
        ¬ ((h : Int) ^ ((g.Modulus - 1) / g.Order).toNat % g.Modulus) ^ e
          ≡ 1 [ZMOD g.Modulus]) := by
  classical
  have hm2 := hm.two_le
  have hq2 := hq.two_le
  have hqpos : 0 < g.Order := by omega
  have hq0 : g.Order ≠ 0 := by omega
  have hex := exists_cofactor_power_ne_one g.Modulus g.Order hm hq hdvd
  have hex2 : ∃ h : Nat, 2 ≤ h ∧
      (h : Int) ^ ((g.Modulus - 1) / g.Order).toNat % g.Modulus ≠ 1 := by
    obtain ⟨h, h1, _, h3⟩ := hex
    exact ⟨h, h1, h3⟩
  have hspec := Nat.find_spec hex2
  have hmin : ∀ j : Nat, 2 ≤ j → j < Nat.find hex2 →
      (j : Int) ^ ((g.Modulus - 1) / g.Order).toNat % g.Modulus = 1 := by
    intro j hj1 hj2
    have := Nat.find_min hex2 hj2
    by_contra hc
    exact this ⟨hj1, hc⟩
  have hlt : ((Nat.find hex2 : Nat) : Int) < g.Modulus := by
    obtain ⟨h, h1, h2, h3⟩ := hex
    have : Nat.find hex2 ≤ h := Nat.find_min' hex2 ⟨h1, h3⟩
    omega
  have hc0 : 0 ≤ (g.Modulus - 1) / g.Order := Int.ediv_nonneg (by omega) (le_of_lt hqpos)
  have hall : ∀ j : Nat, 1 ≤ j → j < Nat.find hex2 →
      (j : Int) ^ ((g.Modulus - 1) / g.Order).toNat % g.Modulus = 1 := by
    intro j hj1 hj2
    by_cases h1 : j = 1
    · subst h1
      simp only [Nat.cast_one, one_pow]
      exact Int.emod_eq_of_lt (by norm_num) (by omega)
    · exact hmin j (by omega) hj2
  obtain ⟨k1, k2, k3⟩ := cofactor_power g.Modulus g.Order (Nat.find hex2) hm hqpos hdvd
    (by omega) hlt
  refine ⟨Nat.find hex2, hspec.1, hlt, hspec.2, hmin, ?_, ?_, ?_, ?_⟩
  · intro fuel hf
    have := defaultGeneratorLoop_some g _ hc0 (Nat.find hex2 - 1) fuel 1
      (fun j hj1 hj2 => hall j hj1 (by omega))
      (by
        have e : 1 + (Nat.find hex2 - 1) = Nat.find hex2 := by omega
        rw [e]
        exact hspec.2) (by omega)
    have e : 1 + (Nat.find hex2 - 1) = Nat.find hex2 := by omega
    rw [e] at this
    simp only [GStarModPrime.DefaultGenerator, Cofactor_eq g hq0, Option.some_bind]
    exact this
  · intro fuel hf
    have := defaultGeneratorLoop_none g _ hc0 fuel 1 (fun j hj1 hj2 => hall j hj1 (by omega))
    simp only [GStarModPrime.DefaultGenerator, Cofactor_eq g hq0, Option.some_bind]
    exact this
  · rw [Contains_of_nonneg g _ (le_of_lt hqpos)]
    simp only [Option.some.injEq, decide_eq_true_eq]
    exact ⟨k1, k2, k3⟩
  · intro e he1 he2
    exact generator_of_prime_order g.Modulus g.Order _ hm hq (by omega) k2 hspec.2 k3 e he1 he2

theorem DefaultGenerator_spec_witness :
    ∃ h : Nat, 2 ≤ h ∧ (h : Int) < (NewGStarModPrime 23 11 0 1).Modulus ∧
      (h : Int) ^ (((NewGStarModPrime 23 11 0 1).Modulus - 1)
        / (NewGStarModPrime 23 11 0 1).Order).toNat % (NewGStarModPrime 23 11 0 1).Modulus ≠ 1 ∧
      (∀ j : Nat, 2 ≤ j → j < h →
        (j : Int) ^ (((NewGStarModPrime 23 11 0 1).Modulus - 1)
          / (NewGStarModPrime 23 11 0 1).Order).toNat
            % (NewGStarModPrime 23 11 0 1).Modulus = 1) ∧
      (∀ fuel, h ≤ fuel → (NewGStarModPrime 23 11 0 1).DefaultGenerator fuel
        = some ((h : Int) ^ (((NewGStarModPrime 23 11 0 1).Modulus - 1)
          / (NewGStarModPrime 23 11 0 1).Order).toNat
            % (NewGStarModPrime 23 11 0 1).Modulus)) ∧
      (∀ fuel, fuel < h → (NewGStarModPrime 23 11 0 1).DefaultGenerator fuel = none) ∧
      (NewGStarModPrime 23 11 0 1).Contains
        ((h : Int) ^ (((NewGStarModPrime 23 11 0 1).Modulus - 1)
          / (NewGStarModPrime 23 11 0 1).Order).toNat
            % (NewGStarModPrime 23 11 0 1).Modulus) = some true ∧
      (∀ e : Nat, 0 < e → (e : Int) < (NewGStarModPrime 23 11 0 1).Order →
        ¬ ((h : Int) ^ (((NewGStarModPrime 23 11 0 1).Modulus - 1)
          / (NewGStarModPrime 23 11 0 1).Order).toNat
            % (NewGStarModPrime 23 11 0 1).Modulus) ^ e
          ≡ 1 [ZMOD (NewGStarModPrime 23 11 0 1).Modulus]) :=
  DefaultGenerator_spec (NewGStarModPrime 23 11 0 1) (by show Nat.Prime 23; norm_num)
    (by show Nat.Prime 11; norm_num) (by decide)

/-- Examples for C33: in the group of order 11 modulo 23 (cofactor 2) the default generator
is `2^2 = 4`, reached in the second iteration; in the group of order 3 modulo 7 it is 4 too;
modulo 31 with the order 3 (cofactor 10) the power `2^10` is 1 and the generator is
`3^10 mod 31 = 25`, reached in the third iteration. -/
theorem DefaultGenerator_examples :
    (NewGStarModPrime 23 11 0 1).DefaultGenerator 2 = some 4 ∧
    (NewGStarModPrime 23 11 0 1).DefaultGenerator 1 = none ∧
    (NewGStarModPrime 7 3 0 1).DefaultGenerator 2 = some 4 ∧
    (NewGStarModPrime 31 3 0 1).DefaultGenerator 2 = none ∧
    (NewGStarModPrime 31 3 0 1).DefaultGenerator 3 = some 25 := by
  decide

end crypto
namespace crypto

/-- IncludeCredential on a polynomial whose coefficient list is longer than its Degree + 1:
the product slice has `Degree + 2` entries and the loops of Mul, which run over the stored
coefficients, index past its end. -/
theorem IncludeCredential_none_of_long (p : Polynomial) (u : Int) (hm : p.ZModPr.Modulus ≠ 0)
    (hp : p.Coeffs ≠ []) (dp : Nat) (hdp : p.Degree = some dp)
    (hlong : dp + 1 < p.Coeffs.length) : p.IncludeCredential u = none := by
  have hq : Polynomial.Degree ⟨[(p.ZModPr.Modulus - u) % p.ZModPr.Modulus, 1], p.ZModPr⟩
      = some 1 := by
    rw [Degree_of_last _ (by simp) (by simp [coeffAt])]
    rfl
  have houter : mulOuter p.ZModPr [(p.ZModPr.Modulus - u) % p.ZModPr.Modulus, 1] p.Coeffs 0
      (List.replicate (dp + 1 + 1) none) = none := by
    cases hmo : mulOuter p.ZModPr [(p.ZModPr.Modulus - u) % p.ZModPr.Modulus, 1] p.Coeffs 0
        (List.replicate (dp + 1 + 1) none) with
    | none => rfl
    | some s2 =>
      obtain ⟨_, k2⟩ := mulOuter_some p.ZModPr _ (by simp) p.Coeffs 0 _ s2 hmo
      have := k2 hp
      rw [List.length_replicate] at this
      simp only [List.length_cons, List.length_nil] at this
      omega
  simp only [Polynomial.IncludeCredential, ZModPrime.AdditiveInvert, bigMod, hm, if_false,
    NewPolynomial, Option.bind_eq_bind, Option.some_bind, Polynomial.Mul, ne_eq,
    not_true_eq_false, hdp, hq, houter, Option.none_bind]

/-- Including a credential in the zero polynomial [0] returns the list 0, 0, which is not
trimmed. -/
theorem IncludeCredential_zero (ring : ZModPrime) (hm : ring.Modulus ≠ 0) (u : Int) :
    (⟨[0], ring⟩ : Polynomial).IncludeCredential u = some ⟨[0, 0], ring⟩ := by
  have hq : Polynomial.Degree ⟨[(ring.Modulus - u) % ring.Modulus, 1], ring⟩ = some 1 := by
    rw [Degree_of_last _ (by simp) (by simp [coeffAt])]
    rfl
  have hz : Polynomial.Degree ⟨[0], ring⟩ = some 0 := by
    simp [Polynomial.Degree, trim, trimLoop]
  simp [Polynomial.IncludeCredential, ZModPrime.AdditiveInvert, bigMod, hm,
    NewPolynomial, Polynomial.Mul, hz, hq, mulOuter, mulInner, mulStep, ZModPrime.Mul,
    ZModPrime.Add, derefAll]

/-- A trimmed list whose last coefficient is 0 is the list of the zero polynomial. -/
theorem trimmed_last_zero (l : List Int) (htrim : trim l = some l)
    (hlast : coeffAt l (l.length - 1) = 0) : l = [0] := by
  have hne := trim_some_ne_nil _ _ htrim
  obtain ⟨j, h1, h2, h3, _, h5⟩ := trim_eq_take l hne
  rw [htrim] at h1
  have hlen := congrArg List.length (Option.some.inj h1)
  rw [List.length_take] at hlen
  have hj : j = l.length := by omega
  subst hj
  rcases h5 with h5 | ⟨h5, h6⟩
  · exact absurd hlast h5
  · have h0 := h6 0
    cases l with
    | nil => exact absurd rfl hne
    | cons a r =>
      cases r with
      | nil =>
        simp only [coeffAt] at h0
        rw [h0]
      | cons b r2 =>
        simp only [List.length_cons] at h5
        omega

/-- C37: the two orders of including two credentials have the same outcome. For every
polynomial Phi over Z_m with a non-empty, trimmed list of coefficients in [0, m) and all
credentials u and v, including u and then v gives what including v and then u gives. When Phi
is not the zero polynomial (its last coefficient is not 0) both orders return the same
polynomial, with two more coefficients than Phi. The only other such Phi is the zero
polynomial [0]: there the first inclusion returns the list 0, 0, which is not trimmed, and the
second inclusion, in either order, runs past the end of the product slice of Mul and returns
nothing, so there are no coefficient lists to compare. -/
theorem IncludeCredential_order (p : Polynomial) (u v : Int) (hne : p.Coeffs ≠ [])
    (hred : ∀ c ∈ p.Coeffs, 0 ≤ c ∧ c < p.ZModPr.Modulus)
    (htrim : trim p.Coeffs = some p.Coeffs) :
    (p.IncludeCredential u).bind (fun p1 => p1.IncludeCredential v)
      = (p.IncludeCredential v).bind (fun p1 => p1.IncludeCredential u) ∧
    (coeffAt p.Coeffs (p.Coeffs.length - 1) ≠ 0 →
      ∃ r, (p.IncludeCredential u).bind (fun p1 => p1.IncludeCredential v) = some r ∧
        (p.IncludeCredential v).bind (fun p1 => p1.IncludeCredential u) = some r ∧
        r.ZModPr = p.ZModPr ∧ r.Coeffs.length = p.Coeffs.length + 2) ∧
    (coeffAt p.Coeffs (p.Coeffs.length - 1) = 0 →
      p.Coeffs = [0] ∧
      p.IncludeCredential u = some ⟨[0, 0], p.ZModPr⟩ ∧
      p.IncludeCredential v = some ⟨[0, 0], p.ZModPr⟩ ∧
      (p.IncludeCredential u).bind (fun p1 => p1.IncludeCredential v) = none ∧
      (p.IncludeCredential v).bind (fun p1 => p1.IncludeCredential u) = none) := by
  have hm : p.ZModPr.Modulus ≠ 0 := by
    have hmem := coeffAt_mem p.Coeffs (p.Coeffs.length - 1) (by
      have := List.length_pos.mpr hne
      omega)
    obtain ⟨hlo, hhi⟩ := hred _ hmem
    omega
  have hzero : coeffAt p.Coeffs (p.Coeffs.length - 1) = 0 →
      p.Coeffs = [0] ∧
      p.IncludeCredential u = some ⟨[0, 0], p.ZModPr⟩ ∧
      p.IncludeCredential v = some ⟨[0, 0], p.ZModPr⟩ ∧
      (p.IncludeCredential u).bind (fun p1 => p1.IncludeCredential v) = none ∧
      (p.IncludeCredential v).bind (fun p1 => p1.IncludeCredential u) = none := by
    intro hlast
    have hc := trimmed_last_zero p.Coeffs htrim hlast
    obtain ⟨c, ring⟩ := p
    simp only at hc hm
    subst hc
    have hd : Polynomial.Degree ⟨[0, 0], ring⟩ = some 0 := by
      simp [Polynomial.Degree, trim, trimLoop]
    have hlong : ∀ w, (⟨[0, 0], ring⟩ : Polynomial).IncludeCredential w = none := fun w =>
      IncludeCredential_none_of_long ⟨[0, 0], ring⟩ w hm (by simp) 0 hd (by simp)
    refine ⟨rfl, IncludeCredential_zero ring hm u, IncludeCredential_zero ring hm v, ?_, ?_⟩
    · rw [IncludeCredential_zero ring hm u, Option.some_bind]
      exact hlong v
    · rw [IncludeCredential_zero ring hm v, Option.some_bind]
      exact hlong u
  refine ⟨?_, ?_, hzero⟩
  · by_cases hlast : coeffAt p.Coeffs (p.Coeffs.length - 1) = 0
    · obtain ⟨_, _, _, h1, h2⟩ := hzero hlast
      rw [h1, h2]
    · obtain ⟨r, h1, h2, _⟩ := IncludeCredential_comm p u v hne hred hlast
      rw [h1, h2]
  · intro hlast
    exact IncludeCredential_comm p u v hne hred hlast

/-- Witness of C37: the polynomial 6 + 6 X + X^2 over Z_11 with the credentials 7 and 15. -/
theorem IncludeCredential_order_witness :
    ((NewPolynomial [6, 6, 1] (NewZModPrime 11 1)).IncludeCredential 7).bind
        (fun p1 => p1.IncludeCredential 15)
      = ((NewPolynomial [6, 6, 1] (NewZModPrime 11 1)).IncludeCredential 15).bind
        (fun p1 => p1.IncludeCredential 7) ∧
    ((NewPolynomial [0] (NewZModPrime 5 1)).IncludeCredential 1).bind
        (fun p1 => p1.IncludeCredential 2) = none :=
  ⟨(IncludeCredential_order (NewPolynomial [6, 6, 1] (NewZModPrime 11 1)) 7 15 (by decide)
      (by decide) (by decide)).1,
    ((IncludeCredential_order (NewPolynomial [0] (NewZModPrime 5 1)) 1 2 (by decide)
      (by decide) (by decide)).2.2 (by decide)).2.2.2.1⟩

end crypto

namespace keeper
open crypto

/-- C14: a root stays a root wherever IncludeCredential returns, but IncludeCredential does
not return on every polynomial. For a polynomial Phi over Z_m (m not 0) with a non-empty
coefficient list and every further credential u2: when the list has exactly Degree + 1
coefficients (it is trimmed), IncludeCredential returns a polynomial that evaluates to 0
modulo m wherever Phi does; when the list is longer (at least two coefficients, the last one
0), the loops of Mul run past the end of the product slice, which is sized by Degree(), and
IncludeCredential returns nothing, whatever the roots of Phi. The credential polynomial of the
bulletin board over the order m > 1 of G_p, built from the constant 1 by including
u_1, ..., u_n in turn, only meets the first case: every inclusion returns and the polynomial
vanishes modulo m at every u_i. -/
theorem IncludeCredential_roots (p : Polynomial) (u2 : Int) (hm : p.ZModPr.Modulus ≠ 0)
    (hp : p.Coeffs ≠ []) :
    (∃ dp, p.Degree = some dp ∧ dp + 1 ≤ p.Coeffs.length ∧
      (p.Coeffs.length = dp + 1 → ∃ r, p.IncludeCredential u2 = some r ∧
        ∀ u, evalAt p.Coeffs u % p.ZModPr.Modulus = 0 →
          evalAt r.Coeffs u % p.ZModPr.Modulus = 0) ∧
      (dp + 1 < p.Coeffs.length → p.IncludeCredential u2 = none) ∧
      (dp + 1 < p.Coeffs.length ↔
        (2 ≤ p.Coeffs.length ∧ coeffAt p.Coeffs (p.Coeffs.length - 1) = 0))) ∧
    (∀ (gP : GStarModPrime) (us : List Int), 1 < gP.Order →
      ∃ store, us.foldlM (includeCredentialInPolynomial gP) none = some store ∧
        ∀ x ∈ us, evalAt (GetCredentialPolynomial gP store).Coeffs x % gP.Order = 0) := by
  constructor
  · obtain ⟨dp, a1, a2, a3, a4⟩ := Degree_cases p hp
    refine ⟨dp, a1, a2, ?_, ?_, a4⟩
    · intro hlen
      obtain ⟨R, g1, _, g3, _⟩ := IncludeCredential_full p u2 hm (a3.mp hlen)
      refine ⟨⟨R, p.ZModPr⟩, g1, ?_⟩
      intro u hu
      have h5 : evalAt p.Coeffs u ≡ 0 [ZMOD p.ZModPr.Modulus] := hu
      have h6 := (g3 u).trans (h5.mul_right (u - u2))
      simpa [Int.ModEq] using h6
    · intro hlong
      exact IncludeCredential_none_of_long p u2 hm hp dp a1 hlong
  · intro gP us hq
    have := include_all gP hq us none [] rfl rfl rfl (by simp)
    simpa using this

/-- Witness of C14: the list 0, 0 over Z_5, which `(1 + X).Add(4 + 4 X)` returns, and the
credential 2. -/
theorem IncludeCredential_roots_witness :
    (∃ dp, (NewPolynomial [0, 0] (NewZModPrime 5 0)).Degree = some dp ∧
      dp + 1 ≤ (NewPolynomial [0, 0] (NewZModPrime 5 0)).Coeffs.length ∧
      ((NewPolynomial [0, 0] (NewZModPrime 5 0)).Coeffs.length = dp + 1 →
        ∃ r, (NewPolynomial [0, 0] (NewZModPrime 5 0)).IncludeCredential 2 = some r ∧
          ∀ u, evalAt (NewPolynomial [0, 0] (NewZModPrime 5 0)).Coeffs u
              % (NewPolynomial [0, 0] (NewZModPrime 5 0)).ZModPr.Modulus = 0 →
            evalAt r.Coeffs u
              % (NewPolynomial [0, 0] (NewZModPrime 5 0)).ZModPr.Modulus = 0) ∧
      (dp + 1 < (NewPolynomial [0, 0] (NewZModPrime 5 0)).Coeffs.length →
        (NewPolynomial [0, 0] (NewZModPrime 5 0)).IncludeCredential 2 = none) ∧
      (dp + 1 < (NewPolynomial [0, 0] (NewZModPrime 5 0)).Coeffs.length ↔
        (2 ≤ (NewPolynomial [0, 0] (NewZModPrime 5 0)).Coeffs.length ∧
          coeffAt (NewPolynomial [0, 0] (NewZModPrime 5 0)).Coeffs
            ((NewPolynomial [0, 0] (NewZModPrime 5 0)).Coeffs.length - 1) = 0))) ∧
    (∀ (gP : GStarModPrime) (us : List Int), 1 < gP.Order →
      ∃ store, us.foldlM (includeCredentialInPolynomial gP) none = some store ∧
        ∀ x ∈ us, evalAt (GetCredentialPolynomial gP store).Coeffs x % gP.Order = 0) :=
  IncludeCredential_roots (NewPolynomial [0, 0] (NewZModPrime 5 0)) 2 (by decide) (by decide)

/-- The failing input of C14: over the integers modulo 5 the sum of 1 + X and 4 + 4 X is the
list 0, 0, which is not trimmed; it is 0 at u = 3, and including the credential 2 in it runs
past the end of the product slice of Mul. -/
theorem IncludeCredential_untrimmed_example :
    (NewPolynomial [1, 1] (NewZModPrime 5 0)).Add (NewPolynomial [4, 4] (NewZModPrime 5 0))
      = some (NewPolynomial [0, 0] (NewZModPrime 5 0)) ∧
    evalAt (NewPolynomial [0, 0] (NewZModPrime 5 0)).Coeffs 3 % 5 = 0 ∧
    (NewPolynomial [0, 0] (NewZModPrime 5 0)).IncludeCredential 2 = none := by
  decide

end keeper
